import Mathlib

/-!
# Affix-query tries of `pattern-match-benchmark`

A shallow embedding of `trie.h`, `trie-matcher.h` and `trie-mix-matcher.h`.

* `TrieStorageBase S` carries the operations the CRTP base class takes from its
  `Self` parameter (`null`, `add_node`, `node`, `encode_value`, `decode_value`);
  the member functions of the base (`follow`, `insert`, `fan_out`,
  `deep_fan_out`, `do_fan_out`) are written once over it.
* `TriePoolStorage` is the arena storage; its values are `uint32_t`, modelled as
  `Nat` with explicit reduction modulo `2 ^ 32`.
* A callback is modelled by the state it leaves behind: the sequence of
  arguments it was called with.
* The explicit-stack loop of `do_fan_out` and the recursion of `Crawler` run on
  fuel and return `none` when it runs out, so every result `some _` below is a
  run that reached the function's exit.
-/

namespace PatternMatch

/-! ## trie.h -/

/-- The operations `TrieStorageBase<Value, Self>` obtains from `Self`.
`node s v` reads the node a value refers to, `store s v ch x` is the assignment
`node(v)[ch] = x`, `empty` is the default-constructed storage and `bits` the
width of `Value`. -/
structure TrieStorageBase (S : Type) where
  bits : Nat
  empty : S
  null : Nat
  add_node : S → S × Nat
  node : S → Nat → List Nat
  store : S → Nat → Nat → Nat → S
  encode_value : Nat → Nat
  decode_value : Nat → Nat

/-- `node_type(value_type v)`: 26 slots filled with `v`. -/
def node_type (v : Nat) : List Nat := List.replicate 26 v

/-- The index `ch - 'a'` of a character. -/
def chIdx (ch : Char) : Nat := ch.toNat - 'a'.toNat

namespace TrieStorageBase

variable {S σ : Type} (T : TrieStorageBase S)

/-- `value_type::from_num`; the argument is first converted to `Value`. -/
def from_num (value : Nat) : Nat := T.encode_value (value % 2 ^ T.bits)

/-- `value_type::as_num`. -/
def as_num (val : Nat) : Nat := T.decode_value val

/-- The slot read `node(node_pos)[ch]`. An index outside the node is outside
the language semantics; the model reads null there. -/
def slot (s : S) (node_pos ch : Nat) : Nat := (T.node s node_pos).getD ch T.null

/-- `follow(value_type, char)`. -/
def follow1 (s : S) (node_pos : Nat) (ch : Char) : Nat := T.slot s node_pos (chIdx ch)

/-- `follow(value_type, std::string_view)`. -/
def follow (s : S) (node_pos : Nat) (str : List Char) : Nat :=
  str.foldl (fun pos ch => T.slot s pos (chIdx ch)) node_pos

/-- `insert(node_pos, firstChar, lastChar, data)`, by recursion on the range.
The source reads `*firstChar` before it tests for the end, so an empty range is
outside its contract; the model leaves the storage unchanged there. -/
def insert (s : S) (node_pos : Nat) : List Char → Nat → S
  | [], _ => s
  | [c], data => T.store s node_pos (chIdx c) data
  | c :: c2 :: rest, data =>
    let next := T.slot s node_pos (chIdx c)
    if next = T.null then
      let r := T.add_node s
      insert (T.store r.1 node_pos (chIdx c) r.2) r.2 (c2 :: rest) data
    else
      insert s next (c2 :: rest) data

/-- `fan_out(node_pos, fn, args...)`. -/
def fan_out (s : S) (node_pos : Nat) (fn : σ → Nat → Option σ) (st : σ) : Option σ :=
  (T.node s node_pos).foldlM (fun st data => if data ≠ T.null then fn st data else some st) st

end TrieStorageBase

/-- The local state of `do_fan_out`: the frame stack (`first` is the node a frame
scans, held as the value that refers to it, `second` the next slot to try), the
frame pointer as an index, the cached `n` and `ch_pos`, and the callback state. -/
structure FanOutState (σ : Type) where
  stack : List (Nat × Nat)
  sp : Nat
  n : Nat
  ch_pos : Nat
  st : σ

/-- The backtracking loop `do { if (sp == stack) goto out; --sp; ch_pos = sp->second; }
while (ch_pos == 26)`: `none` is the jump to `out`, otherwise the new `sp` and
`ch_pos`. -/
def unwind (stack : List (Nat × Nat)) : Nat → Option (Nat × Nat)
  | 0 => none
  | sp + 1 =>
    if (stack.getD sp (0, 0)).2 = 26 then unwind stack sp
    else some (sp, (stack.getD sp (0, 0)).2)

namespace TrieStorageBase

variable {S σ : Type} (T : TrieStorageBase S)

/-- One pass through the body of the `for (;;)` loop of `do_fan_out`:
`Sum.inl` is the state at the next pass, `Sum.inr` the callback state at `out`. -/
def do_fan_out_iter (s : S) (last : Nat) (fn : σ → Nat → Option σ)
    (x : FanOutState σ) : Option (FanOutState σ ⊕ σ) :=
  let node_pos := T.slot s x.n x.ch_pos
  let ch_pos := x.ch_pos + 1
  if node_pos ≠ T.null ∧ x.sp ≠ last then
    let stack := x.stack.set x.sp ((x.stack.getD x.sp (0, 0)).1, ch_pos)
    let stack := stack.set (x.sp + 1) (node_pos, 0)
    some (Sum.inl ⟨stack, x.sp + 1, node_pos, 0, x.st⟩)
  else
    match (if node_pos ≠ T.null then fn x.st node_pos else some x.st) with
    | none => none
    | some st =>
      if ch_pos = 26 then
        match unwind x.stack x.sp with
        | none => some (Sum.inr st)
        | some (sp, ch) => some (Sum.inl ⟨x.stack, sp, (x.stack.getD sp (0, 0)).1, ch, st⟩)
      else
        some (Sum.inl ⟨x.stack, x.sp, x.n, ch_pos, st⟩)

/-- The `for (;;)` loop of `do_fan_out`, one pass per unit of fuel. -/
def do_fan_out_loop (s : S) (last : Nat) (fn : σ → Nat → Option σ) :
    Nat → FanOutState σ → Option σ
  | 0, _ => none
  | fuel + 1, x =>
    match T.do_fan_out_iter s last fn x with
    | none => none
    | some (Sum.inl y) => do_fan_out_loop s last fn fuel y
    | some (Sum.inr st) => some st

/-- `do_fan_out(node_pos, depth, fn, args...)` for `depth ≥ 1`. The frames are
written before they are read; the model starts them at zero. The loop makes
fewer than `27 ^ depth` passes. -/
def do_fan_out (s : S) (node_pos depth : Nat) (fn : σ → Nat → Option σ) (st : σ) :
    Option σ :=
  T.do_fan_out_loop s (depth - 1) fn (27 ^ depth)
    ⟨(List.replicate depth (0, 0)).set 0 (node_pos, 0), 0, node_pos, 0, st⟩

/-- `deep_fan_out(node_pos, depth, fn, args...)`. -/
def deep_fan_out (s : S) (node_pos depth : Nat) (fn : σ → Nat → Option σ) (st : σ) :
    Option σ :=
  if depth ≠ 0 then T.do_fan_out s node_pos depth fn st
  else if node_pos ≠ T.null then fn st node_pos
  else some st

end TrieStorageBase

/-- `TriePoolStorage`: the arena, a vector of nodes indexed by `uint32_t`. -/
structure TriePoolStorage where
  nodes : List (List Nat)

namespace TriePoolStorage

/-- `TriePoolStorage() : nodes(1)`: one value-initialised node, the null node. -/
def empty : TriePoolStorage := ⟨[node_type 0]⟩

/-- `TriePoolStorage::null()`. -/
def null : Nat := 0

/-- `TriePoolStorage::add_node()`: `nodes.size() - 1` converted to `uint32_t`. -/
def add_node (s : TriePoolStorage) : TriePoolStorage × Nat :=
  (⟨s.nodes ++ [node_type 0]⟩, ((s.nodes ++ [node_type 0]).length - 1) % 2 ^ 32)

/-- `TriePoolStorage::node(data)`, the read `nodes[data.as_raw()]`. An index past
the end of the vector is outside the language semantics; the model reads an
all-null node there. -/
def node (s : TriePoolStorage) (data : Nat) : List Nat := s.nodes.getD data (node_type 0)

/-- The assignment `node(data)[ch] = x`. -/
def store (s : TriePoolStorage) (data ch x : Nat) : TriePoolStorage :=
  ⟨s.nodes.set data ((s.node data).set ch x)⟩

/-- `TriePoolStorage::encode_value` on `uint32_t`. -/
def encode_value (v : Nat) : Nat := (v + 1) % 2 ^ 32

/-- `TriePoolStorage::decode_value` on `uint32_t`. -/
def decode_value (v : Nat) : Nat := (v + 2 ^ 32 - 1) % 2 ^ 32

/-- `TriePoolStorage` as the `Self` of `TrieStorageBase<uint32_t, TriePoolStorage>`. -/
def ops : TrieStorageBase TriePoolStorage where
  bits := 32
  empty := empty
  null := null
  add_node := add_node
  node := node
  store := store
  encode_value := encode_value
  decode_value := decode_value

end TriePoolStorage

/-! ## words.h -/

/-- `Words`: the map from strings to identities, as the sequence of pairs its
iteration yields, and the word length. -/
structure Words where
  words : List (List Char × Nat)
  length : Nat

/-- `Words::size()`. -/
def Words.size (w : Words) : Nat := w.words.length

/-- `Words::word_length()`. -/
def Words.word_length (w : Words) : Nat := w.length

/-! ## Callbacks and the scratch buffer -/

/-- What a query leaves behind: the arguments passed to the callback, in call
order, the returned `size_t`, and the contents of the static scratch buffer. -/
structure QueryResult where
  calls : List Nat
  ret : Nat
  buffer : List Char
deriving DecidableEq, Repr

/-- The state a query callback and its counter go through: the arguments `cb`
has received and the counter (`count` of the lambda in `TrieMatcher::query`,
`n` of `Crawler`). The counter is a `size_t` that counts callback invocations;
it stays below the number of words and is modelled without wrap-around. -/
structure Crawl where
  calls : List Nat
  n : Nat
deriving DecidableEq, Repr

/-- The step `cb(pos.as_num()); ++count;`. -/
def Crawl.report (st : Crawl) (num : Nat) : Crawl := ⟨st.calls ++ [num], st.n + 1⟩

/-- `buffer.resize(n)` when `buffer.size() < n`: new elements are zero. -/
def resize_to (buffer : List Char) (n : Nat) : List Char :=
  if buffer.length < n then buffer ++ List.replicate (n - buffer.length) (Char.ofNat 0)
  else buffer

/-- Copying `src` to `buf + pos` (`std::copy`, `memcpy`, `memset`). A write past
the end of the buffer is outside the language semantics; the model drops it. -/
def copy_to (buf : List Char) (pos : Nat) (src : List Char) : List Char :=
  (buf.take pos ++ src ++ buf.drop (pos + src.length)).take buf.length

/-- The view `std::string_view(buf + pos, len)`. -/
def view (buf : List Char) (pos len : Nat) : List Char := (buf.drop pos).take len

/-! ## trie-matcher.h -/

/-- The data members of `TrieMatcher<Trie>`. -/
structure TrieMatcher (S : Type) where
  nodes : S
  fwd_trie_root : Nat
  rev_trie_root : Nat
  count : Nat
  length : Nat

namespace TrieMatcher

variable {S : Type} (T : TrieStorageBase S)

/-- `TrieMatcher<Trie>::TrieMatcher(const Words &)`. -/
def build (words : Words) : TrieMatcher S :=
  let r1 := if words.word_length ≠ 0 then T.add_node T.empty else (T.empty, T.null)
  let r2 := if words.word_length ≠ 0 then T.add_node r1.1 else (r1.1, T.null)
  let nodes := words.words.foldl (fun s pair =>
    let s := T.insert s r1.2 pair.1 (T.from_num pair.2)
    T.insert s r2.2 pair.1.reverse (T.from_num pair.2)) r2.1
  ⟨nodes, r1.2, r2.2, words.size, words.word_length⟩

/-- The lambda passed to `deep_fan_out` in `TrieMatcher::query`. -/
def visit (s : S) (suf : List Char) (st : Crawl) (pos : Nat) : Option Crawl :=
  let pos := T.follow s pos suf
  if pos ≠ T.null then some (st.report (T.as_num pos)) else some st

/-- `TrieMatcher<Trie>::query(prefix, suffix, cb)`; `buffer` is the static
scratch vector on entry. The depth `length - prefix.size() - suffix.size()` is
computed in `size_t`; it is modelled by truncated subtraction, which agrees
with it whenever the two sizes add up to at most `length`. -/
def query (m : TrieMatcher S) (buffer : List Char) (pre suf : List Char) :
    Option QueryResult :=
  let q : Nat × List Char × List Char × List Char :=
    if pre.length ≥ suf.length then
      (m.fwd_trie_root, pre, suf, buffer)
    else
      let buffer := resize_to buffer m.length
      let buffer := copy_to buffer 0 pre.reverse
      let buffer := copy_to buffer pre.length suf.reverse
      (m.rev_trie_root, view buffer pre.length suf.length, view buffer 0 pre.length, buffer)
  let node := if q.2.1 ≠ [] then T.follow m.nodes q.1 q.2.1 else q.1
  if q.2.1 ≠ [] ∧ node = T.null then
    some ⟨[], 0, q.2.2.2⟩
  else
    match T.deep_fan_out m.nodes node (m.length - q.2.1.length - q.2.2.1.length)
        (visit T m.nodes q.2.2.1) ⟨[], 0⟩ with
    | none => none
    | some st => some ⟨st.calls, st.n, q.2.2.2⟩

end TrieMatcher

/-! ## trie-mix-matcher.h -/

/-- The loop of `mix` from source offset `i` with `end - src` characters left:
one pass writes `*src++` and, if characters remain, `*--end`. -/
def mixFrom (src : List Char) (i : Nat) : Nat → List Char
  | 0 => []
  | 1 => [src.getD i (Char.ofNat 0)]
  | n + 2 => src.getD i (Char.ofNat 0) :: src.getD (i + n + 1) (Char.ofNat 0) :: mixFrom src (i + 1) n

/-- `mix(dst, src, len)`: the characters written to `dst`, in order; the returned
pointer is `dst` plus their number. -/
def mix (src : List Char) (len : Nat) : List Char := mixFrom src 0 len

/-- The data members of `TrieMixMatcher<Trie>`. -/
structure TrieMixMatcher (S : Type) where
  nodes : S
  trie_root : Nat
  count : Nat
  length : Nat

/-- `Crawler::operator()(key, value)` on the probe `[key, key_end)`. One unit of
fuel pays for one pass of the outer `while` loop or one nested call. -/
def Crawler.call {S : Type} (T : TrieStorageBase S) (nodes : S) :
    Nat → List Char → Nat → Crawl → Option Crawl
  | 0, _, _, _ => none
  | fuel + 1, key, value, st =>
    match key with
    | [] => some (st.report (T.as_num value))
    | c :: rest =>
      let count := (key.takeWhile (fun ch => ch = Char.ofNat 0)).length
      match count with
      | 0 =>
        let value := T.follow1 nodes value c
        if value = T.null then some st else Crawler.call T nodes fuel rest value st
      | 1 =>
        T.fan_out nodes value (fun st v => Crawler.call T nodes fuel (key.drop count) v st) st
      | _ =>
        T.deep_fan_out nodes value count
          (fun st v => Crawler.call T nodes fuel (key.drop count) v st) st

namespace TrieMixMatcher

variable {S : Type} (T : TrieStorageBase S)

/-- `TrieMixMatcher<Trie>::TrieMixMatcher(const Words &)`. -/
def build (words : Words) : TrieMixMatcher S :=
  let r := if words.word_length ≠ 0 then T.add_node T.empty else (T.empty, T.null)
  let nodes := words.words.foldl (fun s pair =>
    T.insert s r.2 (mix pair.1 words.word_length) (T.from_num pair.2)) r.1
  ⟨nodes, r.2, words.size, words.word_length⟩

/-- `TrieMixMatcher<Trie>::query(prefix, suffix, cb)`; `buffer` is the static
scratch vector on entry. The `memset` length is modelled by truncated
subtraction, as the depth in `TrieMatcher.query`. -/
def query (m : TrieMixMatcher S) (buffer : List Char) (pre suf : List Char) :
    Option QueryResult :=
  let buffer := resize_to buffer (m.length * 2)
  let buffer := copy_to buffer 0 pre
  let buffer := copy_to buffer pre.length
    (List.replicate (m.length - pre.length - suf.length) (Char.ofNat 0))
  let buffer := copy_to buffer (m.length - suf.length) suf
  let mixed := mix buffer m.length
  let buffer := copy_to buffer m.length mixed
  let key := view buffer m.length mixed.length
  match Crawler.call T m.nodes (key.length + 1) key m.trie_root ⟨[], 0⟩ with
  | none => none
  | some st => some ⟨st.calls, st.n, buffer⟩

end TrieMixMatcher


/-! ## Specification-side definitions -/

/-- A character in `'a'..'z'`. -/
def lower (c : Char) : Prop := 'a'.toNat ≤ c.toNat ∧ c.toNat ≤ 'z'.toNat

instance (c : Char) : Decidable (lower c) := by unfold lower; infer_instance

/-- A valid corpus: every string has the corpus length and is over `'a'..'z'`,
the strings are pairwise distinct, the identities are pairwise distinct and lie
in `[0, N)`. -/
def Words.Valid (W : Words) : Prop :=
  (∀ p ∈ W.words, p.1.length = W.length ∧ ∀ c ∈ p.1, lower c) ∧
  (W.words.map Prod.fst).Nodup ∧ (W.words.map Prod.snd).Nodup ∧
  ∀ p ∈ W.words, p.2 < W.words.length

instance (W : Words) : Decidable W.Valid := by unfold Words.Valid; infer_instance

/-- The affix condition of a query: `w` starts with `pre` and ends with `suf`. -/
def affix (pre suf w : List Char) : Prop := pre <+: w ∧ suf <:+ w

instance (pre suf w : List Char) : Decidable (affix pre suf w) := by
  unfold affix; infer_instance

/-- The naive scan: the identities of the corpus words that start with `pre`
and end with `suf`, in corpus order. -/
def naive (W : Words) (pre suf : List Char) : List Nat :=
  (W.words.filter (fun p => decide (affix pre suf p.1))).map Prod.snd

/-- The number of passes of the `do_fan_out` loop below one slot with `d`
further levels is at most `geo d`. -/
def geo : Nat → Nat
  | 0 => 1
  | d + 1 => 1 + 26 * geo d

/-- After the loop has finished frame `sp`: backtrack, then leave or go on. -/
def TrieStorageBase.after {S σ : Type} (T : TrieStorageBase S) (s : S) (last : Nat)
    (fn : σ → Nat → Option σ) (fuel : Nat) (stack : List (Nat × Nat)) (sp : Nat) (st : σ) :
    Option σ :=
  match unwind stack sp with
  | none => some st
  | some (sp2, ch) =>
    T.do_fan_out_loop s last fn fuel ⟨stack, sp2, (stack.getD sp2 (0, 0)).1, ch, st⟩

namespace TrieStorageBase

variable {S : Type} (T : TrieStorageBase S)

/-- Descent along a list of slot indices. -/
def walk (s : S) (v : Nat) (k : List Nat) : Nat := k.foldl (T.slot s) v

/-- The values `d` levels below `v`, in slot order, along paths whose slot
values are all non-null. -/
def reach (s : S) : Nat → Nat → List Nat
  | 0, v => [v]
  | d + 1, v => (List.range 26).flatMap
      (fun c => if T.slot s v c ≠ T.null then reach s d (T.slot s v c) else [])

/-- The part of `reach s (d + 1) n` that goes through the slots `c, c+1, ...` of `n`. -/
def scan (s : S) (d n c : Nat) : List Nat :=
  (List.range' c (26 - c)).flatMap
    (fun i => if T.slot s n i ≠ T.null then T.reach s d (T.slot s n i) else [])

/-- The values `deep_fan_out` visits: `node_pos` itself at depth 0 when it is
non-null, otherwise `reach`. -/
def fanList (s : S) (d v : Nat) : List Nat :=
  if d = 0 then (if v ≠ T.null then [v] else []) else T.reach s d v

/-- The values a crawl of the probe `key` from `v` ends at. -/
def matchList (s : S) : List Char → Nat → List Nat
  | [], v => [v]
  | c :: rest, v =>
    if c = Char.ofNat 0 then
      (List.range 26).flatMap
        (fun i => if T.slot s v i ≠ T.null then matchList s rest (T.slot s v i) else [])
    else if T.slot s v (chIdx c) = T.null then []
    else matchList s rest (T.slot s v (chIdx c))

/-- The state invariants of a storage that are independent of the tries in
it: the null node has only null slots and every node has 26 slots. -/
def Sound (s : S) : Prop :=
  (∀ c, T.slot s T.null c = T.null) ∧ ∀ v, (T.node s v).length = 26

end TrieStorageBase

/-- The statement of the loop lemma for `do_fan_out`: from a state that is about
to try slot `c` of the node `n` of frame `sp`, with `d` levels below and `m`
slots left, the loop visits `scan s d n c` in order and then backtracks from
frame `sp`; it uses at most `m * geo d` passes and leaves the frames below `sp`
as they were. -/
def LoopSpec {S σ : Type} (T : TrieStorageBase S) (s : S) (last : Nat)
    (fn : σ → Nat → Option σ) (d m c : Nat) : Prop :=
  ∀ (stack : List (Nat × Nat)) (sp n : Nat) (st st2 : σ),
    sp + d = last → c + m = 26 → 0 < m → last < stack.length →
    (stack.getD sp (0, 0)).1 = n →
    (T.scan s d n c).foldlM fn st = some st2 →
    ∃ k, k ≤ m * geo d ∧ ∃ stack2 : List (Nat × Nat), stack2.length = stack.length ∧
      (∀ i, i < sp → stack2.getD i (0, 0) = stack.getD i (0, 0)) ∧
      ∀ fuel, T.do_fan_out_loop s last fn (fuel + k) ⟨stack, sp, n, c, st⟩
        = T.after s last fn fuel stack2 sp st2

/-- The slot-index lists a probe admits: a letter fixes the index, the
placeholder admits all 26, in lexicographic order. -/
def patKeys : List Char → List (List Nat)
  | [] => [[]]
  | c :: rest =>
    if c = Char.ofNat 0 then
      (List.range 26).flatMap (fun i => (patKeys rest).map (fun k => i :: k))
    else (patKeys rest).map (fun k => chIdx c :: k)

/-- The probe of a query: `pre`, placeholders, `suf`, `len` characters in all. -/
def probe (len : Nat) (pre suf : List Char) : List Char :=
  pre ++ List.replicate (len - pre.length - suf.length) (Char.ofNat 0) ++ suf

/-- A word agrees with a probe wherever the probe has a letter. -/
def Matches (pat w : List Char) : Prop :=
  List.Forall₂ (fun p c => p = Char.ofNat 0 ∨ p = c) pat w

/-- The predicates the generic proofs use to describe a storage `Self`: which
states are well formed (`wf`), which have not exhausted the value range (`ok`),
which values refer to allocated nodes (`valid`), and which identities
`from_num` encodes faithfully (`ident`). -/
structure Gauge (S : Type) where
  wf : S → Prop
  ok : S → Prop
  valid : S → Nat → Prop
  ident : Nat → Prop

/-- What the generic proofs need from a storage `Self`: how `store` and
`add_node` act on `node` and on the predicates of the gauge. -/
structure Lawful {S : Type} (T : TrieStorageBase S) (G : Gauge S) : Prop where
  wf_empty : G.wf T.empty
  sound_empty : T.Sound T.empty
  not_valid_empty : ∀ v, ¬ G.valid T.empty v
  valid_ne_null : ∀ s v, G.valid s v → v ≠ T.null
  wf_store : ∀ s p c x, G.wf s → G.wf (T.store s p c x)
  ok_store : ∀ s p c x, G.ok (T.store s p c x) ↔ G.ok s
  valid_store : ∀ s p c x v, G.valid (T.store s p c x) v ↔ G.valid s v
  node_store : ∀ s p c x q, G.valid s p →
    T.node (T.store s p c x) q = if q = p then (T.node s p).set c x else T.node s q
  wf_add : ∀ s, G.wf s → G.wf (T.add_node s).1
  ok_add : ∀ s, G.ok (T.add_node s).1 → G.ok s
  fresh_add : ∀ s, G.wf s → G.ok (T.add_node s).1 → ¬ G.valid s (T.add_node s).2
  valid_add : ∀ s v, G.wf s → G.ok (T.add_node s).1 →
    (G.valid (T.add_node s).1 v ↔ (G.valid s v ∨ v = (T.add_node s).2))
  node_add : ∀ s q, G.wf s → G.ok (T.add_node s).1 →
    T.node (T.add_node s).1 q = if q = (T.add_node s).2 then node_type T.null else T.node s q
  as_num_from_num : ∀ v, G.ident v → T.as_num (T.from_num v) = v
  from_num_ne_null : ∀ v, G.ident v → T.from_num v ≠ T.null

/-- The invariant of a storage `s` holding tries of `L` levels under the roots
`R`: the storage is sound and within range, every root is allocated, every
non-null value fewer than `L` steps below a root is allocated, and no two
such paths end at the same node. -/
structure Inv {S : Type} (T : TrieStorageBase S) (G : Gauge S) (R : List Nat) (L : Nat)
    (s : S) : Prop where
  sound : T.Sound s
  wf : G.wf s
  ok : G.ok s
  roots : ∀ r ∈ R, G.valid s r
  alloc : ∀ r ∈ R, ∀ k : List Nat, k.length < L → T.walk s r k ≠ T.null →
    G.valid s (T.walk s r k)
  inj : ∀ r1 ∈ R, ∀ r2 ∈ R, ∀ k1 k2 : List Nat, k1.length < L → k2.length < L →
    T.walk s r1 k1 = T.walk s r2 k2 → T.walk s r1 k1 ≠ T.null → r1 = r2 ∧ k1 = k2

/-- One insertion of a build: root, key, payload. -/
structure InsertOp where
  root : Nat
  key : List Char
  data : Nat

/-- Running a list of insertions. -/
def runOps {S : Type} (T : TrieStorageBase S) (s : S) (ops : List InsertOp) : S :=
  ops.foldl (fun s o => T.insert s o.root o.key o.data) s

/-- The trie under the root `r` of the storage `s` holds exactly the corpus `W`
keyed by `κ`: the walk along the key of a corpus word ends at its encoded
identity, and a walk of `L` steps along anything else ends at null. -/
def Holds {S : Type} (T : TrieStorageBase S) (s : S) (r L : Nat)
    (κ : List Char → List Char) (W : List (List Char × Nat)) : Prop :=
  (∀ p ∈ W, T.walk s r ((κ p.1).map chIdx) = T.from_num p.2) ∧
  ∀ k : List Nat, k.length = L → (∀ p ∈ W, (κ p.1).map chIdx ≠ k) → T.walk s r k = T.null

/-- The insertions `TrieMatcher`'s constructor performs, in order. -/
def TrieMatcher.buildOps {S : Type} (T : TrieStorageBase S) (fwd rev : Nat)
    (W : List (List Char × Nat)) : List InsertOp :=
  W.flatMap (fun p => [⟨fwd, p.1, T.from_num p.2⟩, ⟨rev, p.1.reverse, T.from_num p.2⟩])

/-- The insertions `TrieMixMatcher`'s constructor performs, in order. -/
def TrieMixMatcher.buildOps {S : Type} (T : TrieStorageBase S) (root len : Nat)
    (W : List (List Char × Nat)) : List InsertOp :=
  W.map (fun p => ⟨root, mix p.1 len, T.from_num p.2⟩)

/-- The non-null ends of the walks from `r` along the slot-index lists the
probe `pat` admits, in lexicographic order. -/
def TrieStorageBase.ends {S : Type} (T : TrieStorageBase S) (s : S) (r : Nat)
    (pat : List Char) : List Nat :=
  ((patKeys pat).map (T.walk s r)).filter (fun x => decide (x ≠ T.null))

/-- The part of `TrieMatcher::query` after the trie and the effective prefix and
suffix have been chosen. -/
def TrieMatcher.search {S : Type} (T : TrieStorageBase S) (m : TrieMatcher S)
    (root : Nat) (pre suf buffer : List Char) : Option QueryResult :=
  let node := if pre ≠ [] then T.follow m.nodes root pre else root
  if pre ≠ [] ∧ node = T.null then
    some ⟨[], 0, buffer⟩
  else
    match T.deep_fan_out m.nodes node (m.length - pre.length - suf.length)
        (TrieMatcher.visit T m.nodes suf) ⟨[], 0⟩ with
    | none => none
    | some st => some ⟨st.calls, st.n, buffer⟩

/-- The gauge of the arena: a well-formed arena has its null node, an arena
within range has at most `2 ^ 32` nodes (every index is a `uint32_t`), a valid
value is a non-null index below the arena size, and an identity is encoded
faithfully when its successor is a `uint32_t`. -/
def TriePoolStorage.gauge : Gauge TriePoolStorage where
  wf s := 0 < s.nodes.length
  ok s := s.nodes.length ≤ 2 ^ 32
  valid s v := 0 < v ∧ v < s.nodes.length
  ident v := v + 1 < 2 ^ 32

/-- The statement of the failure half of the loop lemma for `do_fan_out`: from
a state that is about to try slot `c` of the node `n` of frame `sp`, if the
callback fails on one of the values of `scan s d n c`, the loop does not
return a result. -/
def LoopFail {S σ : Type} (T : TrieStorageBase S) (s : S) (last : Nat)
    (fn : σ → Nat → Option σ) (d m c : Nat) : Prop :=
  ∀ (stack : List (Nat × Nat)) (sp n : Nat) (st : σ),
    sp + d = last → c + m = 26 → 0 < m → last < stack.length →
    (stack.getD sp (0, 0)).1 = n →
    (T.scan s d n c).foldlM fn st = none →
    ∀ fuel, T.do_fan_out_loop s last fn fuel ⟨stack, sp, n, c, st⟩ = none

/-- All sequences of `d` slot choices, in lexicographic order. -/
def allPaths : Nat → List (List Nat)
  | 0 => [[]]
  | d + 1 => (List.range 26).flatMap (fun c => (allPaths d).map (fun k => c :: k))

/-- Every value on the path `k` from `v`, intermediate and final, is non-null. -/
def TrieStorageBase.pathOk {S : Type} (T : TrieStorageBase S) (s : S) : Nat → List Nat → Bool
  | _, [] => true
  | v, c :: k => decide (T.slot s v c ≠ T.null) && pathOk T s (T.slot s v c) k

/-- What `deep_fan_out(start, d, visit)` is to visit by its contract: at depth 0
`start` itself when it is non-null, otherwise the final value of every path of
`d` slot choices from `start` whose values are all non-null, one visit per path. -/
def TrieStorageBase.visited {S : Type} (T : TrieStorageBase S) (s : S) (d v : Nat) :
    List Nat :=
  if d = 0 then (if v ≠ T.null then [v] else [])
  else ((allPaths d).filter (T.pathOk s v)).map (T.walk s v)

/-- The scratch buffer after a sequence of `TrieMatcher` queries, each starting
with the buffer the previous one left. -/
def TrieMatcher.buffer_after {S : Type} (T : TrieStorageBase S) (m : TrieMatcher S) :
    List Char → List (List Char × List Char) → Option (List Char)
  | buffer, [] => some buffer
  | buffer, q :: qs =>
    match TrieMatcher.query T m buffer q.1 q.2 with
    | none => none
    | some r => TrieMatcher.buffer_after T m r.buffer qs

/-- The scratch buffer after a sequence of `TrieMixMatcher` queries, each
starting with the buffer the previous one left. -/
def TrieMixMatcher.buffer_after {S : Type} (T : TrieStorageBase S) (m : TrieMixMatcher S) :
    List Char → List (List Char × List Char) → Option (List Char)
  | buffer, [] => some buffer
  | buffer, q :: qs =>
    match TrieMixMatcher.query T m buffer q.1 q.2 with
    | none => none
    | some r => TrieMixMatcher.buffer_after T m r.buffer qs

/-- A query returned, reported the identities `want` in some order, each
once, and returned their number (what `check` of `test.cc` accepts). -/
def Reports (q : Option QueryResult) (want : List Nat) : Prop :=
  ∃ r, q = some r ∧ r.calls.Perm want ∧ r.ret = want.length

/-- The storages that hold tries of `L` levels: the empty storage, a storage
with one more root allocated, a storage with one more key of length `L` over
`'a'..'z'` inserted at one of its roots. The index lists the roots. -/
inductive Built {S : Type} (T : TrieStorageBase S) (L : Nat) : List Nat → S → Prop
  | empty : Built T L [] T.empty
  | root (R : List Nat) (s : S) : Built T L R s →
      Built T L ((T.add_node s).2 :: R) (T.add_node s).1
  | insert (R : List Nat) (s : S) (r : Nat) (key : List Char) (data : Nat) :
      Built T L R s → r ∈ R → key.length = L → (∀ c ∈ key, lower c) →
      Built T L R (T.insert s r key data)

/-- The arena states reachable from the empty storage by `add_node` calls and by
`insert` calls that start at a non-null value with a non-empty key over
`'a'..'z'`. -/
inductive TriePoolStorage.Reachable : TriePoolStorage → Prop
  | empty : TriePoolStorage.Reachable TriePoolStorage.empty
  | add_node (s : TriePoolStorage) : TriePoolStorage.Reachable s →
      TriePoolStorage.Reachable (TriePoolStorage.add_node s).1
  | insert (s : TriePoolStorage) (root : Nat) (key : List Char) (data : Nat) :
      TriePoolStorage.Reachable s → root ≠ TriePoolStorage.null → key ≠ [] →
      (∀ c ∈ key, lower c) →
      TriePoolStorage.Reachable (TriePoolStorage.ops.insert s root key data)

/-- The arena after `n - 1` calls of `add_node` on the empty storage: `n` nodes
with only null slots. -/
def TriePoolStorage.blank (n : Nat) : TriePoolStorage := ⟨List.replicate n (node_type 0)⟩

/-- The values the first `k` calls of `add_node` on the empty storage return,
latest first. -/
def TriePoolStorage.blank_roots : Nat → List Nat
  | 0 => []
  | k + 1 => ((k + 1) % 2 ^ 32) :: TriePoolStorage.blank_roots k

/-- The source position of the character `mix` writes at output position `j`:
first, last, second, second-last, ... -/
def mixPos (len j : Nat) : Nat := if j % 2 = 0 then j / 2 else len - 1 - j / 2

/-- The output position at which `mix` writes the character of source position `i`. -/
def unmixPos (len i : Nat) : Nat := if 2 * i < len then 2 * i else 2 * (len - 1 - i) + 1

/-- The inverse of the interleave transform on strings of length `len`. -/
def unmix (m : List Char) (len : Nat) : List Char :=
  (List.range len).map (fun i => m.getD (unmixPos len i) (Char.ofNat 0))

/-- The corpus fits the arena of the dual-trie engine: the identities and their
successors are `uint32_t` values and every node index is a `uint32_t`. -/
def TrieMatcher.InRange (W : Words) : Prop :=
  W.words.length < 2 ^ 32 ∧
  (TrieMatcher.build TriePoolStorage.ops W).nodes.nodes.length ≤ 2 ^ 32

instance (W : Words) : Decidable (TrieMatcher.InRange W) := by
  unfold TrieMatcher.InRange; infer_instance

/-- The corpus fits the arena of the interleaved-trie engine. -/
def TrieMixMatcher.InRange (W : Words) : Prop :=
  W.words.length < 2 ^ 32 ∧
  (TrieMixMatcher.build TriePoolStorage.ops W).nodes.nodes.length ≤ 2 ^ 32

instance (W : Words) : Decidable (TrieMixMatcher.InRange W) := by
  unfold TrieMixMatcher.InRange; infer_instance

/-- The corpus of `run_medium_tests`, `Words("foobarbazquxqax", 5, 3)`, in the
iteration order of its map. -/
def test_words : Words :=
  ⟨[(['b', 'a', 'r'], 1), (['b', 'a', 'z'], 2), (['f', 'o', 'o'], 0),
    (['q', 'a', 'x'], 4), (['q', 'u', 'x'], 3)], 3⟩

end PatternMatch

namespace PatternMatch

/-! ## The states of the fan-out loop -/

/-- The states at the head of a pass of the `for (;;)` loop of
`do_fan_out(node_pos, depth, fn)`: the state the function sets up before the
loop, and the state a pass that stays in the loop leaves for the next. -/
inductive FanOutReach {S σ : Type} (T : TrieStorageBase S) (s : S) (node_pos depth : Nat)
    (fn : σ → Nat → Option σ) (st : σ) : FanOutState σ → Prop
  | init : FanOutReach T s node_pos depth fn st
      ⟨(List.replicate depth (0, 0)).set 0 (node_pos, 0), 0, node_pos, 0, st⟩
  | pass (x y : FanOutState σ) : FanOutReach T s node_pos depth fn st x →
      T.do_fan_out_iter s (depth - 1) fn x = some (Sum.inl y) →
      FanOutReach T s node_pos depth fn st y

/-! ## Lexicographic order -/

/-- Lexicographic comparison of two sequences of character codes; a proper
prefix is smaller. -/
def lexLt : List Nat → List Nat → Bool
  | [], [] => false
  | [], _ :: _ => true
  | _ :: _, [] => false
  | a :: as, b :: bs => decide (a < b) || (decide (a = b) && lexLt as bs)

/-- `operator<` of `std::string` and `std::string_view`: lexicographic on the
character codes. -/
def strLt (a b : List Char) : Bool := lexLt (a.map Char.toNat) (b.map Char.toNat)

/-! ## trie.h: TrieAllocStorage -/

/-- What the pointer storage takes from its environment: the address of the
static `null_node` of `TrieAllocStorage::null()`, and the address
`new node_type` returns, given the addresses of the live nodes. -/
structure Allocator where
  null_node : Nat
  alloc : List Nat → Nat

/-- The guarantee of a `new` that returns: the address is not the address of a
live node and is not the address of the static `null_node`. -/
def Allocator.Fresh (A : Allocator) : Prop :=
  ∀ live : List Nat, A.alloc live ∉ live ∧ A.alloc live ≠ A.null_node

/-- `TrieAllocStorage` has no data members; its state is the set of nodes it has
allocated and not deleted: address and slots, latest first. -/
structure TrieAllocStorage where
  heap : List (Nat × List Nat)

namespace TrieAllocStorage

/-- The default-constructed storage: no node allocated. -/
def empty : TrieAllocStorage := ⟨[]⟩

/-- `TrieAllocStorage::null()`: the address of `null_node`. -/
def null (A : Allocator) : Nat := A.null_node

/-- `TrieAllocStorage::add_node()`: `new node_type(null())`. -/
def add_node (A : Allocator) (s : TrieAllocStorage) : TrieAllocStorage × Nat :=
  (⟨(A.alloc (s.heap.map Prod.fst), node_type A.null_node) :: s.heap⟩,
    A.alloc (s.heap.map Prod.fst))

/-- `TrieAllocStorage::node(data)`, the read `*data.as_ptr()`: the static
`null_node`, whose slots all hold its own address, or a live node. Reading
through any other address is outside the language semantics; the model reads an
all-null node there. -/
def node (A : Allocator) (s : TrieAllocStorage) (data : Nat) : List Nat :=
  if data = A.null_node then node_type A.null_node
  else match s.heap.find? (fun e => decide (e.1 = data)) with
    | some e => e.2
    | none => node_type A.null_node

/-- The assignment `node(data)[ch] = x` to a live node. A write through any
other address is outside the language semantics; the model drops it. -/
def store (_A : Allocator) (s : TrieAllocStorage) (data ch x : Nat) : TrieAllocStorage :=
  ⟨s.heap.map (fun e => if e.1 = data then (e.1, e.2.set ch x) else e)⟩

/-- `TrieAllocStorage::encode_value`. -/
def encode_value (v : Nat) : Nat := v

/-- `TrieAllocStorage::decode_value`. -/
def decode_value (v : Nat) : Nat := v

/-- `TrieAllocStorage` as the `Self` of `TrieStorageBase<uintptr_t, TrieAllocStorage>`. -/
def ops (A : Allocator) : TrieStorageBase TrieAllocStorage where
  bits := 64
  empty := empty
  null := null A
  add_node := add_node A
  node := node A
  store := store A
  encode_value := encode_value
  decode_value := decode_value

/-- The gauge of the pointer storage: a valid value is the address of a live
node other than `null_node`; an identity is encoded faithfully when it is a
`uintptr_t` other than the address of `null_node`. -/
def gauge (A : Allocator) : Gauge TrieAllocStorage where
  wf _ := True
  ok _ := True
  valid s v := v ≠ A.null_node ∧ v ∈ s.heap.map Prod.fst
  ident v := v < 2 ^ 64 ∧ v ≠ A.null_node

/-- `delete node`. -/
def delete (s : TrieAllocStorage) (a : Nat) : TrieAllocStorage :=
  ⟨s.heap.filter (fun e => decide (e.1 ≠ a))⟩

end TrieAllocStorage

/-- What a run of `free_trie` did: the addresses passed to `delete`, in order,
and the addresses of the nodes whose slots the `for (auto value : *node)` loop
read, in order. -/
structure FreeLog where
  deleted : List Nat
  read : List Nat
deriving DecidableEq, Repr

/-- The `while (!nodes.empty())` loop of `TrieAllocStorage::free_trie` on the
deque `queue`, one pass per unit of fuel. -/
def free_trie_loop (A : Allocator) :
    Nat → List (Nat × Nat) → TrieAllocStorage → FreeLog → Option (TrieAllocStorage × FreeLog)
  | 0, _, _, _ => none
  | _ + 1, [], s, log => some (s, log)
  | fuel + 1, (node, depth) :: queue, s, log =>
    if depth ≠ 0 then
      free_trie_loop A fuel
        (queue ++ ((TrieAllocStorage.node A s node).filter
          (fun v => decide (v ≠ A.null_node))).map (fun v => (v, depth - 1)))
        (s.delete node) ⟨log.deleted ++ [node], log.read ++ [node]⟩
    else
      free_trie_loop A fuel queue (s.delete node) ⟨log.deleted ++ [node], log.read⟩

/-- `TrieAllocStorage::free_trie(root, depth)`. The loop makes at most
`27 ^ depth` passes that delete a node, and one that finds the deque empty. -/
def free_trie (A : Allocator) (s : TrieAllocStorage) (root depth : Nat) :
    Option (TrieAllocStorage × FreeLog) :=
  free_trie_loop A (27 ^ depth + 1) [(root, depth)] s ⟨[], []⟩

/-- The nodes `free_trie` deletes for a deque entry `(v, d)`, over the storage
`s`: `v` and, when `d > 0`, the nodes for its non-null slots at depth `d - 1`. -/
def TrieStorageBase.subtree {S : Type} (T : TrieStorageBase S) (s : S) : Nat → Nat → List Nat
  | 0, v => [v]
  | d + 1, v => v :: ((T.node s v).filter (fun x => decide (x ≠ T.null))).flatMap
      (TrieStorageBase.subtree T s d)

/-- The nodes whose slots `free_trie` reads for a deque entry `(v, d)`. -/
def TrieStorageBase.subread {S : Type} (T : TrieStorageBase S) (s : S) : Nat → Nat → List Nat
  | 0, _ => []
  | d + 1, v => v :: ((T.node s v).filter (fun x => decide (x ≠ T.null))).flatMap
      (TrieStorageBase.subread T s d)

/-- `TrieMatcher<TrieAllocStorage>::~TrieMatcher()`: the storage left and the
logs of the two `free_trie` calls. -/
def TrieMatcher.destroy (A : Allocator) (m : TrieMatcher TrieAllocStorage) :
    Option (TrieAllocStorage × FreeLog × FreeLog) :=
  if m.length ≠ 0 then
    match free_trie A m.nodes m.fwd_trie_root (m.length - 1) with
    | none => none
    | some r1 =>
      match free_trie A r1.1 m.rev_trie_root (m.length - 1) with
      | none => none
      | some r2 => some (r2.1, r1.2, r2.2)
  else some (m.nodes, ⟨[], []⟩, ⟨[], []⟩)

/-- `TrieMixMatcher<TrieAllocStorage>::~TrieMixMatcher()`: the storage left and
the log of the `free_trie` call. -/
def TrieMixMatcher.destroy (A : Allocator) (m : TrieMixMatcher TrieAllocStorage) :
    Option (TrieAllocStorage × FreeLog) :=
  if m.length ≠ 0 then free_trie A m.nodes m.trie_root (m.length - 1)
  else some (m.nodes, ⟨[], []⟩)

/-- What `free_trie(root, L - 1)` is to do on the trie of `L` levels under
`root` in the storage `s`: no address is deleted twice; the deleted addresses
are exactly the non-null values fewer than `L` steps below `root`; each of them
is the address of a node of `s`; the address of `null_node` is not deleted; the
nodes whose slots are read lie fewer than `L - 1` steps below `root`, so no
node `L - 1` steps below `root` has its slots read. -/
def Released (A : Allocator) (s : TrieAllocStorage) (root L : Nat) (log : FreeLog) : Prop :=
  log.deleted.Nodup ∧
  (∀ v, v ∈ log.deleted ↔
    (v ≠ A.null_node ∧ ∃ k : List Nat, k.length < L ∧ (TrieAllocStorage.ops A).walk s root k = v)) ∧
  (∀ v ∈ log.deleted, v ∈ s.heap.map Prod.fst) ∧
  A.null_node ∉ log.deleted ∧
  (∀ v ∈ log.read, ∃ k : List Nat, k.length + 1 < L ∧
    (TrieAllocStorage.ops A).walk s root k = v) ∧
  (∀ k : List Nat, k.length + 1 = L → (TrieAllocStorage.ops A).walk s root k ∉ log.read)

/-- Every node of the storage lies fewer than `L` steps below one of the roots. -/
def Covered {S : Type} (T : TrieStorageBase S) (G : Gauge S) (R : List Nat) (L : Nat)
    (s : S) : Prop :=
  ∀ v, G.valid s v → ∃ r ∈ R, ∃ k : List Nat, k.length < L ∧ T.walk s r k = v

/-- All sequences of at most `d` slot choices, a sequence before its extensions. -/
def pathsUpTo : Nat → List (List Nat)
  | 0 => [[]]
  | d + 1 => [] :: (List.range 26).flatMap (fun c => (pathsUpTo d).map (fun k => c :: k))

/-- All sequences of fewer than `d` slot choices, a sequence before its extensions. -/
def pathsBelow : Nat → List (List Nat)
  | 0 => []
  | d + 1 => [] :: (List.range 26).flatMap (fun c => (pathsBelow d).map (fun k => c :: k))

/-- An allocator for a `null_node` at `base` that places a new node 208 bytes
(the size of a node) above the highest address in use. -/
def bump (base : Nat) : Allocator := ⟨base, fun live => live.foldl max base + 208⟩

/-! ## words.h: the map behind `Words` -/

/-- `std::map<std::string, size_t>::emplace(key, value)` on the map as the
sequence of pairs its iteration yields: the pair is put at its place in key
order unless the key is already present. -/
def Map.emplace : List (List Char × Nat) → List Char → Nat → List (List Char × Nat)
  | [], k, v => [(k, v)]
  | p :: rest, k, v =>
    if strLt k p.1 then (k, v) :: p :: rest
    else if strLt p.1 k then p :: Map.emplace rest k v
    else p :: rest

/-- `Words::make_map(data, count, length)` and the constructor
`Words(data, count, length)`: string `i` of the buffer gets the identity `i`. -/
def Words.make (data : List Char) (count length : Nat) : Words :=
  ⟨(List.range count).foldl
    (fun m i => Map.emplace m ((data.drop (i * length)).take length) i) [], length⟩

/-- `Words::reverse()`. -/
def Words.reverse (w : Words) : Words :=
  ⟨w.words.foldl (fun m p => Map.emplace m p.1.reverse p.2) [], w.length⟩

/-- The iteration order of `std::map`: ascending keys. -/
def Words.Sorted (W : Words) : Prop :=
  W.words.Pairwise (fun a b => strLt a.1 b.1 = true)

instance (W : Words) : Decidable W.Sorted := by unfold Words.Sorted; infer_instance

/-! ## vector-map.h -/

/-- `VectorMap`: `count` keys of `length` characters each (the `keys` array in
pieces of `length` characters) and the `values` array. -/
structure VectorMap where
  count : Nat
  length : Nat
  keys : List (List Char)
  values : List Nat
deriving DecidableEq, Repr

/-- What a query of a vector engine leaves behind: the arguments passed to the
callback, in call order, and the returned `size_t`. -/
structure Report where
  calls : List Nat
  ret : Nat
deriving DecidableEq, Repr

/-- `Prefix::lt(str)`: `prefix < std::string_view(str.data(), prefix.size())`. -/
def Prefix.lt (pre str : List Char) : Bool := strLt pre (str.take pre.length)

/-- `Prefix::gt(str)`: `prefix > std::string_view(str.data(), prefix.size())`. -/
def Prefix.gt (pre str : List Char) : Bool := strLt (str.take pre.length) pre

namespace VectorMap

/-- `VectorMap(length, words)`: one `memcpy` of `length` characters and one
conversion of the value to `uint32_t` per pair of the map, in map order. -/
def make (length : Nat) (words : List (List Char × Nat)) : VectorMap :=
  ⟨words.length, length, words.map (fun p => p.1.take length),
    words.map (fun p => p.2 % 2 ^ 32)⟩

/-- `VectorMap(const Words &)`. -/
def ofWords (w : Words) : VectorMap := make w.word_length w.words

/-- `VectorMap::range(prefix)`, the call
`std::equal_range(beg, beg + count, Prefix(prefix))` by its contract: the first
component is the end of the longest initial run of keys `k` with `k < prefix`
(`Prefix::gt`), the second the end of the longest initial run of keys with
`!(prefix < k)` (`Prefix::lt`). -/
def range (m : VectorMap) (pre : List Char) : Nat × Nat :=
  ((m.keys.takeWhile (fun k => Prefix.gt pre k)).length,
    (m.keys.takeWhile (fun k => !Prefix.lt pre k)).length)

/-- `VectorMap::for_each_value(prefix, fn)`: the callback state after the calls
and the returned count. -/
def for_each_value {σ : Type} (m : VectorMap) (pre : List Char) (fn : σ → Nat → σ) (st : σ) :
    σ × Nat :=
  (((m.values.drop (m.range pre).1).take ((m.range pre).2 - (m.range pre).1)).foldl fn st,
    (m.range pre).2 - (m.range pre).1)

/-- `VectorMap::for_each_pair(prefix, fn)`. -/
def for_each_pair {σ : Type} (m : VectorMap) (pre : List Char)
    (fn : σ → List Char → Nat → σ) (st : σ) : σ :=
  (((m.keys.zip m.values).drop (m.range pre).1).take
    ((m.range pre).2 - (m.range pre).1)).foldl (fun st kv => fn st kv.1 kv.2) st

end VectorMap

/-! ## vector-matcher.h -/

/-- `VectorMatcher::query(prefix, suffix, cb)` on the engine's `VectorMap`. -/
def VectorMatcher.query (words : VectorMap) (pre suf : List Char) : Report :=
  if pre.length + suf.length = words.length ∨ suf = [] then
    let r := words.for_each_value (pre ++ suf) (fun (calls : List Nat) v => calls ++ [v]) []
    ⟨r.1, r.2⟩
  else
    let st := words.for_each_pair pre
      (fun (st : Crawl) key v =>
        if view key (words.length - suf.length) suf.length = suf then st.report v else st)
      ⟨[], 0⟩
    ⟨st.calls, st.n⟩

/-! ## vector-range-matcher.h -/

/-- The data members of `VectorRangeMatcher`. -/
structure VectorRangeMatcher where
  fwd : VectorMap
  rev : VectorMap
deriving DecidableEq, Repr

namespace VectorRangeMatcher

/-- `VectorRangeMatcher::make_rev(fwd)`: every pair of `fwd`, in order, is put
into a map under its reversed key with the same value. -/
def make_rev (fwd : VectorMap) : VectorMap :=
  VectorMap.make fwd.length
    ((fwd.keys.zip fwd.values).foldl (fun m kv => Map.emplace m kv.1.reverse kv.2) [])

/-- `VectorRangeMatcher(const Words &)`. -/
def build (words : Words) : VectorRangeMatcher :=
  ⟨VectorMap.ofWords words, make_rev (VectorMap.ofWords words)⟩

/-- `VectorRangeMatcher::query(prefix, suffix, cb)`. -/
def query (m : VectorRangeMatcher) (pre suf : List Char) : Report :=
  if pre.length + suf.length = m.fwd.length ∨ pre = [] ∨ suf = [] then
    if pre = [] ∧ suf.length ≠ m.fwd.length then
      let r := m.rev.for_each_value (pre ++ suf).reverse
        (fun (calls : List Nat) v => calls ++ [v]) []
      ⟨r.1, r.2⟩
    else
      let r := m.fwd.for_each_value (pre ++ suf)
        (fun (calls : List Nat) v => calls ++ [v]) []
      ⟨r.1, r.2⟩
  else
    let r := m.rev.for_each_value suf.reverse
      (fun (st : Crawl) v =>
        if (m.fwd.range pre).1 ≤ v ∧ v < (m.fwd.range pre).2 then
          st.report (m.fwd.values.getD v 0)
        else st)
      ⟨[], 0⟩
    ⟨r.1.calls, r.1.n⟩

end VectorRangeMatcher

/-! ## bitmap-matcher.h -/

/-- The data members of `BitmapMatcher` other than the bitmap, which a query
takes and returns. -/
structure BitmapMatcher where
  fwd : VectorMap
  rev : VectorMap
deriving DecidableEq, Repr

namespace BitmapMatcher

/-- `BitmapMatcher::sizeof_bitmap(count)`. -/
def sizeof_bitmap (count : Nat) : Nat := (count + 63) / 64

/-- `BitmapMatcher(const Words &)`. -/
def build (words : Words) : BitmapMatcher :=
  ⟨VectorMap.ofWords words, VectorMap.ofWords words.reverse⟩

/-- `std::memset(bm, 0, nbytes)` on an array of `uint64_t` in little-endian
byte order: byte `b` holds the bits `8 * (b % 8) ..` of word `b / 8`, so the
low `min 8 (nbytes - 8 * i)` bytes of word `i` are cleared. -/
def memset_zero (bm : List Nat) (nbytes : Nat) : List Nat :=
  List.zipWith (fun i w => w / 256 ^ (min 8 (nbytes - 8 * i)) * 256 ^ (min 8 (nbytes - 8 * i)))
    (List.range bm.length) bm

/-- The lambda `bm[v / 64] |= UINT64_C(1) << (v % 64)`. -/
def set_bit (bm : List Nat) (v : Nat) : List Nat :=
  bm.set (v / 64) (bm.getD (v / 64) 0 ||| 2 ^ (v % 64))

/-- The test `bm[v / 64] & (UINT64_C(1) << (v % 64))`. -/
def test_bit (bm : List Nat) (v : Nat) : Bool := (bm.getD (v / 64) 0).testBit (v % 64)

/-- `BitmapMatcher::query(prefix, suffix, cb)`; `bitmap` is the content of the
engine's bitmap on entry, and the bitmap on return is the second component. -/
def query (m : BitmapMatcher) (bitmap : List Nat) (pre suf : List Char) :
    Report × List Nat :=
  if pre.length + suf.length = m.fwd.length ∨ pre = [] ∨ suf = [] then
    if pre = [] ∧ suf.length ≠ m.fwd.length then
      let r := m.rev.for_each_value (pre ++ suf).reverse
        (fun (calls : List Nat) v => calls ++ [v]) []
      (⟨r.1, r.2⟩, bitmap)
    else
      let r := m.fwd.for_each_value (pre ++ suf)
        (fun (calls : List Nat) v => calls ++ [v]) []
      (⟨r.1, r.2⟩, bitmap)
  else
    let bm := memset_zero bitmap (sizeof_bitmap m.fwd.count)
    let bm := (m.fwd.for_each_value pre set_bit bm).1
    let r := m.rev.for_each_value suf.reverse
      (fun (st : Crawl) v => if test_bit bm v then st.report v else st) ⟨[], 0⟩
    (⟨r.1.calls, r.1.n⟩, bm)

end BitmapMatcher

/-- The corpus `Words("bxbaxa", 2, 3)`, in the iteration order of its map. -/
def two_words : Words := ⟨[(['a', 'x', 'a'], 1), (['b', 'x', 'b'], 0)], 3⟩

/-- The corpus `Words("aabaacaadaaeaafaagaahaaibxa", 9, 3)`, in the iteration
order of its map. -/
def nine_words : Words :=
  ⟨[(['a', 'a', 'b'], 0), (['a', 'a', 'c'], 1), (['a', 'a', 'd'], 2), (['a', 'a', 'e'], 3),
    (['a', 'a', 'f'], 4), (['a', 'a', 'g'], 5), (['a', 'a', 'h'], 6), (['a', 'a', 'i'], 7),
    (['b', 'x', 'a'], 8)], 3⟩

/-! ## The order of the reports -/

/-- The corpus pair whose key under `κ` has the slot-index list `k`, if any. -/
def lookupKey (κ : List Char → List Char) (W : List (List Char × Nat)) (k : List Nat) :
    Option (List Char × Nat) :=
  W.find? (fun p => decide ((κ p.1).map chIdx = k))

/-- The corpus pairs a probe selects under the keying `κ`, in the lexicographic
order of the slot-index lists the probe admits. -/
def selected (κ : List Char → List Char) (W : List (List Char × Nat)) (pat : List Char) :
    List (List Char × Nat) :=
  (patKeys pat).filterMap (lookupKey κ W)

/-- The corpus pairs a query of the dual-trie engine reports, in report order:
selected from the forward keys when the prefix is at least as long as the
suffix, from the reversed keys otherwise. -/
def TrieMatcher.order (W : Words) (pre suf : List Char) : List (List Char × Nat) :=
  if suf.length ≤ pre.length then selected (fun w => w) W.words (probe W.length pre suf)
  else selected List.reverse W.words (probe W.length pre suf).reverse

/-- The corpus pairs a query of the interleaved-trie engine reports, in report
order. -/
def TrieMixMatcher.order (W : Words) (pre suf : List Char) : List (List Char × Nat) :=
  selected (fun w => mix w W.length) W.words (mix (probe W.length pre suf) W.length)

end PatternMatch

namespace PatternMatch

/-! ## The arena is a lawful storage -/

theorem getD_node_type (v c : Nat) : (node_type v).getD c v = v := by
  unfold node_type
  rw [List.getD_eq_getElem?_getD]
  by_cases h : c < 26
  · rw [List.getElem?_eq_getElem (by simpa using h), List.getElem_replicate]
    rfl
  · rw [List.getElem?_eq_none (by simpa using h)]
    rfl

theorem length_node_type (v : Nat) : (node_type v).length = 26 := by
  simp [node_type]

theorem TriePoolStorage.node_append (s : TriePoolStorage) (q : Nat) :
    (s.nodes ++ [node_type 0]).getD q (node_type 0) = s.nodes.getD q (node_type 0) := by
  rw [List.getD_eq_getElem?_getD, List.getD_eq_getElem?_getD]
  by_cases h : q < s.nodes.length
  · rw [List.getElem?_append_left h]
  · rw [List.getElem?_append_right (by omega), List.getElem?_eq_none (l := s.nodes) (by omega)]
    cases hq : q - s.nodes.length with
    | zero => rfl
    | succ n => rfl

theorem TriePoolStorage.lawful : Lawful TriePoolStorage.ops TriePoolStorage.gauge where
  wf_empty := by
    show 0 < [node_type 0].length
    simp
  sound_empty := by
    constructor
    · intro c
      show ((([node_type 0] : List (List Nat)).getD 0 (node_type 0)).getD c 0) = 0
      exact getD_node_type 0 c
    · intro v
      show (([node_type 0] : List (List Nat)).getD v (node_type 0)).length = 26
      cases v with
      | zero => exact length_node_type 0
      | succ n => exact length_node_type 0
  not_valid_empty := by
    intro v h
    have h2 : 0 < v ∧ v < [node_type 0].length := h
    simp at h2
    omega
  valid_ne_null := by
    intro s v h
    have h2 : 0 < v ∧ v < s.nodes.length := h
    show v ≠ 0
    omega
  wf_store := by
    intro s p c x h
    have h2 : 0 < s.nodes.length := h
    show 0 < (s.nodes.set p ((s.node p).set c x)).length
    rw [List.length_set]
    exact h2
  ok_store := by
    intro s p c x
    show (s.nodes.set p ((s.node p).set c x)).length ≤ 2 ^ 32 ↔ s.nodes.length ≤ 2 ^ 32
    rw [List.length_set]
  valid_store := by
    intro s p c x v
    show (0 < v ∧ v < (s.nodes.set p ((s.node p).set c x)).length) ↔ (0 < v ∧ v < s.nodes.length)
    rw [List.length_set]
  node_store := by
    intro s p c x q h
    have h2 : 0 < p ∧ p < s.nodes.length := h
    show (s.nodes.set p ((s.node p).set c x)).getD q (node_type 0)
      = if q = p then (s.node p).set c x else s.nodes.getD q (node_type 0)
    rw [List.getD_eq_getElem?_getD, List.getD_eq_getElem?_getD]
    by_cases hq : q = p
    · subst hq
      rw [if_pos rfl, List.getElem?_set_self h2.2]
      rfl
    · rw [if_neg hq, List.getElem?_set_ne (Ne.symm hq)]
  wf_add := by
    intro s h
    show 0 < (s.nodes ++ [node_type 0]).length
    simp
  ok_add := by
    intro s h
    have h2 : (s.nodes ++ [node_type 0]).length ≤ 2 ^ 32 := h
    show s.nodes.length ≤ 2 ^ 32
    rw [List.length_append] at h2
    omega
  fresh_add := by
    intro s hw h
    have h2 : (s.nodes ++ [node_type 0]).length ≤ 2 ^ 32 := h
    rw [List.length_append, List.length_singleton] at h2
    show ¬ (0 < ((s.nodes ++ [node_type 0]).length - 1) % 2 ^ 32 ∧
      ((s.nodes ++ [node_type 0]).length - 1) % 2 ^ 32 < s.nodes.length)
    rw [List.length_append, List.length_singleton, Nat.add_sub_cancel,
      Nat.mod_eq_of_lt (by omega)]
    omega
  valid_add := by
    intro s v hw h
    have hw2 : 0 < s.nodes.length := hw
    have h2 : (s.nodes ++ [node_type 0]).length ≤ 2 ^ 32 := h
    rw [List.length_append, List.length_singleton] at h2
    show (0 < v ∧ v < (s.nodes ++ [node_type 0]).length) ↔
      ((0 < v ∧ v < s.nodes.length) ∨ v = ((s.nodes ++ [node_type 0]).length - 1) % 2 ^ 32)
    rw [List.length_append, List.length_singleton, Nat.add_sub_cancel,
      Nat.mod_eq_of_lt (by omega)]
    omega
  node_add := by
    intro s q hw h
    have h2 : (s.nodes ++ [node_type 0]).length ≤ 2 ^ 32 := h
    rw [List.length_append, List.length_singleton] at h2
    show (s.nodes ++ [node_type 0]).getD q (node_type 0) =
      if q = ((s.nodes ++ [node_type 0]).length - 1) % 2 ^ 32 then node_type 0
      else s.nodes.getD q (node_type 0)
    rw [List.length_append, List.length_singleton, Nat.add_sub_cancel,
      Nat.mod_eq_of_lt (by omega), TriePoolStorage.node_append]
    by_cases hq : q = s.nodes.length
    · rw [if_pos hq, hq, List.getD_eq_getElem?_getD, List.getElem?_eq_none (by omega)]
      rfl
    · rw [if_neg hq]
  as_num_from_num := by
    intro v h
    simp only [TriePoolStorage.gauge] at h
    rw [TrieStorageBase.as_num, TrieStorageBase.from_num]
    simp only [TriePoolStorage.ops, TriePoolStorage.encode_value, TriePoolStorage.decode_value]
    omega
  from_num_ne_null := by
    intro v h
    simp only [TriePoolStorage.gauge] at h
    simp only [TrieStorageBase.from_num, TriePoolStorage.ops,
      TriePoolStorage.encode_value, TriePoolStorage.null]
    omega

end PatternMatch

namespace PatternMatch

/-! ## The explicit-stack loop of `do_fan_out` -/

namespace TrieStorageBase

variable {S σ : Type} (T : TrieStorageBase S)

theorem getD_set_self {α : Type} (l : List α) (i : Nat) (a d : α) (h : i < l.length) :
    (l.set i a).getD i d = a := by
  simp [List.getD_eq_getElem?_getD, List.getElem?_set, h]

theorem getD_set_ne {α : Type} (l : List α) (i j : Nat) (a d : α) (h : i ≠ j) :
    (l.set i a).getD j d = l.getD j d := by
  simp [List.getD_eq_getElem?_getD, List.getElem?_set, h]

theorem geo_pos (d : Nat) : 0 < geo d := by
  cases d <;> simp [geo]

theorem geo_le_pow (d : Nat) : geo d ≤ 27 ^ d := by
  induction d with
  | zero => simp [geo]
  | succ d ih =>
    simp only [geo, pow_succ]
    have := Nat.one_le_pow d 27 (by omega)
    omega

theorem scan_step (s : S) (d n c : Nat) (h : c < 26) :
    T.scan s d n c =
      (if T.slot s n c ≠ T.null then T.reach s d (T.slot s n c) else []) ++
        T.scan s d n (c + 1) := by
  unfold scan
  obtain ⟨k, hk⟩ : ∃ k, 26 - c = k + 1 := ⟨25 - c, by omega⟩
  have hk2 : 26 - (c + 1) = k := by omega
  rw [hk, hk2, List.range', List.flatMap_cons]

theorem scan_end (s : S) (d n : Nat) : T.scan s d n 26 = [] := by
  simp [scan]

theorem reach_succ (s : S) (d v : Nat) : T.reach s (d + 1) v = T.scan s d v 0 := by
  simp [reach, scan, List.range_eq_range']

theorem loop_succ (s : S) (last : Nat) (fn : σ → Nat → Option σ) (fuel : Nat)
    (x : FanOutState σ) :
    T.do_fan_out_loop s last fn (fuel + 1) x =
      match T.do_fan_out_iter s last fn x with
      | none => none
      | some (Sum.inl y) => T.do_fan_out_loop s last fn fuel y
      | some (Sum.inr st) => some st := rfl

theorem foldlM_append_some (fn : σ → Nat → Option σ) (l1 l2 : List Nat) (st st2 : σ)
    (h : (l1 ++ l2).foldlM fn st = some st2) :
    ∃ st1, l1.foldlM fn st = some st1 ∧ l2.foldlM fn st1 = some st2 := by
  rw [List.foldlM_append] at h
  cases h1 : l1.foldlM fn st with
  | none => rw [h1] at h; simp at h
  | some st1 => rw [h1] at h; exact ⟨st1, rfl, by simpa using h⟩

/-- After slot `c` of frame `sp` is done (callback state `st1`, frames `stack1`
with frame `sp` unchanged below and `n` still its node), the loop visits the
remaining slots and backtracks. `hres` says how the loop got to this point. -/
theorem loop_resume (s : S) (last : Nat) (fn : σ → Nat → Option σ) (d m c : Nat)
    (ihm : 0 < m → LoopSpec T s last fn d m (c + 1))
    (stack1 : List (Nat × Nat)) (sp n : Nat) (st1 st2 : σ)
    (hsp : sp + d = last) (hcm : c + 1 + m = 26) (hlen : last < stack1.length)
    (hn : (stack1.getD sp (0, 0)).1 = n)
    (hfold : (T.scan s d n (c + 1)).foldlM fn st1 = some st2) :
    ∃ k, k ≤ m * geo d ∧ ∃ stack2 : List (Nat × Nat), stack2.length = stack1.length ∧
      (∀ i, i < sp → stack2.getD i (0, 0) = stack1.getD i (0, 0)) ∧
      ∀ fuel,
        (if c + 1 = 26 then T.after s last fn (fuel + k) stack1 sp st1
         else T.do_fan_out_loop s last fn (fuel + k) ⟨stack1, sp, n, c + 1, st1⟩)
        = T.after s last fn fuel stack2 sp st2 := by
  rcases Nat.eq_zero_or_pos m with hm | hm
  · subst hm
    have hc : c + 1 = 26 := by omega
    rw [hc, scan_end] at hfold
    have : st1 = st2 := by simpa using hfold
    subst this
    exact ⟨0, by simp, stack1, rfl, fun _ _ => rfl, fun fuel => by simp [hc]⟩
  · obtain ⟨k, hk, stack2, h1, h2, h3⟩ :=
      ihm hm stack1 sp n st1 st2 hsp hcm hm hlen hn hfold
    refine ⟨k, hk, stack2, h1, h2, fun fuel => ?_⟩
    have hc : c + 1 ≠ 26 := by omega
    simp only [hc, if_false]
    exact h3 fuel

theorem loop_inner (s : S) (last : Nat) (fn : σ → Nat → Option σ) (d : Nat)
    (hchild : ∀ d2, d = d2 + 1 → LoopSpec T s last fn d2 26 0) :
    ∀ m c, LoopSpec T s last fn d m c := by
  intro m
  induction m with
  | zero => intro c stack sp n st st2 _ _ h; omega
  | succ m ihm =>
    intro c stack sp n st st2 hsp hcm _ hlen hn hfold
    have hc : c < 26 := by omega
    rw [scan_step T s d n c hc] at hfold
    obtain ⟨st1, hf1, hf2⟩ := foldlM_append_some fn _ _ st st2 hfold
    by_cases hpush : T.slot s n c ≠ T.null ∧ sp ≠ last
    · -- a non-null slot above the target level: push a frame
      obtain ⟨d2, hd2⟩ : ∃ d2, d = d2 + 1 := ⟨d - 1, by omega⟩
      rw [if_pos hpush.1, hd2, reach_succ] at hf1
      have hsplt : sp + 1 < stack.length := by omega
      obtain ⟨k1, hk1, stackA, hA1, hA2, hA3⟩ :=
        hchild d2 hd2 ((stack.set sp ((stack.getD sp (0, 0)).1, c + 1)).set (sp + 1)
          (T.slot s n c, 0)) (sp + 1) (T.slot s n c) st st1 (by omega) (by omega) (by omega)
          (by simpa using hlen)
          (by rw [getD_set_self _ _ _ _ (by simpa using hsplt)]) hf1
      have hAsp : stackA.getD sp (0, 0) = (n, c + 1) := by
        rw [hA2 sp (by omega)]
        rw [getD_set_ne _ _ _ _ _ (by omega), getD_set_self _ _ _ _ (by omega), hn]
      obtain ⟨k2, hk2, stack2, hB1, hB2, hB3⟩ :=
        loop_resume T s last fn d m c (fun _ => ihm (c + 1)) stackA sp n st1 st2 hsp
          (by omega) (by rw [hA1]; simpa using hlen) (by rw [hAsp]) hf2
      refine ⟨k2 + k1 + 1, ?_, stack2, ?_, ?_, fun fuel => ?_⟩
      · have : k1 + 1 ≤ geo d := by rw [hd2]; simp only [geo]; omega
        calc k2 + k1 + 1 ≤ m * geo d + geo d := by omega
          _ = (m + 1) * geo d := by ring
      · rw [hB1, hA1]; simp
      · intro i hi
        rw [hB2 i hi, hA2 i (by omega)]
        rw [getD_set_ne _ _ _ _ _ (by omega), getD_set_ne _ _ _ _ _ (by omega)]
      · have e1 : fuel + (k2 + k1 + 1) = (fuel + k2 + k1) + 1 := by omega
        rw [e1, loop_succ]
        simp only [do_fan_out_iter, if_pos hpush]
        rw [hA3 (fuel + k2), ← hB3 fuel]
        by_cases h26 : c + 1 = 26
        · simp only [h26, if_true]
          simp only [after]
          rw [unwind, hAsp]
          simp [h26]
        · simp only [h26, if_false]
          simp only [after]
          rw [unwind, hAsp]
          simp only [h26, if_false]
          rw [hAsp]
    · -- a null slot, or a slot at the target level
      have hcall : (if T.slot s n c ≠ T.null then fn st (T.slot s n c) else some st)
          = some st1 := by
        by_cases hv : T.slot s n c ≠ T.null
        · have hd0 : d = 0 := by
            by_contra hd
            exact hpush ⟨hv, by omega⟩
          rw [if_pos hv, hd0] at hf1
          rw [if_pos hv]
          simp only [reach, List.foldlM_cons, List.foldlM_nil] at hf1
          cases hfn : fn st (T.slot s n c) with
          | none => rw [hfn] at hf1; simp at hf1
          | some y => rw [hfn] at hf1; simpa using hf1
        · rw [if_neg hv] at hf1
          rw [if_neg hv]
          simpa using hf1
      obtain ⟨k2, hk2, stack2, hB1, hB2, hB3⟩ :=
        loop_resume T s last fn d m c (fun _ => ihm (c + 1)) stack sp n st1 st2 hsp
          (by omega) hlen hn hf2
      refine ⟨k2 + 1, ?_, stack2, hB1, hB2, fun fuel => ?_⟩
      · have := geo_pos d
        calc k2 + 1 ≤ m * geo d + geo d := by omega
          _ = (m + 1) * geo d := by ring
      · have e1 : fuel + (k2 + 1) = (fuel + k2) + 1 := by omega
        rw [e1, loop_succ]
        simp only [do_fan_out_iter, if_neg hpush, hcall]
        rw [← hB3 fuel]
        by_cases h26 : c + 1 = 26
        · simp only [h26, if_true]
          simp only [after]
          cases unwind stack sp with
          | none => rfl
          | some p => rfl
        · simp only [h26, if_false]

theorem loop_spec (s : S) (last : Nat) (fn : σ → Nat → Option σ) :
    ∀ d m c, LoopSpec T s last fn d m c := by
  intro d
  induction d with
  | zero => exact loop_inner T s last fn 0 (fun d2 h => by omega)
  | succ d ih =>
    exact loop_inner T s last fn (d + 1) (fun d2 h => by
      have : d2 = d := by omega
      subst this
      exact ih 26 0)

/-- `do_fan_out` visits `reach s depth node_pos` in order, provided the callback
returns on each of them. -/
theorem do_fan_out_eq (s : S) (node_pos depth : Nat) (fn : σ → Nat → Option σ)
    (st st2 : σ) (hd : 0 < depth)
    (h : (T.reach s depth node_pos).foldlM fn st = some st2) :
    T.do_fan_out s node_pos depth fn st = some st2 := by
  obtain ⟨d, rfl⟩ : ∃ d, depth = d + 1 := ⟨depth - 1, by omega⟩
  rw [reach_succ] at h
  obtain ⟨k, hk, stack2, _, _, h3⟩ :=
    loop_spec T s d fn d 26 0 ((List.replicate (d + 1) (0, 0)).set 0 (node_pos, 0)) 0
      node_pos st st2 (by omega) (by omega) (by omega) (by simp) (by simp) h
  have hle : k ≤ 27 ^ (d + 1) := by
    have := geo_le_pow d
    rw [pow_succ]
    omega
  unfold do_fan_out
  have e : 27 ^ (d + 1) = (27 ^ (d + 1) - k) + k := by omega
  rw [e]
  simp only [Nat.add_sub_cancel]
  rw [h3]
  simp [after, unwind]

/-- `deep_fan_out` visits `fanList s depth node_pos` in order, provided the
callback returns on each of them. -/
theorem deep_fan_out_eq (s : S) (node_pos depth : Nat) (fn : σ → Nat → Option σ)
    (st st2 : σ) (h : (T.fanList s depth node_pos).foldlM fn st = some st2) :
    T.deep_fan_out s node_pos depth fn st = some st2 := by
  unfold deep_fan_out
  unfold fanList at h
  by_cases hd : depth = 0
  · rw [if_pos hd] at h
    rw [if_neg (by simpa using hd)]
    by_cases hv : node_pos ≠ T.null
    · rw [if_pos hv] at h
      rw [if_pos hv]
      simp only [List.foldlM_cons, List.foldlM_nil] at h
      cases hfn : fn st node_pos with
      | none => rw [hfn] at h; simp at h
      | some y => rw [hfn] at h; simpa using h
    · rw [if_neg hv] at h
      rw [if_neg hv]
      simpa using h
  · rw [if_neg hd] at h
    rw [if_pos hd]
    exact do_fan_out_eq T s node_pos depth fn st st2 (by omega) h

end TrieStorageBase

end PatternMatch

namespace PatternMatch

/-! ## Insertion into a lawful storage -/

namespace TrieStorageBase

variable {S σ : Type} {T : TrieStorageBase S} {G : Gauge S}

theorem chIdx_lt (c : Char) (h : lower c) : chIdx c < 26 := by
  unfold lower at h
  unfold chIdx
  have ha : 'a'.toNat = 97 := by decide
  have hz : 'z'.toNat = 122 := by decide
  omega

theorem chIdx_inj (c d : Char) (hc : lower c) (hd : lower d) (h : chIdx c = chIdx d) :
    c = d := by
  unfold lower at hc hd
  unfold chIdx at h
  have ha : 'a'.toNat = 97 := by decide
  apply Char.ext
  apply UInt32.ext
  show c.toNat = d.toNat
  omega

theorem walk_nil (s : S) (v : Nat) : T.walk s v [] = v := rfl

theorem walk_cons (s : S) (v c : Nat) (k : List Nat) :
    T.walk s v (c :: k) = T.walk s (T.slot s v c) k := rfl

theorem walk_append (s : S) (v : Nat) (k1 k2 : List Nat) :
    T.walk s v (k1 ++ k2) = T.walk s (T.walk s v k1) k2 := by
  simp [walk, List.foldl_append]

theorem walk_snoc (s : S) (v c : Nat) (k : List Nat) :
    T.walk s v (k ++ [c]) = T.slot s (T.walk s v k) c := by
  simp [walk, List.foldl_append]

theorem walk_null (s : S) (hs : T.Sound s) (k : List Nat) : T.walk s T.null k = T.null := by
  induction k with
  | nil => rfl
  | cons c k ih => rw [walk_cons, hs.1 c, ih]

theorem follow_eq_walk (s : S) (v : Nat) (str : List Char) :
    T.follow s v str = T.walk s v (str.map chIdx) := by
  simp [follow, walk, List.foldl_map]

theorem slot_store_ne (Lw : Lawful T G) (s : S) (p c x q c2 : Nat) (hp : G.valid s p)
    (hq : q ≠ p) : T.slot (T.store s p c x) q c2 = T.slot s q c2 := by
  unfold slot
  rw [Lw.node_store s p c x q hp, if_neg hq]

theorem slot_store_self (Lw : Lawful T G) (s : S) (p c x c2 : Nat) (hp : G.valid s p)
    (hc : c < (T.node s p).length) :
    T.slot (T.store s p c x) p c2 = if c2 = c then x else T.slot s p c2 := by
  unfold slot
  rw [Lw.node_store s p c x p hp, if_pos rfl]
  by_cases h : c2 = c
  · subst h
    rw [if_pos rfl, getD_set_self _ _ _ _ hc]
  · rw [if_neg h, getD_set_ne _ _ _ _ _ (Ne.symm h)]

theorem slot_store (Lw : Lawful T G) (s : S) (p c x q c2 : Nat) (hp : G.valid s p)
    (hc : c < (T.node s p).length) :
    T.slot (T.store s p c x) q c2 = if q = p ∧ c2 = c then x else T.slot s q c2 := by
  by_cases hq : q = p
  · subst hq
    rw [slot_store_self Lw s q c x c2 hp hc]
    simp
  · rw [slot_store_ne Lw s p c x q c2 hp hq]
    simp [hq]

theorem getD_node_type_gen (v c : Nat) : (node_type v).getD c v = v := getD_node_type v c

theorem slot_add (Lw : Lawful T G) (s : S) (q c : Nat) (hw : G.wf s)
    (hok : G.ok (T.add_node s).1) :
    T.slot (T.add_node s).1 q c = if q = (T.add_node s).2 then T.null else T.slot s q c := by
  unfold slot
  rw [Lw.node_add s q hw hok]
  by_cases h : q = (T.add_node s).2
  · rw [if_pos h, if_pos h, getD_node_type]
  · rw [if_neg h, if_neg h]

theorem sound_store (Lw : Lawful T G) (s : S) (p c x : Nat) (hs : T.Sound s)
    (hp : G.valid s p) : T.Sound (T.store s p c x) := by
  constructor
  · intro c2
    rw [slot_store_ne Lw s p c x T.null c2 hp (Ne.symm (Lw.valid_ne_null s p hp))]
    exact hs.1 c2
  · intro v
    rw [Lw.node_store s p c x v hp]
    by_cases h : v = p
    · rw [if_pos h, List.length_set]; exact hs.2 p
    · rw [if_neg h]; exact hs.2 v

theorem valid_add_self (Lw : Lawful T G) (s : S) (hw : G.wf s) (hok : G.ok (T.add_node s).1) :
    G.valid (T.add_node s).1 (T.add_node s).2 :=
  (Lw.valid_add s _ hw hok).2 (Or.inr rfl)

theorem valid_add_old (Lw : Lawful T G) (s : S) (v : Nat) (hw : G.wf s)
    (hok : G.ok (T.add_node s).1) (hv : G.valid s v) : G.valid (T.add_node s).1 v :=
  (Lw.valid_add s _ hw hok).2 (Or.inl hv)

theorem sound_add (Lw : Lawful T G) (s : S) (hs : T.Sound s) (hw : G.wf s)
    (hok : G.ok (T.add_node s).1) : T.Sound (T.add_node s).1 := by
  constructor
  · intro c
    rw [slot_add Lw s T.null c hw hok]
    by_cases h : T.null = (T.add_node s).2
    · rw [if_pos h]
    · rw [if_neg h]; exact hs.1 c
  · intro v
    rw [Lw.node_add s v hw hok]
    by_cases h : v = (T.add_node s).2
    · rw [if_pos h]; exact length_node_type _
    · rw [if_neg h]; exact hs.2 v

/-- The effect on `walk` of writing `x` into slot `ci` of the node at the end of
the path `kp` from the root `r`. -/
theorem walk_update (R : List Nat) (L : Nat) (s s2 : S) (hI : Inv T G R L s)
    (r : Nat) (hr : r ∈ R) (kp : List Nat) (hkp : kp.length < L) (ci x : Nat)
    (hp : T.walk s r kp ≠ T.null)
    (hslot : ∀ r2 ∈ R, ∀ k : List Nat, k.length < L → ∀ c2,
      T.slot s2 (T.walk s r2 k) c2 =
        if T.walk s r2 k = T.walk s r kp ∧ c2 = ci then x else T.slot s (T.walk s r2 k) c2)
    (hcont : kp.length + 1 < L →
      T.slot s (T.walk s r kp) ci = T.null ∧ ∀ c2, T.slot s2 x c2 = T.null) :
    ∀ r2 ∈ R, ∀ k2 : List Nat, k2.length ≤ L →
      T.walk s2 r2 k2 = if r2 = r ∧ k2 = kp ++ [ci] then x else T.walk s r2 k2 := by
  intro r2 hr2 k2
  induction k2 using List.reverseRecOn with
  | nil =>
    intro _
    rw [if_neg (by simp)]
    rfl
  | append_singleton k c2 ih =>
    intro hlen
    rw [List.length_append, List.length_singleton] at hlen
    have hk : k.length < L := by omega
    rw [walk_snoc, ih (by omega)]
    by_cases hA : r2 = r ∧ k = kp ++ [ci]
    · rw [if_pos hA]
      obtain ⟨rfl, rfl⟩ := hA
      rw [List.length_append, List.length_singleton] at hk
      obtain ⟨h0, hx⟩ := hcont hk
      rw [hx c2, if_neg (by simp)]
      rw [walk_snoc, walk_snoc, h0, hI.sound.1]
    · rw [if_neg hA, hslot r2 hr2 k hk c2]
      by_cases hB : T.walk s r2 k = T.walk s r kp ∧ c2 = ci
      · rw [if_pos hB]
        obtain ⟨h1, h2⟩ := hI.inj r2 hr2 r hr k kp hk hkp hB.1 (by rw [hB.1]; exact hp)
        rw [if_pos ⟨h1, by rw [h2, hB.2]⟩]
      · rw [if_neg hB, walk_snoc]
        rw [if_neg]
        rintro ⟨h1, h2⟩
        obtain ⟨h3, h4⟩ := List.append_inj' h2 rfl
        apply hB
        subst h1 h3
        exact ⟨rfl, by simpa using h4⟩

/-- The invariant survives a change that leaves the walks of fewer than `L`
steps alone, except possibly for one whose new end is a freshly allocated node. -/
theorem inv_update (R : List Nat) (L : Nat) (s s2 : S) (hI : Inv T G R L s)
    (hsound : T.Sound s2) (hwf : G.wf s2) (hok : G.ok s2)
    (hval : ∀ v, G.valid s v → G.valid s2 v)
    (r0 : Nat) (k0 : List Nat) (x : Nat)
    (hx : k0.length < L → G.valid s2 x ∧ ¬ G.valid s x)
    (hwalk : ∀ r2 ∈ R, ∀ k : List Nat, k.length < L →
      T.walk s2 r2 k = if r2 = r0 ∧ k = k0 then x else T.walk s r2 k) :
    Inv T G R L s2 := by
  refine ⟨hsound, hwf, hok, fun r hr => hval r (hI.roots r hr), ?_, ?_⟩
  · intro r hr k hk hne
    rw [hwalk r hr k hk] at hne ⊢
    by_cases hA : r = r0 ∧ k = k0
    · rw [if_pos hA]
      exact (hx (by rw [← hA.2]; exact hk)).1
    · rw [if_neg hA] at hne ⊢
      exact hval _ (hI.alloc r hr k hk hne)
  · intro r1 hr1 r2 hr2 k1 k2 hk1 hk2 heq hne
    rw [hwalk r1 hr1 k1 hk1] at heq hne
    rw [hwalk r2 hr2 k2 hk2] at heq
    by_cases hA : r1 = r0 ∧ k1 = k0
    · by_cases hB : r2 = r0 ∧ k2 = k0
      · exact ⟨hA.1.trans hB.1.symm, hA.2.trans hB.2.symm⟩
      · rw [if_pos hA, if_neg hB] at heq
        rw [if_pos hA] at hne
        exfalso
        apply (hx (by rw [← hA.2]; exact hk1)).2
        rw [heq]
        exact hI.alloc r2 hr2 k2 hk2 (by rw [← heq]; exact hne)
    · by_cases hB : r2 = r0 ∧ k2 = k0
      · rw [if_neg hA, if_pos hB] at heq
        rw [if_neg hA] at hne
        exfalso
        apply (hx (by rw [← hB.2]; exact hk2)).2
        rw [← heq]
        exact hI.alloc r1 hr1 k1 hk1 hne
      · rw [if_neg hA, if_neg hB] at heq
        rw [if_neg hA] at hne
        exact hI.inj r1 hr1 r2 hr2 k1 k2 hk1 hk2 heq hne

end TrieStorageBase

end PatternMatch

namespace PatternMatch

namespace TrieStorageBase

variable {S σ : Type} {T : TrieStorageBase S} {G : Gauge S}

theorem insert_single (s : S) (p : Nat) (c : Char) (data : Nat) :
    T.insert s p [c] data = T.store s p (chIdx c) data := rfl

theorem insert_cons2 (s : S) (p : Nat) (c c2 : Char) (rest : List Char) (data : Nat) :
    T.insert s p (c :: c2 :: rest) data =
      if T.slot s p (chIdx c) = T.null then
        T.insert (T.store (T.add_node s).1 p (chIdx c) (T.add_node s).2) (T.add_node s).2
          (c2 :: rest) data
      else T.insert s (T.slot s p (chIdx c)) (c2 :: rest) data := rfl

theorem ok_insert_back (Lw : Lawful T G) (key : List Char) :
    ∀ (s : S) (p data : Nat), G.ok (T.insert s p key data) → G.ok s := by
  induction key with
  | nil => intro s p data h; exact h
  | cons c rest ih =>
    intro s p data h
    cases rest with
    | nil =>
      rw [insert_single] at h
      exact (Lw.ok_store s p _ data).1 h
    | cons c2 rest2 =>
      rw [insert_cons2] at h
      by_cases hn : T.slot s p (chIdx c) = T.null
      · rw [if_pos hn] at h
        exact Lw.ok_add s ((Lw.ok_store _ _ _ _).1 (ih _ _ _ h))
      · rw [if_neg hn] at h
        exact ih _ _ _ h

/-- Inserting a key below the node at the end of the path `kp` keeps the
invariant and changes exactly one full-length walk. -/
theorem insert_spec (Lw : Lawful T G) (R : List Nat) (L : Nat) (key : List Char) :
    ∀ (s : S) (r : Nat) (kp : List Nat) (data : Nat),
      Inv T G R L s → r ∈ R → key ≠ [] → kp.length + key.length = L →
      (∀ c ∈ key, lower c) → T.walk s r kp ≠ T.null →
      G.ok (T.insert s (T.walk s r kp) key data) →
      Inv T G R L (T.insert s (T.walk s r kp) key data) ∧
      ∀ r2 ∈ R, ∀ k2 : List Nat, k2.length = L →
        T.walk (T.insert s (T.walk s r kp) key data) r2 k2 =
          if r2 = r ∧ k2 = kp ++ key.map chIdx then data else T.walk s r2 k2 := by
  induction key with
  | nil => intro s r kp data _ _ h; exact absurd rfl h
  | cons c rest ih =>
    intro s r kp data hI hr _ hlen hlow hp hok
    have hc26 : chIdx c < 26 := chIdx_lt c (hlow c (by simp))
    have hkpL : kp.length < L := by simp at hlen; omega
    have hpv : G.valid s (T.walk s r kp) := hI.alloc r hr kp hkpL hp
    cases rest with
    | nil =>
      rw [insert_single] at hok ⊢
      have hlen1 : kp.length + 1 = L := by simpa using hlen
      have hW := walk_update R L s (T.store s (T.walk s r kp) (chIdx c) data) hI r hr kp hkpL
        (chIdx c) data hp
        (fun r2 _ k _ c2 => slot_store Lw s _ _ _ _ c2 hpv (by rw [hI.sound.2]; exact hc26))
        (fun h => by omega)
      constructor
      · apply inv_update R L s _ hI (sound_store Lw s _ _ _ hI.sound hpv)
          (Lw.wf_store s _ _ _ hI.wf) hok (fun v hv => (Lw.valid_store s _ _ _ v).2 hv)
          r (kp ++ [chIdx c]) data
        · intro h
          rw [List.length_append, List.length_singleton] at h
          omega
        · intro r2 hr2 k hk
          exact hW r2 hr2 k (by omega)
      · intro r2 hr2 k2 hk2
        rw [hW r2 hr2 k2 (by omega)]
        rfl
    | cons c2 rest2 =>
      have hlen2 : kp.length + 1 + (c2 :: rest2).length = L := by
        simp only [List.length_cons] at hlen ⊢
        omega
      have hlow2 : ∀ c ∈ c2 :: rest2, lower c := fun x hx => hlow x (List.mem_cons_of_mem _ hx)
      have hkey : kp ++ [chIdx c] ++ (c2 :: rest2).map chIdx
          = kp ++ (c :: c2 :: rest2).map chIdx := by simp
      rw [insert_cons2] at hok ⊢
      by_cases hn : T.slot s (T.walk s r kp) (chIdx c) = T.null
      · rw [if_pos hn] at hok ⊢
        have hok2 := ok_insert_back Lw _ _ _ _ hok
        have hok1 : G.ok (T.add_node s).1 := (Lw.ok_store _ _ _ _).1 hok2
        have hfresh := Lw.fresh_add s hI.wf hok1
        have hfv := valid_add_self Lw s hI.wf hok1
        have hpv1 := valid_add_old Lw s _ hI.wf hok1 hpv
        have hs1 := sound_add Lw s hI.sound hI.wf hok1
        have hfp : (T.add_node s).2 ≠ T.walk s r kp := by
          intro h; rw [h] at hfresh; exact hfresh hpv
        have hW := walk_update R L s
          (T.store (T.add_node s).1 (T.walk s r kp) (chIdx c) (T.add_node s).2) hI r hr kp hkpL
          (chIdx c) (T.add_node s).2 hp
          (fun r2 hr2 k hk c3 => by
            rw [slot_store Lw _ _ _ _ _ c3 hpv1 (by rw [hs1.2]; exact hc26)]
            by_cases hB : T.walk s r2 k = T.walk s r kp ∧ c3 = chIdx c
            · rw [if_pos hB, if_pos hB]
            · rw [if_neg hB, if_neg hB, slot_add Lw s _ c3 hI.wf hok1, if_neg]
              intro hf
              by_cases h0 : T.walk s r2 k = T.null
              · exact Lw.valid_ne_null _ _ hfv (hf ▸ h0)
              · exact hfresh (hf ▸ hI.alloc r2 hr2 k hk h0))
          (fun _ => ⟨hn, fun c3 => by
            rw [slot_store_ne Lw _ _ _ _ _ c3 hpv1 hfp, slot_add Lw s _ c3 hI.wf hok1,
              if_pos rfl]⟩)
        have hI2 : Inv T G R L
            (T.store (T.add_node s).1 (T.walk s r kp) (chIdx c) (T.add_node s).2) := by
          apply inv_update R L s _ hI (sound_store Lw _ _ _ _ hs1 hpv1)
            (Lw.wf_store _ _ _ _ (Lw.wf_add s hI.wf)) hok2
            (fun v hv => (Lw.valid_store _ _ _ _ v).2 (valid_add_old Lw s v hI.wf hok1 hv))
            r (kp ++ [chIdx c]) (T.add_node s).2
          · intro _
            exact ⟨(Lw.valid_store _ _ _ _ _).2 hfv, hfresh⟩
          · intro r2 hr2 k hk
            exact hW r2 hr2 k (by omega)
        have hwf : T.walk (T.store (T.add_node s).1 (T.walk s r kp) (chIdx c) (T.add_node s).2)
            r (kp ++ [chIdx c]) = (T.add_node s).2 := by
          rw [hW r hr _ (by simp; omega), if_pos ⟨rfl, rfl⟩]
        have hstep := ih _ r (kp ++ [chIdx c]) data hI2 hr (by simp)
          (by rw [List.length_append, List.length_singleton]; exact hlen2) hlow2
          (by rw [hwf]; exact Lw.valid_ne_null _ _ hfv) (by rw [hwf]; exact hok)
        rw [hwf, hkey] at hstep
        refine ⟨hstep.1, fun r2 hr2 k2 hk2 => ?_⟩
        rw [hstep.2 r2 hr2 k2 hk2, hW r2 hr2 k2 (by omega)]
        have hne : ¬ (r2 = r ∧ k2 = kp ++ [chIdx c]) := by
          rintro ⟨_, h⟩
          rw [h, List.length_append, List.length_singleton] at hk2
          simp only [List.length_cons] at hlen2
          omega
        rw [if_neg hne]
      · rw [if_neg hn] at hok ⊢
        have hw1 : T.walk s r (kp ++ [chIdx c]) = T.slot s (T.walk s r kp) (chIdx c) :=
          walk_snoc s r _ kp
        have hstep := ih s r (kp ++ [chIdx c]) data hI hr (by simp)
          (by rw [List.length_append, List.length_singleton]; exact hlen2) hlow2
          (by rw [hw1]; exact hn) (by rw [hw1]; exact hok)
        rw [hw1, hkey] at hstep
        exact hstep

end TrieStorageBase

end PatternMatch

namespace PatternMatch

namespace TrieStorageBase

variable {S σ : Type} {T : TrieStorageBase S} {G : Gauge S}

theorem runOps_cons (s : S) (o : InsertOp) (ops : List InsertOp) :
    runOps T s (o :: ops) = runOps T (T.insert s o.root o.key o.data) ops := rfl

theorem runOps_append (s : S) (a b : List InsertOp) :
    runOps T s (a ++ b) = runOps T (runOps T s a) b := by
  simp [runOps, List.foldl_append]

theorem ok_runOps_back (Lw : Lawful T G) (ops : List InsertOp) :
    ∀ s : S, G.ok (runOps T s ops) → G.ok s := by
  induction ops with
  | nil => intro s h; exact h
  | cons o ops ih =>
    intro s h
    rw [runOps_cons] at h
    exact ok_insert_back Lw _ _ _ _ (ih _ h)

/-- Running insertions at the roots keeps the invariant, leaves the untargeted
full-length walks alone and makes each targeted walk end at the data written
there, provided the insertions with one target agree on the data. -/
theorem runOps_spec (Lw : Lawful T G) (R : List Nat) (L : Nat) (hL : 0 < L)
    (ops : List InsertOp) :
    ∀ s : S, Inv T G R L s →
      (∀ o ∈ ops, o.root ∈ R ∧ o.key.length = L ∧ ∀ c ∈ o.key, lower c) →
      G.ok (runOps T s ops) →
      Inv T G R L (runOps T s ops) ∧
      (∀ r ∈ R, ∀ k : List Nat, k.length = L →
        (∀ o ∈ ops, ¬ (o.root = r ∧ o.key.map chIdx = k)) →
        T.walk (runOps T s ops) r k = T.walk s r k) ∧
      (∀ r ∈ R, ∀ k : List Nat, k.length = L → ∀ d : Nat,
        (∃ o ∈ ops, o.root = r ∧ o.key.map chIdx = k) →
        (∀ o ∈ ops, o.root = r → o.key.map chIdx = k → o.data = d) →
        T.walk (runOps T s ops) r k = d) := by
  induction ops with
  | nil =>
    intro s hI _ _
    refine ⟨hI, fun _ _ _ _ _ => rfl, fun _ _ _ _ _ h _ => ?_⟩
    obtain ⟨o, ho, _⟩ := h
    simp at ho
  | cons o ops ih =>
    intro s hI hops hok
    rw [runOps_cons] at hok ⊢
    obtain ⟨hoR, hoL, holow⟩ := hops o (by simp)
    have hok1 := ok_runOps_back Lw ops _ hok
    have hne : o.key ≠ [] := by
      intro h; rw [h] at hoL; simp at hoL; omega
    have hroot : T.walk s o.root [] ≠ T.null := Lw.valid_ne_null _ _ (hI.roots _ hoR)
    obtain ⟨hI1, hF1⟩ := insert_spec Lw R L o.key s o.root [] o.data hI hoR hne
      (by simpa using hoL) holow hroot hok1
    rw [walk_nil] at hI1 hF1
    obtain ⟨hI2, hA, hB⟩ := ih _ hI1 (fun o2 h2 => hops o2 (List.mem_cons_of_mem _ h2)) hok
    refine ⟨hI2, ?_, ?_⟩
    · intro r hr k hk hun
      rw [hA r hr k hk (fun o2 h2 => hun o2 (List.mem_cons_of_mem _ h2)), hF1 r hr k hk]
      rw [if_neg]
      rintro ⟨h1, h2⟩
      exact hun o (by simp) ⟨h1.symm, by simpa using h2.symm⟩
    · intro r hr k hk d hex hcons
      by_cases hlater : ∃ o2 ∈ ops, o2.root = r ∧ o2.key.map chIdx = k
      · exact hB r hr k hk d hlater
          (fun o2 h2 => hcons o2 (List.mem_cons_of_mem _ h2))
      · have hun : ∀ o2 ∈ ops, ¬ (o2.root = r ∧ o2.key.map chIdx = k) :=
          fun o2 h2 h3 => hlater ⟨o2, h2, h3⟩
        obtain ⟨o3, ho3, h3r, h3k⟩ := hex
        have ho3o : o3 = o := by
          rcases List.mem_cons.1 ho3 with h | h
          · exact h
          · exact absurd ⟨h3r, h3k⟩ (hun o3 h)
        subst ho3o
        rw [hA r hr k hk hun, hF1 r hr k hk, if_pos ⟨h3r.symm, by simpa using h3k.symm⟩]
        exact hcons o3 (by simp) h3r h3k

/-- The empty storage satisfies the invariant with no roots. -/
theorem inv_empty (Lw : Lawful T G) (L : Nat) (hok : G.ok T.empty) : Inv T G [] L T.empty :=
  ⟨Lw.sound_empty, Lw.wf_empty, hok, fun _ h => by simp at h, fun _ h => by simp at h,
    fun _ h => by simp at h⟩

theorem walk_add (Lw : Lawful T G) (R : List Nat) (L : Nat) (s : S) (hI : Inv T G R L s)
    (hok : G.ok (T.add_node s).1) (r : Nat) (hr : r ∈ R) (k : List Nat) :
    k.length ≤ L → T.walk (T.add_node s).1 r k = T.walk s r k := by
  induction k using List.reverseRecOn with
  | nil => intro _; rfl
  | append_singleton k c ih =>
    intro hlen
    rw [List.length_append, List.length_singleton] at hlen
    rw [walk_snoc, walk_snoc, ih (by omega), slot_add Lw s _ c hI.wf hok, if_neg]
    intro hf
    have hfresh := Lw.fresh_add s hI.wf hok
    by_cases h0 : T.walk s r k = T.null
    · exact Lw.valid_ne_null _ _ (valid_add_self Lw s hI.wf hok) (hf ▸ h0)
    · exact hfresh (hf ▸ hI.alloc r hr k (by omega) h0)

theorem walk_fresh (Lw : Lawful T G) (s : S) (hs : T.Sound s) (hw : G.wf s)
    (hok : G.ok (T.add_node s).1) (k : List Nat) (hk : k ≠ []) :
    T.walk (T.add_node s).1 (T.add_node s).2 k = T.null := by
  cases k with
  | nil => exact absurd rfl hk
  | cons c k =>
    rw [walk_cons, slot_add Lw s _ c hw hok, if_pos rfl]
    exact walk_null _ (sound_add Lw s hs hw hok) k

/-- Allocating a fresh root keeps the invariant, with the new root added. -/
theorem inv_add_root (Lw : Lawful T G) (R : List Nat) (L : Nat) (s : S) (hI : Inv T G R L s)
    (hok : G.ok (T.add_node s).1) :
    Inv T G ((T.add_node s).2 :: R) L (T.add_node s).1 := by
  have hfresh := Lw.fresh_add s hI.wf hok
  have hfv := valid_add_self Lw s hI.wf hok
  have hnew : ∀ k : List Nat, T.walk (T.add_node s).1 (T.add_node s).2 k ≠ T.null → k = [] := by
    intro k h
    by_contra hk
    exact h (walk_fresh Lw s hI.sound hI.wf hok k hk)
  have hold : ∀ r ∈ R, ∀ k : List Nat, k.length < L →
      T.walk (T.add_node s).1 r k ≠ T.null → G.valid s (T.walk (T.add_node s).1 r k) := by
    intro r hr k hk h
    rw [walk_add Lw R L s hI hok r hr k (by omega)] at h ⊢
    exact hI.alloc r hr k hk h
  refine ⟨sound_add Lw s hI.sound hI.wf hok, Lw.wf_add s hI.wf, hok, ?_, ?_, ?_⟩
  · intro r hr
    rcases List.mem_cons.1 hr with h | h
    · rw [h]; exact hfv
    · exact valid_add_old Lw s r hI.wf hok (hI.roots r h)
  · intro r hr k hk hne
    rcases List.mem_cons.1 hr with h | h
    · subst h
      rw [hnew k hne]
      exact hfv
    · exact valid_add_old Lw s _ hI.wf hok (hold r h k hk hne)
  · intro r1 hr1 r2 hr2 k1 k2 hk1 hk2 heq hne
    rcases List.mem_cons.1 hr1 with h1 | h1 <;> rcases List.mem_cons.1 hr2 with h2 | h2
    · subst h1 h2
      rw [hnew k1 hne, hnew k2 (heq ▸ hne)]
      exact ⟨rfl, rfl⟩
    · subst h1
      exfalso
      have := hold r2 h2 k2 hk2 (heq ▸ hne)
      rw [← heq, hnew k1 hne] at this
      exact hfresh this
    · subst h2
      exfalso
      have := hold r1 h1 k1 hk1 hne
      rw [heq, hnew k2 (heq ▸ hne)] at this
      exact hfresh this
    · rw [walk_add Lw R L s hI hok r1 h1 k1 (by omega)] at heq hne
      rw [walk_add Lw R L s hI hok r2 h2 k2 (by omega)] at heq
      exact hI.inj r1 h1 r2 h2 k1 k2 hk1 hk2 heq hne

theorem map_chIdx_inj (a b : List Char) (ha : ∀ c ∈ a, lower c) (hb : ∀ c ∈ b, lower c)
    (h : a.map chIdx = b.map chIdx) : a = b := by
  induction a generalizing b with
  | nil => cases b with
    | nil => rfl
    | cons d b => simp at h
  | cons c a ih =>
    cases b with
    | nil => simp at h
    | cons d b =>
      simp only [List.map_cons, List.cons.injEq] at h
      rw [chIdx_inj c d (ha c (by simp)) (hb d (by simp)) h.1,
        ih b (fun x hx => ha x (List.mem_cons_of_mem _ hx))
          (fun x hx => hb x (List.mem_cons_of_mem _ hx)) h.2]

end TrieStorageBase

end PatternMatch

namespace PatternMatch

/-! ## The interleave transform -/

theorem mixFrom_length (src : List Char) : ∀ (n i : Nat), (mixFrom src i n).length = n
  | 0, _ => rfl
  | 1, _ => rfl
  | n + 2, i => by
    rw [mixFrom, List.length_cons, List.length_cons, mixFrom_length src n (i + 1)]

theorem mix_length (src : List Char) (len : Nat) : (mix src len).length = len :=
  mixFrom_length src len 0

theorem mixFrom_forall₂ (R : Char → Char → Prop) (a b : List Char) :
    ∀ (n i : Nat), List.Forall₂ R (mixFrom a i n) (mixFrom b i n) ↔
      ∀ j, i ≤ j → j < i + n → R (a.getD j (Char.ofNat 0)) (b.getD j (Char.ofNat 0))
  | 0, i => by
    simp only [mixFrom, List.Forall₂.nil, true_iff]
    intro j h1 h2
    omega
  | 1, i => by
    simp only [mixFrom, List.forall₂_cons, List.Forall₂.nil, and_true]
    constructor
    · intro h j h1 h2
      have : j = i := by omega
      rw [this]; exact h
    · intro h
      exact h i (le_refl _) (by omega)
  | n + 2, i => by
    simp only [mixFrom, List.forall₂_cons]
    rw [mixFrom_forall₂ R a b n (i + 1)]
    constructor
    · rintro ⟨h1, h2, h3⟩ j hj1 hj2
      by_cases e1 : j = i
      · rw [e1]; exact h1
      · by_cases e2 : j = i + n + 1
        · rw [e2]; exact h2
        · exact h3 j (by omega) (by omega)
    · intro h
      exact ⟨h i (le_refl _) (by omega), h (i + n + 1) (by omega) (by omega),
        fun j hj1 hj2 => h j (by omega) (by omega)⟩

theorem forall₂_iff_getD (R : Char → Char → Prop) :
    ∀ (n : Nat) (a b : List Char), a.length = n → b.length = n →
      (List.Forall₂ R a b ↔
        ∀ j, j < n → R (a.getD j (Char.ofNat 0)) (b.getD j (Char.ofNat 0))) := by
  intro n
  induction n with
  | zero =>
    intro a b ha hb
    rw [List.length_eq_zero] at ha hb
    subst ha hb
    simp
  | succ n ih =>
    intro a b ha hb
    cases a with
    | nil => simp at ha
    | cons x a =>
      cases b with
      | nil => simp at hb
      | cons y b =>
        simp only [List.length_cons, Nat.add_right_cancel_iff] at ha hb
        rw [List.forall₂_cons, ih a b ha hb]
        constructor
        · rintro ⟨h1, h2⟩ j hj
          cases j with
          | zero => exact h1
          | succ j => exact h2 j (by omega)
        · intro h
          exact ⟨h 0 (by omega), fun j hj => h (j + 1) (by omega)⟩

/-- The interleave transform respects every pointwise relation. -/
theorem mix_forall₂ (R : Char → Char → Prop) (n : Nat) (a b : List Char)
    (ha : a.length = n) (hb : b.length = n) :
    List.Forall₂ R (mix a n) (mix b n) ↔ List.Forall₂ R a b := by
  unfold mix
  rw [mixFrom_forall₂ R a b n 0, forall₂_iff_getD R n a b ha hb]
  constructor
  · intro h j hj; exact h j (Nat.zero_le _) (by omega)
  · intro h j _ hj; exact h j (by omega)

theorem mix_inj (n : Nat) (a b : List Char) (ha : a.length = n) (hb : b.length = n)
    (h : mix a n = mix b n) : a = b := by
  have h1 : List.Forall₂ (fun x y => x = y) (mix a n) (mix b n) := by
    rw [h]; exact List.forall₂_same.2 (fun _ _ => rfl)
  have h2 := (mix_forall₂ _ n a b ha hb).1 h1
  rw [List.forall₂_eq_eq_eq] at h2
  exact h2

theorem mixFrom_mem (src : List Char) :
    ∀ (n i : Nat) (c : Char), c ∈ mixFrom src i n →
      ∃ j, i ≤ j ∧ j < i + n ∧ c = src.getD j (Char.ofNat 0)
  | 0, _, c => by intro h; simp [mixFrom] at h
  | 1, i, c => by
    intro h
    simp only [mixFrom, List.mem_singleton] at h
    exact ⟨i, le_refl _, by omega, h⟩
  | n + 2, i, c => by
    intro h
    simp only [mixFrom, List.mem_cons] at h
    rcases h with h | h | h
    · exact ⟨i, le_refl _, by omega, h⟩
    · exact ⟨i + n + 1, by omega, by omega, h⟩
    · obtain ⟨j, h1, h2, h3⟩ := mixFrom_mem src n (i + 1) c h
      exact ⟨j, by omega, by omega, h3⟩

theorem mix_mem (src : List Char) (c : Char) (h : c ∈ mix src src.length) : c ∈ src := by
  obtain ⟨j, _, h2, h3⟩ := mixFrom_mem src src.length 0 c h
  rw [h3, List.getD_eq_getElem?_getD, List.getElem?_eq_getElem (by omega)]
  exact List.getElem_mem _

end PatternMatch

namespace PatternMatch

/-! ## What the constructors build -/

open TrieStorageBase

theorem pair_eq_of_fst_eq (W : List (List Char × Nat)) (hnd : (W.map Prod.fst).Nodup)
    (p q : List Char × Nat) (hp : p ∈ W) (hq : q ∈ W) (h : p.1 = q.1) : p = q :=
  List.inj_on_of_nodup_map hnd hp hq h

namespace TrieMatcher

variable {S : Type} {T : TrieStorageBase S} {G : Gauge S}

theorem foldl_eq_runOps (fwd rev : Nat) (W : List (List Char × Nat)) :
    ∀ s : S, W.foldl (fun s pair =>
        T.insert (T.insert s fwd pair.1 (T.from_num pair.2)) rev pair.1.reverse
          (T.from_num pair.2)) s = runOps T s (buildOps T fwd rev W) := by
  induction W with
  | nil => intro s; rfl
  | cons p W ih =>
    intro s
    rw [List.foldl_cons, ih]
    rfl

theorem build_eq (W : Words) (hL : W.length ≠ 0) :
    build T W =
      ⟨runOps T (T.add_node (T.add_node T.empty).1).1
          (buildOps T (T.add_node T.empty).2 (T.add_node (T.add_node T.empty).1).2 W.words),
        (T.add_node T.empty).2, (T.add_node (T.add_node T.empty).1).2, W.words.length,
        W.length⟩ := by
  unfold build
  simp only [Words.word_length, ne_eq, hL, not_false_eq_true, if_true, Words.size]
  rw [foldl_eq_runOps]

theorem mem_buildOps (fwd rev : Nat) (W : List (List Char × Nat)) (o : InsertOp) :
    o ∈ buildOps T fwd rev W ↔
      ∃ p ∈ W, o = ⟨fwd, p.1, T.from_num p.2⟩ ∨ o = ⟨rev, p.1.reverse, T.from_num p.2⟩ := by
  unfold buildOps
  simp [List.mem_flatMap]

/-- After construction from a valid corpus within the storage's range, the
forward trie holds the corpus keyed by the words and the reverse trie holds
it keyed by the reversed words. -/
theorem build_holds (Lw : Lawful T G) (W : Words) (hV : W.Valid) (hL : 0 < W.length)
    (hok : G.ok (build T W).nodes) :
    T.Sound (build T W).nodes ∧ (build T W).length = W.length ∧
    Holds T (build T W).nodes (build T W).fwd_trie_root W.length (fun w => w) W.words ∧
    Holds T (build T W).nodes (build T W).rev_trie_root W.length List.reverse W.words := by
  obtain ⟨hlen, hnd, _, _⟩ := hV
  rw [build_eq W (by omega)] at hok ⊢
  simp only at hok ⊢
  have hok2 := ok_runOps_back Lw _ _ hok
  have hok1 := Lw.ok_add _ hok2
  have hok0 := Lw.ok_add _ hok1
  have hI0 := inv_empty Lw W.length hok0
  have hI1 := inv_add_root Lw [] W.length T.empty hI0 hok1
  have hI2 := inv_add_root Lw _ W.length _ hI1 hok2
  have hne : (T.add_node T.empty).2 ≠ (T.add_node (T.add_node T.empty).1).2 := by
    intro h
    have hf := Lw.fresh_add _ hI1.wf hok2
    rw [← h] at hf
    exact hf (hI1.roots _ (by simp))
  have hfwdR : (T.add_node T.empty).2 ∈
      [(T.add_node (T.add_node T.empty).1).2, (T.add_node T.empty).2] := by simp
  have hrevR : (T.add_node (T.add_node T.empty).1).2 ∈
      [(T.add_node (T.add_node T.empty).1).2, (T.add_node T.empty).2] := by simp
  have hops : ∀ o ∈ buildOps T (T.add_node T.empty).2 (T.add_node (T.add_node T.empty).1).2
      W.words, o.root ∈ [(T.add_node (T.add_node T.empty).1).2, (T.add_node T.empty).2] ∧
        o.key.length = W.length ∧ ∀ c ∈ o.key, lower c := by
    intro o ho
    obtain ⟨p, hp, h | h⟩ := (mem_buildOps _ _ _ o).1 ho
    · subst h
      exact ⟨hfwdR, (hlen p hp).1, (hlen p hp).2⟩
    · subst h
      exact ⟨hrevR, by simpa using (hlen p hp).1,
        fun c hc => (hlen p hp).2 c (List.mem_reverse.1 hc)⟩
  obtain ⟨hIf, hA, hB⟩ := runOps_spec Lw _ W.length hL _ _ hI2 hops hok
  have hnull1 : ∀ k : List Nat, k.length = W.length →
      T.walk (T.add_node (T.add_node T.empty).1).1 (T.add_node T.empty).2 k = T.null := by
    intro k hk
    rw [walk_add Lw _ W.length _ hI1 hok2 _ (by simp) k (by omega)]
    exact walk_fresh Lw _ hI0.sound hI0.wf hok1 k (by intro h; rw [h] at hk; simp at hk; omega)
  have hnull2 : ∀ k : List Nat, k.length = W.length →
      T.walk (T.add_node (T.add_node T.empty).1).1 (T.add_node (T.add_node T.empty).1).2 k
        = T.null := by
    intro k hk
    exact walk_fresh Lw _ hI1.sound hI1.wf hok2 k (by intro h; rw [h] at hk; simp at hk; omega)
  refine ⟨hIf.sound, trivial, ⟨?_, ?_⟩, ⟨?_, ?_⟩⟩
  · intro p hp
    apply hB _ hfwdR _ (by simpa using (hlen p hp).1) _
      ⟨⟨_, p.1, T.from_num p.2⟩, (mem_buildOps _ _ _ _).2 ⟨p, hp, Or.inl rfl⟩, rfl, rfl⟩
    intro o ho hroot hkey
    obtain ⟨q, hq, h | h⟩ := (mem_buildOps _ _ _ o).1 ho
    · subst h
      have e := map_chIdx_inj _ _ (hlen q hq).2 (hlen p hp).2 hkey
      rw [pair_eq_of_fst_eq W.words hnd q p hq hp e]
    · subst h
      exact absurd hroot.symm hne
  · intro k hk hun
    rw [hA _ hfwdR k hk, hnull1 k hk]
    intro o ho ⟨hroot, hkey⟩
    obtain ⟨q, hq, h | h⟩ := (mem_buildOps _ _ _ o).1 ho
    · subst h
      exact hun q hq hkey
    · subst h
      exact hne hroot.symm
  · intro p hp
    apply hB _ hrevR _ (by simpa using (hlen p hp).1) _
      ⟨⟨_, p.1.reverse, T.from_num p.2⟩, (mem_buildOps _ _ _ _).2 ⟨p, hp, Or.inr rfl⟩, rfl, rfl⟩
    intro o ho hroot hkey
    obtain ⟨q, hq, h | h⟩ := (mem_buildOps _ _ _ o).1 ho
    · subst h
      exact absurd hroot hne
    · subst h
      have e := map_chIdx_inj _ _
        (fun c hc => (hlen q hq).2 c (List.mem_reverse.1 hc))
        (fun c hc => (hlen p hp).2 c (List.mem_reverse.1 hc)) hkey
      rw [pair_eq_of_fst_eq W.words hnd q p hq hp (List.reverse_injective e)]
  · intro k hk hun
    rw [hA _ hrevR k hk, hnull2 k hk]
    intro o ho ⟨hroot, hkey⟩
    obtain ⟨q, hq, h | h⟩ := (mem_buildOps _ _ _ o).1 ho
    · subst h
      exact hne hroot
    · subst h
      exact hun q hq hkey

end TrieMatcher

namespace TrieMixMatcher

variable {S : Type} {T : TrieStorageBase S} {G : Gauge S}

theorem mix_foldl_eq_runOps (root len : Nat) (W : List (List Char × Nat)) :
    ∀ s : S, W.foldl (fun s pair => T.insert s root (mix pair.1 len) (T.from_num pair.2)) s
      = runOps T s (buildOps T root len W) := by
  induction W with
  | nil => intro s; rfl
  | cons p W ih =>
    intro s
    rw [List.foldl_cons, ih]
    rfl

theorem mix_build_eq (W : Words) (hL : W.length ≠ 0) :
    build T W =
      ⟨runOps T (T.add_node T.empty).1 (buildOps T (T.add_node T.empty).2 W.length W.words),
        (T.add_node T.empty).2, W.words.length, W.length⟩ := by
  unfold build
  simp only [Words.word_length, ne_eq, hL, not_false_eq_true, if_true, Words.size]
  rw [mix_foldl_eq_runOps]

theorem mix_mem_buildOps (root len : Nat) (W : List (List Char × Nat)) (o : InsertOp) :
    o ∈ buildOps T root len W ↔ ∃ p ∈ W, o = ⟨root, mix p.1 len, T.from_num p.2⟩ := by
  unfold buildOps
  simp only [List.mem_map]
  constructor
  · rintro ⟨p, hp, h⟩; exact ⟨p, hp, h.symm⟩
  · rintro ⟨p, hp, h⟩; exact ⟨p, hp, h.symm⟩

/-- After construction from a valid corpus within the storage's range, the
trie holds the corpus keyed by the interleaved words. -/
theorem mix_build_holds (Lw : Lawful T G) (W : Words) (hV : W.Valid) (hL : 0 < W.length)
    (hok : G.ok (build T W).nodes) :
    T.Sound (build T W).nodes ∧ (build T W).length = W.length ∧
    Holds T (build T W).nodes (build T W).trie_root W.length (fun w => mix w W.length)
      W.words := by
  obtain ⟨hlen, hnd, _, _⟩ := hV
  rw [mix_build_eq W (by omega)] at hok ⊢
  simp only at hok ⊢
  have hok1 := ok_runOps_back Lw _ _ hok
  have hok0 := Lw.ok_add _ hok1
  have hI0 := inv_empty Lw W.length hok0
  have hI1 := inv_add_root Lw [] W.length T.empty hI0 hok1
  have hR : (T.add_node T.empty).2 ∈ [(T.add_node T.empty).2] := by simp
  have hlow : ∀ p ∈ W.words, ∀ c ∈ mix p.1 W.length, lower c := by
    intro p hp c hc
    rw [← (hlen p hp).1] at hc
    exact (hlen p hp).2 c (mix_mem _ c hc)
  have hops : ∀ o ∈ buildOps T (T.add_node T.empty).2 W.length W.words,
      o.root ∈ [(T.add_node T.empty).2] ∧ o.key.length = W.length ∧ ∀ c ∈ o.key, lower c := by
    intro o ho
    obtain ⟨p, hp, h⟩ := (mix_mem_buildOps _ _ _ o).1 ho
    subst h
    exact ⟨hR, mix_length _ _, hlow p hp⟩
  obtain ⟨hIf, hA, hB⟩ := runOps_spec Lw _ W.length hL _ _ hI1 hops hok
  refine ⟨hIf.sound, trivial, ?_, ?_⟩
  · intro p hp
    apply hB _ hR _ (by simp [mix_length]) _
      ⟨⟨_, mix p.1 W.length, T.from_num p.2⟩, (mix_mem_buildOps _ _ _ _).2 ⟨p, hp, rfl⟩, rfl, rfl⟩
    intro o ho _ hkey
    obtain ⟨q, hq, h⟩ := (mix_mem_buildOps _ _ _ o).1 ho
    subst h
    have e := map_chIdx_inj _ _ (hlow q hq) (hlow p hp) hkey
    rw [pair_eq_of_fst_eq W.words hnd q p hq hp
      (mix_inj W.length _ _ (hlen q hq).1 (hlen p hp).1 e)]
  · intro k hk hun
    rw [hA _ hR k hk]
    · exact walk_fresh Lw _ hI0.sound hI0.wf hok1 k
        (by intro h; rw [h] at hk; simp at hk; omega)
    · intro o ho ⟨_, hkey⟩
      obtain ⟨q, hq, h⟩ := (mix_mem_buildOps _ _ _ o).1 ho
      subst h
      exact hun q hq hkey

end TrieMixMatcher

end PatternMatch

namespace PatternMatch

/-! ## Probes and the walks they admit -/

open TrieStorageBase

theorem lower_ne_nul (c : Char) (h : lower c) : c ≠ Char.ofNat 0 := by
  intro e
  rw [e] at h
  unfold lower at h
  have h0 : (Char.ofNat 0).toNat = 0 := by decide
  have ha : 'a'.toNat = 97 := by decide
  omega

theorem patKeys_nil : patKeys [] = [[]] := rfl

theorem patKeys_nul (rest : List Char) :
    patKeys (Char.ofNat 0 :: rest) =
      (List.range 26).flatMap (fun i => (patKeys rest).map (fun k => i :: k)) := by
  rw [patKeys, if_pos rfl]

theorem patKeys_letter (c : Char) (rest : List Char) (h : c ≠ Char.ofNat 0) :
    patKeys (c :: rest) = (patKeys rest).map (fun k => chIdx c :: k) := by
  rw [patKeys, if_neg h]

theorem patKeys_length (pat : List Char) : ∀ k ∈ patKeys pat, k.length = pat.length := by
  induction pat with
  | nil => intro k hk; simp [patKeys] at hk; simp [hk]
  | cons c rest ih =>
    intro k hk
    by_cases hc : c = Char.ofNat 0
    · subst hc
      rw [patKeys_nul, List.mem_flatMap] at hk
      obtain ⟨i, _, hk⟩ := hk
      obtain ⟨k2, hk2, rfl⟩ := List.mem_map.1 hk
      simp [ih k2 hk2]
    · rw [patKeys_letter c rest hc] at hk
      obtain ⟨k2, hk2, rfl⟩ := List.mem_map.1 hk
      simp [ih k2 hk2]

theorem patKeys_nodup (pat : List Char) : (patKeys pat).Nodup := by
  induction pat with
  | nil => simp [patKeys]
  | cons c rest ih =>
    by_cases hc : c = Char.ofNat 0
    · subst hc
      rw [patKeys_nul, List.nodup_flatMap]
      constructor
      · intro i _
        exact ih.map (fun a b h => by simpa using h)
      · apply List.Pairwise.imp _ (List.nodup_range 26)
        intro i j hij
        intro x hx1 hx2
        obtain ⟨k1, _, rfl⟩ := List.mem_map.1 hx1
        obtain ⟨k2, _, h2⟩ := List.mem_map.1 hx2
        simp only [List.cons.injEq] at h2
        exact hij h2.1.symm
    · rw [patKeys_letter c rest hc]
      exact ih.map (fun a b h => by simpa using h)

/-- A lowercase word's slot indices are admitted by a probe exactly when the
word agrees with the probe. -/
theorem mem_patKeys (pat : List Char) (hpat : ∀ c ∈ pat, c = Char.ofNat 0 ∨ lower c) :
    ∀ w : List Char, (∀ c ∈ w, lower c) → (w.map chIdx ∈ patKeys pat ↔ Matches pat w) := by
  unfold Matches
  induction pat with
  | nil =>
    intro w _
    cases w with
    | nil => simp [patKeys]
    | cons x w => simp [patKeys]
  | cons c rest ih =>
    intro w hw
    have ih2 := ih (fun c hc => hpat c (List.mem_cons_of_mem _ hc))
    cases w with
    | nil =>
      constructor
      · intro h
        have := patKeys_length _ _ h
        simp at this
      · intro h; cases h
    | cons x w =>
      have hx : lower x := hw x (by simp)
      have hw2 : ∀ c ∈ w, lower c := fun c hc => hw c (List.mem_cons_of_mem _ hc)
      rw [List.forall₂_cons, ← ih2 w hw2]
      by_cases hc : c = Char.ofNat 0
      · subst hc
        rw [patKeys_nul, List.mem_flatMap]
        simp only [List.map_cons, List.mem_range, List.mem_map, List.cons.injEq, true_or,
          true_and]
        constructor
        · rintro ⟨i, _, k, hk, _, rfl⟩; exact hk
        · intro h; exact ⟨chIdx x, chIdx_lt x hx, _, h, rfl, rfl⟩
      · rw [patKeys_letter c rest hc]
        have hcl : lower c := (hpat c (by simp)).resolve_left hc
        simp only [List.map_cons, List.mem_map, List.cons.injEq, hc, false_or]
        constructor
        · rintro ⟨k, hk, h1, rfl⟩
          exact ⟨chIdx_inj c x hcl hx h1, hk⟩
        · rintro ⟨rfl, h⟩
          exact ⟨_, h, rfl, rfl⟩

theorem patKeys_lower_append (a b : List Char) (ha : ∀ c ∈ a, lower c) :
    patKeys (a ++ b) = (patKeys b).map (fun k => a.map chIdx ++ k) := by
  induction a with
  | nil => simp
  | cons c a ih =>
    rw [List.cons_append, patKeys_letter c _ (lower_ne_nul c (ha c (by simp))),
      ih (fun x hx => ha x (List.mem_cons_of_mem _ hx)), List.map_map]
    rfl

theorem patKeys_lower (a : List Char) (ha : ∀ c ∈ a, lower c) :
    patKeys a = [a.map chIdx] := by
  have := patKeys_lower_append a [] ha
  simpa [patKeys_nil] using this

theorem patKeys_append_lower (a b : List Char) (hb : ∀ c ∈ b, lower c) :
    patKeys (a ++ b) = (patKeys a).map (fun k => k ++ b.map chIdx) := by
  induction a with
  | nil => simp [patKeys_nil, patKeys_lower b hb]
  | cons c a ih =>
    by_cases hc : c = Char.ofNat 0
    · subst hc
      rw [List.cons_append, patKeys_nul, patKeys_nul, ih, List.map_flatMap]
      simp only [List.map_map]
      rfl
    · rw [List.cons_append, patKeys_letter c _ hc, patKeys_letter c _ hc, ih, List.map_map,
        List.map_map]
      rfl

/-! ## The values a traversal ends at -/

namespace TrieStorageBase

variable {S : Type} {T : TrieStorageBase S} {G : Gauge S}

theorem matchList_replicate (s : S) : ∀ (d v : Nat),
    T.matchList s (List.replicate d (Char.ofNat 0)) v = T.reach s d v := by
  intro d
  induction d with
  | zero => intro v; rfl
  | succ d ih =>
    intro v
    rw [List.replicate_succ, matchList, if_pos rfl, reach]
    congr 1
    funext c
    rw [ih]

theorem matchList_null (s : S) (hs : T.Sound s) (c : Char) (rest : List Char) :
    T.matchList s (c :: rest) T.null = [] := by
  rw [matchList]
  by_cases hc : c = Char.ofNat 0
  · rw [if_pos hc]
    simp [hs.1]
  · rw [if_neg hc, if_pos (hs.1 _)]

theorem matchList_run (s : S) (key : List Char) : ∀ (d v : Nat),
    T.matchList s (List.replicate d (Char.ofNat 0) ++ key) v =
      (T.reach s d v).flatMap (T.matchList s key) := by
  intro d
  induction d with
  | zero => intro v; simp [reach]
  | succ d ih =>
    intro v
    rw [List.replicate_succ, List.cons_append, matchList, if_pos rfl, reach,
      List.flatMap_assoc]
    congr 1
    funext c
    by_cases h : T.slot s v c ≠ T.null
    · rw [if_pos h, if_pos h, ih]
    · rw [if_neg h, if_neg h]; rfl

theorem ends_nil (s : S) (v : Nat) :
    T.ends s v [] = if v ≠ T.null then [v] else [] := by
  unfold ends
  rw [patKeys_nil]
  by_cases h : v ≠ T.null
  · simp [h, walk_nil]
  · simp [h, walk_nil]

theorem ends_null (s : S) (hs : T.Sound s) (pat : List Char) : T.ends s T.null pat = [] := by
  unfold ends
  rw [List.filter_eq_nil_iff]
  intro x hx
  obtain ⟨k, _, rfl⟩ := List.mem_map.1 hx
  simp [walk_null s hs]

theorem ends_nul (s : S) (v : Nat) (rest : List Char) :
    T.ends s v (Char.ofNat 0 :: rest) =
      (List.range 26).flatMap (fun i => T.ends s (T.slot s v i) rest) := by
  unfold ends
  rw [patKeys_nul, List.map_flatMap, List.filter_flatMap]
  congr 1
  funext i
  rw [List.map_map]
  rfl

theorem ends_letter (s : S) (v : Nat) (c : Char) (rest : List Char)
    (hc : c ≠ Char.ofNat 0) :
    T.ends s v (c :: rest) = T.ends s (T.slot s v (chIdx c)) rest := by
  unfold ends
  rw [patKeys_letter c rest hc, List.map_map]
  rfl

/-- In a sound storage a crawl from a non-null value ends at the non-null ends
of the walks the probe admits. -/
theorem matchList_eq_ends (s : S) (hs : T.Sound s) (pat : List Char) :
    ∀ v, (if v ≠ T.null then T.matchList s pat v else []) = T.ends s v pat := by
  induction pat with
  | nil => intro v; rw [ends_nil]; rfl
  | cons c rest ih =>
    intro v
    have hnull : (if v ≠ T.null then T.matchList s (c :: rest) v else [])
        = T.matchList s (c :: rest) v := by
      by_cases h : v ≠ T.null
      · rw [if_pos h]
      · rw [if_neg h]
        have : v = T.null := by simpa using h
        rw [this, matchList_null s hs]
    rw [hnull, matchList]
    by_cases hc : c = Char.ofNat 0
    · subst hc
      rw [if_pos rfl, ends_nul]
      congr 1
      funext i
      exact ih _
    · rw [if_neg hc, ends_letter s v c rest hc, ← ih]
      by_cases h : T.slot s v (chIdx c) = T.null
      · rw [if_pos h, if_neg (by simpa using h)]
      · rw [if_neg h, if_pos h]

theorem fanList_eq_ends (s : S) (hs : T.Sound s) (d v : Nat) :
    T.fanList s d v = T.ends s v (List.replicate d (Char.ofNat 0)) := by
  rw [← matchList_eq_ends s hs, matchList_replicate]
  unfold fanList
  cases d with
  | zero => rfl
  | succ d =>
    rw [if_neg (by omega)]
    by_cases h : v ≠ T.null
    · rw [if_pos h]
    · rw [if_neg h]
      have : v = T.null := by simpa using h
      rw [this, ← matchList_replicate, List.replicate_succ, matchList_null s hs]

end TrieStorageBase

end PatternMatch

namespace PatternMatch

/-! ## From a trie that holds the corpus to the naive scan -/

open TrieStorageBase

namespace TrieStorageBase

variable {S : Type} {T : TrieStorageBase S} {G : Gauge S}

theorem key_of_nonnull (s : S) (r L : Nat) (κ : List Char → List Char)
    (W : List (List Char × Nat)) (hH : Holds T s r L κ W) (k : List Nat)
    (hk : k.length = L) (hne : T.walk s r k ≠ T.null) :
    ∃ p ∈ W, (κ p.1).map chIdx = k ∧ T.walk s r k = T.from_num p.2 := by
  by_contra hcon
  apply hne
  apply hH.2 k hk
  intro p hp hpk
  exact hcon ⟨p, hp, hpk, by rw [← hpk]; exact hH.1 p hp⟩

/-- The identities decoded from the ends of the walks a probe admits are, up to
order, the identities of the corpus words whose keys agree with the probe. -/
theorem ends_perm (Lw : Lawful T G) (s : S) (r L : Nat) (κ : List Char → List Char)
    (W : List (List Char × Nat)) (pat : List Char) (b : List Char × Nat → Bool)
    (hH : Holds T s r L κ W)
    (hpat : ∀ c ∈ pat, c = Char.ofNat 0 ∨ lower c) (hpl : pat.length = L)
    (hκ : ∀ p ∈ W, ∀ c ∈ κ p.1, lower c)
    (hnd : (W.map Prod.snd).Nodup) (hid : ∀ p ∈ W, G.ident p.2)
    (hb : ∀ p ∈ W, (b p = true ↔ Matches pat (κ p.1))) :
    ((T.ends s r pat).map T.as_num).Perm ((W.filter b).map Prod.snd) := by
  have hsnd : ∀ p ∈ W, ∀ q ∈ W, p.2 = q.2 → p = q :=
    fun p hp q hq h => List.inj_on_of_nodup_map hnd hp hq h
  have hkey : ∀ k ∈ (patKeys pat).filter
      ((fun x => decide (x ≠ T.null)) ∘ T.walk s r),
      ∃ p ∈ W, (κ p.1).map chIdx = k ∧ T.walk s r k = T.from_num p.2 ∧
        Matches pat (κ p.1) := by
    intro k hk
    obtain ⟨hk1, hk2⟩ := List.mem_filter.1 hk
    obtain ⟨p, hp, h1, h2⟩ := key_of_nonnull s r L κ W hH k
      (by rw [patKeys_length pat k hk1, hpl]) (by simpa using hk2)
    refine ⟨p, hp, h1, h2, ?_⟩
    rw [← mem_patKeys pat hpat _ (hκ p hp), h1]
    exact hk1
  apply (List.perm_ext_iff_of_nodup ?_ ?_).2
  · intro x
    unfold ends
    rw [List.filter_map, List.map_map]
    constructor
    · intro hx
      obtain ⟨k, hk, rfl⟩ := List.mem_map.1 hx
      obtain ⟨p, hp, _, h2, h3⟩ := hkey k hk
      apply List.mem_map.2
      refine ⟨p, List.mem_filter.2 ⟨hp, (hb p hp).2 h3⟩, ?_⟩
      simp only [Function.comp]
      rw [h2, Lw.as_num_from_num _ (hid p hp)]
    · intro hx
      obtain ⟨p, hp, rfl⟩ := List.mem_map.1 hx
      obtain ⟨hp1, hp2⟩ := List.mem_filter.1 hp
      apply List.mem_map.2
      refine ⟨(κ p.1).map chIdx, List.mem_filter.2 ⟨?_, ?_⟩, ?_⟩
      · exact (mem_patKeys pat hpat _ (hκ p hp1)).2 ((hb p hp1).1 hp2)
      · simp only [Function.comp]
        rw [hH.1 p hp1]
        simpa using Lw.from_num_ne_null _ (hid p hp1)
      · simp only [Function.comp]
        rw [hH.1 p hp1, Lw.as_num_from_num _ (hid p hp1)]
  · unfold ends
    rw [List.filter_map, List.map_map]
    apply List.Nodup.map_on _ ((patKeys_nodup pat).filter _)
    intro k1 hk1 k2 hk2 heq
    obtain ⟨p1, hp1, e1, h1, _⟩ := hkey k1 hk1
    obtain ⟨p2, hp2, e2, h2, _⟩ := hkey k2 hk2
    simp only [Function.comp] at heq
    rw [h1, h2, Lw.as_num_from_num _ (hid p1 hp1), Lw.as_num_from_num _ (hid p2 hp2)] at heq
    rw [← e1, ← e2, hsnd p1 hp1 p2 hp2 heq]
  · exact hnd.sublist ((List.filter_sublist W).map Prod.snd)

end TrieStorageBase

end PatternMatch

namespace PatternMatch

/-! ## Probes and the affix condition -/

open TrieStorageBase

theorem forall₂_append_left {R : Char → Char → Prop} (a b : List Char) :
    ∀ w : List Char, List.Forall₂ R (a ++ b) w ↔
      List.Forall₂ R a (w.take a.length) ∧ List.Forall₂ R b (w.drop a.length) := by
  induction a with
  | nil => intro w; simp
  | cons x a ih =>
    intro w
    cases w with
    | nil =>
      simp only [List.cons_append, List.take_nil, List.drop_nil]
      constructor
      · intro h; cases h
      · rintro ⟨h, _⟩; cases h
    | cons y w =>
      simp only [List.cons_append, List.forall₂_cons, List.length_cons, List.take_succ_cons,
        List.drop_succ_cons, ih w, and_assoc]

theorem matches_lower (a : List Char) (ha : ∀ c ∈ a, lower c) :
    ∀ w : List Char, Matches a w ↔ a = w := by
  unfold Matches
  induction a with
  | nil =>
    intro w
    cases w with
    | nil => simp
    | cons y w => simp
  | cons x a ih =>
    intro w
    cases w with
    | nil => simp
    | cons y w =>
      have hx := lower_ne_nul x (ha x (by simp))
      simp only [List.forall₂_cons, hx, false_or, List.cons.injEq,
        ih (fun c hc => ha c (List.mem_cons_of_mem _ hc)) w]

theorem matches_replicate (d : Nat) :
    ∀ w : List Char, Matches (List.replicate d (Char.ofNat 0)) w ↔ w.length = d := by
  unfold Matches
  induction d with
  | zero =>
    intro w
    cases w with
    | nil => simp
    | cons y w => simp
  | succ d ih =>
    intro w
    cases w with
    | nil => simp [List.replicate_succ]
    | cons y w => simp [List.replicate_succ, ih w]

/-- A word of the corpus length agrees with the probe of a query exactly when
it starts with the prefix and ends with the suffix. -/
theorem matches_probe (L : Nat) (pre suf w : List Char) (hpre : ∀ c ∈ pre, lower c)
    (hsuf : ∀ c ∈ suf, lower c) (hlen : pre.length + suf.length ≤ L) (hw : w.length = L) :
    Matches (probe L pre suf) w ↔ affix pre suf w := by
  unfold probe affix
  rw [List.append_assoc]
  unfold Matches
  rw [forall₂_append_left, forall₂_append_left]
  have h1 := matches_lower pre hpre (w.take pre.length)
  have h2 := matches_replicate (L - pre.length - suf.length)
    ((w.drop pre.length).take (L - pre.length - suf.length))
  have h3 := matches_lower suf hsuf
    ((w.drop pre.length).drop (L - pre.length - suf.length))
  unfold Matches at h1 h2 h3
  rw [List.length_replicate, h1, h2, h3, List.prefix_iff_eq_take, List.suffix_iff_eq_drop,
    List.drop_drop]
  have e : pre.length + (L - pre.length - suf.length) = w.length - suf.length := by omega
  rw [e]
  constructor
  · rintro ⟨a, _, c⟩; exact ⟨a, c⟩
  · rintro ⟨a, c⟩
    refine ⟨a, ?_, c⟩
    rw [List.length_take, List.length_drop]
    omega

theorem probe_length (L : Nat) (pre suf : List Char) (hlen : pre.length + suf.length ≤ L) :
    (probe L pre suf).length = L := by
  unfold probe
  simp only [List.length_append, List.length_replicate]
  omega

theorem probe_chars (L : Nat) (pre suf : List Char) (hpre : ∀ c ∈ pre, lower c)
    (hsuf : ∀ c ∈ suf, lower c) : ∀ c ∈ probe L pre suf, c = Char.ofNat 0 ∨ lower c := by
  intro c hc
  unfold probe at hc
  rw [List.mem_append, List.mem_append] at hc
  rcases hc with (h | h) | h
  · exact Or.inr (hpre c h)
  · exact Or.inl (List.eq_of_mem_replicate h)
  · exact Or.inr (hsuf c h)

theorem probe_reverse (L : Nat) (pre suf : List Char) :
    probe L suf.reverse pre.reverse = (probe L pre suf).reverse := by
  unfold probe
  simp only [List.reverse_append, List.reverse_replicate, List.length_reverse,
    List.append_assoc]
  have : L - suf.length - pre.length = L - pre.length - suf.length := by omega
  rw [this]

/-! ## The scratch buffer -/

theorem length_resize_to (buffer : List Char) (n : Nat) : n ≤ (resize_to buffer n).length := by
  unfold resize_to
  by_cases h : buffer.length < n
  · rw [if_pos h, List.length_append, List.length_replicate]; omega
  · rw [if_neg h]; omega

theorem copy_to_append (a t src : List Char) (h : src.length ≤ t.length) :
    copy_to (a ++ t) a.length src = a ++ src ++ t.drop src.length := by
  unfold copy_to
  have e1 : (a ++ t).take a.length = a := List.take_left' rfl
  have e2 : (a ++ t).drop (a.length + src.length) = t.drop src.length := by
    rw [← List.drop_drop, List.drop_left' rfl]
  rw [e1, e2]
  apply List.take_of_length_le
  simp only [List.length_append, List.length_drop]
  omega

theorem view_append_right (a b t : List Char) :
    view (a ++ b ++ t) a.length b.length = b := by
  unfold view
  rw [List.append_assoc, List.drop_left', List.take_left']
  · rfl
  · rfl

theorem view_append_left (a t : List Char) : view (a ++ t) 0 a.length = a := by
  unfold view
  rw [List.drop_zero, List.take_left']
  rfl

end PatternMatch

namespace PatternMatch

/-! ## The dual-trie query -/

open TrieStorageBase

namespace TrieStorageBase

variable {S : Type} {T : TrieStorageBase S} {G : Gauge S}

theorem ends_lower_append (s : S) (r : Nat) (a b : List Char) (ha : ∀ c ∈ a, lower c) :
    T.ends s r (a ++ b) = T.ends s (T.walk s r (a.map chIdx)) b := by
  unfold ends
  rw [patKeys_lower_append a b ha, List.map_map]
  congr 2
  funext k
  simp only [Function.comp]
  rw [walk_append]

theorem filter_walk_filter (s : S) (hs : T.Sound s) (k : List Nat) (l : List Nat) :
    ((l.filter (fun x => decide (x ≠ T.null))).map (fun v => T.walk s v k)).filter
        (fun x => decide (x ≠ T.null)) =
      (l.map (fun v => T.walk s v k)).filter (fun x => decide (x ≠ T.null)) := by
  induction l with
  | nil => rfl
  | cons v l ih =>
    by_cases hv : v = T.null
    · subst hv
      simp only [List.filter_cons, List.map_cons, walk_null s hs, ne_eq, not_true_eq_false,
        decide_False, Bool.false_eq_true, if_false]
      exact ih
    · simp only [List.filter_cons, List.map_cons, ne_eq, hv, not_false_eq_true, decide_True,
        if_true]
      rw [ih]

theorem ends_append_lower (s : S) (hs : T.Sound s) (r : Nat) (a b : List Char)
    (hb : ∀ c ∈ b, lower c) :
    T.ends s r (a ++ b) =
      ((T.ends s r a).map (fun v => T.walk s v (b.map chIdx))).filter
        (fun x => decide (x ≠ T.null)) := by
  unfold ends
  rw [filter_walk_filter s hs, patKeys_append_lower a b hb, List.map_map, List.map_map]
  congr 2
  funext k
  simp only [Function.comp]
  rw [walk_append]

end TrieStorageBase

namespace TrieMatcher

variable {S : Type} {T : TrieStorageBase S} {G : Gauge S}

theorem foldlM_visit (s : S) (suf : List Char) (l : List Nat) :
    ∀ st : Crawl, l.foldlM (visit T s suf) st =
      some ⟨st.calls ++ ((l.map (fun v => T.walk s v (suf.map chIdx))).filter
              (fun x => decide (x ≠ T.null))).map T.as_num,
            st.n + ((l.map (fun v => T.walk s v (suf.map chIdx))).filter
              (fun x => decide (x ≠ T.null))).length⟩ := by
  induction l with
  | nil => intro st; simp
  | cons v l ih =>
    intro st
    have hv : visit T s suf st v =
        some (if T.walk s v (suf.map chIdx) ≠ T.null then
          st.report (T.as_num (T.walk s v (suf.map chIdx))) else st) := by
      unfold visit
      simp only [follow_eq_walk]
      by_cases h : T.walk s v (suf.map chIdx) ≠ T.null
      · rw [if_pos h, if_pos h]
      · rw [if_neg h, if_neg h]
    rw [List.foldlM_cons, hv]
    simp only [Option.some_bind, Option.bind_eq_bind]
    rw [ih]
    by_cases h : T.walk s v (suf.map chIdx) ≠ T.null
    · rw [List.map_cons, List.filter_cons_of_pos (p := fun x => decide (x ≠ T.null))
        (decide_eq_true h), List.map_cons, List.length_cons, if_pos h]
      simp only [Crawl.report, List.append_assoc, List.singleton_append]
      congr 2
      omega
    · rw [List.map_cons, List.filter_cons_of_neg (p := fun x => decide (x ≠ T.null))
        (by simpa using h), if_neg h]

/-- The search visits the non-null ends of the walks the probe admits. -/
theorem search_eq (m : TrieMatcher S) (root : Nat) (pre suf buffer : List Char)
    (hs : T.Sound m.nodes) (hpre : ∀ c ∈ pre, lower c) (hsuf : ∀ c ∈ suf, lower c) :
    search T m root pre suf buffer =
      some ⟨(T.ends m.nodes root (probe m.length pre suf)).map T.as_num,
        (T.ends m.nodes root (probe m.length pre suf)).length, buffer⟩ := by
  have hends : T.ends m.nodes root (probe m.length pre suf) =
      ((T.fanList m.nodes (m.length - pre.length - suf.length)
          (T.walk m.nodes root (pre.map chIdx))).map
          (fun v => T.walk m.nodes v (suf.map chIdx))).filter
        (fun x => decide (x ≠ T.null)) := by
    unfold probe
    rw [List.append_assoc, ends_lower_append _ _ _ _ hpre, ends_append_lower _ hs _ _ _ hsuf,
      fanList_eq_ends _ hs]
  have hnode : (if pre ≠ [] then T.follow m.nodes root pre else root)
      = T.walk m.nodes root (pre.map chIdx) := by
    by_cases h : pre = []
    · subst h; rfl
    · rw [if_pos h, follow_eq_walk]
  unfold search
  simp only [hnode]
  by_cases hret : pre ≠ [] ∧ T.walk m.nodes root (pre.map chIdx) = T.null
  · rw [if_pos hret]
    have h0 : T.ends m.nodes root (probe m.length pre suf) = [] := by
      unfold probe
      rw [List.append_assoc, ends_lower_append _ _ _ _ hpre, hret.2, ends_null _ hs]
    rw [h0]
    rfl
  · rw [if_neg hret]
    have hf := foldlM_visit (T := T) m.nodes suf
      (T.fanList m.nodes (m.length - pre.length - suf.length)
        (T.walk m.nodes root (pre.map chIdx))) ⟨[], 0⟩
    rw [deep_fan_out_eq T _ _ _ _ _ _ hf, hends]
    simp

/-- The views `TrieMatcher::query` takes of the scratch buffer on the reverse
path are the reversed suffix and the reversed prefix. -/
theorem query_rev_views (L : Nat) (buffer pre suf : List Char)
    (hlen : pre.length + suf.length ≤ L) :
    view (copy_to (copy_to (resize_to buffer L) 0 pre.reverse) pre.length suf.reverse)
        pre.length suf.length = suf.reverse ∧
    view (copy_to (copy_to (resize_to buffer L) 0 pre.reverse) pre.length suf.reverse)
        0 pre.length = pre.reverse := by
  have h0 := length_resize_to buffer L
  have e1 := copy_to_append [] (resize_to buffer L) pre.reverse
    (by rw [List.length_reverse]; omega)
  rw [List.nil_append, List.length_nil, List.nil_append] at e1
  rw [e1]
  have e2 := copy_to_append pre.reverse ((resize_to buffer L).drop pre.reverse.length)
    suf.reverse (by rw [List.length_drop, List.length_reverse, List.length_reverse]; omega)
  rw [List.length_reverse] at e2
  rw [List.length_reverse, e2]
  constructor
  · have := view_append_right pre.reverse suf.reverse
      (List.drop suf.reverse.length (List.drop pre.length (resize_to buffer L)))
    simp only [List.length_reverse] at this ⊢
    exact this
  · have := view_append_left pre.reverse
      (suf.reverse ++ List.drop suf.reverse.length (List.drop pre.length (resize_to buffer L)))
    simp only [List.length_reverse, ← List.append_assoc] at this ⊢
    exact this

theorem query_fwd (m : TrieMatcher S) (buffer pre suf : List Char)
    (h : suf.length ≤ pre.length) :
    query T m buffer pre suf = search T m m.fwd_trie_root pre suf buffer := by
  unfold query search
  simp only [ge_iff_le, h, if_true]

theorem query_rev (m : TrieMatcher S) (buffer pre suf : List Char)
    (h : ¬ suf.length ≤ pre.length) :
    query T m buffer pre suf =
      search T m m.rev_trie_root
        (view (copy_to (copy_to (resize_to buffer m.length) 0 pre.reverse)
          pre.length suf.reverse) pre.length suf.length)
        (view (copy_to (copy_to (resize_to buffer m.length) 0 pre.reverse)
          pre.length suf.reverse) 0 pre.length)
        (copy_to (copy_to (resize_to buffer m.length) 0 pre.reverse) pre.length suf.reverse) := by
  unfold query search
  simp only [ge_iff_le, h, if_false]

/-- The dual-trie query on a trie pair that holds the corpus reports, up to
order, the identities of the naive scan, once each, and returns their number. -/
theorem query_perm (Lw : Lawful T G) (m : TrieMatcher S) (W : Words) (hV : W.Valid)
    (hs : T.Sound m.nodes) (hL : m.length = W.length)
    (hf : Holds T m.nodes m.fwd_trie_root W.length (fun w => w) W.words)
    (hr : Holds T m.nodes m.rev_trie_root W.length List.reverse W.words)
    (hid : ∀ p ∈ W.words, G.ident p.2)
    (buffer pre suf : List Char) (hpre : ∀ c ∈ pre, lower c) (hsuf : ∀ c ∈ suf, lower c)
    (hlen : pre.length + suf.length ≤ W.length) :
    ∃ res, query T m buffer pre suf = some res ∧ res.calls.Perm (naive W pre suf) ∧
      res.ret = res.calls.length := by
  obtain ⟨hwl, _, hnd, _⟩ := hV
  by_cases h : suf.length ≤ pre.length
  · rw [query_fwd m buffer pre suf h, search_eq m _ pre suf buffer hs hpre hsuf]
    refine ⟨_, rfl, ?_, by simp⟩
    rw [hL]
    exact ends_perm Lw m.nodes _ W.length _ W.words _ _ hf
      (probe_chars _ _ _ hpre hsuf) (probe_length _ _ _ hlen) (fun p hp => (hwl p hp).2) hnd hid
      (fun p hp => by
        rw [decide_eq_true_iff]
        exact (matches_probe W.length pre suf p.1 hpre hsuf hlen (hwl p hp).1).symm)
  · obtain ⟨v1, v2⟩ := query_rev_views m.length buffer pre suf (by omega)
    rw [query_rev m buffer pre suf h, v1, v2,
      search_eq m _ suf.reverse pre.reverse _ hs
        (fun c hc => hsuf c (List.mem_reverse.1 hc))
        (fun c hc => hpre c (List.mem_reverse.1 hc))]
    refine ⟨_, rfl, ?_, by simp⟩
    rw [hL, probe_reverse]
    exact ends_perm Lw m.nodes _ W.length _ W.words _ _ hr
      (fun c hc => probe_chars _ _ _ hpre hsuf c (List.mem_reverse.1 hc))
      (by rw [List.length_reverse]; exact probe_length _ _ _ hlen)
      (fun p hp c hc => (hwl p hp).2 c (List.mem_reverse.1 hc)) hnd hid
      (fun p hp => by
        rw [decide_eq_true_iff]
        unfold Matches
        rw [List.forall₂_reverse_iff]
        exact (matches_probe W.length pre suf p.1 hpre hsuf hlen (hwl p hp).1).symm)

end TrieMatcher

end PatternMatch

namespace PatternMatch

/-! ## The crawler and the interleaved-trie query -/

open TrieStorageBase

namespace TrieStorageBase

variable {S σ : Type} {T : TrieStorageBase S} {G : Gauge S}

theorem node_eq_map (s : S) (hs : T.Sound s) (v : Nat) :
    T.node s v = (List.range 26).map (T.slot s v) := by
  apply List.ext_getElem
  · rw [hs.2 v, List.length_map, List.length_range]
  · intro i h1 h2
    rw [List.getElem_map, List.getElem_range]
    unfold slot
    rw [List.getD_eq_getElem?_getD, List.getElem?_eq_getElem h1]
    rfl

theorem foldlM_map_cond (f : Nat → Nat) (fn : σ → Nat → Option σ) (l : List Nat) :
    ∀ st : σ, (l.map f).foldlM (fun st d => if d ≠ T.null then fn st d else some st) st =
      (l.flatMap (fun c => if f c ≠ T.null then [f c] else [])).foldlM fn st := by
  induction l with
  | nil => intro st; rfl
  | cons c l ih =>
    intro st
    rw [List.map_cons, List.foldlM_cons, List.flatMap_cons, List.foldlM_append]
    by_cases h : f c ≠ T.null
    · rw [if_pos h, if_pos h, List.foldlM_cons]
      cases hfn : fn st (f c) with
      | none => rfl
      | some st1 =>
        simp only [Option.some_bind, Option.bind_eq_bind, Option.pure_def, List.foldlM_nil]
        exact ih st1
    · rw [if_neg h, if_neg h]
      simp only [Option.some_bind, Option.bind_eq_bind, Option.pure_def, List.foldlM_nil]
      exact ih st

/-- `fan_out` visits, in slot order, the non-null slot values of the node. -/
theorem fan_out_eq (s : S) (hs : T.Sound s) (v : Nat) (fn : σ → Nat → Option σ) (st : σ) :
    T.fan_out s v fn st = (T.reach s 1 v).foldlM fn st := by
  unfold fan_out
  rw [node_eq_map s hs v, foldlM_map_cond]
  rfl

theorem foldlM_some_eq (fn : σ → Nat → Option σ) (g : σ → Nat → σ)
    (h : ∀ st v, fn st v = some (g st v)) (l : List Nat) :
    ∀ st : σ, l.foldlM fn st = some (l.foldl g st) := by
  induction l with
  | nil => intro st; rfl
  | cons v l ih =>
    intro st
    rw [List.foldlM_cons, h st v, List.foldl_cons]
    simp only [Option.some_bind, Option.bind_eq_bind]
    exact ih _

theorem foldl_flatMap (f : Nat → List Nat) (g : σ → Nat → σ) (l : List Nat) :
    ∀ st : σ, (l.flatMap f).foldl g st = l.foldl (fun st a => (f a).foldl g st) st := by
  induction l with
  | nil => intro st; rfl
  | cons v l ih =>
    intro st
    rw [List.flatMap_cons, List.foldl_append, List.foldl_cons, ih]

theorem matchList_eq_ends_cons (s : S) (hs : T.Sound s) (key : List Char) (hk : key ≠ [])
    (v : Nat) : T.matchList s key v = T.ends s v key := by
  rw [← matchList_eq_ends s hs]
  by_cases h : v ≠ T.null
  · rw [if_pos h]
  · rw [if_neg h]
    have : v = T.null := by simpa using h
    cases key with
    | nil => exact absurd rfl hk
    | cons c rest => rw [this, matchList_null s hs]

end TrieStorageBase

/-- The length of the run of placeholders at the head of a probe. -/
theorem run_split (key : List Char) :
    key = List.replicate (key.takeWhile (fun ch => decide (ch = Char.ofNat 0))).length
        (Char.ofNat 0) ++
      key.drop (key.takeWhile (fun ch => decide (ch = Char.ofNat 0))).length := by
  induction key with
  | nil => rfl
  | cons c key ih =>
    by_cases hc : c = Char.ofNat 0
    · rw [List.takeWhile_cons_of_pos (by simpa using hc), List.length_cons,
        List.replicate_succ, List.drop_succ_cons, List.cons_append, ← ih, hc]
    · rw [List.takeWhile_cons_of_neg (by simpa using hc)]
      rfl

namespace Crawler

variable {S : Type} {T : TrieStorageBase S}

theorem foldl_report (f : Nat → Nat) (l : List Nat) :
    ∀ st : Crawl, l.foldl (fun st x => st.report (f x)) st =
      ⟨st.calls ++ l.map f, st.n + l.length⟩ := by
  induction l with
  | nil => intro st; simp
  | cons v l ih =>
    intro st
    rw [List.foldl_cons, ih]
    simp only [Crawl.report, List.append_assoc, List.singleton_append, List.map_cons,
      List.length_cons]
    congr 1
    omega

theorem call_nil (nodes : S) (fuel v : Nat) (st : Crawl) :
    call T nodes (fuel + 1) [] v st = some (st.report (T.as_num v)) := rfl

theorem call_cons (nodes : S) (fuel v : Nat) (c : Char) (rest : List Char) (st : Crawl) :
    call T nodes (fuel + 1) (c :: rest) v st =
      match ((c :: rest).takeWhile (fun ch => decide (ch = Char.ofNat 0))).length with
      | 0 =>
        if T.follow1 nodes v c = T.null then some st
        else call T nodes fuel rest (T.follow1 nodes v c) st
      | 1 =>
        T.fan_out nodes v (fun st v => call T nodes fuel ((c :: rest).drop
          ((c :: rest).takeWhile (fun ch => decide (ch = Char.ofNat 0))).length) v st) st
      | _ =>
        T.deep_fan_out nodes v
          ((c :: rest).takeWhile (fun ch => decide (ch = Char.ofNat 0))).length
          (fun st v => call T nodes fuel ((c :: rest).drop
            ((c :: rest).takeWhile (fun ch => decide (ch = Char.ofNat 0))).length) v st) st := by
  rfl

/-- With fuel beyond the length of the probe, the crawler reports the ends of
the crawl in order. -/
theorem call_eq (nodes : S) (hs : T.Sound nodes) :
    ∀ (fuel : Nat) (key : List Char) (v : Nat) (st : Crawl), key.length < fuel →
      call T nodes fuel key v st =
        some ((T.matchList nodes key v).foldl (fun st x => st.report (T.as_num x)) st) := by
  intro fuel
  induction fuel with
  | zero => intro key v st h; omega
  | succ fuel ih =>
    intro key v st hlen
    cases key with
    | nil => rfl
    | cons c rest =>
      rw [call_cons]
      have hsplit := run_split (c :: rest)
      generalize hn : ((c :: rest).takeWhile (fun ch => decide (ch = Char.ofNat 0))).length = n
        at hsplit
      have hdrop : ((c :: rest).drop n).length < fuel ∨ n = 0 := by
        rcases Nat.eq_zero_or_pos n with h | h
        · exact Or.inr h
        · left
          rw [List.length_drop]
          simp only [List.length_cons] at hlen ⊢
          omega
      match n, hn, hsplit, hdrop with
      | 0, hn, _, _ =>
        have hc : c ≠ Char.ofNat 0 := by
          intro e
          rw [List.takeWhile_cons_of_pos (by simpa using e)] at hn
          simp at hn
        simp only []
        rw [matchList, if_neg hc]
        unfold follow1
        by_cases h0 : T.slot nodes v (chIdx c) = T.null
        · rw [if_pos h0, if_pos h0]
          rfl
        · rw [if_neg h0, if_neg h0]
          exact ih rest _ st (by simp only [List.length_cons] at hlen; omega)
      | 1, _, hsplit, hdrop =>
        have hd : ((c :: rest).drop 1).length < fuel := by
          rcases hdrop with h | h
          · exact h
          · omega
        simp only []
        rw [fan_out_eq nodes hs,
          foldlM_some_eq _ _ (fun st v => ih ((c :: rest).drop 1) v st hd)]
        conv_rhs => rw [hsplit, matchList_run, foldl_flatMap]
      | n + 2, _, hsplit, hdrop =>
        have hd : ((c :: rest).drop (n + 2)).length < fuel := by
          rcases hdrop with h | h
          · exact h
          · omega
        simp only []
        have hfan : T.fanList nodes (n + 2) v = T.reach nodes (n + 2) v := by
          unfold fanList
          rw [if_neg (by omega)]
        apply deep_fan_out_eq
        rw [hfan, foldlM_some_eq _ _ (fun st v => ih ((c :: rest).drop (n + 2)) v st hd)]
        conv_rhs => rw [hsplit, matchList_run, foldl_flatMap]

end Crawler

end PatternMatch

namespace PatternMatch

open TrieStorageBase

theorem mix_append (a t : List Char) : mix (a ++ t) a.length = mix a a.length := by
  have h := (mixFrom_forall₂ (fun x y => x = y) (a ++ t) a a.length 0).2 (by
    intro j _ hj
    rw [List.getD_eq_getElem?_getD, List.getD_eq_getElem?_getD,
      List.getElem?_append_left (by omega)])
  rw [List.forall₂_eq_eq_eq] at h
  exact h

namespace TrieMixMatcher

variable {S : Type} {T : TrieStorageBase S} {G : Gauge S}

/-- After the three copies of `TrieMixMatcher::query` the scratch buffer starts
with the probe and has room for the interleaved probe behind it. -/
theorem buffer_probe (L : Nat) (buffer pre suf : List Char)
    (hlen : pre.length + suf.length ≤ L) :
    ∃ t : List Char, L ≤ t.length ∧
      copy_to (copy_to (copy_to (resize_to buffer (L * 2)) 0 pre) pre.length
        (List.replicate (L - pre.length - suf.length) (Char.ofNat 0))) (L - suf.length) suf
      = probe L pre suf ++ t := by
  have h0 := length_resize_to buffer (L * 2)
  have e1 := copy_to_append [] (resize_to buffer (L * 2)) pre (by omega)
  rw [List.nil_append, List.length_nil, List.nil_append] at e1
  have e2 := copy_to_append pre ((resize_to buffer (L * 2)).drop pre.length)
    (List.replicate (L - pre.length - suf.length) (Char.ofNat 0))
    (by rw [List.length_drop, List.length_replicate]; omega)
  have e3 := copy_to_append
    (pre ++ List.replicate (L - pre.length - suf.length) (Char.ofNat 0))
    (((resize_to buffer (L * 2)).drop pre.length).drop
      (List.replicate (L - pre.length - suf.length) (Char.ofNat 0)).length) suf
    (by simp only [List.length_drop, List.length_replicate]; omega)
  have e4 : (pre ++ List.replicate (L - pre.length - suf.length) (Char.ofNat 0)).length
      = L - suf.length := by
    rw [List.length_append, List.length_replicate]; omega
  rw [e4] at e3
  rw [e1, e2, e3]
  refine ⟨_, ?_, rfl⟩
  simp only [List.length_drop, List.length_replicate]
  omega

/-- The interleaved-trie query on a trie that holds the corpus reports, up to
order, the identities of the naive scan, once each, and returns their number. -/
theorem mix_query_perm (Lw : Lawful T G) (m : TrieMixMatcher S) (W : Words) (hV : W.Valid)
    (hs : T.Sound m.nodes) (hL : m.length = W.length) (hpos : 0 < W.length)
    (hh : Holds T m.nodes m.trie_root W.length (fun w => mix w W.length) W.words)
    (hid : ∀ p ∈ W.words, G.ident p.2)
    (buffer pre suf : List Char) (hpre : ∀ c ∈ pre, lower c) (hsuf : ∀ c ∈ suf, lower c)
    (hlen : pre.length + suf.length ≤ W.length) :
    ∃ res, query T m buffer pre suf = some res ∧ res.calls.Perm (naive W pre suf) ∧
      res.ret = res.calls.length := by
  obtain ⟨hwl, _, hnd, _⟩ := hV
  obtain ⟨t, ht, hB⟩ := buffer_probe W.length buffer pre suf hlen
  have hpl := probe_length W.length pre suf hlen
  have hmix : mix (probe W.length pre suf ++ t) W.length = mix (probe W.length pre suf) W.length := by
    have := mix_append (probe W.length pre suf) t
    rw [hpl] at this
    exact this
  have hml := mix_length (probe W.length pre suf) W.length
  have hkey : view (copy_to (probe W.length pre suf ++ t) W.length
      (mix (probe W.length pre suf) W.length)) W.length
      (mix (probe W.length pre suf) W.length).length = mix (probe W.length pre suf) W.length := by
    have e := copy_to_append (probe W.length pre suf) t (mix (probe W.length pre suf) W.length)
      (by rw [hml]; exact ht)
    rw [hpl] at e
    rw [e]
    have v := view_append_right (probe W.length pre suf)
      (mix (probe W.length pre suf) W.length)
      (List.drop (mix (probe W.length pre suf) W.length).length t)
    rw [hpl] at v
    exact v
  have hne : mix (probe W.length pre suf) W.length ≠ [] := by
    intro h
    rw [h] at hml
    simp at hml
    omega
  unfold query
  simp only [hL, hB, hmix, hkey]
  rw [Crawler.call_eq m.nodes hs _ _ _ _ (by omega), Crawler.foldl_report,
    matchList_eq_ends_cons m.nodes hs _ hne]
  refine ⟨_, rfl, ?_, by simp⟩
  simp only [List.nil_append]
  exact ends_perm Lw m.nodes _ W.length _ W.words _ _ hh
    (fun c hc => probe_chars _ _ _ hpre hsuf c
      (mix_mem (probe W.length pre suf) c (by rw [hpl]; exact hc)))
    hml
    (fun p hp c hc => (hwl p hp).2 c
      (mix_mem p.1 c (by rw [(hwl p hp).1]; exact hc))) hnd hid
    (fun p hp => by
      rw [decide_eq_true_iff]
      unfold Matches
      rw [mix_forall₂ _ W.length _ _ hpl (hwl p hp).1]
      exact (matches_probe W.length pre suf p.1 hpre hsuf hlen (hwl p hp).1).symm)

end TrieMixMatcher

end PatternMatch

namespace PatternMatch

/-! ## The two engines on the arena storage -/

open TrieStorageBase

theorem mem_naive (W : Words) (pre suf : List Char) (id : Nat) :
    id ∈ naive W pre suf ↔ ∃ w, (w, id) ∈ W.words ∧ pre <+: w ∧ suf <:+ w := by
  unfold naive affix
  simp only [List.mem_map, List.mem_filter, decide_eq_true_eq]
  constructor
  · rintro ⟨p, ⟨hp, h⟩, rfl⟩
    exact ⟨p.1, hp, h⟩
  · rintro ⟨w, hw, h⟩
    exact ⟨(w, id), ⟨hw, h⟩, rfl⟩

theorem naive_nodup (W : Words) (hV : W.Valid) (pre suf : List Char) :
    (naive W pre suf).Nodup :=
  hV.2.2.1.sublist ((List.filter_sublist W.words).map Prod.snd)

theorem naive_length (W : Words) (pre suf : List Char) :
    (naive W pre suf).length =
      (W.words.filter (fun p => decide (affix pre suf p.1))).length := by
  unfold naive
  rw [List.length_map]

theorem pool_ident (W : Words) (hV : W.Valid) (hN : W.words.length < 2 ^ 32) :
    ∀ p ∈ W.words, TriePoolStorage.gauge.ident p.2 := by
  intro p hp
  have h := hV.2.2.2 p hp
  show p.2 + 1 < 2 ^ 32
  omega

/-- The dual-trie engine on the arena: the reported identities are a
permutation of the naive scan and the returned count is their number. -/
theorem pool_dual_query (W : Words) (hV : W.Valid) (hL : 1 ≤ W.length)
    (hR : TrieMatcher.InRange W) (buffer pre suf : List Char)
    (hpre : ∀ c ∈ pre, lower c) (hsuf : ∀ c ∈ suf, lower c)
    (hlen : pre.length + suf.length ≤ W.length) :
    ∃ res, TrieMatcher.query TriePoolStorage.ops (TrieMatcher.build TriePoolStorage.ops W)
        buffer pre suf = some res ∧
      res.calls.Perm (naive W pre suf) ∧ res.ret = res.calls.length := by
  obtain ⟨hs, hl, hf, hr⟩ := TrieMatcher.build_holds TriePoolStorage.lawful W hV hL hR.2
  exact TrieMatcher.query_perm TriePoolStorage.lawful _ W hV hs hl hf hr
    (pool_ident W hV hR.1) buffer pre suf hpre hsuf hlen

/-- The interleaved-trie engine on the arena: the reported identities are a
permutation of the naive scan and the returned count is their number. -/
theorem pool_mix_query (W : Words) (hV : W.Valid) (hL : 1 ≤ W.length)
    (hR : TrieMixMatcher.InRange W) (buffer pre suf : List Char)
    (hpre : ∀ c ∈ pre, lower c) (hsuf : ∀ c ∈ suf, lower c)
    (hlen : pre.length + suf.length ≤ W.length) :
    ∃ res, TrieMixMatcher.query TriePoolStorage.ops
        (TrieMixMatcher.build TriePoolStorage.ops W) buffer pre suf = some res ∧
      res.calls.Perm (naive W pre suf) ∧ res.ret = res.calls.length := by
  obtain ⟨hs, hl, hh⟩ := TrieMixMatcher.mix_build_holds TriePoolStorage.lawful W hV hL hR.2
  exact TrieMixMatcher.mix_query_perm TriePoolStorage.lawful _ W hV hs hl hL hh
    (pool_ident W hV hR.1) buffer pre suf hpre hsuf hlen

theorem eq_singleton_of_nodup (l : List Nat) (a : Nat) (hn : l.Nodup)
    (h : ∀ x, x ∈ l ↔ x = a) : l = [a] := by
  have hp : l.Perm [a] :=
    (List.perm_ext_iff_of_nodup hn (List.nodup_singleton a)).2 (fun x => by
      rw [h x, List.mem_singleton])
  exact List.perm_singleton.1 hp

theorem length_le_one_of_all_eq {α : Type} (l : List α) (hn : l.Nodup)
    (h : ∀ x ∈ l, ∀ y ∈ l, x = y) : l.length ≤ 1 := by
  cases l with
  | nil => simp
  | cons a l =>
    cases l with
    | nil => simp
    | cons b l =>
      exfalso
      have hab : a = b := h a (by simp) b (by simp)
      rw [hab] at hn
      simp at hn

theorem mem_of_lt_length (l : List Nat) (hn : l.Nodup) (hlt : ∀ x ∈ l, x < l.length)
    (i : Nat) (hi : i < l.length) : i ∈ l := by
  have hsub : l.toFinset ⊆ Finset.range l.length := by
    intro x hx
    rw [Finset.mem_range]
    exact hlt x (List.mem_toFinset.1 hx)
  have hcard : (Finset.range l.length).card ≤ l.toFinset.card := by
    rw [Finset.card_range, List.toFinset_card_of_nodup hn]
  have heq := Finset.eq_of_subset_of_card_le hsub hcard
  have : i ∈ l.toFinset := by rw [heq, Finset.mem_range]; exact hi
  exact List.mem_toFinset.1 this

/-- A word of the corpus length that starts with the first `n` characters of
`w` and ends with the rest of `w` is `w`. -/
theorem affix_split (w v : List Char) (n : Nat) (hn : n ≤ w.length)
    (hv : v.length = w.length) : affix (w.take n) (w.drop n) v ↔ v = w := by
  unfold affix
  constructor
  · rintro ⟨h1, h2⟩
    rw [List.prefix_iff_eq_take] at h1
    rw [List.suffix_iff_eq_drop] at h2
    rw [List.length_take, Nat.min_eq_left hn] at h1
    rw [List.length_drop, hv] at h2
    have e : w.length - (w.length - n) = n := by omega
    rw [e] at h2
    rw [← List.take_append_drop n v, ← h1, ← h2, List.take_append_drop]
  · rintro rfl
    exact ⟨List.take_prefix _ _, List.drop_suffix _ _⟩

theorem naive_split (W : Words) (hV : W.Valid) (p : List Char × Nat) (hp : p ∈ W.words)
    (n : Nat) (hn : n ≤ W.length) (id : Nat) :
    id ∈ naive W (p.1.take n) (p.1.drop n) ↔ id = p.2 := by
  rw [mem_naive]
  have hpl := (hV.1 p hp).1
  constructor
  · rintro ⟨w, hw, h⟩
    have hwl := (hV.1 (w, id) hw).1
    have e : w = p.1 := (affix_split p.1 w n (by omega) (by rw [hwl, hpl])).1 h
    have := pair_eq_of_fst_eq W.words hV.2.1 (w, id) p hw hp e
    rw [← this]
  · rintro rfl
    exact ⟨p.1, hp, List.take_prefix _ _, List.drop_suffix _ _⟩

theorem naive_full (W : Words) (hV : W.Valid) (pre suf : List Char)
    (hlen : pre.length + suf.length = W.length) : (naive W pre suf).length ≤ 1 := by
  apply length_le_one_of_all_eq _ (naive_nodup W hV pre suf)
  intro x hx y hy
  obtain ⟨w1, hw1, h1, h1s⟩ := (mem_naive W pre suf x).1 hx
  obtain ⟨w2, hw2, h2, h2s⟩ := (mem_naive W pre suf y).1 hy
  have l1 := (hV.1 _ hw1).1
  have l2 := (hV.1 _ hw2).1
  have key : ∀ w : List Char, w.length = W.length → pre <+: w → suf <:+ w → w = pre ++ suf := by
    intro w hw hp hs
    rw [List.prefix_iff_eq_take] at hp
    rw [List.suffix_iff_eq_drop] at hs
    have e : w.length - suf.length = pre.length := by omega
    rw [e] at hs
    rw [← List.take_append_drop pre.length w, ← hp, ← hs]
  have e : w1 = w2 := by rw [key w1 l1 h1 h1s, key w2 l2 h2 h2s]
  have := pair_eq_of_fst_eq W.words hV.2.1 (w1, x) (w2, y) hw1 hw2 e
  exact (Prod.mk.inj this).2

theorem naive_none (W : Words) (pre suf : List Char)
    (hno : (∀ p ∈ W.words, ¬ pre <+: p.1) ∨ (∀ p ∈ W.words, ¬ suf <:+ p.1)) :
    naive W pre suf = [] := by
  apply List.eq_nil_iff_forall_not_mem.2
  intro id hid
  obtain ⟨w, hw, h1, h2⟩ := (mem_naive W pre suf id).1 hid
  rcases hno with h | h
  · exact h (w, id) hw h1
  · exact h (w, id) hw h2

theorem naive_all (W : Words) (hV : W.Valid) (id : Nat) :
    id ∈ naive W [] [] ↔ id < W.words.length := by
  rw [mem_naive]
  constructor
  · rintro ⟨w, hw, _⟩
    exact hV.2.2.2 (w, id) hw
  · intro h
    have hm := mem_of_lt_length (W.words.map Prod.snd) hV.2.2.1
      (fun x hx => by
        obtain ⟨p, hp, rfl⟩ := List.mem_map.1 hx
        rw [List.length_map]
        exact hV.2.2.2 p hp) id (by rw [List.length_map]; exact h)
    obtain ⟨p, hp, rfl⟩ := List.mem_map.1 hm
    exact ⟨p.1, hp, List.nil_prefix, List.nil_suffix⟩

theorem naive_all_length (W : Words) : (naive W [] []).length = W.words.length := by
  unfold naive affix
  rw [List.length_map, List.filter_eq_self.2]
  intro p _
  simp

end PatternMatch

namespace PatternMatch

/-! ## The claims -/

open TrieStorageBase

/-- C1: on a valid corpus of word length at least 1 that fits the arena, the
set of identities `TrieMatcher::query(prefix, suffix, cb)` passes to `cb`, for
lowercase `prefix` and `suffix` whose lengths add up to at most the word
length, is the set of identities of the words that start with `prefix` and end
with `suffix`; the query returns for every content of the scratch buffer. -/
theorem dual_trie_query_correct (W : Words) (hV : W.Valid) (hL : 1 ≤ W.length)
    (hR : TrieMatcher.InRange W) (buffer pre suf : List Char)
    (hpre : ∀ c ∈ pre, lower c) (hsuf : ∀ c ∈ suf, lower c)
    (hlen : pre.length + suf.length ≤ W.length) :
    ∃ res, TrieMatcher.query TriePoolStorage.ops (TrieMatcher.build TriePoolStorage.ops W)
        buffer pre suf = some res ∧
      ∀ id, id ∈ res.calls ↔ ∃ w, (w, id) ∈ W.words ∧ pre <+: w ∧ suf <:+ w := by
  obtain ⟨res, h1, h2, _⟩ := pool_dual_query W hV hL hR buffer pre suf hpre hsuf hlen
  exact ⟨res, h1, fun id => by rw [h2.mem_iff, mem_naive]⟩

theorem dual_trie_query_correct_witness :
    test_words.Valid ∧ TrieMatcher.InRange test_words ∧
    ∃ res, TrieMatcher.query TriePoolStorage.ops
        (TrieMatcher.build TriePoolStorage.ops test_words) [] [] ['x'] = some res ∧
      ∀ id, id ∈ res.calls ↔ ∃ w, (w, id) ∈ test_words.words ∧ [] <+: w ∧ ['x'] <:+ w :=
  ⟨by decide, by decide,
    dual_trie_query_correct test_words (by decide) (by decide) (by decide) [] [] ['x']
      (by decide) (by decide) (by decide)⟩

/-- C2: on a valid corpus of word length at least 1 that fits the arena, the
set of identities `TrieMixMatcher::query(prefix, suffix, cb)` passes to `cb`,
for lowercase `prefix` and `suffix` whose lengths add up to at most the word
length, is the set of identities of the words that start with `prefix` and end
with `suffix`; the query returns for every content of the scratch buffer. -/
theorem interleaved_trie_query_correct (W : Words) (hV : W.Valid) (hL : 1 ≤ W.length)
    (hR : TrieMixMatcher.InRange W) (buffer pre suf : List Char)
    (hpre : ∀ c ∈ pre, lower c) (hsuf : ∀ c ∈ suf, lower c)
    (hlen : pre.length + suf.length ≤ W.length) :
    ∃ res, TrieMixMatcher.query TriePoolStorage.ops
        (TrieMixMatcher.build TriePoolStorage.ops W) buffer pre suf = some res ∧
      ∀ id, id ∈ res.calls ↔ ∃ w, (w, id) ∈ W.words ∧ pre <+: w ∧ suf <:+ w := by
  obtain ⟨res, h1, h2, _⟩ := pool_mix_query W hV hL hR buffer pre suf hpre hsuf hlen
  exact ⟨res, h1, fun id => by rw [h2.mem_iff, mem_naive]⟩

theorem interleaved_trie_query_correct_witness :
    test_words.Valid ∧ TrieMixMatcher.InRange test_words ∧
    ∃ res, TrieMixMatcher.query TriePoolStorage.ops
        (TrieMixMatcher.build TriePoolStorage.ops test_words) [] ['q'] ['x'] = some res ∧
      ∀ id, id ∈ res.calls ↔ ∃ w, (w, id) ∈ test_words.words ∧ ['q'] <+: w ∧ ['x'] <:+ w :=
  ⟨by decide, by decide,
    interleaved_trie_query_correct test_words (by decide) (by decide) (by decide) [] ['q'] ['x']
      (by decide) (by decide) (by decide)⟩

/-- C3: built from the same valid corpus, `TrieMatcher::query` and
`TrieMixMatcher::query` report the same set of identities and return the same
count on every valid query, whatever their scratch buffers hold. -/
theorem cross_engine_equivalence (W : Words) (hV : W.Valid) (hL : 1 ≤ W.length)
    (hR1 : TrieMatcher.InRange W) (hR2 : TrieMixMatcher.InRange W)
    (buffer1 buffer2 pre suf : List Char)
    (hpre : ∀ c ∈ pre, lower c) (hsuf : ∀ c ∈ suf, lower c)
    (hlen : pre.length + suf.length ≤ W.length) :
    ∃ r1 r2,
      TrieMatcher.query TriePoolStorage.ops (TrieMatcher.build TriePoolStorage.ops W)
        buffer1 pre suf = some r1 ∧
      TrieMixMatcher.query TriePoolStorage.ops (TrieMixMatcher.build TriePoolStorage.ops W)
        buffer2 pre suf = some r2 ∧
      (∀ id, id ∈ r1.calls ↔ id ∈ r2.calls) ∧ r1.ret = r2.ret := by
  obtain ⟨r1, h1, p1, c1⟩ := pool_dual_query W hV hL hR1 buffer1 pre suf hpre hsuf hlen
  obtain ⟨r2, h2, p2, c2⟩ := pool_mix_query W hV hL hR2 buffer2 pre suf hpre hsuf hlen
  refine ⟨r1, r2, h1, h2, fun id => by rw [p1.mem_iff, p2.mem_iff], ?_⟩
  rw [c1, c2, p1.length_eq, p2.length_eq]

theorem cross_engine_equivalence_witness :
    test_words.Valid ∧ TrieMatcher.InRange test_words ∧ TrieMixMatcher.InRange test_words ∧
    ∃ r1 r2,
      TrieMatcher.query TriePoolStorage.ops (TrieMatcher.build TriePoolStorage.ops test_words)
        [] ['b'] [] = some r1 ∧
      TrieMixMatcher.query TriePoolStorage.ops
        (TrieMixMatcher.build TriePoolStorage.ops test_words) ['z'] ['b'] [] = some r2 ∧
      (∀ id, id ∈ r1.calls ↔ id ∈ r2.calls) ∧ r1.ret = r2.ret :=
  ⟨by decide, by decide, by decide,
    cross_engine_equivalence test_words (by decide) (by decide) (by decide) (by decide)
      [] ['z'] ['b'] [] (by decide) (by decide) (by decide)⟩

/-- C4: on a valid corpus and a valid query, in both engines the returned count
is the number of callback invocations, no identity is passed to the callback
twice, and the returned count is the number of matching words. -/
theorem query_count_unique (W : Words) (hV : W.Valid) (hL : 1 ≤ W.length)
    (hR1 : TrieMatcher.InRange W) (hR2 : TrieMixMatcher.InRange W)
    (buffer1 buffer2 pre suf : List Char)
    (hpre : ∀ c ∈ pre, lower c) (hsuf : ∀ c ∈ suf, lower c)
    (hlen : pre.length + suf.length ≤ W.length) :
    (∃ r1, TrieMatcher.query TriePoolStorage.ops (TrieMatcher.build TriePoolStorage.ops W)
        buffer1 pre suf = some r1 ∧ r1.ret = r1.calls.length ∧ r1.calls.Nodup ∧
        r1.ret = (W.words.filter (fun p => decide (affix pre suf p.1))).length) ∧
    (∃ r2, TrieMixMatcher.query TriePoolStorage.ops
        (TrieMixMatcher.build TriePoolStorage.ops W) buffer2 pre suf = some r2 ∧
        r2.ret = r2.calls.length ∧ r2.calls.Nodup ∧
        r2.ret = (W.words.filter (fun p => decide (affix pre suf p.1))).length) := by
  obtain ⟨r1, h1, p1, c1⟩ := pool_dual_query W hV hL hR1 buffer1 pre suf hpre hsuf hlen
  obtain ⟨r2, h2, p2, c2⟩ := pool_mix_query W hV hL hR2 buffer2 pre suf hpre hsuf hlen
  have hn := naive_nodup W hV pre suf
  exact ⟨⟨r1, h1, c1, p1.nodup_iff.2 hn, by rw [c1, p1.length_eq, naive_length]⟩,
    ⟨r2, h2, c2, p2.nodup_iff.2 hn, by rw [c2, p2.length_eq, naive_length]⟩⟩

theorem query_count_unique_witness :
    test_words.Valid ∧ TrieMatcher.InRange test_words ∧ TrieMixMatcher.InRange test_words ∧
    (∃ r1, TrieMatcher.query TriePoolStorage.ops
        (TrieMatcher.build TriePoolStorage.ops test_words) [] ['q'] [] = some r1 ∧
        r1.ret = r1.calls.length ∧ r1.calls.Nodup ∧
        r1.ret = (test_words.words.filter (fun p => decide (affix ['q'] [] p.1))).length) ∧
    (∃ r2, TrieMixMatcher.query TriePoolStorage.ops
        (TrieMixMatcher.build TriePoolStorage.ops test_words) [] ['q'] [] = some r2 ∧
        r2.ret = r2.calls.length ∧ r2.calls.Nodup ∧
        r2.ret = (test_words.words.filter (fun p => decide (affix ['q'] [] p.1))).length) :=
  ⟨by decide, by decide, by decide,
    query_count_unique test_words (by decide) (by decide) (by decide) (by decide)
      [] [] ['q'] [] (by decide) (by decide) (by decide)⟩

/-- C5: for every word of a valid corpus and every split point `n` up to the
word length, the query for the first `n` characters as prefix and the rest as
suffix reports exactly the identity of that word, once, and returns 1, in
both engines. -/
theorem query_every_split (W : Words) (hV : W.Valid) (hL : 1 ≤ W.length)
    (hR1 : TrieMatcher.InRange W) (hR2 : TrieMixMatcher.InRange W)
    (buffer1 buffer2 : List Char) (p : List Char × Nat) (hp : p ∈ W.words)
    (n : Nat) (hn : n ≤ W.length) :
    (∃ r1, TrieMatcher.query TriePoolStorage.ops (TrieMatcher.build TriePoolStorage.ops W)
        buffer1 (p.1.take n) (p.1.drop n) = some r1 ∧ r1.calls = [p.2] ∧ r1.ret = 1) ∧
    (∃ r2, TrieMixMatcher.query TriePoolStorage.ops
        (TrieMixMatcher.build TriePoolStorage.ops W) buffer2 (p.1.take n) (p.1.drop n)
        = some r2 ∧ r2.calls = [p.2] ∧ r2.ret = 1) := by
  have hpl := (hV.1 p hp).1
  have hlow := (hV.1 p hp).2
  have hpre : ∀ c ∈ p.1.take n, lower c := fun c hc => hlow c (List.mem_of_mem_take hc)
  have hsuf : ∀ c ∈ p.1.drop n, lower c := fun c hc => hlow c (List.mem_of_mem_drop hc)
  have hlen : (p.1.take n).length + (p.1.drop n).length ≤ W.length := by
    rw [List.length_take, List.length_drop]; omega
  obtain ⟨r1, h1, p1, c1⟩ := pool_dual_query W hV hL hR1 buffer1 _ _ hpre hsuf hlen
  obtain ⟨r2, h2, p2, c2⟩ := pool_mix_query W hV hL hR2 buffer2 _ _ hpre hsuf hlen
  have hn1 := naive_nodup W hV (p.1.take n) (p.1.drop n)
  have e1 : r1.calls = [p.2] := eq_singleton_of_nodup _ _ (p1.nodup_iff.2 hn1)
    (fun x => by rw [p1.mem_iff, naive_split W hV p hp n hn])
  have e2 : r2.calls = [p.2] := eq_singleton_of_nodup _ _ (p2.nodup_iff.2 hn1)
    (fun x => by rw [p2.mem_iff, naive_split W hV p hp n hn])
  exact ⟨⟨r1, h1, e1, by rw [c1, e1]; rfl⟩, ⟨r2, h2, e2, by rw [c2, e2]; rfl⟩⟩

theorem query_every_split_witness :
    test_words.Valid ∧ TrieMatcher.InRange test_words ∧ TrieMixMatcher.InRange test_words ∧
    (∃ r1, TrieMatcher.query TriePoolStorage.ops
        (TrieMatcher.build TriePoolStorage.ops test_words) [] (['b', 'a', 'z'].take 1)
        (['b', 'a', 'z'].drop 1) = some r1 ∧ r1.calls = [2] ∧ r1.ret = 1) ∧
    (∃ r2, TrieMixMatcher.query TriePoolStorage.ops
        (TrieMixMatcher.build TriePoolStorage.ops test_words) [] (['b', 'a', 'z'].take 1)
        (['b', 'a', 'z'].drop 1) = some r2 ∧ r2.calls = [2] ∧ r2.ret = 1) :=
  ⟨by decide, by decide, by decide,
    query_every_split test_words (by decide) (by decide) (by decide) (by decide)
      [] [] (['b', 'a', 'z'], 2) (by decide) 1 (by decide)⟩

/-- C6: on a valid corpus of `N` words the query with empty prefix and empty
suffix reports every identity in `[0, N)` exactly once and returns `N`, in
both engines. -/
theorem query_empty_returns_all (W : Words) (hV : W.Valid) (hL : 1 ≤ W.length)
    (hR1 : TrieMatcher.InRange W) (hR2 : TrieMixMatcher.InRange W)
    (buffer1 buffer2 : List Char) :
    (∃ r1, TrieMatcher.query TriePoolStorage.ops (TrieMatcher.build TriePoolStorage.ops W)
        buffer1 [] [] = some r1 ∧ r1.ret = W.words.length ∧ r1.calls.Nodup ∧
        ∀ id, id ∈ r1.calls ↔ id < W.words.length) ∧
    (∃ r2, TrieMixMatcher.query TriePoolStorage.ops
        (TrieMixMatcher.build TriePoolStorage.ops W) buffer2 [] [] = some r2 ∧
        r2.ret = W.words.length ∧ r2.calls.Nodup ∧
        ∀ id, id ∈ r2.calls ↔ id < W.words.length) := by
  have h0 : ∀ c ∈ ([] : List Char), lower c := fun c hc => by simp at hc
  obtain ⟨r1, h1, p1, c1⟩ := pool_dual_query W hV hL hR1 buffer1 [] [] h0 h0 (by simp)
  obtain ⟨r2, h2, p2, c2⟩ := pool_mix_query W hV hL hR2 buffer2 [] [] h0 h0 (by simp)
  have hn := naive_nodup W hV [] []
  exact ⟨⟨r1, h1, by rw [c1, p1.length_eq, naive_all_length], p1.nodup_iff.2 hn,
      fun id => by rw [p1.mem_iff, naive_all W hV]⟩,
    ⟨r2, h2, by rw [c2, p2.length_eq, naive_all_length], p2.nodup_iff.2 hn,
      fun id => by rw [p2.mem_iff, naive_all W hV]⟩⟩

theorem query_empty_returns_all_witness :
    test_words.Valid ∧ TrieMatcher.InRange test_words ∧ TrieMixMatcher.InRange test_words ∧
    (∃ r1, TrieMatcher.query TriePoolStorage.ops
        (TrieMatcher.build TriePoolStorage.ops test_words) [] [] [] = some r1 ∧
        r1.ret = test_words.words.length ∧ r1.calls.Nodup ∧
        ∀ id, id ∈ r1.calls ↔ id < test_words.words.length) ∧
    (∃ r2, TrieMixMatcher.query TriePoolStorage.ops
        (TrieMixMatcher.build TriePoolStorage.ops test_words) [] [] [] = some r2 ∧
        r2.ret = test_words.words.length ∧ r2.calls.Nodup ∧
        ∀ id, id ∈ r2.calls ↔ id < test_words.words.length) :=
  ⟨by decide, by decide, by decide,
    query_empty_returns_all test_words (by decide) (by decide) (by decide) (by decide) [] []⟩

/-- C7: on a valid corpus, a query whose prefix and suffix lengths add up to
exactly the word length returns 0 or 1 and reports at most one identity, in
both engines. -/
theorem query_fully_constrained (W : Words) (hV : W.Valid) (hL : 1 ≤ W.length)
    (hR1 : TrieMatcher.InRange W) (hR2 : TrieMixMatcher.InRange W)
    (buffer1 buffer2 pre suf : List Char)
    (hpre : ∀ c ∈ pre, lower c) (hsuf : ∀ c ∈ suf, lower c)
    (hlen : pre.length + suf.length = W.length) :
    (∃ r1, TrieMatcher.query TriePoolStorage.ops (TrieMatcher.build TriePoolStorage.ops W)
        buffer1 pre suf = some r1 ∧ r1.ret ≤ 1 ∧ r1.calls.length ≤ 1) ∧
    (∃ r2, TrieMixMatcher.query TriePoolStorage.ops
        (TrieMixMatcher.build TriePoolStorage.ops W) buffer2 pre suf = some r2 ∧
        r2.ret ≤ 1 ∧ r2.calls.length ≤ 1) := by
  obtain ⟨r1, h1, p1, c1⟩ := pool_dual_query W hV hL hR1 buffer1 pre suf hpre hsuf (by omega)
  obtain ⟨r2, h2, p2, c2⟩ := pool_mix_query W hV hL hR2 buffer2 pre suf hpre hsuf (by omega)
  have hle := naive_full W hV pre suf hlen
  exact ⟨⟨r1, h1, by rw [c1, p1.length_eq]; exact hle, by rw [p1.length_eq]; exact hle⟩,
    ⟨r2, h2, by rw [c2, p2.length_eq]; exact hle, by rw [p2.length_eq]; exact hle⟩⟩

theorem query_fully_constrained_witness :
    test_words.Valid ∧ TrieMatcher.InRange test_words ∧ TrieMixMatcher.InRange test_words ∧
    (∃ r1, TrieMatcher.query TriePoolStorage.ops
        (TrieMatcher.build TriePoolStorage.ops test_words) [] ['f'] ['o', 'o'] = some r1 ∧
        r1.ret ≤ 1 ∧ r1.calls.length ≤ 1) ∧
    (∃ r2, TrieMixMatcher.query TriePoolStorage.ops
        (TrieMixMatcher.build TriePoolStorage.ops test_words) [] ['f'] ['o', 'o'] = some r2 ∧
        r2.ret ≤ 1 ∧ r2.calls.length ≤ 1) :=
  ⟨by decide, by decide, by decide,
    query_fully_constrained test_words (by decide) (by decide) (by decide) (by decide)
      [] [] ['f'] ['o', 'o'] (by decide) (by decide) (by decide)⟩

/-- C8: on a valid corpus and a valid query whose prefix starts no stored word
or whose suffix ends no stored word, both engines return 0 and never invoke
the callback. -/
theorem query_no_match_empty (W : Words) (hV : W.Valid) (hL : 1 ≤ W.length)
    (hR1 : TrieMatcher.InRange W) (hR2 : TrieMixMatcher.InRange W)
    (buffer1 buffer2 pre suf : List Char)
    (hpre : ∀ c ∈ pre, lower c) (hsuf : ∀ c ∈ suf, lower c)
    (hlen : pre.length + suf.length ≤ W.length)
    (hno : (∀ p ∈ W.words, ¬ pre <+: p.1) ∨ (∀ p ∈ W.words, ¬ suf <:+ p.1)) :
    (∃ r1, TrieMatcher.query TriePoolStorage.ops (TrieMatcher.build TriePoolStorage.ops W)
        buffer1 pre suf = some r1 ∧ r1.ret = 0 ∧ r1.calls = []) ∧
    (∃ r2, TrieMixMatcher.query TriePoolStorage.ops
        (TrieMixMatcher.build TriePoolStorage.ops W) buffer2 pre suf = some r2 ∧
        r2.ret = 0 ∧ r2.calls = []) := by
  obtain ⟨r1, h1, p1, c1⟩ := pool_dual_query W hV hL hR1 buffer1 pre suf hpre hsuf hlen
  obtain ⟨r2, h2, p2, c2⟩ := pool_mix_query W hV hL hR2 buffer2 pre suf hpre hsuf hlen
  rw [naive_none W pre suf hno] at p1 p2
  have e1 := List.Perm.eq_nil p1
  have e2 := List.Perm.eq_nil p2
  exact ⟨⟨r1, h1, by rw [c1, e1]; rfl, e1⟩, ⟨r2, h2, by rw [c2, e2]; rfl, e2⟩⟩

theorem query_no_match_empty_witness :
    test_words.Valid ∧ TrieMatcher.InRange test_words ∧ TrieMixMatcher.InRange test_words ∧
    ((∀ p ∈ test_words.words, ¬ ['b', 'x'] <+: p.1) ∨
      (∀ p ∈ test_words.words, ¬ [] <:+ p.1)) ∧
    (∃ r1, TrieMatcher.query TriePoolStorage.ops
        (TrieMatcher.build TriePoolStorage.ops test_words) [] ['b', 'x'] [] = some r1 ∧
        r1.ret = 0 ∧ r1.calls = []) ∧
    (∃ r2, TrieMixMatcher.query TriePoolStorage.ops
        (TrieMixMatcher.build TriePoolStorage.ops test_words) [] ['b', 'x'] [] = some r2 ∧
        r2.ret = 0 ∧ r2.calls = []) :=
  ⟨by decide, by decide, by decide, by decide,
    query_no_match_empty test_words (by decide) (by decide) (by decide) (by decide)
      [] [] ['b', 'x'] [] (by decide) (by decide) (by decide) (by decide)⟩

end PatternMatch

namespace PatternMatch

open TrieStorageBase

theorem empty_corpus_valid (L : Nat) : (Words.mk [] L).Valid :=
  ⟨fun _ hp => absurd hp (List.not_mem_nil _), List.nodup_nil, List.nodup_nil,
    fun _ hp => absurd hp (List.not_mem_nil _)⟩

theorem empty_corpus_in_range (L : Nat) (hL : 1 ≤ L) : TrieMatcher.InRange (Words.mk [] L) := by
  constructor
  · show 0 < 2 ^ 32
    omega
  · have hne : (Words.mk [] L).length ≠ 0 := by
      show L ≠ 0
      omega
    rw [TrieMatcher.build_eq (Words.mk [] L) hne]
    have e : runOps TriePoolStorage.ops
        (TriePoolStorage.ops.add_node (TriePoolStorage.ops.add_node
          TriePoolStorage.ops.empty).1).1
        (TrieMatcher.buildOps TriePoolStorage.ops
          (TriePoolStorage.ops.add_node TriePoolStorage.ops.empty).2
          (TriePoolStorage.ops.add_node (TriePoolStorage.ops.add_node
            TriePoolStorage.ops.empty).1).2 (Words.mk [] L).words)
        = (TriePoolStorage.ops.add_node (TriePoolStorage.ops.add_node
          TriePoolStorage.ops.empty).1).1 := rfl
    simp only [e]
    decide

/-- C9: for the empty corpus and every word length `L`, zero included, every
query with lowercase prefix and suffix whose lengths add up to at most `L` makes
`TrieMatcher::query` return 0 without invoking the callback. -/
theorem dual_trie_empty_corpus (L : Nat) (buffer pre suf : List Char)
    (hpre : ∀ c ∈ pre, lower c) (hsuf : ∀ c ∈ suf, lower c)
    (hlen : pre.length + suf.length ≤ L) :
    ∃ res, TrieMatcher.query TriePoolStorage.ops
        (TrieMatcher.build TriePoolStorage.ops (Words.mk [] L)) buffer pre suf = some res ∧
      res.ret = 0 ∧ res.calls = [] := by
  rcases Nat.eq_zero_or_pos L with h0 | hpos
  · subst h0
    have e1 : pre = [] := List.length_eq_zero.1 (by omega)
    have e2 : suf = [] := List.length_eq_zero.1 (by omega)
    subst e1 e2
    exact ⟨⟨[], 0, buffer⟩, rfl, rfl, rfl⟩
  · obtain ⟨res, h1, p1, c1⟩ := pool_dual_query (Words.mk [] L) (empty_corpus_valid L) hpos
      (empty_corpus_in_range L hpos) buffer pre suf hpre hsuf hlen
    have e : res.calls = [] := List.Perm.eq_nil p1
    exact ⟨res, h1, by rw [c1, e]; rfl, e⟩

theorem dual_trie_empty_corpus_witness :
    (∀ c ∈ ['x'], lower c) ∧
    ∃ res, TrieMatcher.query TriePoolStorage.ops
        (TrieMatcher.build TriePoolStorage.ops (Words.mk [] 2)) [] ['x'] [] = some res ∧
      res.ret = 0 ∧ res.calls = [] :=
  ⟨by decide, dual_trie_empty_corpus 2 [] ['x'] [] (by decide) (by decide) (by decide)⟩

/-- C10: for the empty corpus of word length 0 the query with empty prefix and
empty suffix makes `TrieMixMatcher::query` invoke the callback once, with the
decoded null value `2 ^ 32 - 1`, and return 1: the crawler reports at the end
of the probe without testing the trie value for null. -/
theorem interleaved_trie_empty_corpus_reports :
    TrieMixMatcher.query TriePoolStorage.ops
        (TrieMixMatcher.build TriePoolStorage.ops (Words.mk [] 0)) [] [] []
      = some ⟨[4294967295], 1, []⟩ := by
  decide

end PatternMatch

namespace PatternMatch

/-! ## The loop of `do_fan_out` when the callback fails -/

namespace TrieStorageBase

variable {S σ : Type} (T : TrieStorageBase S)

theorem loop_mono (s : S) (last : Nat) (fn : σ → Nat → Option σ) :
    ∀ (fuel : Nat) (x : FanOutState σ) (r : σ),
      T.do_fan_out_loop s last fn fuel x = some r →
      T.do_fan_out_loop s last fn (fuel + 1) x = some r := by
  intro fuel
  induction fuel with
  | zero => intro x r h; exact absurd h (by simp [do_fan_out_loop])
  | succ fuel ih =>
    intro x r h
    rw [loop_succ] at h ⊢
    cases hi : T.do_fan_out_iter s last fn x with
    | none => rw [hi] at h; exact absurd h (by simp)
    | some y =>
      rw [hi] at h
      cases y with
      | inl z => exact ih z r h
      | inr st => exact h

theorem loop_mono_add (s : S) (last : Nat) (fn : σ → Nat → Option σ) (k : Nat) :
    ∀ (fuel : Nat) (x : FanOutState σ) (r : σ),
      T.do_fan_out_loop s last fn fuel x = some r →
      T.do_fan_out_loop s last fn (fuel + k) x = some r := by
  induction k with
  | zero => intro fuel x r h; exact h
  | succ k ih =>
    intro fuel x r h
    exact loop_mono T s last fn (fuel + k) x r (ih fuel x r h)

theorem loop_none_of_shift (s : S) (last : Nat) (fn : σ → Nat → Option σ) (k : Nat)
    (x : FanOutState σ) (h : ∀ fuel, T.do_fan_out_loop s last fn (fuel + k) x = none) :
    ∀ fuel, T.do_fan_out_loop s last fn fuel x = none := by
  intro fuel
  cases hr : T.do_fan_out_loop s last fn fuel x with
  | none => rfl
  | some r =>
    have := loop_mono_add T s last fn k fuel x r hr
    rw [h fuel] at this
    exact absurd this (by simp)

theorem foldlM_append_none (fn : σ → Nat → Option σ) (l1 l2 : List Nat) (st : σ)
    (h : (l1 ++ l2).foldlM fn st = none) :
    l1.foldlM fn st = none ∨ ∃ st1, l1.foldlM fn st = some st1 ∧ l2.foldlM fn st1 = none := by
  rw [List.foldlM_append] at h
  cases h1 : l1.foldlM fn st with
  | none => exact Or.inl rfl
  | some st1 => rw [h1] at h; exact Or.inr ⟨st1, rfl, by simpa using h⟩

theorem loop_fail_inner (s : S) (last : Nat) (fn : σ → Nat → Option σ) (d : Nat)
    (hchild : ∀ d2, d = d2 + 1 → LoopFail T s last fn d2 26 0) :
    ∀ m c, LoopFail T s last fn d m c := by
  intro m
  induction m with
  | zero => intro c stack sp n st _ _ h; omega
  | succ m ihm =>
    intro c stack sp n st hsp hcm _ hlen hn hfold fuel
    have hc : c < 26 := by omega
    rw [scan_step T s d n c hc] at hfold
    cases fuel with
    | zero => rfl
    | succ fuel =>
      rw [loop_succ]
      have hrest : ∀ (stack1 : List (Nat × Nat)) (st1 : σ),
          (T.scan s d n (c + 1)).foldlM fn st1 = none → last < stack1.length →
          (stack1.getD sp (0, 0)).1 = n →
          c + 1 ≠ 26 ∧ ∀ f, T.do_fan_out_loop s last fn f ⟨stack1, sp, n, c + 1, st1⟩ = none := by
        intro stack1 st1 hf hl1 hn1
        have h26 : c + 1 ≠ 26 := by
          intro e
          rw [e, scan_end] at hf
          simp at hf
        exact ⟨h26, ihm (c + 1) stack1 sp n st1 hsp (by omega) (by omega) hl1 hn1 hf⟩
      by_cases hpush : T.slot s n c ≠ T.null ∧ sp ≠ last
      · obtain ⟨d2, hd2⟩ : ∃ d2, d = d2 + 1 := ⟨d - 1, by omega⟩
        rw [if_pos hpush.1, hd2, reach_succ] at hfold
        simp only [do_fan_out_iter, if_pos hpush]
        have hsplt : sp + 1 < stack.length := by omega
        have hl1 : last < ((stack.set sp ((stack.getD sp (0, 0)).1, c + 1)).set (sp + 1)
            (T.slot s n c, 0)).length := by simpa using hlen
        have hn1 : (((stack.set sp ((stack.getD sp (0, 0)).1, c + 1)).set (sp + 1)
            (T.slot s n c, 0)).getD (sp + 1) (0, 0)).1 = T.slot s n c := by
          rw [getD_set_self _ _ _ _ (by simpa using hsplt)]
        rcases foldlM_append_none fn _ _ st hfold with h1 | ⟨st1, h1, h2⟩
        · exact hchild d2 hd2 _ (sp + 1) (T.slot s n c) st (by omega) (by omega) (by omega)
            hl1 hn1 h1 fuel
        · obtain ⟨k1, _, stackA, hA1, hA2, hA3⟩ :=
            loop_spec T s last fn d2 26 0 _ (sp + 1) (T.slot s n c) st st1 (by omega)
              (by omega) (by omega) hl1 hn1 h1
          have hAsp : stackA.getD sp (0, 0) = (n, c + 1) := by
            rw [hA2 sp (by omega), getD_set_ne _ _ _ _ _ (by omega),
              getD_set_self _ _ _ _ (by omega), hn]
          rw [← hd2] at h2
          obtain ⟨h26, hnone⟩ := hrest stackA st1 h2 (by rw [hA1]; exact hl1) (by rw [hAsp])
          apply loop_none_of_shift T s last fn k1
          intro f
          rw [hA3 f]
          simp only [after]
          rw [unwind, hAsp]
          simp only [h26, if_false]
          rw [hAsp]
          exact hnone f
      · simp only [do_fan_out_iter, if_neg hpush]
        have hcall : (if T.slot s n c ≠ T.null then fn st (T.slot s n c) else some st) = none ∨
            ∃ st1, (if T.slot s n c ≠ T.null then fn st (T.slot s n c) else some st)
              = some st1 ∧ (T.scan s d n (c + 1)).foldlM fn st1 = none := by
          by_cases hv : T.slot s n c ≠ T.null
          · have hd0 : d = 0 := by
              by_contra hd
              exact hpush ⟨hv, by omega⟩
            rw [if_pos hv, hd0] at hfold
            rw [if_pos hv]
            rcases foldlM_append_none fn _ _ st hfold with h1 | ⟨st1, h1, h2⟩
            · left
              simp only [reach, List.foldlM_cons, List.foldlM_nil] at h1
              cases hfn : fn st (T.slot s n c) with
              | none => rfl
              | some y => rw [hfn] at h1; simp at h1
            · right
              simp only [reach, List.foldlM_cons, List.foldlM_nil] at h1
              cases hfn : fn st (T.slot s n c) with
              | none => rw [hfn] at h1; simp at h1
              | some y =>
                rw [hfn] at h1
                have : y = st1 := by simpa using h1
                subst this
                rw [hd0]
                exact ⟨y, rfl, h2⟩
          · rw [if_neg hv] at hfold
            rw [if_neg hv]
            right
            exact ⟨st, rfl, by simpa using hfold⟩
        rcases hcall with h1 | ⟨st1, h1, h2⟩
        · rw [h1]
        · rw [h1]
          obtain ⟨h26, hnone⟩ := hrest stack st1 h2 hlen hn
          simp only [h26, if_false]
          exact hnone fuel

theorem loop_fail (s : S) (last : Nat) (fn : σ → Nat → Option σ) :
    ∀ d m c, LoopFail T s last fn d m c := by
  intro d
  induction d with
  | zero => exact loop_fail_inner T s last fn 0 (fun d2 h => by omega)
  | succ d ih =>
    exact loop_fail_inner T s last fn (d + 1) (fun d2 h => by
      have : d2 = d := by omega
      subst this
      exact ih 26 0)

theorem do_fan_out_none (s : S) (node_pos depth : Nat) (fn : σ → Nat → Option σ)
    (st : σ) (hd : 0 < depth) (h : (T.reach s depth node_pos).foldlM fn st = none) :
    T.do_fan_out s node_pos depth fn st = none := by
  obtain ⟨d, rfl⟩ : ∃ d, depth = d + 1 := ⟨depth - 1, by omega⟩
  rw [reach_succ] at h
  unfold do_fan_out
  exact loop_fail T s d fn d 26 0 ((List.replicate (d + 1) (0, 0)).set 0 (node_pos, 0)) 0
    node_pos st (by omega) (by omega) (by omega) (by simp) (by simp) h _

/-- `deep_fan_out` applies the callback to the values of `fanList`, in order,
and returns what the callback leaves; it fails only if the callback does. -/
theorem deep_fan_out_foldlM (s : S) (node_pos depth : Nat) (fn : σ → Nat → Option σ)
    (st : σ) :
    T.deep_fan_out s node_pos depth fn st = (T.fanList s depth node_pos).foldlM fn st := by
  cases h : (T.fanList s depth node_pos).foldlM fn st with
  | some st2 => exact deep_fan_out_eq T s node_pos depth fn st st2 h
  | none =>
    unfold deep_fan_out
    unfold fanList at h
    by_cases hd : depth = 0
    · rw [if_pos hd] at h
      rw [if_neg (by simpa using hd)]
      by_cases hv : node_pos ≠ T.null
      · rw [if_pos hv] at h
        rw [if_pos hv]
        simp only [List.foldlM_cons, List.foldlM_nil] at h
        cases hfn : fn st node_pos with
        | none => rfl
        | some y => rw [hfn] at h; simp at h
      · rw [if_neg hv] at h
        simp at h
    · rw [if_neg hd] at h
      rw [if_pos hd]
      exact do_fan_out_none T s node_pos depth fn st (by omega) h

end TrieStorageBase

end PatternMatch

namespace PatternMatch

/-! ## The contract of `deep_fan_out` and `fan_out` -/

theorem mem_allPaths (d : Nat) : ∀ k : List Nat,
    k ∈ allPaths d ↔ (k.length = d ∧ ∀ c ∈ k, c < 26) := by
  induction d with
  | zero =>
    intro k
    simp only [allPaths, List.mem_singleton]
    constructor
    · rintro rfl; exact ⟨rfl, fun c hc => by simp at hc⟩
    · rintro ⟨h, _⟩; exact List.length_eq_zero.1 h
  | succ d ih =>
    intro k
    simp only [allPaths, List.mem_flatMap, List.mem_range, List.mem_map]
    constructor
    · rintro ⟨c, hc, k2, hk2, rfl⟩
      obtain ⟨h1, h2⟩ := (ih k2).1 hk2
      refine ⟨by simp [h1], ?_⟩
      intro x hx
      rcases List.mem_cons.1 hx with h | h
      · rw [h]; exact hc
      · exact h2 x h
    · rintro ⟨h1, h2⟩
      cases k with
      | nil => simp at h1
      | cons c k2 =>
        refine ⟨c, h2 c (by simp), k2, (ih k2).2 ⟨by simpa using h1, ?_⟩, rfl⟩
        intro x hx
        exact h2 x (List.mem_cons_of_mem _ hx)

theorem allPaths_nodup (d : Nat) : (allPaths d).Nodup := by
  induction d with
  | zero => simp [allPaths]
  | succ d ih =>
    rw [allPaths, List.nodup_flatMap]
    constructor
    · intro i _
      exact ih.map (fun a b h => by simpa using h)
    · apply List.Pairwise.imp _ (List.nodup_range 26)
      intro i j hij
      intro x hx1 hx2
      obtain ⟨k1, _, rfl⟩ := List.mem_map.1 hx1
      obtain ⟨k2, _, h2⟩ := List.mem_map.1 hx2
      simp only [List.cons.injEq] at h2
      exact hij h2.1.symm

namespace TrieStorageBase

variable {S σ : Type} (T : TrieStorageBase S)

theorem reach_eq_paths (s : S) : ∀ (d v : Nat),
    T.reach s d v = ((allPaths d).filter (T.pathOk s v)).map (T.walk s v) := by
  intro d
  induction d with
  | zero =>
    intro v
    simp [reach, allPaths, pathOk, walk]
  | succ d ih =>
    intro v
    rw [reach, allPaths, List.filter_flatMap, List.map_flatMap]
    congr 1
    funext c
    rw [List.filter_map, List.map_map]
    by_cases h : T.slot s v c ≠ T.null
    · rw [if_pos h, ih]
      have e1 : (T.pathOk s v ∘ fun k => c :: k) = T.pathOk s (T.slot s v c) := by
        funext k
        simp only [Function.comp, pathOk]
        rw [decide_eq_true h, Bool.true_and]
      rw [e1]
      rfl
    · rw [if_neg h]
      have e1 : (T.pathOk s v ∘ fun k => c :: k) = fun _ => false := by
        funext k
        simp only [Function.comp, pathOk]
        rw [decide_eq_false h, Bool.false_and]
      rw [e1, List.filter_false]
      rfl

theorem fanList_eq_visited (s : S) (d v : Nat) : T.fanList s d v = T.visited s d v := by
  unfold fanList visited
  by_cases hd : d = 0
  · rw [if_pos hd, if_pos hd]
  · rw [if_neg hd, if_neg hd, reach_eq_paths]

theorem node_eq_map_of_length (s : S) (v : Nat) (h : (T.node s v).length = 26) :
    T.node s v = (List.range 26).map (T.slot s v) := by
  apply List.ext_getElem
  · rw [h, List.length_map, List.length_range]
  · intro i h1 h2
    rw [List.getElem_map, List.getElem_range]
    unfold slot
    rw [List.getD_eq_getElem?_getD, List.getElem?_eq_getElem h1]
    rfl

theorem fan_out_foldlM (s : S) (v : Nat) (h : (T.node s v).length = 26)
    (fn : σ → Nat → Option σ) (st : σ) :
    T.fan_out s v fn st = (T.reach s 1 v).foldlM fn st := by
  unfold fan_out
  rw [node_eq_map_of_length T s v h, foldlM_map_cond]
  rfl

end TrieStorageBase

/-- C13: for every storage state, start value and depth `d`, `deep_fan_out`
applies the visitor, in order, to the values of `visited`: for `d = 0` to the
start value iff it is non-null, otherwise to the final value of each path of `d`
slot choices from the start whose intermediate and final values are all
non-null, once per path and to nothing else; the paths are the sequences of `d`
slot indices below 26, each listed once. -/
theorem deep_fan_out_complete {S : Type} (T : TrieStorageBase S) (s : S) (start d : Nat) :
    (∀ (σ : Type) (visit : σ → Nat → Option σ) (st : σ),
      T.deep_fan_out s start d visit st = (T.visited s d start).foldlM visit st) ∧
    (allPaths d).Nodup ∧
    ∀ k : List Nat, k ∈ allPaths d ↔ (k.length = d ∧ ∀ c ∈ k, c < 26) :=
  ⟨fun σ visit st => by
      rw [TrieStorageBase.deep_fan_out_foldlM, TrieStorageBase.fanList_eq_visited],
    allPaths_nodup d, mem_allPaths d⟩

/-- C14: on a node of 26 slots, `fan_out(start, visit)` makes the same visit
calls, in the same order, as `deep_fan_out(start, 1, visit)`, and fails or
returns with it. -/
theorem fan_out_is_depth_one {S σ : Type} (T : TrieStorageBase S) (s : S) (start : Nat)
    (visit : σ → Nat → Option σ) (st : σ) (h : (T.node s start).length = 26) :
    T.fan_out s start visit st = T.deep_fan_out s start 1 visit st := by
  rw [TrieStorageBase.fan_out_foldlM T s start h, TrieStorageBase.deep_fan_out_foldlM]
  rfl

theorem fan_out_is_depth_one_witness :
    (TriePoolStorage.ops.node (TrieMatcher.build TriePoolStorage.ops test_words).nodes 1).length
      = 26 ∧
    TriePoolStorage.ops.fan_out (TrieMatcher.build TriePoolStorage.ops test_words).nodes 1
        (fun (st : List Nat) v => some (st ++ [v])) [] =
      TriePoolStorage.ops.deep_fan_out (TrieMatcher.build TriePoolStorage.ops test_words).nodes
        1 1 (fun (st : List Nat) v => some (st ++ [v])) [] :=
  ⟨by decide, fan_out_is_depth_one TriePoolStorage.ops _ 1 _ [] (by decide)⟩

end PatternMatch

namespace PatternMatch

/-! ## Queries and the scratch buffer -/

open TrieStorageBase

/-- On a sound storage the dual-trie query returns, and what it reports and
returns is the same for every content of the scratch buffer. -/
theorem TrieMatcher.query_indep {S : Type} (T : TrieStorageBase S) (m : TrieMatcher S)
    (hs : T.Sound m.nodes) (pre suf : List Char) (hpre : ∀ c ∈ pre, lower c)
    (hsuf : ∀ c ∈ suf, lower c) (hlen : pre.length + suf.length ≤ m.length) :
    ∃ calls : List Nat, ∀ buffer, ∃ b2,
      TrieMatcher.query T m buffer pre suf = some ⟨calls, calls.length, b2⟩ := by
  by_cases h : suf.length ≤ pre.length
  · refine ⟨(T.ends m.nodes m.fwd_trie_root (probe m.length pre suf)).map T.as_num,
      fun buffer => ⟨buffer, ?_⟩⟩
    rw [TrieMatcher.query_fwd m buffer pre suf h,
      TrieMatcher.search_eq m _ pre suf buffer hs hpre hsuf, List.length_map]
  · refine ⟨(T.ends m.nodes m.rev_trie_root (probe m.length suf.reverse pre.reverse)).map
      T.as_num, fun buffer =>
      ⟨copy_to (copy_to (resize_to buffer m.length) 0 pre.reverse) pre.length suf.reverse,
        ?_⟩⟩
    obtain ⟨v1, v2⟩ := TrieMatcher.query_rev_views m.length buffer pre suf hlen
    rw [TrieMatcher.query_rev m buffer pre suf h, v1, v2,
      TrieMatcher.search_eq m _ suf.reverse pre.reverse _ hs
        (fun c hc => hsuf c (List.mem_reverse.1 hc))
        (fun c hc => hpre c (List.mem_reverse.1 hc)), List.length_map]

/-- On a sound storage with at least one level the interleaved-trie query
returns, and what it reports and returns is the same for every content of the
scratch buffer. -/
theorem TrieMixMatcher.mix_query_indep {S : Type} (T : TrieStorageBase S) (m : TrieMixMatcher S)
    (hs : T.Sound m.nodes) (hpos : 0 < m.length) (pre suf : List Char)
    (hlen : pre.length + suf.length ≤ m.length) :
    ∃ calls : List Nat, ∀ buffer, ∃ b2,
      TrieMixMatcher.query T m buffer pre suf = some ⟨calls, calls.length, b2⟩ := by
  refine ⟨(T.ends m.nodes m.trie_root (mix (probe m.length pre suf) m.length)).map T.as_num,
    fun buffer => ?_⟩
  obtain ⟨t, ht, hB⟩ := TrieMixMatcher.buffer_probe m.length buffer pre suf hlen
  have hpl := probe_length m.length pre suf hlen
  have hmix : mix (probe m.length pre suf ++ t) m.length
      = mix (probe m.length pre suf) m.length := by
    have := mix_append (probe m.length pre suf) t
    rw [hpl] at this
    exact this
  have hml := mix_length (probe m.length pre suf) m.length
  have hkey : view (copy_to (probe m.length pre suf ++ t) m.length
      (mix (probe m.length pre suf) m.length)) m.length
      (mix (probe m.length pre suf) m.length).length = mix (probe m.length pre suf) m.length := by
    have e := copy_to_append (probe m.length pre suf) t (mix (probe m.length pre suf) m.length)
      (by rw [hml]; exact ht)
    rw [hpl] at e
    rw [e]
    have v := view_append_right (probe m.length pre suf)
      (mix (probe m.length pre suf) m.length)
      (List.drop (mix (probe m.length pre suf) m.length).length t)
    rw [hpl] at v
    exact v
  have hne : mix (probe m.length pre suf) m.length ≠ [] := by
    intro h
    rw [h] at hml
    simp at hml
    omega
  refine ⟨copy_to (probe m.length pre suf ++ t) m.length
    (mix (probe m.length pre suf) m.length), ?_⟩
  unfold TrieMixMatcher.query
  simp only [hB, hmix, hkey]
  rw [Crawler.call_eq m.nodes hs _ _ _ _ (by omega), Crawler.foldl_report,
    matchList_eq_ends_cons m.nodes hs _ hne]
  simp

theorem TrieMatcher.buffer_after_some {S : Type} (T : TrieStorageBase S) (m : TrieMatcher S)
    (hs : T.Sound m.nodes) (qs : List (List Char × List Char))
    (hqs : ∀ q ∈ qs, (∀ c ∈ q.1, lower c) ∧ (∀ c ∈ q.2, lower c) ∧
      q.1.length + q.2.length ≤ m.length) :
    ∀ buffer, ∃ b2, TrieMatcher.buffer_after T m buffer qs = some b2 := by
  induction qs with
  | nil => intro buffer; exact ⟨buffer, rfl⟩
  | cons q qs ih =>
    intro buffer
    obtain ⟨h1, h2, h3⟩ := hqs q (by simp)
    obtain ⟨calls, hc⟩ := TrieMatcher.query_indep T m hs q.1 q.2 h1 h2 h3
    obtain ⟨b1, hb1⟩ := hc buffer
    obtain ⟨b2, hb2⟩ := ih (fun x hx => hqs x (List.mem_cons_of_mem _ hx)) b1
    refine ⟨b2, ?_⟩
    rw [TrieMatcher.buffer_after, hb1]
    exact hb2

theorem TrieMixMatcher.mix_buffer_after_some {S : Type} (T : TrieStorageBase S)
    (m : TrieMixMatcher S) (hs : T.Sound m.nodes) (hpos : 0 < m.length)
    (qs : List (List Char × List Char))
    (hqs : ∀ q ∈ qs, (∀ c ∈ q.1, lower c) ∧ (∀ c ∈ q.2, lower c) ∧
      q.1.length + q.2.length ≤ m.length) :
    ∀ buffer, ∃ b2, TrieMixMatcher.buffer_after T m buffer qs = some b2 := by
  induction qs with
  | nil => intro buffer; exact ⟨buffer, rfl⟩
  | cons q qs ih =>
    intro buffer
    obtain ⟨_, _, h3⟩ := hqs q (by simp)
    obtain ⟨calls, hc⟩ := TrieMixMatcher.mix_query_indep T m hs hpos q.1 q.2 h3
    obtain ⟨b1, hb1⟩ := hc buffer
    obtain ⟨b2, hb2⟩ := ih (fun x hx => hqs x (List.mem_cons_of_mem _ hx)) b1
    refine ⟨b2, ?_⟩
    rw [TrieMixMatcher.buffer_after, hb1]
    exact hb2

/-- C11: for the engines built from a valid corpus and every valid query, the
sequence of reported identities and the returned count are the same for every
content and size of the scratch buffer; so after any sequence of valid queries
(which all return) the query reports and returns what it does on the buffer
those queries started with. -/
theorem query_scratch_independent (W : Words) (hV : W.Valid) (hL : 1 ≤ W.length)
    (hR1 : TrieMatcher.InRange W) (hR2 : TrieMixMatcher.InRange W)
    (pre suf : List Char) (hpre : ∀ c ∈ pre, lower c) (hsuf : ∀ c ∈ suf, lower c)
    (hlen : pre.length + suf.length ≤ W.length)
    (qs : List (List Char × List Char))
    (hqs : ∀ q ∈ qs, (∀ c ∈ q.1, lower c) ∧ (∀ c ∈ q.2, lower c) ∧
      q.1.length + q.2.length ≤ W.length) :
    (∃ calls : List Nat,
      (∀ buffer, ∃ b2, TrieMatcher.query TriePoolStorage.ops
        (TrieMatcher.build TriePoolStorage.ops W) buffer pre suf
          = some ⟨calls, calls.length, b2⟩) ∧
      ∀ buffer, ∃ b1 b2,
        TrieMatcher.buffer_after TriePoolStorage.ops
          (TrieMatcher.build TriePoolStorage.ops W) buffer qs = some b1 ∧
        TrieMatcher.query TriePoolStorage.ops
          (TrieMatcher.build TriePoolStorage.ops W) b1 pre suf
          = some ⟨calls, calls.length, b2⟩) ∧
    (∃ calls : List Nat,
      (∀ buffer, ∃ b2, TrieMixMatcher.query TriePoolStorage.ops
        (TrieMixMatcher.build TriePoolStorage.ops W) buffer pre suf
          = some ⟨calls, calls.length, b2⟩) ∧
      ∀ buffer, ∃ b1 b2,
        TrieMixMatcher.buffer_after TriePoolStorage.ops
          (TrieMixMatcher.build TriePoolStorage.ops W) buffer qs = some b1 ∧
        TrieMixMatcher.query TriePoolStorage.ops
          (TrieMixMatcher.build TriePoolStorage.ops W) b1 pre suf
          = some ⟨calls, calls.length, b2⟩) := by
  obtain ⟨hs1, hl1, _, _⟩ := TrieMatcher.build_holds TriePoolStorage.lawful W hV hL hR1.2
  obtain ⟨hs2, hl2, _⟩ := TrieMixMatcher.mix_build_holds TriePoolStorage.lawful W hV hL hR2.2
  constructor
  · obtain ⟨calls, hc⟩ := TrieMatcher.query_indep TriePoolStorage.ops _ hs1 pre suf hpre hsuf
      (by rw [hl1]; exact hlen)
    refine ⟨calls, hc, fun buffer => ?_⟩
    obtain ⟨b1, hb1⟩ := TrieMatcher.buffer_after_some TriePoolStorage.ops _ hs1 qs
      (by rw [hl1]; exact hqs) buffer
    obtain ⟨b2, hb2⟩ := hc b1
    exact ⟨b1, b2, hb1, hb2⟩
  · obtain ⟨calls, hc⟩ := TrieMixMatcher.mix_query_indep TriePoolStorage.ops _ hs2
      (by rw [hl2]; exact hL) pre suf (by rw [hl2]; exact hlen)
    refine ⟨calls, hc, fun buffer => ?_⟩
    obtain ⟨b1, hb1⟩ := TrieMixMatcher.mix_buffer_after_some TriePoolStorage.ops _ hs2
      (by rw [hl2]; exact hL) qs (by rw [hl2]; exact hqs) buffer
    obtain ⟨b2, hb2⟩ := hc b1
    exact ⟨b1, b2, hb1, hb2⟩

end PatternMatch

namespace PatternMatch

theorem query_scratch_independent_witness :
    test_words.Valid ∧ TrieMatcher.InRange test_words ∧ TrieMixMatcher.InRange test_words ∧
    (∃ calls : List Nat,
      (∀ buffer, ∃ b2, TrieMatcher.query TriePoolStorage.ops
        (TrieMatcher.build TriePoolStorage.ops test_words) buffer ['q'] ['x']
          = some ⟨calls, calls.length, b2⟩) ∧
      ∀ buffer, ∃ b1 b2,
        TrieMatcher.buffer_after TriePoolStorage.ops
          (TrieMatcher.build TriePoolStorage.ops test_words) buffer
          [(['b'], []), ([], ['a', 'r'])] = some b1 ∧
        TrieMatcher.query TriePoolStorage.ops
          (TrieMatcher.build TriePoolStorage.ops test_words) b1 ['q'] ['x']
          = some ⟨calls, calls.length, b2⟩) ∧
    (∃ calls : List Nat,
      (∀ buffer, ∃ b2, TrieMixMatcher.query TriePoolStorage.ops
        (TrieMixMatcher.build TriePoolStorage.ops test_words) buffer ['q'] ['x']
          = some ⟨calls, calls.length, b2⟩) ∧
      ∀ buffer, ∃ b1 b2,
        TrieMixMatcher.buffer_after TriePoolStorage.ops
          (TrieMixMatcher.build TriePoolStorage.ops test_words) buffer
          [(['b'], []), ([], ['a', 'r'])] = some b1 ∧
        TrieMixMatcher.query TriePoolStorage.ops
          (TrieMixMatcher.build TriePoolStorage.ops test_words) b1 ['q'] ['x']
          = some ⟨calls, calls.length, b2⟩) :=
  ⟨by decide, by decide, by decide,
    query_scratch_independent test_words (by decide) (by decide) (by decide) (by decide)
      ['q'] ['x'] (by decide) (by decide) (by decide) [(['b'], []), ([], ['a', 'r'])]
      (by decide)⟩

/-! ## The scenario of `run_medium_tests` -/

theorem reports_of (q : Option QueryResult) (l want : List Nat)
    (h : ∃ res, q = some res ∧ res.calls.Perm l ∧ res.ret = res.calls.length)
    (hp : l.Perm want) : Reports q want := by
  obtain ⟨res, h1, h2, h3⟩ := h
  exact ⟨res, h1, h2.trans hp, by rw [h3, (h2.trans hp).length_eq]⟩

theorem test_dual (buffer pre suf : List Char) (want : List Nat)
    (hpre : ∀ c ∈ pre, lower c) (hsuf : ∀ c ∈ suf, lower c)
    (hlen : pre.length + suf.length ≤ test_words.length)
    (hp : (naive test_words pre suf).Perm want) :
    Reports (TrieMatcher.query TriePoolStorage.ops
      (TrieMatcher.build TriePoolStorage.ops test_words) buffer pre suf) want :=
  reports_of _ _ _ (pool_dual_query test_words (by decide) (by decide) (by decide) buffer
    pre suf hpre hsuf hlen) hp

theorem test_mix (buffer pre suf : List Char) (want : List Nat)
    (hpre : ∀ c ∈ pre, lower c) (hsuf : ∀ c ∈ suf, lower c)
    (hlen : pre.length + suf.length ≤ test_words.length)
    (hp : (naive test_words pre suf).Perm want) :
    Reports (TrieMixMatcher.query TriePoolStorage.ops
      (TrieMixMatcher.build TriePoolStorage.ops test_words) buffer pre suf) want :=
  reports_of _ _ _ (pool_mix_query test_words (by decide) (by decide) (by decide) buffer
    pre suf hpre hsuf hlen) hp

/-- C12: on the corpus `foo:0, bar:1, baz:2, qux:3, qax:4` both engines, for
every content of the scratch buffer, report `{0,1,2,3,4}` for `("", "")`, `{0}`
for `("f", "")`, `{1,2}` for `("b", "")`, `{3,4}` for `("q", "")`, nothing for
`("z", "")` and `("bx", "")`, `{1}` for `("", "r")`, `{3,4}` for `("", "x")` and
`("q", "x")`, each identity once and with the count equal to the set size. -/
theorem medium_test_scenario (b1 b2 : List Char) :
    (Reports (TrieMatcher.query TriePoolStorage.ops
        (TrieMatcher.build TriePoolStorage.ops test_words) b1 [] []) [0, 1, 2, 3, 4] ∧
      Reports (TrieMatcher.query TriePoolStorage.ops
        (TrieMatcher.build TriePoolStorage.ops test_words) b1 ['f'] []) [0] ∧
      Reports (TrieMatcher.query TriePoolStorage.ops
        (TrieMatcher.build TriePoolStorage.ops test_words) b1 ['b'] []) [1, 2] ∧
      Reports (TrieMatcher.query TriePoolStorage.ops
        (TrieMatcher.build TriePoolStorage.ops test_words) b1 ['q'] []) [3, 4] ∧
      Reports (TrieMatcher.query TriePoolStorage.ops
        (TrieMatcher.build TriePoolStorage.ops test_words) b1 ['z'] []) [] ∧
      Reports (TrieMatcher.query TriePoolStorage.ops
        (TrieMatcher.build TriePoolStorage.ops test_words) b1 ['b', 'x'] []) [] ∧
      Reports (TrieMatcher.query TriePoolStorage.ops
        (TrieMatcher.build TriePoolStorage.ops test_words) b1 [] ['r']) [1] ∧
      Reports (TrieMatcher.query TriePoolStorage.ops
        (TrieMatcher.build TriePoolStorage.ops test_words) b1 [] ['x']) [3, 4] ∧
      Reports (TrieMatcher.query TriePoolStorage.ops
        (TrieMatcher.build TriePoolStorage.ops test_words) b1 ['q'] ['x']) [3, 4]) ∧
    (Reports (TrieMixMatcher.query TriePoolStorage.ops
        (TrieMixMatcher.build TriePoolStorage.ops test_words) b2 [] []) [0, 1, 2, 3, 4] ∧
      Reports (TrieMixMatcher.query TriePoolStorage.ops
        (TrieMixMatcher.build TriePoolStorage.ops test_words) b2 ['f'] []) [0] ∧
      Reports (TrieMixMatcher.query TriePoolStorage.ops
        (TrieMixMatcher.build TriePoolStorage.ops test_words) b2 ['b'] []) [1, 2] ∧
      Reports (TrieMixMatcher.query TriePoolStorage.ops
        (TrieMixMatcher.build TriePoolStorage.ops test_words) b2 ['q'] []) [3, 4] ∧
      Reports (TrieMixMatcher.query TriePoolStorage.ops
        (TrieMixMatcher.build TriePoolStorage.ops test_words) b2 ['z'] []) [] ∧
      Reports (TrieMixMatcher.query TriePoolStorage.ops
        (TrieMixMatcher.build TriePoolStorage.ops test_words) b2 ['b', 'x'] []) [] ∧
      Reports (TrieMixMatcher.query TriePoolStorage.ops
        (TrieMixMatcher.build TriePoolStorage.ops test_words) b2 [] ['r']) [1] ∧
      Reports (TrieMixMatcher.query TriePoolStorage.ops
        (TrieMixMatcher.build TriePoolStorage.ops test_words) b2 [] ['x']) [3, 4] ∧
      Reports (TrieMixMatcher.query TriePoolStorage.ops
        (TrieMixMatcher.build TriePoolStorage.ops test_words) b2 ['q'] ['x']) [3, 4]) :=
  ⟨⟨test_dual b1 _ _ _ (by decide) (by decide) (by decide) (by decide),
      test_dual b1 _ _ _ (by decide) (by decide) (by decide) (by decide),
      test_dual b1 _ _ _ (by decide) (by decide) (by decide) (by decide),
      test_dual b1 _ _ _ (by decide) (by decide) (by decide) (by decide),
      test_dual b1 _ _ _ (by decide) (by decide) (by decide) (by decide),
      test_dual b1 _ _ _ (by decide) (by decide) (by decide) (by decide),
      test_dual b1 _ _ _ (by decide) (by decide) (by decide) (by decide),
      test_dual b1 _ _ _ (by decide) (by decide) (by decide) (by decide),
      test_dual b1 _ _ _ (by decide) (by decide) (by decide) (by decide)⟩,
    ⟨test_mix b2 _ _ _ (by decide) (by decide) (by decide) (by decide),
      test_mix b2 _ _ _ (by decide) (by decide) (by decide) (by decide),
      test_mix b2 _ _ _ (by decide) (by decide) (by decide) (by decide),
      test_mix b2 _ _ _ (by decide) (by decide) (by decide) (by decide),
      test_mix b2 _ _ _ (by decide) (by decide) (by decide) (by decide),
      test_mix b2 _ _ _ (by decide) (by decide) (by decide) (by decide),
      test_mix b2 _ _ _ (by decide) (by decide) (by decide) (by decide),
      test_mix b2 _ _ _ (by decide) (by decide) (by decide) (by decide),
      test_mix b2 _ _ _ (by decide) (by decide) (by decide) (by decide)⟩⟩

end PatternMatch

namespace PatternMatch

/-! ## Insertion, allocation and the null node of the arena -/

open TrieStorageBase

/-- A storage that holds tries of `L ≥ 1` levels and is within range
satisfies the invariant. -/
theorem inv_of_built {S : Type} {T : TrieStorageBase S} {G : Gauge S} (Lw : Lawful T G)
    (L : Nat) (hL : 0 < L) (R : List Nat) (s : S) (hB : Built T L R s) :
    G.ok s → Inv T G R L s := by
  induction hB with
  | empty => intro hok; exact inv_empty Lw L hok
  | root R s _ ih =>
    intro hok
    exact inv_add_root Lw R L s (ih (Lw.ok_add s hok)) hok
  | insert R s r key data _ hr hk hlow ih =>
    intro hok
    have hI := ih (ok_insert_back Lw key s r data hok)
    have hne : key ≠ [] := by
      intro h; rw [h] at hk; simp at hk; omega
    have hroot : T.walk s r [] ≠ T.null := Lw.valid_ne_null _ _ (hI.roots r hr)
    exact (insert_spec Lw R L key s r [] data hI hr hne (by simpa using hk) hlow hroot hok).1

/-- Inserting a key of the trie's length at a root of a storage within range
makes `follow` along the key end at the payload. -/
theorem follow_insert {S : Type} {T : TrieStorageBase S} {G : Gauge S} (Lw : Lawful T G)
    (L : Nat) (hL : 0 < L) (R : List Nat) (s : S) (hB : Built T L R s)
    (root : Nat) (hr : root ∈ R) (key : List Char) (hk : key.length = L)
    (hlow : ∀ c ∈ key, lower c) (payload : Nat)
    (hok : G.ok (T.insert s root key payload)) :
    T.follow (T.insert s root key payload) root key = payload := by
  have hI := inv_of_built Lw L hL R s hB (ok_insert_back Lw key s root payload hok)
  have hne : key ≠ [] := by
    intro h; rw [h] at hk; simp at hk; omega
  have hroot : T.walk s root [] ≠ T.null := Lw.valid_ne_null _ _ (hI.roots root hr)
  have h := (insert_spec Lw R L key s root [] payload hI hr hne (by simpa using hk) hlow
    hroot hok).2 root hr (key.map chIdx) (by simpa using hk)
  rw [walk_nil] at h
  rw [follow_eq_walk, h, if_pos ⟨rfl, by simp⟩]

/-- C15 (amended): in an arena that holds tries of `L ≥ 1` levels (roots
allocated by `add_node`, keys of length `L` over `'a'..'z'` inserted at them),
`insert(root, key, payload)` with a key of length `L` over `'a'..'z'` at one of
the roots leaves a storage in which `follow(root, key)` is the payload, as long
as the arena then holds at most `2 ^ 32` nodes. -/
theorem insert_then_follow (L : Nat) (hL : 1 ≤ L) (R : List Nat) (s : TriePoolStorage)
    (hB : Built TriePoolStorage.ops L R s) (root : Nat) (hr : root ∈ R)
    (key : List Char) (hk : key.length = L) (hlow : ∀ c ∈ key, lower c) (payload : Nat)
    (hcap : (TriePoolStorage.ops.insert s root key payload).nodes.length ≤ 2 ^ 32) :
    TriePoolStorage.ops.follow (TriePoolStorage.ops.insert s root key payload) root key
      = payload :=
  follow_insert TriePoolStorage.lawful L hL R s hB root hr key hk hlow payload hcap

theorem insert_then_follow_witness :
    Built TriePoolStorage.ops 2 [1]
      (TriePoolStorage.ops.insert (TriePoolStorage.ops.add_node TriePoolStorage.ops.empty).1
        1 ['a', 'c'] 3) ∧
    TriePoolStorage.ops.follow
      (TriePoolStorage.ops.insert
        (TriePoolStorage.ops.insert (TriePoolStorage.ops.add_node TriePoolStorage.ops.empty).1
          1 ['a', 'c'] 3) 1 ['a', 'b'] 7) 1 ['a', 'b'] = 7 :=
  ⟨Built.insert [1] _ 1 ['a', 'c'] 3 (Built.root [] _ Built.empty) (by decide) rfl
      (by decide),
    insert_then_follow 2 (by decide) [1] _
      (Built.insert [1] _ 1 ['a', 'c'] 3 (Built.root [] _ Built.empty) (by decide) rfl
        (by decide)) 1 (by decide) ['a', 'b'] rfl (by decide) 7 (by decide)⟩

/-- C16 (amended): for every arena that holds its null node and fewer than
`2 ^ 32` nodes, `add_node()` returns the old arena size, which is non-null and
different from every index below the old size (so from every reference returned
earlier); the new node has 26 null slots, every node below the old size reads
as before, and the arena has grown by one node. -/
theorem arena_add_node (s : TriePoolStorage) (h1 : 0 < s.nodes.length)
    (h2 : s.nodes.length < 2 ^ 32) :
    (TriePoolStorage.add_node s).2 = s.nodes.length ∧
    (TriePoolStorage.add_node s).2 ≠ TriePoolStorage.null ∧
    (∀ v, v < s.nodes.length → (TriePoolStorage.add_node s).2 ≠ v) ∧
    (TriePoolStorage.add_node s).1.node (TriePoolStorage.add_node s).2
      = List.replicate 26 TriePoolStorage.null ∧
    (∀ v, v < s.nodes.length → (TriePoolStorage.add_node s).1.node v = s.node v) ∧
    (TriePoolStorage.add_node s).1.nodes.length = s.nodes.length + 1 := by
  have e : (TriePoolStorage.add_node s).2 = s.nodes.length := by
    unfold TriePoolStorage.add_node
    simp only [List.length_append, List.length_singleton, Nat.add_sub_cancel]
    exact Nat.mod_eq_of_lt h2
  have hnode : ∀ q, (TriePoolStorage.add_node s).1.node q = s.node q := by
    intro q
    unfold TriePoolStorage.add_node TriePoolStorage.node
    exact TriePoolStorage.node_append s q
  refine ⟨e, ?_, ?_, ?_, ?_, ?_⟩
  · rw [e]
    unfold TriePoolStorage.null
    omega
  · intro v hv
    rw [e]
    omega
  · rw [hnode, e]
    unfold TriePoolStorage.node
    rw [List.getD_eq_getElem?_getD, List.getElem?_eq_none (by omega)]
    rfl
  · intro v _
    exact hnode v
  · unfold TriePoolStorage.add_node
    simp only [List.length_append, List.length_singleton]

theorem arena_add_node_witness :
    0 < TriePoolStorage.empty.nodes.length ∧ TriePoolStorage.empty.nodes.length < 2 ^ 32 ∧
    (TriePoolStorage.add_node TriePoolStorage.empty).2 = TriePoolStorage.empty.nodes.length ∧
    (TriePoolStorage.add_node TriePoolStorage.empty).2 ≠ TriePoolStorage.null ∧
    (∀ v, v < TriePoolStorage.empty.nodes.length →
      (TriePoolStorage.add_node TriePoolStorage.empty).2 ≠ v) ∧
    (TriePoolStorage.add_node TriePoolStorage.empty).1.node
      (TriePoolStorage.add_node TriePoolStorage.empty).2
      = List.replicate 26 TriePoolStorage.null ∧
    (∀ v, v < TriePoolStorage.empty.nodes.length →
      (TriePoolStorage.add_node TriePoolStorage.empty).1.node v
        = TriePoolStorage.empty.node v) ∧
    (TriePoolStorage.add_node TriePoolStorage.empty).1.nodes.length
      = TriePoolStorage.empty.nodes.length + 1 :=
  ⟨by decide, by decide, arena_add_node TriePoolStorage.empty (by decide) (by decide)⟩

/-- C18: with 32-bit wrap-around arithmetic, for every identity `v` in
`[0, 2 ^ 32 - 2]` the value `from_num(v)` is `v + 1`, is non-null, and
`from_num(v).as_num()` is `v`. -/
theorem arena_identity_encoding (v : Nat) (h : v ≤ 2 ^ 32 - 2) :
    TriePoolStorage.ops.from_num v = v + 1 ∧
    TriePoolStorage.ops.from_num v ≠ TriePoolStorage.ops.null ∧
    TriePoolStorage.ops.as_num (TriePoolStorage.ops.from_num v) = v := by
  have hi : TriePoolStorage.gauge.ident v := by
    show v + 1 < 2 ^ 32
    omega
  refine ⟨?_, TriePoolStorage.lawful.from_num_ne_null v hi,
    TriePoolStorage.lawful.as_num_from_num v hi⟩
  rw [TrieStorageBase.from_num]
  simp only [TriePoolStorage.ops, TriePoolStorage.encode_value]
  omega

theorem arena_identity_encoding_witness :
    4294967294 ≤ 2 ^ 32 - 2 ∧
    TriePoolStorage.ops.from_num 4294967294 = 4294967294 + 1 ∧
    TriePoolStorage.ops.from_num 4294967294 ≠ TriePoolStorage.ops.null ∧
    TriePoolStorage.ops.as_num (TriePoolStorage.ops.from_num 4294967294) = 4294967294 :=
  ⟨by decide, arena_identity_encoding 4294967294 (by decide)⟩

end PatternMatch

namespace PatternMatch

/-! ## The null node of the arena -/

open TrieStorageBase

theorem pool_length_store (s : TriePoolStorage) (p c x : Nat) :
    (TriePoolStorage.ops.store s p c x).nodes.length = s.nodes.length := by
  show (s.nodes.set p ((s.node p).set c x)).length = s.nodes.length
  rw [List.length_set]

theorem pool_length_add (s : TriePoolStorage) :
    (TriePoolStorage.ops.add_node s).1.nodes.length = s.nodes.length + 1 := by
  show (s.nodes ++ [node_type 0]).length = s.nodes.length + 1
  rw [List.length_append, List.length_singleton]

theorem pool_add_snd (s : TriePoolStorage) :
    (TriePoolStorage.ops.add_node s).2 = s.nodes.length % 2 ^ 32 := by
  show ((s.nodes ++ [node_type 0]).length - 1) % 2 ^ 32 = s.nodes.length % 2 ^ 32
  rw [List.length_append, List.length_singleton, Nat.add_sub_cancel]

theorem pool_node_store_ne (s : TriePoolStorage) (p c x q : Nat) (h : p ≠ q) :
    TriePoolStorage.ops.node (TriePoolStorage.ops.store s p c x) q
      = TriePoolStorage.ops.node s q := by
  show (s.nodes.set p ((s.node p).set c x)).getD q (node_type 0) = s.nodes.getD q (node_type 0)
  exact getD_set_ne _ _ _ _ _ h

theorem pool_node_store_self (s : TriePoolStorage) (p c x : Nat) (h : p < s.nodes.length) :
    TriePoolStorage.ops.node (TriePoolStorage.ops.store s p c x) p
      = (TriePoolStorage.ops.node s p).set c x := by
  show (s.nodes.set p ((s.node p).set c x)).getD p (node_type 0) = (s.node p).set c x
  exact getD_set_self _ _ _ _ h

theorem pool_node_add (s : TriePoolStorage) (q : Nat) :
    TriePoolStorage.ops.node (TriePoolStorage.ops.add_node s).1 q
      = TriePoolStorage.ops.node s q := by
  show (s.nodes ++ [node_type 0]).getD q (node_type 0) = s.nodes.getD q (node_type 0)
  exact TriePoolStorage.node_append s q

/-- An insertion never shrinks the arena. -/
theorem pool_length_insert (key : List Char) :
    ∀ (s : TriePoolStorage) (p data : Nat),
      s.nodes.length ≤ (TriePoolStorage.ops.insert s p key data).nodes.length := by
  induction key with
  | nil => intro s p data; exact Nat.le_refl _
  | cons c rest ih =>
    intro s p data
    cases rest with
    | nil =>
      rw [insert_single, pool_length_store]
    | cons c2 rest =>
      rw [insert_cons2]
      by_cases h : TriePoolStorage.ops.slot s p (chIdx c) = TriePoolStorage.ops.null
      · rw [if_pos h]
        have h1 := ih (TriePoolStorage.ops.store (TriePoolStorage.ops.add_node s).1 p (chIdx c)
          (TriePoolStorage.ops.add_node s).2) (TriePoolStorage.ops.add_node s).2 data
        rw [pool_length_store, pool_length_add] at h1
        omega
      · rw [if_neg h]
        exact ih s _ data

/-- An insertion that starts at a non-null value and leaves the arena within
`2 ^ 32` nodes does not write the node at index 0. -/
theorem pool_insert_null (key : List Char) :
    ∀ (s : TriePoolStorage) (p data : Nat), p ≠ 0 → 0 < s.nodes.length →
      (TriePoolStorage.ops.insert s p key data).nodes.length ≤ 2 ^ 32 →
      TriePoolStorage.ops.node (TriePoolStorage.ops.insert s p key data) 0
        = TriePoolStorage.ops.node s 0 := by
  induction key with
  | nil => intro s p data _ _ _; rfl
  | cons c rest ih =>
    intro s p data hp hs hcap
    cases rest with
    | nil =>
      rw [insert_single, pool_node_store_ne s p _ _ 0 hp]
    | cons c2 rest =>
      rw [insert_cons2] at hcap ⊢
      by_cases h : TriePoolStorage.ops.slot s p (chIdx c) = TriePoolStorage.ops.null
      · rw [if_pos h] at hcap ⊢
        have hm := pool_length_insert (c2 :: rest)
          (TriePoolStorage.ops.store (TriePoolStorage.ops.add_node s).1 p (chIdx c)
            (TriePoolStorage.ops.add_node s).2) (TriePoolStorage.ops.add_node s).2 data
        rw [pool_length_store, pool_length_add] at hm
        have hf : (TriePoolStorage.ops.add_node s).2 ≠ 0 := by
          rw [pool_add_snd, Nat.mod_eq_of_lt (by omega)]
          omega
        rw [ih _ _ data hf (by rw [pool_length_store, pool_length_add]; omega) hcap,
          pool_node_store_ne _ p _ _ 0 hp, pool_node_add]
      · rw [if_neg h] at hcap ⊢
        exact ih s _ data h hs hcap

/-- In a reachable arena of at most `2 ^ 32` nodes the node at index 0 is as
the constructor left it. -/
theorem pool_null_node (s : TriePoolStorage) (hR : TriePoolStorage.Reachable s) :
    s.nodes.length ≤ 2 ^ 32 →
      0 < s.nodes.length ∧ TriePoolStorage.ops.node s 0 = node_type 0 := by
  induction hR with
  | empty => intro _; exact ⟨by decide, rfl⟩
  | add_node s _ ih =>
    intro hcap
    have hl := pool_length_add s
    have h := ih (by
      have e : (TriePoolStorage.add_node s).1.nodes.length = s.nodes.length + 1 := hl
      omega)
    refine ⟨?_, ?_⟩
    · have e : (TriePoolStorage.add_node s).1.nodes.length = s.nodes.length + 1 := hl
      omega
    · exact (pool_node_add s 0).trans h.2
  | insert s root key data _ hroot _ _ ih =>
    intro hcap
    have hm := pool_length_insert key s root data
    have h := ih (by omega)
    exact ⟨by omega, (pool_insert_null key s root data hroot h.1 hcap).trans h.2⟩

/-- Following from null in a storage whose null node has only null slots ends
at null. -/
theorem follow_null_of_node {S : Type} (T : TrieStorageBase S) (s : S)
    (h : T.node s T.null = node_type T.null) (str : List Char) :
    T.follow s T.null str = T.null := by
  rw [follow_eq_walk]
  generalize str.map chIdx = k
  induction k with
  | nil => rfl
  | cons c k ih =>
    rw [walk_cons]
    have e : T.slot s T.null c = T.null := by
      unfold slot
      rw [h]
      exact getD_node_type _ _
    rw [e, ih]

/-- C17 (amended): in every arena state reachable from the empty storage by
`add_node` calls and by `insert` calls that start at a non-null value with a
non-empty key over `'a'..'z'`, as long as the arena holds at most `2 ^ 32`
nodes, the null node is as the constructor left it: `node(null)[c]` is null
for every slot `c`, and `follow(null, str)` is null for every string `str`. -/
theorem null_node_absorbing (s : TriePoolStorage) (hR : TriePoolStorage.Reachable s)
    (hcap : s.nodes.length ≤ 2 ^ 32) :
    TriePoolStorage.ops.node s TriePoolStorage.ops.null
      = List.replicate 26 TriePoolStorage.ops.null ∧
    (∀ c : Nat, TriePoolStorage.ops.slot s TriePoolStorage.ops.null c
      = TriePoolStorage.ops.null) ∧
    (∀ ch : Char, TriePoolStorage.ops.follow1 s TriePoolStorage.ops.null ch
      = TriePoolStorage.ops.null) ∧
    ∀ str : List Char, TriePoolStorage.ops.follow s TriePoolStorage.ops.null str
      = TriePoolStorage.ops.null := by
  have h : TriePoolStorage.ops.node s TriePoolStorage.ops.null
      = node_type TriePoolStorage.ops.null := (pool_null_node s hR hcap).2
  have hs : ∀ c : Nat, TriePoolStorage.ops.slot s TriePoolStorage.ops.null c
      = TriePoolStorage.ops.null := by
    intro c
    unfold slot
    rw [h]
    exact getD_node_type _ _
  exact ⟨h, hs, fun ch => hs (chIdx ch), follow_null_of_node TriePoolStorage.ops s h⟩

end PatternMatch

namespace PatternMatch

/-! ## The arena past `2 ^ 32` nodes -/

open TrieStorageBase

theorem blank_length (n : Nat) : (TriePoolStorage.blank n).nodes.length = n := by
  show (List.replicate n (node_type 0)).length = n
  rw [List.length_replicate]

theorem blank_node (n q : Nat) :
    TriePoolStorage.ops.node (TriePoolStorage.blank n) q = node_type 0 := by
  show (List.replicate n (node_type 0)).getD q (node_type 0) = node_type 0
  rw [List.getD_eq_getElem?_getD]
  by_cases h : q < n
  · rw [List.getElem?_eq_getElem (by rw [List.length_replicate]; exact h),
      List.getElem_replicate]
    rfl
  · rw [List.getElem?_eq_none (by rw [List.length_replicate]; omega)]
    rfl

theorem blank_add (n : Nat) :
    (TriePoolStorage.ops.add_node (TriePoolStorage.blank n)).1 = TriePoolStorage.blank (n + 1) := by
  show (⟨List.replicate n (node_type 0) ++ [node_type 0]⟩ : TriePoolStorage)
    = ⟨List.replicate (n + 1) (node_type 0)⟩
  rw [List.replicate_succ']

theorem blank_add_snd (n : Nat) :
    (TriePoolStorage.ops.add_node (TriePoolStorage.blank n)).2 = n % 2 ^ 32 := by
  rw [pool_add_snd, blank_length]

theorem blank_reachable (n : Nat) : TriePoolStorage.Reachable (TriePoolStorage.blank (n + 1)) := by
  induction n with
  | zero => exact TriePoolStorage.Reachable.empty
  | succ n ih =>
    have h := TriePoolStorage.Reachable.add_node _ ih
    have e : (TriePoolStorage.add_node (TriePoolStorage.blank (n + 1))).1
        = TriePoolStorage.blank (n + 1 + 1) := blank_add (n + 1)
    rw [e] at h
    exact h

theorem blank_built (L k : Nat) :
    Built TriePoolStorage.ops L (TriePoolStorage.blank_roots k) (TriePoolStorage.blank (k + 1)) := by
  induction k with
  | zero => exact Built.empty
  | succ k ih =>
    have h := Built.root _ _ ih
    rw [blank_add, blank_add_snd] at h
    exact h

theorem one_mem_blank_roots (k : Nat) (h : 1 ≤ k) : 1 ∈ TriePoolStorage.blank_roots k := by
  induction k with
  | zero => omega
  | succ k ih =>
    unfold TriePoolStorage.blank_roots
    by_cases hk : k = 0
    · subst hk
      exact List.mem_cons_self _ _
    · exact List.mem_cons_of_mem _ (ih (by omega))

/-- When `add_node` hands out index 0, the insertion of a two-character key
writes its payload into the null node. -/
theorem insert_wrap_null (s : TriePoolStorage) (hlen : s.nodes.length % 2 ^ 32 = 0)
    (hpos : 0 < s.nodes.length) (h1 : TriePoolStorage.ops.node s 1 = node_type 0)
    (h0 : TriePoolStorage.ops.node s 0 = node_type 0) :
    TriePoolStorage.ops.follow (TriePoolStorage.ops.insert s 1 ['a', 'b'] 5)
      TriePoolStorage.ops.null ['b'] = 5 := by
  have hs : TriePoolStorage.ops.slot s 1 (chIdx 'a') = TriePoolStorage.ops.null := by
    unfold slot
    rw [h1]
    exact getD_node_type _ _
  have hf : (TriePoolStorage.ops.add_node s).2 = 0 := by rw [pool_add_snd, hlen]
  rw [insert_cons2, if_pos hs, insert_single, hf]
  show TriePoolStorage.ops.slot _ 0 (chIdx 'b') = 5
  unfold slot
  rw [pool_node_store_self _ 0 _ _ (by rw [pool_length_store, pool_length_add]; omega),
    pool_node_store_ne _ 1 _ _ 0 (by decide), pool_node_add, h0]
  exact getD_set_self _ _ _ _ (by rw [length_node_type]; exact chIdx_lt 'b' (by decide))

/-- When `add_node` hands out the root itself, the insertion of a key with a
repeated character overwrites the link it has just made. -/
theorem insert_wrap_alias (s : TriePoolStorage) (hlen : s.nodes.length % 2 ^ 32 = 1)
    (hpos : 1 < s.nodes.length) (h1 : TriePoolStorage.ops.node s 1 = node_type 0)
    (h5 : TriePoolStorage.ops.node s 5 = node_type 0) :
    TriePoolStorage.ops.follow (TriePoolStorage.ops.insert s 1 ['a', 'a'] 5) 1 ['a', 'a']
      = TriePoolStorage.ops.null := by
  have hs : TriePoolStorage.ops.slot s 1 (chIdx 'a') = TriePoolStorage.ops.null := by
    unfold slot
    rw [h1]
    exact getD_node_type _ _
  have hf : (TriePoolStorage.ops.add_node s).2 = 1 := by rw [pool_add_snd, hlen]
  have hc : chIdx 'a' < 26 := chIdx_lt 'a' (by decide)
  rw [insert_cons2, if_pos hs, insert_single, hf]
  show TriePoolStorage.ops.slot _ (TriePoolStorage.ops.slot _ 1 (chIdx 'a')) (chIdx 'a') = 0
  have e1 : TriePoolStorage.ops.slot
      (TriePoolStorage.ops.store
        (TriePoolStorage.ops.store (TriePoolStorage.ops.add_node s).1 1 (chIdx 'a') 1)
        1 (chIdx 'a') 5) 1 (chIdx 'a') = 5 := by
    unfold slot
    rw [pool_node_store_self _ 1 _ _ (by rw [pool_length_store, pool_length_add]; omega)]
    refine getD_set_self _ _ _ _ ?_
    rw [pool_node_store_self _ 1 _ _ (by rw [pool_length_add]; omega), List.length_set,
      pool_node_add, h1, length_node_type]
    exact hc
  rw [e1]
  unfold slot
  rw [pool_node_store_ne _ 1 _ _ 5 (by decide), pool_node_store_ne _ 1 _ _ 5 (by decide),
    pool_node_add, h5]
  exact getD_node_type _ _

end PatternMatch

namespace PatternMatch

/-! ## Arena claims at and past the capacity of the index type -/

open TrieStorageBase

theorem blank_reachable_full : TriePoolStorage.Reachable (TriePoolStorage.blank (2 ^ 32)) := by
  have e : 2 ^ 32 - 1 + 1 = 2 ^ 32 := by norm_num
  have h := blank_reachable (2 ^ 32 - 1)
  rw [e] at h
  exact h

/-- C15 (counterexample): the arena of `2 ^ 32 + 1` nodes arises from the empty
storage by `2 ^ 32` calls of `add_node`, the first of which returned the root
1; it holds tries of 2 levels with no key inserted. There `add_node` returns 1
again, so `insert(1, "aa", 5)` links the root to itself and then overwrites
that link with the payload: `follow(1, "aa")` is null afterwards, not 5. -/
theorem insert_then_follow_aliased :
    Built TriePoolStorage.ops 2 (TriePoolStorage.blank_roots (2 ^ 32))
      (TriePoolStorage.blank (2 ^ 32 + 1)) ∧
    1 ∈ TriePoolStorage.blank_roots (2 ^ 32) ∧
    TriePoolStorage.ops.follow
      (TriePoolStorage.ops.insert (TriePoolStorage.blank (2 ^ 32 + 1)) 1 ['a', 'a'] 5)
      1 ['a', 'a'] = TriePoolStorage.ops.null ∧
    TriePoolStorage.ops.null ≠ 5 :=
  ⟨blank_built 2 (2 ^ 32), one_mem_blank_roots (2 ^ 32) (by norm_num),
    insert_wrap_alias (TriePoolStorage.blank (2 ^ 32 + 1))
      (by rw [blank_length]; norm_num) (by rw [blank_length]; norm_num)
      (blank_node _ 1) (blank_node _ 5),
    by decide⟩

/-- C16 (counterexample): the arena of `2 ^ 32` nodes arises from the empty
storage by `2 ^ 32 - 1` calls of `add_node`; the next `add_node()` returns
the index `2 ^ 32` converted to `uint32_t`, which is null. -/
theorem add_node_returns_null :
    TriePoolStorage.Reachable (TriePoolStorage.blank (2 ^ 32)) ∧
    (TriePoolStorage.add_node (TriePoolStorage.blank (2 ^ 32))).2 = TriePoolStorage.null :=
  ⟨blank_reachable_full, (blank_add_snd (2 ^ 32)).trans (Nat.mod_self _)⟩

/-- C17 (counterexample): in the arena of `2 ^ 32` nodes, `insert(1, "ab", 5)`
is an insertion at a non-null value with a non-empty key over `'a'..'z'`;
`add_node` hands it the null index for the second level, so the payload is
written into the null node and `follow(null, "b")` is 5 afterwards. -/
theorem null_node_written :
    TriePoolStorage.Reachable
      (TriePoolStorage.ops.insert (TriePoolStorage.blank (2 ^ 32)) 1 ['a', 'b'] 5) ∧
    TriePoolStorage.ops.follow
      (TriePoolStorage.ops.insert (TriePoolStorage.blank (2 ^ 32)) 1 ['a', 'b'] 5)
      TriePoolStorage.ops.null ['b'] = 5 ∧
    5 ≠ TriePoolStorage.ops.null :=
  ⟨TriePoolStorage.Reachable.insert _ 1 ['a', 'b'] 5 blank_reachable_full (by decide)
      (by simp) (by decide),
    insert_wrap_null (TriePoolStorage.blank (2 ^ 32))
      (by rw [blank_length]; exact Nat.mod_self _) (by rw [blank_length]; norm_num)
      (blank_node _ 1) (blank_node _ 0),
    by decide⟩

theorem null_node_absorbing_witness :
    TriePoolStorage.Reachable
      (TriePoolStorage.ops.insert (TriePoolStorage.add_node TriePoolStorage.empty).1 1
        ['a', 'b'] 5) ∧
    (TriePoolStorage.ops.insert (TriePoolStorage.add_node TriePoolStorage.empty).1 1
      ['a', 'b'] 5).nodes.length ≤ 2 ^ 32 ∧
    TriePoolStorage.ops.node
      (TriePoolStorage.ops.insert (TriePoolStorage.add_node TriePoolStorage.empty).1 1
        ['a', 'b'] 5) TriePoolStorage.ops.null
      = List.replicate 26 TriePoolStorage.ops.null ∧
    (∀ c : Nat, TriePoolStorage.ops.slot
      (TriePoolStorage.ops.insert (TriePoolStorage.add_node TriePoolStorage.empty).1 1
        ['a', 'b'] 5) TriePoolStorage.ops.null c = TriePoolStorage.ops.null) ∧
    (∀ ch : Char, TriePoolStorage.ops.follow1
      (TriePoolStorage.ops.insert (TriePoolStorage.add_node TriePoolStorage.empty).1 1
        ['a', 'b'] 5) TriePoolStorage.ops.null ch = TriePoolStorage.ops.null) ∧
    ∀ str : List Char, TriePoolStorage.ops.follow
      (TriePoolStorage.ops.insert (TriePoolStorage.add_node TriePoolStorage.empty).1 1
        ['a', 'b'] 5) TriePoolStorage.ops.null str = TriePoolStorage.ops.null :=
  ⟨TriePoolStorage.Reachable.insert _ 1 ['a', 'b'] 5
      (TriePoolStorage.Reachable.add_node _ TriePoolStorage.Reachable.empty) (by decide)
      (by simp) (by decide),
    by decide,
    null_node_absorbing _
      (TriePoolStorage.Reachable.insert _ 1 ['a', 'b'] 5
        (TriePoolStorage.Reachable.add_node _ TriePoolStorage.Reachable.empty) (by decide)
        (by simp) (by decide))
      (by decide)⟩

end PatternMatch

namespace PatternMatch

/-! ## The interleave transform -/

/-- The character `mixFrom` writes at output position `j`. -/
theorem mixFrom_getD (src : List Char) :
    ∀ (n i j : Nat), j < n →
      (mixFrom src i n).getD j (Char.ofNat 0)
        = src.getD (if j % 2 = 0 then i + j / 2 else i + n - 1 - j / 2) (Char.ofNat 0)
  | 0, _, _, h => by omega
  | 1, i, j, h => by
    have hj : j = 0 := by omega
    subst hj
    rfl
  | n + 2, i, j, h => by
    rw [mixFrom]
    match j, h with
    | 0, _ => rfl
    | 1, _ =>
      show src.getD (i + n + 1) (Char.ofNat 0) = _
      rw [if_neg (by decide)]
      congr 1
    | j + 2, h =>
      show (mixFrom src (i + 1) n).getD j (Char.ofNat 0) = _
      rw [mixFrom_getD src n (i + 1) j (by omega)]
      congr 1
      by_cases hj : j % 2 = 0
      · rw [if_pos hj, if_pos (by omega)]
        omega
      · rw [if_neg hj, if_neg (by omega)]
        omega

theorem mix_getD (src : List Char) (len j : Nat) (h : j < len) :
    (mix src len).getD j (Char.ofNat 0) = src.getD (mixPos len j) (Char.ofNat 0) := by
  unfold mix mixPos
  rw [mixFrom_getD src len 0 j h]
  congr 1
  by_cases hj : j % 2 = 0
  · rw [if_pos hj, if_pos hj]
    omega
  · rw [if_neg hj, if_neg hj]
    omega

theorem mixPos_lt (len j : Nat) (h : j < len) : mixPos len j < len := by
  unfold mixPos
  split_ifs <;> omega

theorem unmixPos_lt (len i : Nat) (h : i < len) : unmixPos len i < len := by
  unfold unmixPos
  split_ifs <;> omega

theorem unmixPos_mixPos (len j : Nat) (h : j < len) : unmixPos len (mixPos len j) = j := by
  unfold unmixPos mixPos
  split_ifs <;> omega

theorem mixPos_unmixPos (len i : Nat) (h : i < len) : mixPos len (unmixPos len i) = i := by
  unfold unmixPos mixPos
  split_ifs <;> omega

theorem unmix_length (m : List Char) (len : Nat) : (unmix m len).length = len := by
  simp [unmix]

theorem unmix_getD (m : List Char) (len i : Nat) (h : i < len) :
    (unmix m len).getD i (Char.ofNat 0) = m.getD (unmixPos len i) (Char.ofNat 0) := by
  unfold unmix
  rw [List.getD_eq_getElem?_getD, List.getElem?_eq_getElem (by simpa using h)]
  simp

theorem ext_getD (a b : List Char) (n : Nat) (ha : a.length = n) (hb : b.length = n)
    (h : ∀ j, j < n → a.getD j (Char.ofNat 0) = b.getD j (Char.ofNat 0)) : a = b := by
  apply List.ext_getElem (by rw [ha, hb])
  intro j h1 h2
  have e := h j (by omega)
  rw [List.getD_eq_getElem?_getD, List.getD_eq_getElem?_getD, List.getElem?_eq_getElem h1,
    List.getElem?_eq_getElem h2] at e
  exact e

theorem unmix_mix (a : List Char) (len : Nat) (ha : a.length = len) :
    unmix (mix a len) len = a := by
  apply ext_getD _ _ len (unmix_length _ _) ha
  intro j hj
  rw [unmix_getD _ _ _ hj, mix_getD _ _ _ (unmixPos_lt len j hj), mixPos_unmixPos len j hj]

theorem mix_unmix (m : List Char) (len : Nat) (hm : m.length = len) :
    mix (unmix m len) len = m := by
  apply ext_getD _ _ len (mix_length _ _) hm
  intro j hj
  rw [mix_getD _ _ _ hj, unmix_getD _ _ _ (mixPos_lt len j hj), unmixPos_mixPos len j hj]

/-- C19: for every input `src` of length `len`, `mix(dst, src, len)` writes
exactly `len` characters (the returned pointer is `dst + len`), with
`out[2i] = src[i]` for every `i` with `2i < len` and `out[2i+1] = src[len-1-i]`
for every `i` with `2i+1 < len`. -/
theorem mix_definition (src : List Char) (len : Nat) (h : src.length = len) :
    (mix src len).length = len ∧
    (∀ i, 2 * i < len → (mix src len)[2 * i]? = src[i]?) ∧
    (∀ i, 2 * i + 1 < len → (mix src len)[2 * i + 1]? = src[len - 1 - i]?) := by
  have key : ∀ j k, j < len → k < len →
      (mix src len).getD j (Char.ofNat 0) = src.getD k (Char.ofNat 0) →
      (mix src len)[j]? = src[k]? := by
    intro j k hj hk e
    rw [List.getD_eq_getElem?_getD, List.getD_eq_getElem?_getD,
      List.getElem?_eq_getElem (by rw [mix_length]; exact hj),
      List.getElem?_eq_getElem (by rw [h]; exact hk)] at e
    rw [List.getElem?_eq_getElem (by rw [mix_length]; exact hj),
      List.getElem?_eq_getElem (by rw [h]; exact hk)]
    exact congrArg some e
  refine ⟨mix_length src len, ?_, ?_⟩
  · intro i hi
    apply key _ _ hi (by omega)
    rw [mix_getD src len (2 * i) hi]
    congr 1
    unfold mixPos
    rw [if_pos (by omega)]
    omega
  · intro i hi
    apply key _ _ hi (by omega)
    rw [mix_getD src len (2 * i + 1) hi]
    congr 1
    unfold mixPos
    rw [if_neg (by omega)]
    omega

theorem mix_definition_witness :
    ['a', 'b', 'c', 'd', 'e'].length = 5 ∧
    (mix ['a', 'b', 'c', 'd', 'e'] 5).length = 5 ∧
    (∀ i, 2 * i < 5 → (mix ['a', 'b', 'c', 'd', 'e'] 5)[2 * i]? = ['a', 'b', 'c', 'd', 'e'][i]?) ∧
    (∀ i, 2 * i + 1 < 5 →
      (mix ['a', 'b', 'c', 'd', 'e'] 5)[2 * i + 1]? = ['a', 'b', 'c', 'd', 'e'][5 - 1 - i]?) :=
  ⟨rfl, mix_definition ['a', 'b', 'c', 'd', 'e'] 5 rfl⟩

/-- C20: for every length `len`, `mix` moves the character at position
`mixPos len j` to position `j`, and `mixPos len` is a permutation of the
positions below `len` with inverse `unmixPos len`; hence `mix` is injective on
strings of length `len`, and `unmix` is its inverse: `unmix(mix(a)) = a` and
`mix(unmix(a)) = a`. -/
theorem mix_reversible (len : Nat) (a b : List Char) (ha : a.length = len)
    (hb : b.length = len) :
    (∀ j, j < len → (mix a len)[j]? = a[mixPos len j]?) ∧
    (∀ j, j < len → mixPos len j < len ∧ unmixPos len (mixPos len j) = j) ∧
    (∀ i, i < len → unmixPos len i < len ∧ mixPos len (unmixPos len i) = i) ∧
    (mix a len = mix b len → a = b) ∧
    unmix (mix a len) len = a ∧
    mix (unmix a len) len = a := by
  refine ⟨?_, fun j hj => ⟨mixPos_lt len j hj, unmixPos_mixPos len j hj⟩,
    fun i hi => ⟨unmixPos_lt len i hi, mixPos_unmixPos len i hi⟩,
    mix_inj len a b ha hb, unmix_mix a len ha, mix_unmix a len ha⟩
  intro j hj
  have e := mix_getD a len j hj
  have hk := mixPos_lt len j hj
  rw [List.getD_eq_getElem?_getD, List.getD_eq_getElem?_getD,
    List.getElem?_eq_getElem (by rw [mix_length]; exact hj),
    List.getElem?_eq_getElem (by rw [ha]; exact hk)] at e
  rw [List.getElem?_eq_getElem (by rw [mix_length]; exact hj),
    List.getElem?_eq_getElem (by rw [ha]; exact hk)]
  exact congrArg some e

theorem mix_reversible_witness :
    ['a', 'b', 'c', 'd', 'e'].length = 5 ∧ ['a', 'b', 'c', 'd', 'f'].length = 5 ∧
    (∀ j, j < 5 → (mix ['a', 'b', 'c', 'd', 'e'] 5)[j]?
      = ['a', 'b', 'c', 'd', 'e'][mixPos 5 j]?) ∧
    (∀ j, j < 5 → mixPos 5 j < 5 ∧ unmixPos 5 (mixPos 5 j) = j) ∧
    (∀ i, i < 5 → unmixPos 5 i < 5 ∧ mixPos 5 (unmixPos 5 i) = i) ∧
    (mix ['a', 'b', 'c', 'd', 'e'] 5 = mix ['a', 'b', 'c', 'd', 'f'] 5 →
      ['a', 'b', 'c', 'd', 'e'] = ['a', 'b', 'c', 'd', 'f']) ∧
    unmix (mix ['a', 'b', 'c', 'd', 'e'] 5) 5 = ['a', 'b', 'c', 'd', 'e'] ∧
    mix (unmix ['a', 'b', 'c', 'd', 'e'] 5) 5 = ['a', 'b', 'c', 'd', 'e'] :=
  ⟨rfl, rfl, mix_reversible 5 ['a', 'b', 'c', 'd', 'e'] ['a', 'b', 'c', 'd', 'f'] rfl rfl⟩

end PatternMatch

namespace PatternMatch

/-! ## The built tries, insertion next to other keys, termination of the fan-out -/

open TrieStorageBase

theorem holds_follow_mem {S : Type} {T : TrieStorageBase S} (s : S) (r L : Nat)
    (κ : List Char → List Char) (W : List (List Char × Nat)) (hH : Holds T s r L κ W)
    (p : List Char × Nat) (hp : p ∈ W) : T.follow s r (κ p.1) = T.from_num p.2 := by
  rw [follow_eq_walk]
  exact hH.1 p hp

theorem holds_follow_not_mem {S : Type} {T : TrieStorageBase S} (s : S) (r L : Nat)
    (κ : List Char → List Char) (W : List (List Char × Nat)) (hH : Holds T s r L κ W)
    (hκ : ∀ p ∈ W, ∀ c ∈ κ p.1, lower c) (v : List Char) (hv : v.length = L)
    (hvl : ∀ c ∈ v, lower c) (hne : ∀ p ∈ W, κ p.1 ≠ v) : T.follow s r v = T.null := by
  rw [follow_eq_walk]
  refine hH.2 (v.map chIdx) (by rw [List.length_map]; exact hv) ?_
  intro p hp h
  exact hne p hp (map_chIdx_inj _ _ (hκ p hp) hvl h)

/-- C24: after `TrieMatcher` is constructed on the arena from a valid corpus
with `L ≥ 1` (within the arena's range), for every string `u` of length `L` over
`'a'..'z'`: if `u` is the corpus word with identity `id`, then
`follow(fwd_trie_root, u)` and `follow(rev_trie_root, reverse(u))` are both
`from_num(id)`, which is not null; if `u` is not in the corpus, both are null. -/
theorem built_tries_hold_corpus (W : Words) (hV : W.Valid) (hL : 1 ≤ W.length)
    (hR : TrieMatcher.InRange W) (u : List Char) (hu : u.length = W.length)
    (hlow : ∀ c ∈ u, lower c) :
    (∀ id, (u, id) ∈ W.words →
      TriePoolStorage.ops.follow (TrieMatcher.build TriePoolStorage.ops W).nodes
        (TrieMatcher.build TriePoolStorage.ops W).fwd_trie_root u
        = TriePoolStorage.ops.from_num id ∧
      TriePoolStorage.ops.follow (TrieMatcher.build TriePoolStorage.ops W).nodes
        (TrieMatcher.build TriePoolStorage.ops W).rev_trie_root u.reverse
        = TriePoolStorage.ops.from_num id ∧
      TriePoolStorage.ops.from_num id ≠ TriePoolStorage.ops.null) ∧
    ((∀ id, (u, id) ∉ W.words) →
      TriePoolStorage.ops.follow (TrieMatcher.build TriePoolStorage.ops W).nodes
        (TrieMatcher.build TriePoolStorage.ops W).fwd_trie_root u
        = TriePoolStorage.ops.null ∧
      TriePoolStorage.ops.follow (TrieMatcher.build TriePoolStorage.ops W).nodes
        (TrieMatcher.build TriePoolStorage.ops W).rev_trie_root u.reverse
        = TriePoolStorage.ops.null) := by
  obtain ⟨_, _, hf, hr⟩ := TrieMatcher.build_holds TriePoolStorage.lawful W hV hL hR.2
  constructor
  · intro id hmem
    exact ⟨holds_follow_mem _ _ _ _ _ hf (u, id) hmem,
      holds_follow_mem _ _ _ _ _ hr (u, id) hmem,
      TriePoolStorage.lawful.from_num_ne_null id (pool_ident W hV hR.1 (u, id) hmem)⟩
  · intro hno
    constructor
    · refine holds_follow_not_mem _ _ _ _ _ hf (fun p hp => (hV.1 p hp).2) u hu hlow ?_
      intro p hp h
      exact hno p.2 (by rw [← h]; exact hp)
    · refine holds_follow_not_mem _ _ _ _ _ hr ?_ u.reverse
        (by rw [List.length_reverse]; exact hu) ?_ ?_
      · intro p hp c hc
        exact (hV.1 p hp).2 c (List.mem_reverse.1 hc)
      · intro c hc
        exact hlow c (List.mem_reverse.1 hc)
      · intro p hp h
        have e : p.1 = u := List.reverse_injective h
        exact hno p.2 (by rw [← e]; exact hp)

theorem built_tries_hold_corpus_witness :
    test_words.Valid ∧ 1 ≤ test_words.length ∧ TrieMatcher.InRange test_words ∧
    ['b', 'a', 'z'].length = test_words.length ∧ (∀ c ∈ ['b', 'a', 'z'], lower c) ∧
    ((∀ id, (['b', 'a', 'z'], id) ∈ test_words.words →
      TriePoolStorage.ops.follow (TrieMatcher.build TriePoolStorage.ops test_words).nodes
        (TrieMatcher.build TriePoolStorage.ops test_words).fwd_trie_root ['b', 'a', 'z']
        = TriePoolStorage.ops.from_num id ∧
      TriePoolStorage.ops.follow (TrieMatcher.build TriePoolStorage.ops test_words).nodes
        (TrieMatcher.build TriePoolStorage.ops test_words).rev_trie_root
        ['b', 'a', 'z'].reverse = TriePoolStorage.ops.from_num id ∧
      TriePoolStorage.ops.from_num id ≠ TriePoolStorage.ops.null) ∧
    ((∀ id, (['b', 'a', 'z'], id) ∉ test_words.words) →
      TriePoolStorage.ops.follow (TrieMatcher.build TriePoolStorage.ops test_words).nodes
        (TrieMatcher.build TriePoolStorage.ops test_words).fwd_trie_root ['b', 'a', 'z']
        = TriePoolStorage.ops.null ∧
      TriePoolStorage.ops.follow (TrieMatcher.build TriePoolStorage.ops test_words).nodes
        (TrieMatcher.build TriePoolStorage.ops test_words).rev_trie_root
        ['b', 'a', 'z'].reverse = TriePoolStorage.ops.null)) :=
  ⟨by decide, by decide, by decide, rfl, by decide,
    built_tries_hold_corpus test_words (by decide) (by decide) (by decide) ['b', 'a', 'z'] rfl
      (by decide)⟩

/-- Inserting a key of the trie's length at a root of a storage within range
leaves the walk along every other key under every root as it was. -/
theorem follow_insert_other {S : Type} {T : TrieStorageBase S} {G : Gauge S}
    (Lw : Lawful T G) (L : Nat) (hL : 0 < L) (R : List Nat) (s : S) (hB : Built T L R s)
    (root : Nat) (hr : root ∈ R) (key : List Char) (hk : key.length = L)
    (hlow : ∀ c ∈ key, lower c) (payload : Nat)
    (hok : G.ok (T.insert s root key payload))
    (r2 : Nat) (hr2 : r2 ∈ R) (other : List Char) (ho : other.length = L)
    (holow : ∀ c ∈ other, lower c) (hne : ¬ (r2 = root ∧ other = key)) :
    T.follow (T.insert s root key payload) r2 other = T.follow s r2 other := by
  have hI := inv_of_built Lw L hL R s hB (ok_insert_back Lw key s root payload hok)
  have hkne : key ≠ [] := by
    intro h; rw [h] at hk; simp at hk; omega
  have hroot : T.walk s root [] ≠ T.null := Lw.valid_ne_null _ _ (hI.roots root hr)
  have h := (insert_spec Lw R L key s root [] payload hI hr hkne (by simpa using hk) hlow
    hroot hok).2 r2 hr2 (other.map chIdx) (by simpa using ho)
  rw [walk_nil] at h
  rw [follow_eq_walk, follow_eq_walk, h, if_neg]
  rintro ⟨e1, e2⟩
  exact hne ⟨e1, map_chIdx_inj _ _ holow hlow (by simpa using e2)⟩

/-- C25 (amended): in an arena that holds tries of `L ≥ 1` levels,
`insert(root, key, payload)` with a key of length `L` over `'a'..'z'` at one of
the roots leaves `follow(r2, other)` unchanged for every root `r2` of the arena
and every string `other` of length `L` over `'a'..'z'`, unless `r2` is `root`
and `other` is `key`, as long as the arena holds at most `2 ^ 32` nodes after
the insertion. -/
theorem insert_keeps_other_keys (L : Nat) (hL : 1 ≤ L) (R : List Nat) (s : TriePoolStorage)
    (hB : Built TriePoolStorage.ops L R s) (root : Nat) (hr : root ∈ R)
    (key : List Char) (hk : key.length = L) (hlow : ∀ c ∈ key, lower c) (payload : Nat)
    (hcap : (TriePoolStorage.ops.insert s root key payload).nodes.length ≤ 2 ^ 32)
    (r2 : Nat) (hr2 : r2 ∈ R) (other : List Char) (ho : other.length = L)
    (holow : ∀ c ∈ other, lower c) (hne : ¬ (r2 = root ∧ other = key)) :
    TriePoolStorage.ops.follow (TriePoolStorage.ops.insert s root key payload) r2 other
      = TriePoolStorage.ops.follow s r2 other :=
  follow_insert_other TriePoolStorage.lawful L hL R s hB root hr key hk hlow payload hcap
    r2 hr2 other ho holow hne

theorem insert_keeps_other_keys_witness :
    Built TriePoolStorage.ops 2 [1]
      (TriePoolStorage.ops.insert (TriePoolStorage.ops.add_node TriePoolStorage.ops.empty).1
        1 ['a', 'c'] 3) ∧
    TriePoolStorage.ops.follow
      (TriePoolStorage.ops.insert
        (TriePoolStorage.ops.insert (TriePoolStorage.ops.add_node TriePoolStorage.ops.empty).1
          1 ['a', 'c'] 3) 1 ['a', 'b'] 7) 1 ['a', 'c'] =
    TriePoolStorage.ops.follow
      (TriePoolStorage.ops.insert (TriePoolStorage.ops.add_node TriePoolStorage.ops.empty).1
        1 ['a', 'c'] 3) 1 ['a', 'c'] :=
  ⟨Built.insert [1] _ 1 ['a', 'c'] 3 (Built.root [] _ Built.empty) (by decide) rfl
      (by decide),
    insert_keeps_other_keys 2 (by decide) [1] _
      (Built.insert [1] _ 1 ['a', 'c'] 3 (Built.root [] _ Built.empty) (by decide) rfl
        (by decide)) 1 (by decide) ['a', 'b'] rfl (by decide) 7 (by decide)
      1 (by decide) ['a', 'c'] rfl (by decide) (by decide)⟩

theorem follow_two {S : Type} (T : TrieStorageBase S) (s : S) (v : Nat) (c1 c2 : Char) :
    T.follow s v [c1, c2] = T.slot s (T.slot s v (chIdx c1)) (chIdx c2) := rfl

theorem blank_slot (n p c : Nat) :
    TriePoolStorage.ops.slot (TriePoolStorage.blank n) p c = TriePoolStorage.ops.null := by
  unfold slot
  rw [blank_node]
  exact getD_node_type _ _

/-- When `add_node` hands out index 0, the insertion of `"ab"` at the root 1
makes the walk along `"cb"` end at its payload. -/
theorem insert_wrap_other (s : TriePoolStorage) (hlen : s.nodes.length % 2 ^ 32 = 0)
    (hpos : 1 < s.nodes.length) (h1 : TriePoolStorage.ops.node s 1 = node_type 0)
    (h0 : TriePoolStorage.ops.node s 0 = node_type 0) :
    TriePoolStorage.ops.follow (TriePoolStorage.ops.insert s 1 ['a', 'b'] 5) 1 ['c', 'b']
      = 5 := by
  have hs : TriePoolStorage.ops.slot s 1 (chIdx 'a') = TriePoolStorage.ops.null := by
    unfold slot
    rw [h1]
    exact getD_node_type _ _
  have hf : (TriePoolStorage.ops.add_node s).2 = 0 := by rw [pool_add_snd, hlen]
  have e1 : TriePoolStorage.ops.slot (TriePoolStorage.ops.insert s 1 ['a', 'b'] 5) 1
      (chIdx 'c') = 0 := by
    rw [insert_cons2, if_pos hs, insert_single, hf]
    unfold slot
    rw [pool_node_store_ne _ 0 _ _ 1 (by decide),
      pool_node_store_self _ 1 _ _ (by rw [pool_length_add]; omega), pool_node_add, h1]
    decide
  rw [follow_two, e1]
  exact insert_wrap_null s hlen (by omega) h1 h0

theorem blank_built_full :
    Built TriePoolStorage.ops 2 (TriePoolStorage.blank_roots (2 ^ 32 - 1))
      (TriePoolStorage.blank (2 ^ 32)) := by
  have e : 2 ^ 32 - 1 + 1 = 2 ^ 32 := by norm_num
  have h := blank_built 2 (2 ^ 32 - 1)
  rw [e] at h
  exact h

/-- C25 (counterexample): the arena of `2 ^ 32` nodes arises from the empty
storage by `2 ^ 32 - 1` calls of `add_node`, the first of which returned the
root 1; it holds tries of 2 levels with no key inserted, so `follow(1, "cb")` is
null. `insert(1, "ab", 5)` is handed the null index by `add_node` and writes its
payload into the null node; afterwards `follow(1, "cb")` is 5. -/
theorem insert_disturbs_other_key :
    Built TriePoolStorage.ops 2 (TriePoolStorage.blank_roots (2 ^ 32 - 1))
      (TriePoolStorage.blank (2 ^ 32)) ∧
    1 ∈ TriePoolStorage.blank_roots (2 ^ 32 - 1) ∧
    ['c', 'b'] ≠ ['a', 'b'] ∧
    TriePoolStorage.ops.follow (TriePoolStorage.blank (2 ^ 32)) 1 ['c', 'b']
      = TriePoolStorage.ops.null ∧
    TriePoolStorage.ops.follow
      (TriePoolStorage.ops.insert (TriePoolStorage.blank (2 ^ 32)) 1 ['a', 'b'] 5)
      1 ['c', 'b'] = 5 ∧
    5 ≠ TriePoolStorage.ops.null := by
  refine ⟨blank_built_full, one_mem_blank_roots _ (by norm_num), by decide, ?_,
    insert_wrap_other _ (by rw [blank_length]; exact Nat.mod_self _)
      (by rw [blank_length]; norm_num) (blank_node _ 1) (blank_node _ 0), by decide⟩
  rw [follow_two, blank_slot]

theorem foldlM_total {σ : Type} (fn : σ → Nat → Option σ)
    (hfn : ∀ st v, ∃ st2, fn st v = some st2) (l : List Nat) :
    ∀ st : σ, ∃ st2, l.foldlM fn st = some st2 := by
  induction l with
  | nil => intro st; exact ⟨st, rfl⟩
  | cons a l ih =>
    intro st
    obtain ⟨st1, h1⟩ := hfn st a
    obtain ⟨st2, h2⟩ := ih st1
    refine ⟨st2, ?_⟩
    rw [List.foldlM_cons, h1]
    exact h2

/-- C26: for every storage, every state of it, every start value and every
depth `d ≥ 1`, if each call of the visitor returns, the explicit-stack loop of
`do_fan_out` reaches its exit within `27 ^ d` passes. -/
theorem do_fan_out_terminates {S σ : Type} (T : TrieStorageBase S) (s : S)
    (start depth : Nat) (hd : 1 ≤ depth) (fn : σ → Nat → Option σ)
    (hfn : ∀ st v, ∃ st2, fn st v = some st2) (st : σ) :
    ∃ st2,
      T.do_fan_out_loop s (depth - 1) fn (27 ^ depth)
        ⟨(List.replicate depth (0, 0)).set 0 (start, 0), 0, start, 0, st⟩ = some st2 ∧
      T.do_fan_out s start depth fn st = some st2 := by
  obtain ⟨st2, h⟩ := foldlM_total fn hfn (T.reach s depth start) st
  have e := do_fan_out_eq T s start depth fn st st2 hd h
  exact ⟨st2, e, e⟩

theorem do_fan_out_terminates_witness :
    1 ≤ 2 ∧
    (∀ (st : List Nat) (v : Nat), ∃ st2, (fun (st : List Nat) v => some (st ++ [v])) st v
      = some st2) ∧
    ∃ st2,
      TriePoolStorage.ops.do_fan_out_loop
        (TrieMatcher.build TriePoolStorage.ops test_words).nodes (2 - 1)
        (fun (st : List Nat) v => some (st ++ [v])) (27 ^ 2)
        ⟨(List.replicate 2 (0, 0)).set 0 (1, 0), 0, 1, 0, []⟩ = some st2 ∧
      TriePoolStorage.ops.do_fan_out (TrieMatcher.build TriePoolStorage.ops test_words).nodes
        1 2 (fun (st : List Nat) v => some (st ++ [v])) [] = some st2 :=
  ⟨by decide, fun st v => ⟨st ++ [v], rfl⟩,
    do_fan_out_terminates TriePoolStorage.ops
      (TrieMatcher.build TriePoolStorage.ops test_words).nodes 1 2 (by decide)
      (fun (st : List Nat) v => some (st ++ [v])) (fun st v => ⟨st ++ [v], rfl⟩) []⟩

end PatternMatch

namespace PatternMatch

/-! ## The fan-out loop stays inside its frames -/

open TrieStorageBase

theorem unwind_spec (stack : List (Nat × Nat)) :
    ∀ (sp sp2 ch : Nat), unwind stack sp = some (sp2, ch) →
      sp2 < sp ∧ ch = (stack.getD sp2 (0, 0)).2 ∧ ch ≠ 26 := by
  intro sp
  induction sp with
  | zero => intro sp2 ch h; simp [unwind] at h
  | succ sp ih =>
    intro sp2 ch h
    rw [unwind] at h
    by_cases h26 : (stack.getD sp (0, 0)).2 = 26
    · rw [if_pos h26] at h
      obtain ⟨h1, h2, h3⟩ := ih sp2 ch h
      exact ⟨by omega, h2, h3⟩
    · rw [if_neg h26] at h
      have e := Option.some.inj h
      have e1 : sp = sp2 := congrArg Prod.fst e
      have e2 : (stack.getD sp (0, 0)).2 = ch := congrArg Prod.snd e
      subst e1
      exact ⟨by omega, e2.symm, by rw [← e2]; exact h26⟩

/-- The bounds a pass of the loop of `do_fan_out` relies on: the frame pointer
is at most `last`, the slot index is below 26, there are `last + 1` frames, and
the slot index saved in every frame below the frame pointer is at most 26. -/
theorem iter_bounds {S σ : Type} (T : TrieStorageBase S) (s : S) (last : Nat)
    (fn : σ → Nat → Option σ) (x y : FanOutState σ)
    (hx : x.sp ≤ last ∧ x.ch_pos < 26 ∧ x.stack.length = last + 1 ∧
      ∀ i, i < x.sp → (x.stack.getD i (0, 0)).2 ≤ 26)
    (h : T.do_fan_out_iter s last fn x = some (Sum.inl y)) :
    y.sp ≤ last ∧ y.ch_pos < 26 ∧ y.stack.length = last + 1 ∧
      ∀ i, i < y.sp → (y.stack.getD i (0, 0)).2 ≤ 26 := by
  obtain ⟨h1, h2, h3, h4⟩ := hx
  by_cases hc : T.slot s x.n x.ch_pos ≠ T.null ∧ x.sp ≠ last
  · simp only [do_fan_out_iter, if_pos hc] at h
    have e := Sum.inl.inj (Option.some.inj h)
    subst e
    refine ⟨?_, (by show (0 : Nat) < 26; omega), ?_, ?_⟩
    · show x.sp + 1 ≤ last
      have := hc.2
      omega
    · show ((x.stack.set x.sp _).set (x.sp + 1) _).length = last + 1
      rw [List.length_set, List.length_set]
      exact h3
    · intro i hi
      have hi2 : i < x.sp + 1 := hi
      show (((x.stack.set x.sp ((x.stack.getD x.sp (0, 0)).1, x.ch_pos + 1)).set (x.sp + 1)
        (T.slot s x.n x.ch_pos, 0)).getD i (0, 0)).2 ≤ 26
      rw [getD_set_ne _ _ _ _ _ (by omega)]
      by_cases hi3 : i = x.sp
      · subst hi3
        rw [getD_set_self _ _ _ _ (by omega)]
        show x.ch_pos + 1 ≤ 26
        omega
      · rw [getD_set_ne _ _ _ _ _ (fun e => hi3 e.symm)]
        exact h4 i (by omega)
  · simp only [do_fan_out_iter, if_neg hc] at h
    cases hfn : (if T.slot s x.n x.ch_pos ≠ T.null then fn x.st (T.slot s x.n x.ch_pos)
        else some x.st) with
    | none => rw [hfn] at h; simp at h
    | some st =>
      rw [hfn] at h
      simp only at h
      by_cases h26 : x.ch_pos + 1 = 26
      · rw [if_pos h26] at h
        cases hu : unwind x.stack x.sp with
        | none => rw [hu] at h; simp at h
        | some q =>
          obtain ⟨sp2, ch⟩ := q
          rw [hu] at h
          have e := Sum.inl.inj (Option.some.inj h)
          subst e
          obtain ⟨u1, u2, u3⟩ := unwind_spec x.stack x.sp sp2 ch hu
          have u4 := h4 sp2 u1
          refine ⟨?_, ?_, h3, ?_⟩
          · show sp2 ≤ last
            omega
          · show ch < 26
            omega
          · intro i hi
            have hi2 : i < sp2 := hi
            exact h4 i (by omega)
      · rw [if_neg h26] at h
        have e := Sum.inl.inj (Option.some.inj h)
        subst e
        exact ⟨h1, by show x.ch_pos + 1 < 26; omega, h3, h4⟩

theorem reach_bounds {S σ : Type} (T : TrieStorageBase S) (s : S) (start depth : Nat)
    (hd : 1 ≤ depth) (fn : σ → Nat → Option σ) (st : σ) (x : FanOutState σ)
    (h : FanOutReach T s start depth fn st x) :
    x.sp ≤ depth - 1 ∧ x.ch_pos < 26 ∧ x.stack.length = depth - 1 + 1 ∧
      ∀ i, i < x.sp → (x.stack.getD i (0, 0)).2 ≤ 26 := by
  induction h with
  | init =>
    refine ⟨Nat.zero_le _, (by show (0 : Nat) < 26; omega), ?_, ?_⟩
    · show ((List.replicate depth ((0 : Nat), (0 : Nat))).set 0 (start, 0)).length
        = depth - 1 + 1
      rw [List.length_set, List.length_replicate]
      omega
    · intro i hi
      exact absurd hi (Nat.not_lt_zero i)
  | pass x y _ hstep ih => exact iter_bounds T s (depth - 1) fn x y ih hstep

/-- C27: at the head of every pass of the loop of `do_fan_out(start, d, fn)`
with `d ≥ 1`, the frame pointer addresses one of the `d` allocated frames
(`sp ≤ d - 1` as an index from `stack`) and the slot index `ch_pos` that the
pass reads with is below 26; and a pass that pushes a frame does so only when
`sp < d - 1`. -/
theorem do_fan_out_in_bounds {S σ : Type} (T : TrieStorageBase S) (s : S)
    (start depth : Nat) (hd : 1 ≤ depth) (fn : σ → Nat → Option σ) (st : σ)
    (x : FanOutState σ) (h : FanOutReach T s start depth fn st x) :
    x.sp ≤ depth - 1 ∧ x.stack.length = depth ∧ x.ch_pos < 26 ∧
    (∀ y, T.do_fan_out_iter s (depth - 1) fn x = some (Sum.inl y) →
      y.sp ≤ depth - 1 ∧ y.stack.length = depth ∧ y.ch_pos < 26) := by
  obtain ⟨h1, h2, h3, h4⟩ := reach_bounds T s start depth hd fn st x h
  refine ⟨h1, by omega, h2, ?_⟩
  intro y hy
  obtain ⟨g1, g2, g3, _⟩ := iter_bounds T s (depth - 1) fn x y ⟨h1, h2, h3, h4⟩ hy
  exact ⟨g1, by omega, g2⟩

theorem do_fan_out_in_bounds_witness :
    1 ≤ 2 ∧
    FanOutReach TriePoolStorage.ops (TrieMatcher.build TriePoolStorage.ops test_words).nodes
      1 2 (fun (st : List Nat) v => some (st ++ [v])) []
      ⟨[(1, 2), (3, 0)], 1, 3, 0, []⟩ ∧
    (1 ≤ 2 - 1 ∧ [(1, 2), (3, 0)].length = 2 ∧ 0 < 26 ∧
      ∀ y, TriePoolStorage.ops.do_fan_out_iter
          (TrieMatcher.build TriePoolStorage.ops test_words).nodes (2 - 1)
          (fun (st : List Nat) v => some (st ++ [v])) ⟨[(1, 2), (3, 0)], 1, 3, 0, []⟩
          = some (Sum.inl y) →
        y.sp ≤ 2 - 1 ∧ y.stack.length = 2 ∧ y.ch_pos < 26) :=
  ⟨by decide,
    FanOutReach.pass _ _ (FanOutReach.pass _ _ FanOutReach.init rfl) rfl,
    do_fan_out_in_bounds TriePoolStorage.ops
      (TrieMatcher.build TriePoolStorage.ops test_words).nodes 1 2 (by decide)
      (fun (st : List Nat) v => some (st ++ [v])) [] ⟨[(1, 2), (3, 0)], 1, 3, 0, []⟩
      (FanOutReach.pass _ _ (FanOutReach.pass _ _ FanOutReach.init rfl) rfl)⟩

end PatternMatch

namespace PatternMatch

/-! ## The order in which the tries report -/

open TrieStorageBase

section
variable {S : Type} {T : TrieStorageBase S} {G : Gauge S}

theorem lookupKey_some (κ : List Char → List Char) (W : List (List Char × Nat))
    (k : List Nat) (p : List Char × Nat) (h : lookupKey κ W k = some p) :
    p ∈ W ∧ (κ p.1).map chIdx = k := by
  unfold lookupKey at h
  exact ⟨List.mem_of_find?_eq_some h, by simpa using List.find?_some h⟩

theorem lookupKey_none (κ : List Char → List Char) (W : List (List Char × Nat))
    (k : List Nat) (h : lookupKey κ W k = none) : ∀ p ∈ W, (κ p.1).map chIdx ≠ k := by
  unfold lookupKey at h
  intro p hp
  simpa using List.find?_eq_none.1 h p hp

/-- The non-null ends of the walks along a list of keys of the trie's length,
decoded, are the identities of the corpus pairs with those keys, in the order
of the keys. -/
theorem walk_filter_lookup (Lw : Lawful T G) (s : S) (r L : Nat) (κ : List Char → List Char)
    (W : List (List Char × Nat)) (hH : Holds T s r L κ W) (hid : ∀ p ∈ W, G.ident p.2)
    (l : List (List Nat)) (hl : ∀ k ∈ l, k.length = L) :
    (((l.map (T.walk s r)).filter (fun x => decide (x ≠ T.null))).map T.as_num)
      = (l.filterMap (lookupKey κ W)).map Prod.snd := by
  induction l with
  | nil => rfl
  | cons k l ih =>
    have ih2 := ih (fun k hk => hl k (List.mem_cons_of_mem _ hk))
    rw [List.map_cons]
    cases hlk : lookupKey κ W k with
    | none =>
      have hnull : T.walk s r k = T.null :=
        hH.2 k (hl k (List.mem_cons_self _ _)) (lookupKey_none κ W k hlk)
      rw [List.filter_cons_of_neg (by simp [hnull]), List.filterMap_cons_none hlk]
      exact ih2
    | some p =>
      obtain ⟨hp, hk⟩ := lookupKey_some κ W k p hlk
      have hw : T.walk s r k = T.from_num p.2 := by rw [← hk]; exact hH.1 p hp
      have hne : T.walk s r k ≠ T.null := by rw [hw]; exact Lw.from_num_ne_null _ (hid p hp)
      rw [List.filter_cons_of_pos (by simpa using hne), List.filterMap_cons_some hlk,
        List.map_cons, List.map_cons, ih2, hw, Lw.as_num_from_num _ (hid p hp)]

theorem ends_selected (Lw : Lawful T G) (s : S) (r L : Nat) (κ : List Char → List Char)
    (W : List (List Char × Nat)) (pat : List Char) (hH : Holds T s r L κ W)
    (hpl : pat.length = L) (hid : ∀ p ∈ W, G.ident p.2) :
    (T.ends s r pat).map T.as_num = (selected κ W pat).map Prod.snd := by
  unfold ends selected
  exact walk_filter_lookup Lw s r L κ W hH hid (patKeys pat)
    (fun k hk => by rw [patKeys_length pat k hk, hpl])

end

theorem selected_mem (κ : List Char → List Char) (W : List (List Char × Nat))
    (pat : List Char) : ∀ p ∈ selected κ W pat, p ∈ W := by
  intro p hp
  unfold selected at hp
  obtain ⟨k, _, hk⟩ := List.mem_filterMap.1 hp
  exact (lookupKey_some κ W k p hk).1

theorem lexLt_cons (a b : Nat) (as bs : List Nat) :
    lexLt (a :: as) (b :: bs) = (decide (a < b) || (decide (a = b) && lexLt as bs)) := rfl

theorem patKeys_sorted (pat : List Char) :
    (patKeys pat).Pairwise (fun a b => lexLt a b = true) := by
  induction pat with
  | nil => exact List.pairwise_singleton _ _
  | cons c rest ih =>
    by_cases hc : c = Char.ofNat 0
    · subst hc
      rw [patKeys_nul, List.pairwise_flatMap]
      constructor
      · intro i _
        rw [List.pairwise_map]
        exact ih.imp (fun {a b} h => by rw [lexLt_cons]; simp [h])
      · exact (List.pairwise_lt_range 26).imp (fun {i j} hij => by
          intro x hx y hy
          obtain ⟨a, _, rfl⟩ := List.mem_map.1 hx
          obtain ⟨b, _, rfl⟩ := List.mem_map.1 hy
          rw [lexLt_cons]
          simp [hij])
    · rw [patKeys_letter c rest hc, List.pairwise_map]
      exact ih.imp (fun {a b} h => by rw [lexLt_cons]; simp [h])

theorem lexLt_chIdx :
    ∀ a b : List Char, (∀ c ∈ a, lower c) → (∀ c ∈ b, lower c) →
      lexLt (a.map chIdx) (b.map chIdx) = strLt a b := by
  intro a
  induction a with
  | nil =>
    intro b _ _
    cases b with
    | nil => rfl
    | cons d b => rfl
  | cons c a ih =>
    intro b ha hb
    cases b with
    | nil => rfl
    | cons d b =>
      have hc := ha c (List.mem_cons_self _ _)
      have hd := hb d (List.mem_cons_self _ _)
      have ih2 := ih b (fun x hx => ha x (List.mem_cons_of_mem _ hx))
        (fun x hx => hb x (List.mem_cons_of_mem _ hx))
      unfold strLt at ih2 ⊢
      rw [List.map_cons, List.map_cons, List.map_cons, List.map_cons, lexLt_cons, lexLt_cons,
        ih2]
      unfold lower at hc hd
      unfold chIdx
      have h97 : 'a'.toNat = 97 := by decide
      have e1 : decide (c.toNat - 'a'.toNat < d.toNat - 'a'.toNat) = decide (c.toNat < d.toNat) := by
        apply decide_eq_decide.2
        omega
      have e2 : decide (c.toNat - 'a'.toNat = d.toNat - 'a'.toNat) = decide (c.toNat = d.toNat) := by
        apply decide_eq_decide.2
        omega
      rw [e1, e2]

theorem selected_sorted (κ : List Char → List Char) (W : List (List Char × Nat))
    (pat : List Char) (hκ : ∀ p ∈ W, ∀ c ∈ κ p.1, lower c) :
    ((selected κ W pat).map (fun p => κ p.1)).Pairwise (fun a b => strLt a b = true) := by
  rw [List.pairwise_map]
  unfold selected
  refine List.Pairwise.filterMap _ ?_ (patKeys_sorted pat)
  intro k1 k2 h12 p1 hp1 p2 hp2
  obtain ⟨m1, e1⟩ := lookupKey_some κ W k1 p1 (by simpa using hp1)
  obtain ⟨m2, e2⟩ := lookupKey_some κ W k2 p2 (by simpa using hp2)
  rw [← lexLt_chIdx _ _ (hκ p1 m1) (hκ p2 m2), e1, e2]
  exact h12

end PatternMatch

namespace PatternMatch

/-! ## The report order of the two engines -/

open TrieStorageBase

namespace TrieMatcher

variable {S : Type} {T : TrieStorageBase S} {G : Gauge S}

/-- The dual-trie engine reports the identities of `order W pre suf`, in that
order. -/
theorem query_order (Lw : Lawful T G) (m : TrieMatcher S) (W : Words)
    (hs : T.Sound m.nodes) (hL : m.length = W.length)
    (hf : Holds T m.nodes m.fwd_trie_root W.length (fun w => w) W.words)
    (hr : Holds T m.nodes m.rev_trie_root W.length List.reverse W.words)
    (hid : ∀ p ∈ W.words, G.ident p.2)
    (buffer pre suf : List Char) (hpre : ∀ c ∈ pre, lower c) (hsuf : ∀ c ∈ suf, lower c)
    (hlen : pre.length + suf.length ≤ W.length) :
    ∃ res, query T m buffer pre suf = some res ∧
      res.calls = (TrieMatcher.order W pre suf).map Prod.snd ∧
      res.ret = res.calls.length := by
  by_cases h : suf.length ≤ pre.length
  · rw [query_fwd m buffer pre suf h, search_eq m _ pre suf buffer hs hpre hsuf]
    refine ⟨_, rfl, ?_, by simp⟩
    rw [hL]
    unfold TrieMatcher.order
    rw [if_pos h]
    exact ends_selected Lw m.nodes _ W.length _ W.words _ hf (probe_length _ _ _ hlen) hid
  · obtain ⟨v1, v2⟩ := query_rev_views m.length buffer pre suf (by omega)
    rw [query_rev m buffer pre suf h, v1, v2,
      search_eq m _ suf.reverse pre.reverse _ hs
        (fun c hc => hsuf c (List.mem_reverse.1 hc))
        (fun c hc => hpre c (List.mem_reverse.1 hc))]
    refine ⟨_, rfl, ?_, by simp⟩
    rw [hL, probe_reverse]
    unfold TrieMatcher.order
    rw [if_neg h]
    exact ends_selected Lw m.nodes _ W.length _ W.words _ hr
      (by rw [List.length_reverse]; exact probe_length _ _ _ hlen) hid

end TrieMatcher

namespace TrieMixMatcher

variable {S : Type} {T : TrieStorageBase S} {G : Gauge S}

end TrieMixMatcher

/-- C30: for every valid corpus with `L ≥ 1` (within the arena's range) and
every valid query, `TrieMatcher::query` on the arena returns and invokes the
callback on the identities of a sequence `ws` of corpus pairs, one call per
pair in sequence order; the identities are exactly the matching ones, each
once; when `|P| ≥ |S|` the words of `ws` are in strictly ascending
lexicographic order, and when `|P| < |S|` the reversed words of `ws` are. -/
theorem dual_trie_report_order (W : Words) (hV : W.Valid) (hL : 1 ≤ W.length)
    (hR : TrieMatcher.InRange W) (buffer pre suf : List Char)
    (hpre : ∀ c ∈ pre, lower c) (hsuf : ∀ c ∈ suf, lower c)
    (hlen : pre.length + suf.length ≤ W.length) :
    ∃ (res : QueryResult) (ws : List (List Char × Nat)), TrieMatcher.query TriePoolStorage.ops (TrieMatcher.build TriePoolStorage.ops W)
        buffer pre suf = some res ∧
      res.calls = ws.map Prod.snd ∧ (∀ p ∈ ws, p ∈ W.words) ∧
      res.calls.Perm (naive W pre suf) ∧
      (suf.length ≤ pre.length →
        (ws.map Prod.fst).Pairwise (fun a b => strLt a b = true)) ∧
      (pre.length < suf.length →
        (ws.map (fun p => p.1.reverse)).Pairwise (fun a b => strLt a b = true)) := by
  obtain ⟨hs, hl, hf, hr⟩ := TrieMatcher.build_holds TriePoolStorage.lawful W hV hL hR.2
  obtain ⟨res, h1, h2, _⟩ := TrieMatcher.query_order TriePoolStorage.lawful _ W hs hl hf hr
    (pool_ident W hV hR.1) buffer pre suf hpre hsuf hlen
  obtain ⟨res2, g1, g2, _⟩ := pool_dual_query W hV hL hR buffer pre suf hpre hsuf hlen
  have e : res2 = res := Option.some.inj (g1.symm.trans h1)
  subst e
  refine ⟨res2, TrieMatcher.order W pre suf, h1, h2, ?_, g2, ?_, ?_⟩
  · unfold TrieMatcher.order
    split_ifs
    · exact selected_mem _ _ _
    · exact selected_mem _ _ _
  · intro h
    unfold TrieMatcher.order
    rw [if_pos h]
    exact selected_sorted (fun w => w) W.words _ (fun p hp => (hV.1 p hp).2)
  · intro h
    unfold TrieMatcher.order
    rw [if_neg (by omega)]
    exact selected_sorted List.reverse W.words _
      (fun p hp c hc => (hV.1 p hp).2 c (List.mem_reverse.1 hc))

theorem dual_trie_report_order_witness :
    test_words.Valid ∧ 1 ≤ test_words.length ∧ TrieMatcher.InRange test_words ∧
    (∀ c ∈ ['b'], lower c) ∧ (∀ c ∈ ([] : List Char), lower c) ∧
    ['b'].length + ([] : List Char).length ≤ test_words.length ∧
    ∃ (res : QueryResult) (ws : List (List Char × Nat)), TrieMatcher.query TriePoolStorage.ops
        (TrieMatcher.build TriePoolStorage.ops test_words) [] ['b'] [] = some res ∧
      res.calls = ws.map Prod.snd ∧ (∀ p ∈ ws, p ∈ test_words.words) ∧
      res.calls.Perm (naive test_words ['b'] []) ∧
      (([] : List Char).length ≤ ['b'].length →
        (ws.map Prod.fst).Pairwise (fun a b => strLt a b = true)) ∧
      (['b'].length < ([] : List Char).length →
        (ws.map (fun p => p.1.reverse)).Pairwise (fun a b => strLt a b = true)) :=
  ⟨by decide, by decide, by decide, by decide, by decide, by decide,
    dual_trie_report_order test_words (by decide) (by decide) (by decide) [] ['b'] []
      (by decide) (by decide) (by decide)⟩

end PatternMatch

namespace PatternMatch

/-! ## The pointer storage is lawful -/

open TrieStorageBase

theorem le_foldl_max (l : List Nat) : ∀ (b : Nat), b ≤ l.foldl max b ∧ ∀ x ∈ l, x ≤ l.foldl max b := by
  induction l with
  | nil => intro b; exact ⟨Nat.le_refl _, fun x hx => absurd hx (List.not_mem_nil _)⟩
  | cons a l ih =>
    intro b
    obtain ⟨h1, h2⟩ := ih (max b a)
    rw [List.foldl_cons]
    refine ⟨Nat.le_trans (Nat.le_max_left b a) h1, ?_⟩
    intro x hx
    rcases List.mem_cons.1 hx with rfl | hx
    · exact Nat.le_trans (Nat.le_max_right b x) h1
    · exact h2 x hx

theorem bump_fresh (base : Nat) : (bump base).Fresh := by
  intro live
  obtain ⟨h1, h2⟩ := le_foldl_max live base
  constructor
  · intro hmem
    have := h2 _ hmem
    show False
    have e : (bump base).alloc live = live.foldl max base + 208 := rfl
    omega
  · show live.foldl max base + 208 ≠ base
    omega

namespace TrieAllocStorage

theorem find_map_store (h : List (Nat × List Nat)) (p c x q : Nat) :
    (h.map (fun e => if e.1 = p then (e.1, e.2.set c x) else e)).find?
        (fun e => decide (e.1 = q)) =
      (h.find? (fun e => decide (e.1 = q))).map
        (fun e => if e.1 = p then (e.1, e.2.set c x) else e) := by
  induction h with
  | nil => rfl
  | cons e h ih =>
    rw [List.map_cons]
    by_cases he : e.1 = q
    · have h1 : (if e.1 = p then (e.1, e.2.set c x) else e).1 = q := by
        split_ifs <;> exact he
      rw [List.find?_cons_of_pos _ (by simpa using h1), List.find?_cons_of_pos _ (by simpa using he)]
      rfl
    · have h1 : ¬ (if e.1 = p then (e.1, e.2.set c x) else e).1 = q := by
        split_ifs <;> exact he
      rw [List.find?_cons_of_neg _ (by simpa using h1), List.find?_cons_of_neg _ (by simpa using he)]
      exact ih

theorem find_some_of_mem (h : List (Nat × List Nat)) (q : Nat) (hq : q ∈ h.map Prod.fst) :
    ∃ e, h.find? (fun e => decide (e.1 = q)) = some e ∧ e.1 = q := by
  cases hf : h.find? (fun e => decide (e.1 = q)) with
  | none =>
    obtain ⟨e, he, rfl⟩ := List.mem_map.1 hq
    have := List.find?_eq_none.1 hf e he
    simp at this
  | some e => exact ⟨e, rfl, by simpa using List.find?_some hf⟩

theorem map_fst_store (A : Allocator) (s : TrieAllocStorage) (p c x : Nat) :
    (store A s p c x).heap.map Prod.fst = s.heap.map Prod.fst := by
  unfold store
  rw [List.map_map]
  apply List.map_congr_left
  intro e _
  simp only [Function.comp]
  split_ifs <;> rfl

theorem node_store_valid (A : Allocator) (s : TrieAllocStorage) (p c x q : Nat)
    (hp : p ≠ A.null_node ∧ p ∈ s.heap.map Prod.fst) :
    node A (store A s p c x) q = if q = p then (node A s p).set c x else node A s q := by
  by_cases hq : q = A.null_node
  · have hqp : q ≠ p := fun e => hp.1 (e ▸ hq)
    rw [if_neg hqp]
    unfold node
    rw [if_pos hq, if_pos hq]
  · unfold node
    rw [if_neg hq]
    unfold store
    rw [find_map_store]
    by_cases hqp : q = p
    · subst hqp
      rw [if_pos rfl, if_neg hq]
      obtain ⟨e, he, he1⟩ := find_some_of_mem s.heap q hp.2
      rw [he]
      simp only [Option.map_some', if_pos he1]
    · rw [if_neg hqp, if_neg hq]
      cases hf : s.heap.find? (fun e => decide (e.1 = q)) with
      | none => rfl
      | some e =>
        have he1 : e.1 = q := by simpa using List.find?_some hf
        have : ¬ e.1 = p := fun h => hqp (he1 ▸ h)
        simp only [Option.map_some', if_neg this]

theorem node_add_eq (A : Allocator) (hA : A.Fresh) (s : TrieAllocStorage) (q : Nat) :
    node A (add_node A s).1 q =
      if q = (add_node A s).2 then node_type A.null_node else node A s q := by
  have hf := hA (s.heap.map Prod.fst)
  unfold add_node
  simp only
  by_cases hq : q = A.null_node
  · have : q ≠ A.alloc (s.heap.map Prod.fst) := fun e => hf.2 (e ▸ hq)
    rw [if_neg this]
    unfold node
    rw [if_pos hq, if_pos hq]
  · unfold node
    rw [if_neg hq, if_neg hq]
    by_cases hqa : q = A.alloc (s.heap.map Prod.fst)
    · rw [if_pos hqa, List.find?_cons_of_pos _ (by simpa using hqa.symm)]
    · rw [if_neg hqa, List.find?_cons_of_neg _ (by simpa using fun e => hqa e.symm)]

/-- The pointer storage satisfies the laws of a storage, for every allocator
that returns fresh addresses. -/
theorem alloc_lawful (A : Allocator) (hA : A.Fresh) : Lawful (ops A) (gauge A) where
  wf_empty := trivial
  sound_empty := by
    constructor
    · intro c
      show (node A empty A.null_node).getD c A.null_node = A.null_node
      unfold node
      rw [if_pos rfl]
      exact getD_node_type _ _
    · intro v
      show (node A empty v).length = 26
      unfold node
      split_ifs
      · exact length_node_type _
      · exact length_node_type _
  not_valid_empty := by
    intro v h
    have h2 : v ≠ A.null_node ∧ v ∈ ([] : List (Nat × List Nat)).map Prod.fst := h
    simp at h2
  valid_ne_null := by
    intro s v h
    exact h.1
  wf_store := fun _ _ _ _ _ => trivial
  ok_store := fun _ _ _ _ => Iff.rfl
  valid_store := by
    intro s p c x v
    show (v ≠ A.null_node ∧ v ∈ (store A s p c x).heap.map Prod.fst) ↔
      (v ≠ A.null_node ∧ v ∈ s.heap.map Prod.fst)
    rw [map_fst_store]
  node_store := by
    intro s p c x q h
    exact node_store_valid A s p c x q h
  wf_add := fun _ _ => trivial
  ok_add := fun _ _ => trivial
  fresh_add := by
    intro s _ _ h
    have h2 : (add_node A s).2 ≠ A.null_node ∧ (add_node A s).2 ∈ s.heap.map Prod.fst := h
    exact (hA (s.heap.map Prod.fst)).1 h2.2
  valid_add := by
    intro s v _ _
    show (v ≠ A.null_node ∧ v ∈ (add_node A s).1.heap.map Prod.fst) ↔
      ((v ≠ A.null_node ∧ v ∈ s.heap.map Prod.fst) ∨ v = (add_node A s).2)
    have hf := hA (s.heap.map Prod.fst)
    unfold add_node
    simp only [List.map_cons, List.mem_cons]
    constructor
    · rintro ⟨h1, h2 | h2⟩
      · exact Or.inr h2
      · exact Or.inl ⟨h1, h2⟩
    · rintro (⟨h1, h2⟩ | h2)
      · exact ⟨h1, Or.inr h2⟩
      · exact ⟨by rw [h2]; exact hf.2, Or.inl h2⟩
  node_add := by
    intro s q _ _
    exact node_add_eq A hA s q
  as_num_from_num := by
    intro v h
    have h2 : v < 2 ^ 64 ∧ v ≠ A.null_node := h
    rw [TrieStorageBase.as_num, TrieStorageBase.from_num]
    simp only [ops, encode_value, decode_value]
    exact Nat.mod_eq_of_lt h2.1
  from_num_ne_null := by
    intro v h
    have h2 : v < 2 ^ 64 ∧ v ≠ A.null_node := h
    rw [TrieStorageBase.from_num]
    simp only [ops, encode_value, null]
    rw [Nat.mod_eq_of_lt h2.1]
    exact h2.2

end TrieAllocStorage

end PatternMatch

namespace PatternMatch

/-! ## The two storages behind the same engine -/

open TrieStorageBase

end PatternMatch

namespace PatternMatch

/-! ## The nodes below a root, as paths -/

open TrieStorageBase

theorem mem_pathsUpTo (d : Nat) : ∀ k : List Nat,
    k ∈ pathsUpTo d ↔ (k.length ≤ d ∧ ∀ c ∈ k, c < 26) := by
  induction d with
  | zero =>
    intro k
    simp only [pathsUpTo, List.mem_singleton]
    constructor
    · rintro rfl; exact ⟨Nat.le_refl _, fun c hc => by simp at hc⟩
    · rintro ⟨h, _⟩; exact List.length_eq_zero.1 (by omega)
  | succ d ih =>
    intro k
    simp only [pathsUpTo, List.mem_cons, List.mem_flatMap, List.mem_range, List.mem_map]
    constructor
    · rintro (rfl | ⟨c, hc, k2, hk2, rfl⟩)
      · exact ⟨Nat.zero_le _, fun c hc => by simp at hc⟩
      · obtain ⟨h1, h2⟩ := (ih k2).1 hk2
        refine ⟨by simp only [List.length_cons]; omega, ?_⟩
        intro x hx
        rcases List.mem_cons.1 hx with h | h
        · rw [h]; exact hc
        · exact h2 x h
    · rintro ⟨h1, h2⟩
      cases k with
      | nil => exact Or.inl rfl
      | cons c k2 =>
        refine Or.inr ⟨c, h2 c (by simp), k2, (ih k2).2 ⟨?_, ?_⟩, rfl⟩
        · simp only [List.length_cons] at h1; omega
        · intro x hx
          exact h2 x (List.mem_cons_of_mem _ hx)

theorem mem_pathsBelow (d : Nat) : ∀ k : List Nat,
    k ∈ pathsBelow d ↔ (k.length < d ∧ ∀ c ∈ k, c < 26) := by
  induction d with
  | zero =>
    intro k
    simp [pathsBelow]
  | succ d ih =>
    intro k
    simp only [pathsBelow, List.mem_cons, List.mem_flatMap, List.mem_range, List.mem_map]
    constructor
    · rintro (rfl | ⟨c, hc, k2, hk2, rfl⟩)
      · exact ⟨Nat.succ_pos _, fun c hc => by simp at hc⟩
      · obtain ⟨h1, h2⟩ := (ih k2).1 hk2
        refine ⟨by simp only [List.length_cons]; omega, ?_⟩
        intro x hx
        rcases List.mem_cons.1 hx with h | h
        · rw [h]; exact hc
        · exact h2 x h
    · rintro ⟨h1, h2⟩
      cases k with
      | nil => exact Or.inl rfl
      | cons c k2 =>
        refine Or.inr ⟨c, h2 c (by simp), k2, (ih k2).2 ⟨?_, ?_⟩, rfl⟩
        · simp only [List.length_cons] at h1; omega
        · intro x hx
          exact h2 x (List.mem_cons_of_mem _ hx)

theorem pathsUpTo_nodup (d : Nat) : (pathsUpTo d).Nodup := by
  induction d with
  | zero => simp [pathsUpTo]
  | succ d ih =>
    rw [pathsUpTo, List.nodup_cons]
    constructor
    · intro h
      obtain ⟨c, _, h2⟩ := List.mem_flatMap.1 h
      obtain ⟨k, _, h3⟩ := List.mem_map.1 h2
      exact List.cons_ne_nil _ _ h3
    · rw [List.nodup_flatMap]
      constructor
      · intro i _
        exact ih.map (fun a b h => by simpa using h)
      · apply List.Pairwise.imp _ (List.nodup_range 26)
        intro i j hij
        intro x hx1 hx2
        obtain ⟨k1, _, rfl⟩ := List.mem_map.1 hx1
        obtain ⟨k2, _, h2⟩ := List.mem_map.1 hx2
        simp only [List.cons.injEq] at h2
        exact hij h2.1.symm

theorem pathsUpTo_length (d : Nat) : (pathsUpTo d).length = geo d := by
  induction d with
  | zero => rfl
  | succ d ih =>
    rw [pathsUpTo, geo, List.length_cons, List.length_flatMap]
    have e : (List.map (List.length ∘ fun c => (pathsUpTo d).map (fun k => c :: k))
        (List.range 26)) = List.replicate 26 (geo d) := by
      apply List.ext_getElem
      · simp
      · intro i h1 h2
        rw [List.getElem_replicate, List.getElem_map]
        simp only [Function.comp, List.length_map, ih]
    rw [e, List.sum_replicate]
    simp
    omega

namespace TrieStorageBase

variable {S : Type} (T : TrieStorageBase S)

theorem filter_map_flatMap (f : Nat → Nat) (g : Nat → List Nat) (l : List Nat) :
    ((l.map f).filter (fun x => decide (x ≠ T.null))).flatMap g =
      l.flatMap (fun c => if f c ≠ T.null then g (f c) else []) := by
  induction l with
  | nil => rfl
  | cons c l ih =>
    rw [List.map_cons, List.flatMap_cons]
    by_cases h : f c ≠ T.null
    · rw [List.filter_cons_of_pos (by simpa using h), List.flatMap_cons, if_pos h, ih]
    · rw [List.filter_cons_of_neg (by simpa using h), if_neg h, ih]
      rfl

theorem paths_walk_null (s : S) (hs : T.Sound s) (P : List (List Nat)) :
    (P.map (T.walk s T.null)).filter (fun x => decide (x ≠ T.null)) = [] := by
  rw [List.filter_eq_nil_iff]
  intro x hx
  obtain ⟨k, _, rfl⟩ := List.mem_map.1 hx
  rw [walk_null s hs]
  simp

theorem paths_step (s : S) (hs : T.Sound s) (P : List (List Nat)) (g : Nat → List Nat)
    (hg : ∀ v, v ≠ T.null →
      g v = (P.map (T.walk s v)).filter (fun x => decide (x ≠ T.null)))
    (p : Nat) :
    ((T.node s p).filter (fun x => decide (x ≠ T.null))).flatMap g =
      ((((List.range 26).flatMap (fun c => P.map (fun k => c :: k))).map (T.walk s p)).filter
        (fun x => decide (x ≠ T.null))) := by
  rw [node_eq_map s hs p, filter_map_flatMap, List.map_flatMap, List.filter_flatMap]
  congr 1
  funext c
  rw [List.map_map]
  have e : (T.walk s p ∘ fun k => c :: k) = T.walk s (T.slot s p c) := by
    funext k
    rfl
  rw [e]
  by_cases h : T.slot s p c ≠ T.null
  · rw [if_pos h, hg _ h]
  · rw [if_neg h]
    have h2 : T.slot s p c = T.null := by simpa using h
    rw [h2, paths_walk_null T s hs]

theorem subtree_eq_paths (s : S) (hs : T.Sound s) : ∀ (d p : Nat), p ≠ T.null →
    T.subtree s d p = ((pathsUpTo d).map (T.walk s p)).filter (fun x => decide (x ≠ T.null)) := by
  intro d
  induction d with
  | zero =>
    intro p hp
    simp [subtree, pathsUpTo, walk, hp]
  | succ d ih =>
    intro p hp
    rw [subtree, pathsUpTo, List.map_cons, List.filter_cons_of_pos (by simpa [walk] using hp),
      paths_step T s hs (pathsUpTo d) (T.subtree s d) ih p]
    rfl

theorem subread_eq_paths (s : S) (hs : T.Sound s) : ∀ (d p : Nat), p ≠ T.null →
    T.subread s d p = ((pathsBelow d).map (T.walk s p)).filter (fun x => decide (x ≠ T.null)) := by
  intro d
  induction d with
  | zero =>
    intro p _
    rfl
  | succ d ih =>
    intro p hp
    rw [subread, pathsBelow, List.map_cons, List.filter_cons_of_pos (by simpa [walk] using hp),
      paths_step T s hs (pathsBelow d) (T.subread s d) ih p]
    rfl

theorem subtree_ne_nil (s : S) (d v : Nat) : T.subtree s d v ≠ [] := by
  cases d with
  | zero => simp [subtree]
  | succ d => simp [subtree]

end TrieStorageBase

end PatternMatch

namespace PatternMatch

/-! ## The loop of `free_trie` -/

open TrieStorageBase

theorem node_delete_ne (A : Allocator) (s : TrieAllocStorage) (v w : Nat) (h : w ≠ v) :
    TrieAllocStorage.node A (s.delete v) w = TrieAllocStorage.node A s w := by
  unfold TrieAllocStorage.node TrieAllocStorage.delete
  by_cases hw : w = A.null_node
  · rw [if_pos hw, if_pos hw]
  · rw [if_neg hw, if_neg hw, List.find?_filter]
    have e : (fun (a : Nat × List Nat) =>
        decide (decide (a.1 ≠ v) = true ∧ decide (a.1 = w) = true))
        = (fun a => decide (a.1 = w)) := by
      funext a
      by_cases he : a.1 = w
      · have : a.1 ≠ v := by rw [he]; exact h
        simp [he, h]
      · simp [he]
    rw [e]

theorem free_loop_nil (A : Allocator) (fuel : Nat) (s : TrieAllocStorage) (log : FreeLog) :
    free_trie_loop A (fuel + 1) [] s log = some (s, log) := rfl

theorem free_loop_cons (A : Allocator) (fuel v d : Nat) (q : List (Nat × Nat))
    (s : TrieAllocStorage) (log : FreeLog) :
    free_trie_loop A (fuel + 1) ((v, d) :: q) s log =
      if d ≠ 0 then
        free_trie_loop A fuel
          (q ++ ((TrieAllocStorage.node A s v).filter
            (fun x => decide (x ≠ A.null_node))).map (fun x => (x, d - 1)))
          (s.delete v) ⟨log.deleted ++ [v], log.read ++ [v]⟩
      else free_trie_loop A fuel q (s.delete v) ⟨log.deleted ++ [v], log.read⟩ := rfl

theorem delete_filter (s : TrieAllocStorage) (v : Nat) (D : List Nat) :
    (s.delete v).heap.filter (fun e => decide (e.1 ∉ D))
      = s.heap.filter (fun e => decide (e.1 ∉ v :: D)) := by
  unfold TrieAllocStorage.delete
  rw [List.filter_filter]
  congr 1
  funext e
  by_cases h1 : e.1 = v <;> by_cases h2 : e.1 ∈ D <;> simp [h1, h2]

/-- The loop of `free_trie` on a deque whose entries stand for pairwise
disjoint subtrees that are still intact: it empties the deque, deletes the nodes
of those subtrees, each once, and reads the slots of their inner nodes only. -/
theorem free_loop_spec (A : Allocator) (s0 : TrieAllocStorage) :
    ∀ (n : Nat) (q : List (Nat × Nat)) (s : TrieAllocStorage) (log : FreeLog) (fuel : Nat),
      (q.flatMap (fun e => (TrieAllocStorage.ops A).subtree s0 e.2 e.1)).length = n →
      (q.flatMap (fun e => (TrieAllocStorage.ops A).subtree s0 e.2 e.1)).Nodup →
      (∀ v ∈ q.flatMap (fun e => (TrieAllocStorage.ops A).subtree s0 e.2 e.1),
        TrieAllocStorage.node A s v = TrieAllocStorage.node A s0 v) →
      n + 1 ≤ fuel →
      ∃ (s2 : TrieAllocStorage) (D R : List Nat),
        free_trie_loop A fuel q s log = some (s2, ⟨log.deleted ++ D, log.read ++ R⟩) ∧
        D.Perm (q.flatMap (fun e => (TrieAllocStorage.ops A).subtree s0 e.2 e.1)) ∧
        R.Perm (q.flatMap (fun e => (TrieAllocStorage.ops A).subread s0 e.2 e.1)) ∧
        s2.heap = s.heap.filter (fun e => decide (e.1 ∉ D)) := by
  intro n
  induction n with
  | zero =>
    intro q s log fuel hlen _ _ hfuel
    obtain ⟨f, rfl⟩ : ∃ f, fuel = f + 1 := ⟨fuel - 1, by omega⟩
    cases q with
    | nil =>
      refine ⟨s, [], [], ?_, List.Perm.refl _, List.Perm.refl _, ?_⟩
      · rw [free_loop_nil, List.append_nil, List.append_nil]
      · simp
    | cons e q =>
      exfalso
      rw [List.flatMap_cons, List.length_append] at hlen
      have := List.length_pos.2 (subtree_ne_nil (TrieAllocStorage.ops A) s0 e.2 e.1)
      omega
  | succ n ih =>
    intro q s log fuel hlen hnd hag hfuel
    obtain ⟨f, rfl⟩ : ∃ f, fuel = f + 1 := ⟨fuel - 1, by omega⟩
    cases q with
    | nil => simp at hlen
    | cons e q =>
      obtain ⟨v, d⟩ := e
      rw [List.flatMap_cons] at hlen hnd hag
      cases d with
      | zero =>
        have hsub : (TrieAllocStorage.ops A).subtree s0 0 v = [v] := rfl
        simp only [hsub] at hlen hnd hag
        rw [List.singleton_append] at hnd hag
        rw [List.length_append, List.length_singleton] at hlen
        obtain ⟨hv, hnd2⟩ := List.nodup_cons.1 hnd
        obtain ⟨s2, D, R, h1, h2, h3, h4⟩ := ih q (s.delete v)
          ⟨log.deleted ++ [v], log.read⟩ f (by omega) hnd2
          (fun w hw => by
            rw [node_delete_ne A s v w (fun e => hv (e ▸ hw))]
            exact hag w (List.mem_cons_of_mem _ hw))
          (by omega)
        refine ⟨s2, v :: D, R, ?_, ?_, ?_, ?_⟩
        · rw [free_loop_cons, if_neg (by simp), h1]
          simp
        · rw [List.flatMap_cons, hsub, List.singleton_append]
          exact List.Perm.cons v h2
        · rw [List.flatMap_cons]
          exact h3
        · rw [h4, delete_filter]
      | succ d =>
        have hsub : (TrieAllocStorage.ops A).subtree s0 (d + 1) v =
            v :: ((TrieAllocStorage.node A s0 v).filter
              (fun x => decide (x ≠ A.null_node))).flatMap
                ((TrieAllocStorage.ops A).subtree s0 d) := rfl
        have hrd : (TrieAllocStorage.ops A).subread s0 (d + 1) v =
            v :: ((TrieAllocStorage.node A s0 v).filter
              (fun x => decide (x ≠ A.null_node))).flatMap
                ((TrieAllocStorage.ops A).subread s0 d) := rfl
        simp only [hsub] at hlen hnd hag
        rw [List.cons_append] at hnd hag
        rw [List.cons_append, List.length_cons] at hlen
        obtain ⟨hv, hnd2⟩ := List.nodup_cons.1 hnd
        have hnode : TrieAllocStorage.node A s v = TrieAllocStorage.node A s0 v :=
          hag v (List.mem_cons_self _ _)
        have hq : ∀ (g : Nat → Nat → List Nat),
            (q ++ ((TrieAllocStorage.node A s0 v).filter
              (fun x => decide (x ≠ A.null_node))).map (fun x => (x, d))).flatMap
                (fun e => g e.2 e.1)
            = q.flatMap (fun e => g e.2 e.1) ++
              ((TrieAllocStorage.node A s0 v).filter
                (fun x => decide (x ≠ A.null_node))).flatMap (g d) := by
          intro g
          rw [List.flatMap_append, List.flatMap_map]
        have hperm := @List.perm_append_comm _
          (((TrieAllocStorage.node A s0 v).filter
              (fun x => decide (x ≠ A.null_node))).flatMap
                ((TrieAllocStorage.ops A).subtree s0 d))
          (q.flatMap (fun e => (TrieAllocStorage.ops A).subtree s0 e.2 e.1))
        obtain ⟨s2, D, R, h1, h2, h3, h4⟩ := ih
          (q ++ ((TrieAllocStorage.node A s0 v).filter
              (fun x => decide (x ≠ A.null_node))).map (fun x => (x, d)))
          (s.delete v) ⟨log.deleted ++ [v], log.read ++ [v]⟩ f
          (by rw [hq, ← hperm.length_eq]; omega)
          (by rw [hq]; exact hperm.nodup_iff.1 hnd2)
          (fun w hw => by
            rw [hq] at hw
            have hw2 := hperm.mem_iff.2 hw
            rw [node_delete_ne A s v w (fun e => hv (e ▸ hw2))]
            exact hag w (List.mem_cons_of_mem _ hw2))
          (by omega)
        refine ⟨s2, v :: D, v :: R, ?_, ?_, ?_, ?_⟩
        · rw [free_loop_cons, if_pos (by simp), hnode, Nat.add_sub_cancel, h1]
          simp
        · rw [List.flatMap_cons, hsub, List.cons_append]
          rw [hq] at h2
          exact List.Perm.cons v (h2.trans hperm.symm)
        · rw [List.flatMap_cons, hrd, List.cons_append]
          rw [hq] at h3
          exact List.Perm.cons v (h3.trans List.perm_append_comm)
        · rw [h4, delete_filter]

end PatternMatch

namespace PatternMatch

/-! ## `free_trie` on a trie of the storage -/

open TrieStorageBase

theorem walk_lt_of_ne_null {S : Type} (T : TrieStorageBase S) (s : S) (hs : T.Sound s) :
    ∀ (k : List Nat) (v : Nat), T.walk s v k ≠ T.null → ∀ c ∈ k, c < 26 := by
  intro k
  induction k with
  | nil => intro v _ c hc; exact absurd hc (List.not_mem_nil _)
  | cons c0 k ih =>
    intro v h c hc
    rw [walk_cons] at h
    rcases List.mem_cons.1 hc with rfl | hc
    · by_contra hge
      have e : T.slot s v c = T.null := by
        unfold slot
        rw [List.getD_eq_getElem?_getD, List.getElem?_eq_none (by rw [hs.2]; omega)]
        rfl
      rw [e, walk_null s hs] at h
      exact h rfl
    · exact ih _ h c hc

theorem node_filter (A : Allocator) (s0 : TrieAllocStorage) (D0 : List Nat) (v : Nat)
    (hv : v ∉ D0) :
    TrieAllocStorage.node A ⟨s0.heap.filter (fun e => decide (e.1 ∉ D0))⟩ v
      = TrieAllocStorage.node A s0 v := by
  unfold TrieAllocStorage.node
  by_cases hw : v = A.null_node
  · rw [if_pos hw, if_pos hw]
  · rw [if_neg hw, if_neg hw]
    simp only
    rw [List.find?_filter]
    have e : (fun (a : Nat × List Nat) =>
        decide (decide (a.1 ∉ D0) = true ∧ decide (a.1 = v) = true))
        = (fun a => decide (a.1 = v)) := by
      funext a
      by_cases he : a.1 = v
      · have : a.1 ∉ D0 := by rw [he]; exact hv
        simp [he, hv]
      · simp [he]
    rw [e]

/-- The values fewer than `L` steps below a root that are not null, listed
along the paths, have no duplicate. -/
theorem paths_walk_nodup {S : Type} {T : TrieStorageBase S} {G : Gauge S} (R : List Nat)
    (L : Nat) (s : S) (hI : Inv T G R L s) (r : Nat) (hr : r ∈ R) (d : Nat) (hd : d < L) :
    (((pathsUpTo d).map (T.walk s r)).filter (fun x => decide (x ≠ T.null))).Nodup := by
  rw [List.filter_map]
  apply List.Nodup.map_on _ ((pathsUpTo_nodup d).filter _)
  intro k1 hk1 k2 hk2 heq
  obtain ⟨m1, n1⟩ := List.mem_filter.1 hk1
  obtain ⟨m2, _⟩ := List.mem_filter.1 hk2
  have l1 := ((mem_pathsUpTo d k1).1 m1).1
  have l2 := ((mem_pathsUpTo d k2).1 m2).1
  exact (hI.inj r hr r hr k1 k2 (by omega) (by omega) heq (by simpa using n1)).2

/-- `free_trie(r, L - 1)` on a storage that still holds the trie under `r`
intact: it returns, and deletes exactly the non-null values fewer than `L`
steps below `r`, each once; it reads the slots of those fewer than `L - 1`
steps below `r`. -/
theorem free_trie_spec (A : Allocator) (R : List Nat) (L : Nat) (s0 : TrieAllocStorage)
    (hI : Inv (TrieAllocStorage.ops A) (TrieAllocStorage.gauge A) R L s0) (hL : 1 ≤ L)
    (r : Nat) (hr : r ∈ R) (s : TrieAllocStorage) (D0 : List Nat)
    (hs : s.heap = s0.heap.filter (fun e => decide (e.1 ∉ D0)))
    (hdisj : ∀ k : List Nat, k.length < L → (TrieAllocStorage.ops A).walk s0 r k ≠ A.null_node →
      (TrieAllocStorage.ops A).walk s0 r k ∉ D0) :
    ∃ (s2 : TrieAllocStorage) (log : FreeLog),
      free_trie A s r (L - 1) = some (s2, log) ∧ log.deleted.Nodup ∧
      (∀ v, v ∈ log.deleted ↔ (v ≠ A.null_node ∧
        ∃ k : List Nat, k.length < L ∧ (TrieAllocStorage.ops A).walk s0 r k = v)) ∧
      (∀ v, v ∈ log.read ↔ (v ≠ A.null_node ∧
        ∃ k : List Nat, k.length + 1 < L ∧ (TrieAllocStorage.ops A).walk s0 r k = v)) ∧
      s2.heap = s.heap.filter (fun e => decide (e.1 ∉ log.deleted)) := by
  have hsound := hI.sound
  have hrv : r ≠ A.null_node ∧ r ∈ s0.heap.map Prod.fst := hI.roots r hr
  have hrn : r ≠ (TrieAllocStorage.ops A).null := hrv.1
  have hsub := subtree_eq_paths (TrieAllocStorage.ops A) s0 hsound (L - 1) r hrn
  have hrd := subread_eq_paths (TrieAllocStorage.ops A) s0 hsound (L - 1) r hrn
  have hnd : ((TrieAllocStorage.ops A).subtree s0 (L - 1) r).Nodup := by
    rw [hsub]
    exact paths_walk_nodup R L s0 hI r hr (L - 1) (by omega)
  have hmem : ∀ v, v ∈ (TrieAllocStorage.ops A).subtree s0 (L - 1) r ↔
      (v ≠ A.null_node ∧ ∃ k : List Nat, k.length < L ∧
        (TrieAllocStorage.ops A).walk s0 r k = v) := by
    intro v
    rw [hsub, List.mem_filter, List.mem_map]
    constructor
    · rintro ⟨⟨k, hk, rfl⟩, hne⟩
      exact ⟨by simpa using hne, k, by have := ((mem_pathsUpTo _ k).1 hk).1; omega, rfl⟩
    · rintro ⟨hne, k, hk, rfl⟩
      exact ⟨⟨k, (mem_pathsUpTo _ k).2 ⟨by omega,
        walk_lt_of_ne_null _ s0 hsound k r hne⟩, rfl⟩, by simpa using hne⟩
  have hmemr : ∀ v, v ∈ (TrieAllocStorage.ops A).subread s0 (L - 1) r ↔
      (v ≠ A.null_node ∧ ∃ k : List Nat, k.length + 1 < L ∧
        (TrieAllocStorage.ops A).walk s0 r k = v) := by
    intro v
    rw [hrd, List.mem_filter, List.mem_map]
    constructor
    · rintro ⟨⟨k, hk, rfl⟩, hne⟩
      exact ⟨by simpa using hne, k, by have := ((mem_pathsBelow _ k).1 hk).1; omega, rfl⟩
    · rintro ⟨hne, k, hk, rfl⟩
      exact ⟨⟨k, (mem_pathsBelow _ k).2 ⟨by omega,
        walk_lt_of_ne_null _ s0 hsound k r hne⟩, rfl⟩, by simpa using hne⟩
  have hflat : ∀ g : Nat → Nat → List Nat,
      ([(r, L - 1)] : List (Nat × Nat)).flatMap (fun e => g e.2 e.1) = g (L - 1) r := by
    intro g
    simp
  have hlenb : ((TrieAllocStorage.ops A).subtree s0 (L - 1) r).length ≤ 27 ^ (L - 1) := by
    rw [hsub]
    refine Nat.le_trans (List.length_filter_le _ _) ?_
    rw [List.length_map, pathsUpTo_length]
    exact geo_le_pow _
  obtain ⟨s2, D, Rd, h1, h2, h3, h4⟩ := free_loop_spec A s0
    ((TrieAllocStorage.ops A).subtree s0 (L - 1) r).length [(r, L - 1)] s ⟨[], []⟩
    (27 ^ (L - 1) + 1) (by rw [hflat]) (by rw [hflat]; exact hnd)
    (by
      rw [hflat]
      intro v hv
      obtain ⟨hne, k, hk, rfl⟩ := (hmem v).1 hv
      have e : s = ⟨s0.heap.filter (fun e => decide (e.1 ∉ D0))⟩ := by
        cases s
        simp only at hs
        rw [hs]
      rw [e]
      exact node_filter A s0 D0 _ (hdisj k hk hne))
    (by omega)
  rw [hflat] at h2 h3
  refine ⟨s2, ⟨D, Rd⟩, ?_, h2.nodup_iff.2 hnd, ?_, ?_, h4⟩
  · unfold free_trie
    rw [h1]
    rfl
  · intro v
    rw [← hmem v]
    exact h2.mem_iff
  · intro v
    rw [← hmemr v]
    exact h3.mem_iff

end PatternMatch

namespace PatternMatch

/-! ## Every node lies below a root -/

open TrieStorageBase

namespace TrieStorageBase

variable {S : Type} {T : TrieStorageBase S} {G : Gauge S}

/-- Inserting a key below the node at the end of the path `kp` keeps every
node of the storage below a root. -/
theorem insert_cover (Lw : Lawful T G) (R : List Nat) (L : Nat) (key : List Char) :
    ∀ (s : S) (r : Nat) (kp : List Nat) (data : Nat),
      Inv T G R L s → Covered T G R L s → r ∈ R → key ≠ [] → kp.length + key.length = L →
      (∀ c ∈ key, lower c) → T.walk s r kp ≠ T.null →
      G.ok (T.insert s (T.walk s r kp) key data) →
      Covered T G R L (T.insert s (T.walk s r kp) key data) := by
  induction key with
  | nil => intro s r kp data _ _ _ h; exact absurd rfl h
  | cons c rest ih =>
    intro s r kp data hI hC hr _ hlen hlow hp hok
    have hc26 : chIdx c < 26 := chIdx_lt c (hlow c (by simp))
    have hkpL : kp.length < L := by simp at hlen; omega
    have hpv : G.valid s (T.walk s r kp) := hI.alloc r hr kp hkpL hp
    cases rest with
    | nil =>
      rw [insert_single] at hok ⊢
      have hlen1 : kp.length + 1 = L := by simpa using hlen
      have hW := walk_update R L s (T.store s (T.walk s r kp) (chIdx c) data) hI r hr kp hkpL
        (chIdx c) data hp
        (fun r2 _ k _ c2 => slot_store Lw s _ _ _ _ c2 hpv (by rw [hI.sound.2]; exact hc26))
        (fun h => by omega)
      intro v hv
      obtain ⟨r2, hr2, k, hk, e⟩ := hC v ((Lw.valid_store s _ _ _ v).1 hv)
      refine ⟨r2, hr2, k, hk, ?_⟩
      rw [hW r2 hr2 k (by omega), if_neg, e]
      rintro ⟨_, h⟩
      rw [h, List.length_append, List.length_singleton] at hk
      omega
    | cons c2 rest2 =>
      have hlen2 : kp.length + 1 + (c2 :: rest2).length = L := by
        simp only [List.length_cons] at hlen ⊢
        omega
      have hlow2 : ∀ c ∈ c2 :: rest2, lower c := fun x hx => hlow x (List.mem_cons_of_mem _ hx)
      rw [insert_cons2] at hok ⊢
      by_cases hn : T.slot s (T.walk s r kp) (chIdx c) = T.null
      · rw [if_pos hn] at hok ⊢
        have hok2 := ok_insert_back Lw _ _ _ _ hok
        have hok1 : G.ok (T.add_node s).1 := (Lw.ok_store _ _ _ _).1 hok2
        have hfresh := Lw.fresh_add s hI.wf hok1
        have hfv := valid_add_self Lw s hI.wf hok1
        have hpv1 := valid_add_old Lw s _ hI.wf hok1 hpv
        have hs1 := sound_add Lw s hI.sound hI.wf hok1
        have hfp : (T.add_node s).2 ≠ T.walk s r kp := by
          intro h; rw [h] at hfresh; exact hfresh hpv
        have hW := walk_update R L s
          (T.store (T.add_node s).1 (T.walk s r kp) (chIdx c) (T.add_node s).2) hI r hr kp hkpL
          (chIdx c) (T.add_node s).2 hp
          (fun r2 hr2 k hk c3 => by
            rw [slot_store Lw _ _ _ _ _ c3 hpv1 (by rw [hs1.2]; exact hc26)]
            by_cases hB : T.walk s r2 k = T.walk s r kp ∧ c3 = chIdx c
            · rw [if_pos hB, if_pos hB]
            · rw [if_neg hB, if_neg hB, slot_add Lw s _ c3 hI.wf hok1, if_neg]
              intro hf
              by_cases h0 : T.walk s r2 k = T.null
              · exact Lw.valid_ne_null _ _ hfv (hf ▸ h0)
              · exact hfresh (hf ▸ hI.alloc r2 hr2 k hk h0))
          (fun _ => ⟨hn, fun c3 => by
            rw [slot_store_ne Lw _ _ _ _ _ c3 hpv1 hfp, slot_add Lw s _ c3 hI.wf hok1,
              if_pos rfl]⟩)
        have hI2 : Inv T G R L
            (T.store (T.add_node s).1 (T.walk s r kp) (chIdx c) (T.add_node s).2) := by
          apply inv_update R L s _ hI (sound_store Lw _ _ _ _ hs1 hpv1)
            (Lw.wf_store _ _ _ _ (Lw.wf_add s hI.wf)) hok2
            (fun v hv => (Lw.valid_store _ _ _ _ v).2 (valid_add_old Lw s v hI.wf hok1 hv))
            r (kp ++ [chIdx c]) (T.add_node s).2
          · intro _
            exact ⟨(Lw.valid_store _ _ _ _ _).2 hfv, hfresh⟩
          · intro r2 hr2 k hk
            exact hW r2 hr2 k (by omega)
        have hwf : T.walk (T.store (T.add_node s).1 (T.walk s r kp) (chIdx c) (T.add_node s).2)
            r (kp ++ [chIdx c]) = (T.add_node s).2 := by
          rw [hW r hr _ (by simp; omega), if_pos ⟨rfl, rfl⟩]
        have hC2 : Covered T G R L
            (T.store (T.add_node s).1 (T.walk s r kp) (chIdx c) (T.add_node s).2) := by
          intro v hv
          have hv1 := (Lw.valid_store _ _ _ _ v).1 hv
          rcases (Lw.valid_add s v hI.wf hok1).1 hv1 with hold | hnew
          · obtain ⟨r2, hr2, k, hk, e⟩ := hC v hold
            refine ⟨r2, hr2, k, hk, ?_⟩
            rw [hW r2 hr2 k (by omega), if_neg, e]
            rintro ⟨e1, e2⟩
            rw [e1, e2, walk_snoc, hn] at e
            exact Lw.valid_ne_null _ _ hold e.symm
          · refine ⟨r, hr, kp ++ [chIdx c], ?_, ?_⟩
            · rw [List.length_append, List.length_singleton]
              simp only [List.length_cons] at hlen2
              omega
            · rw [hwf, hnew]
        have hstep := ih _ r (kp ++ [chIdx c]) data hI2 hC2 hr (by simp)
          (by rw [List.length_append, List.length_singleton]; exact hlen2) hlow2
          (by rw [hwf]; exact Lw.valid_ne_null _ _ hfv) (by rw [hwf]; exact hok)
        rw [hwf] at hstep
        exact hstep
      · rw [if_neg hn] at hok ⊢
        have hw1 : T.walk s r (kp ++ [chIdx c]) = T.slot s (T.walk s r kp) (chIdx c) :=
          walk_snoc s r _ kp
        have hstep := ih s r (kp ++ [chIdx c]) data hI hC hr (by simp)
          (by rw [List.length_append, List.length_singleton]; exact hlen2) hlow2
          (by rw [hw1]; exact hn) (by rw [hw1]; exact hok)
        rw [hw1] at hstep
        exact hstep

end TrieStorageBase

/-- In a storage that holds tries of `L ≥ 1` levels and is within range, every
node lies below one of the roots. -/
theorem cover_of_built {S : Type} {T : TrieStorageBase S} {G : Gauge S} (Lw : Lawful T G)
    (L : Nat) (hL : 0 < L) (R : List Nat) (s : S) (hB : Built T L R s) :
    G.ok s → Covered T G R L s := by
  induction hB with
  | empty => intro _ v hv; exact absurd hv (Lw.not_valid_empty v)
  | root R s hB ih =>
    intro hok v hv
    have hI := inv_of_built Lw L hL R s hB (Lw.ok_add s hok)
    rcases (Lw.valid_add s v hI.wf hok).1 hv with hold | hnew
    · obtain ⟨r, hr, k, hk, e⟩ := ih (Lw.ok_add s hok) v hold
      exact ⟨r, List.mem_cons_of_mem _ hr, k, hk,
        by rw [walk_add Lw R L s hI hok r hr k (by omega)]; exact e⟩
    · exact ⟨(T.add_node s).2, List.mem_cons_self _ _, [], hL, by rw [hnew]; rfl⟩
  | insert R s r key data hB hr hk hlow ih =>
    intro hok
    have hok0 := ok_insert_back Lw key s r data hok
    have hI := inv_of_built Lw L hL R s hB hok0
    have hne : key ≠ [] := by
      intro h; rw [h] at hk; simp at hk; omega
    have hroot : T.walk s r [] ≠ T.null := Lw.valid_ne_null _ _ (hI.roots r hr)
    exact insert_cover Lw R L key s r [] data hI (ih hok0) hr hne (by simpa using hk) hlow
      hroot hok

theorem built_runOps {S : Type} (T : TrieStorageBase S) (L : Nat) (R : List Nat)
    (ops : List InsertOp) :
    ∀ s : S, Built T L R s →
      (∀ o ∈ ops, o.root ∈ R ∧ o.key.length = L ∧ ∀ c ∈ o.key, lower c) →
      Built T L R (runOps T s ops) := by
  induction ops with
  | nil => intro s h _; exact h
  | cons o ops ih =>
    intro s h ho
    rw [runOps_cons]
    obtain ⟨h1, h2, h3⟩ := ho o (List.mem_cons_self _ _)
    exact ih _ (Built.insert R s o.root o.key o.data h h1 h2 h3)
      (fun o2 ho2 => ho o2 (List.mem_cons_of_mem _ ho2))

/-- The storage of a dual-trie engine holds tries of `L` levels under its two
roots. -/
theorem TrieMatcher.build_built {S : Type} (T : TrieStorageBase S) (W : Words) (hV : W.Valid)
    (hL : W.length ≠ 0) :
    Built T W.length [(TrieMatcher.build T W).rev_trie_root,
      (TrieMatcher.build T W).fwd_trie_root] (TrieMatcher.build T W).nodes := by
  rw [TrieMatcher.build_eq W hL]
  apply built_runOps
  · exact Built.root _ _ (Built.root _ _ Built.empty)
  · intro o ho
    obtain ⟨p, hp, h | h⟩ := (TrieMatcher.mem_buildOps _ _ _ o).1 ho
    · rw [h]
      exact ⟨List.mem_cons_of_mem _ (List.mem_cons_self _ _), (hV.1 p hp).1, (hV.1 p hp).2⟩
    · rw [h]
      exact ⟨List.mem_cons_self _ _, by rw [List.length_reverse]; exact (hV.1 p hp).1,
        fun c hc => (hV.1 p hp).2 c (List.mem_reverse.1 hc)⟩

/-- The storage of an interleaved-trie engine holds a trie of `L` levels under
its root. -/
theorem TrieMixMatcher.mix_build_built {S : Type} (T : TrieStorageBase S) (W : Words)
    (hV : W.Valid) (hL : W.length ≠ 0) :
    Built T W.length [(TrieMixMatcher.build T W).trie_root]
      (TrieMixMatcher.build T W).nodes := by
  rw [TrieMixMatcher.mix_build_eq W hL]
  apply built_runOps
  · exact Built.root _ _ Built.empty
  · intro o ho
    obtain ⟨p, hp, h⟩ := (TrieMixMatcher.mix_mem_buildOps _ _ _ o).1 ho
    rw [h]
    exact ⟨List.mem_cons_self _ _, mix_length _ _,
      fun c hc => (hV.1 p hp).2 c (mix_mem p.1 c (by rw [(hV.1 p hp).1]; exact hc))⟩

/-- The addresses of the nodes of a pointer storage that holds tries differ
from the address of `null_node`. -/
theorem alloc_insert_addrs (A : Allocator) (hA : A.Fresh) (key : List Char) :
    ∀ (s : TrieAllocStorage) (p data : Nat),
      (∀ a ∈ s.heap.map Prod.fst, a ≠ A.null_node) →
      ∀ a ∈ ((TrieAllocStorage.ops A).insert s p key data).heap.map Prod.fst,
        a ≠ A.null_node := by
  induction key with
  | nil => intro s p data h; exact h
  | cons c rest ih =>
    intro s p data h
    have hadd : ∀ a ∈ ((TrieAllocStorage.ops A).add_node s).1.heap.map Prod.fst,
        a ≠ A.null_node := by
      intro a ha
      have ha2 : a ∈ (A.alloc (s.heap.map Prod.fst)) :: s.heap.map Prod.fst := ha
      rcases List.mem_cons.1 ha2 with rfl | ha3
      · exact (hA _).2
      · exact h a ha3
    have hstore : ∀ (s : TrieAllocStorage) (p c x : Nat),
        (∀ a ∈ s.heap.map Prod.fst, a ≠ A.null_node) →
        ∀ a ∈ ((TrieAllocStorage.ops A).store s p c x).heap.map Prod.fst,
          a ≠ A.null_node := by
      intro s p c x hs a ha
      have ha2 : a ∈ (TrieAllocStorage.store A s p c x).heap.map Prod.fst := ha
      rw [TrieAllocStorage.map_fst_store] at ha2
      exact hs a ha2
    cases rest with
    | nil =>
      rw [insert_single]
      exact hstore s p _ data h
    | cons c2 rest2 =>
      rw [insert_cons2]
      split_ifs
      · exact ih _ _ data (hstore _ p _ _ hadd)
      · exact ih s _ data h

theorem alloc_built_addrs (A : Allocator) (hA : A.Fresh) (L : Nat) (R : List Nat)
    (s : TrieAllocStorage) (hB : Built (TrieAllocStorage.ops A) L R s) :
    ∀ a ∈ s.heap.map Prod.fst, a ≠ A.null_node := by
  induction hB with
  | empty => intro a ha; exact absurd ha (List.not_mem_nil _)
  | root R s _ ih =>
    intro a ha
    have ha2 : a ∈ (A.alloc (s.heap.map Prod.fst)) :: s.heap.map Prod.fst := ha
    rcases List.mem_cons.1 ha2 with rfl | ha3
    · exact (hA _).2
    · exact ih a ha3
  | insert R s r key data _ _ _ _ ih => exact alloc_insert_addrs A hA key s r data ih

end PatternMatch

namespace PatternMatch

/-! ## The destructors of the engines on the pointer storage -/

open TrieStorageBase

theorem released_of_spec (A : Allocator) (R : List Nat) (L : Nat) (s0 : TrieAllocStorage)
    (hI : Inv (TrieAllocStorage.ops A) (TrieAllocStorage.gauge A) R L s0)
    (r : Nat) (hr : r ∈ R) (log : FreeLog) (hnd : log.deleted.Nodup)
    (hdel : ∀ v, v ∈ log.deleted ↔ (v ≠ A.null_node ∧
      ∃ k : List Nat, k.length < L ∧ (TrieAllocStorage.ops A).walk s0 r k = v))
    (hrd : ∀ v, v ∈ log.read ↔ (v ≠ A.null_node ∧
      ∃ k : List Nat, k.length + 1 < L ∧ (TrieAllocStorage.ops A).walk s0 r k = v)) :
    Released A s0 r L log := by
  refine ⟨hnd, hdel, ?_, ?_, ?_, ?_⟩
  · intro v hv
    obtain ⟨hne, k, hk, rfl⟩ := (hdel v).1 hv
    have h : (TrieAllocStorage.ops A).walk s0 r k ≠ A.null_node ∧
        (TrieAllocStorage.ops A).walk s0 r k ∈ s0.heap.map Prod.fst := hI.alloc r hr k hk hne
    exact h.2
  · intro h
    exact ((hdel _).1 h).1 rfl
  · intro v hv
    exact ((hrd v).1 hv).2
  · intro k hk h
    obtain ⟨hne, k2, hk2, e⟩ := (hrd _).1 h
    have := (hI.inj r hr r hr k2 k (by omega) (by omega) e (by rw [e]; exact hne)).2
    rw [this] at hk2
    omega

theorem TrieMatcher.roots_ne {S : Type} {T : TrieStorageBase S} {G : Gauge S}
    (Lw : Lawful T G) (W : Words) (hL : W.length ≠ 0)
    (hok : G.ok (T.add_node (T.add_node T.empty).1).1) :
    (TrieMatcher.build T W).rev_trie_root ≠ (TrieMatcher.build T W).fwd_trie_root := by
  rw [TrieMatcher.build_eq W hL]
  simp only
  intro h
  have hok1 := Lw.ok_add _ hok
  have hw1 := Lw.wf_add T.empty Lw.wf_empty
  have hfresh := Lw.fresh_add (T.add_node T.empty).1 hw1 hok
  rw [h] at hfresh
  exact hfresh (valid_add_self Lw T.empty Lw.wf_empty hok1)

/-- The destructor of the dual-trie engine on the pointer storage: both
`free_trie` calls return; each releases the trie under its root; no address is
deleted by both; no node is left. -/
theorem alloc_dual_destroy (A : Allocator) (hA : A.Fresh) (W : Words) (hV : W.Valid)
    (hL : 1 ≤ W.length) :
    ∃ (s2 : TrieAllocStorage) (log1 log2 : FreeLog),
      TrieMatcher.destroy A (TrieMatcher.build (TrieAllocStorage.ops A) W)
        = some (s2, log1, log2) ∧
      Released A (TrieMatcher.build (TrieAllocStorage.ops A) W).nodes
        (TrieMatcher.build (TrieAllocStorage.ops A) W).fwd_trie_root W.length log1 ∧
      Released A (TrieMatcher.build (TrieAllocStorage.ops A) W).nodes
        (TrieMatcher.build (TrieAllocStorage.ops A) W).rev_trie_root W.length log2 ∧
      (∀ v ∈ log1.deleted, v ∉ log2.deleted) ∧ s2.heap = [] := by
  have Lw := TrieAllocStorage.alloc_lawful A hA
  have hB := TrieMatcher.build_built (TrieAllocStorage.ops A) W hV (by omega)
  have hI := inv_of_built Lw W.length hL _ _ hB trivial
  have hC := cover_of_built Lw W.length hL _ _ hB trivial
  have hne := TrieMatcher.roots_ne Lw W (by omega) trivial
  have hrev : (TrieMatcher.build (TrieAllocStorage.ops A) W).rev_trie_root ∈
      [(TrieMatcher.build (TrieAllocStorage.ops A) W).rev_trie_root,
        (TrieMatcher.build (TrieAllocStorage.ops A) W).fwd_trie_root] :=
    List.mem_cons_self _ _
  have hfwd : (TrieMatcher.build (TrieAllocStorage.ops A) W).fwd_trie_root ∈
      [(TrieMatcher.build (TrieAllocStorage.ops A) W).rev_trie_root,
        (TrieMatcher.build (TrieAllocStorage.ops A) W).fwd_trie_root] :=
    List.mem_cons_of_mem _ (List.mem_cons_self _ _)
  obtain ⟨s1, log1, h1, n1, d1, r1, e1⟩ := free_trie_spec A _ W.length _ hI hL _ hfwd
    (TrieMatcher.build (TrieAllocStorage.ops A) W).nodes [] (by simp)
    (fun _ _ _ => List.not_mem_nil _)
  obtain ⟨s2, log2, h2, n2, d2, r2, e2⟩ := free_trie_spec A _ W.length _ hI hL _ hrev
    s1 log1.deleted e1
    (fun k hk hnn hmem => by
      obtain ⟨_, k2, hk2, e⟩ := (d1 _).1 hmem
      exact hne (hI.inj _ hfwd _ hrev k2 k hk2 hk e (by rw [e]; exact hnn)).1.symm)
  have hdisj : ∀ v ∈ log1.deleted, v ∉ log2.deleted := by
    intro v hv1 hv2
    obtain ⟨hnn, k1, hk1, e1⟩ := (d1 v).1 hv1
    obtain ⟨_, k2, hk2, e2⟩ := (d2 v).1 hv2
    exact hne (hI.inj _ hfwd _ hrev k1 k2 hk1 hk2 (e1.trans e2.symm)
      (by rw [e1]; exact hnn)).1.symm
  refine ⟨s2, log1, log2, ?_, released_of_spec A _ _ _ hI _ hfwd log1 n1 d1 r1,
    released_of_spec A _ _ _ hI _ hrev log2 n2 d2 r2, hdisj, ?_⟩
  · unfold TrieMatcher.destroy
    have hlen : (TrieMatcher.build (TrieAllocStorage.ops A) W).length = W.length := rfl
    rw [if_pos (by rw [hlen]; omega), hlen, h1]
    simp only
    rw [h2]
  · rw [e2, e1, List.filter_filter, List.filter_eq_nil_iff]
    intro e he hcon
    have hval : (TrieAllocStorage.gauge A).valid
        (TrieMatcher.build (TrieAllocStorage.ops A) W).nodes e.1 :=
      ⟨alloc_built_addrs A hA _ _ _ hB e.1 (List.mem_map_of_mem _ he),
        List.mem_map_of_mem _ he⟩
    obtain ⟨r, hr, k, hk, hw⟩ := hC e.1 hval
    have hin : e.1 ∈ log1.deleted ∨ e.1 ∈ log2.deleted := by
      rcases List.mem_cons.1 hr with rfl | hr2
      · exact Or.inr ((d2 e.1).2 ⟨hval.1, k, hk, hw⟩)
      · rcases List.mem_cons.1 hr2 with rfl | hr3
        · exact Or.inl ((d1 e.1).2 ⟨hval.1, k, hk, hw⟩)
        · exact absurd hr3 (List.not_mem_nil _)
    simp only [Bool.and_eq_true, decide_eq_true_eq] at hcon
    rcases hin with h | h
    · exact hcon.2 h
    · exact hcon.1 h

/-- The destructor of the interleaved-trie engine on the pointer storage:
`free_trie` returns and releases the trie; no node is left. -/
theorem alloc_mix_destroy (A : Allocator) (hA : A.Fresh) (W : Words) (hV : W.Valid)
    (hL : 1 ≤ W.length) :
    ∃ (s2 : TrieAllocStorage) (log : FreeLog),
      TrieMixMatcher.destroy A (TrieMixMatcher.build (TrieAllocStorage.ops A) W)
        = some (s2, log) ∧
      Released A (TrieMixMatcher.build (TrieAllocStorage.ops A) W).nodes
        (TrieMixMatcher.build (TrieAllocStorage.ops A) W).trie_root W.length log ∧
      s2.heap = [] := by
  have Lw := TrieAllocStorage.alloc_lawful A hA
  have hB := TrieMixMatcher.mix_build_built (TrieAllocStorage.ops A) W hV (by omega)
  have hI := inv_of_built Lw W.length hL _ _ hB trivial
  have hC := cover_of_built Lw W.length hL _ _ hB trivial
  have hroot : (TrieMixMatcher.build (TrieAllocStorage.ops A) W).trie_root ∈
      [(TrieMixMatcher.build (TrieAllocStorage.ops A) W).trie_root] :=
    List.mem_cons_self _ _
  obtain ⟨s1, log1, h1, n1, d1, r1, e1⟩ := free_trie_spec A _ W.length _ hI hL _ hroot
    (TrieMixMatcher.build (TrieAllocStorage.ops A) W).nodes [] (by simp)
    (fun _ _ _ => List.not_mem_nil _)
  refine ⟨s1, log1, ?_, released_of_spec A _ _ _ hI _ hroot log1 n1 d1 r1, ?_⟩
  · unfold TrieMixMatcher.destroy
    have hlen : (TrieMixMatcher.build (TrieAllocStorage.ops A) W).length = W.length := rfl
    rw [if_pos (by rw [hlen]; omega), hlen, h1]
  · rw [e1, List.filter_eq_nil_iff]
    intro e he hcon
    have hval : (TrieAllocStorage.gauge A).valid
        (TrieMixMatcher.build (TrieAllocStorage.ops A) W).nodes e.1 :=
      ⟨alloc_built_addrs A hA _ _ _ hB e.1 (List.mem_map_of_mem _ he),
        List.mem_map_of_mem _ he⟩
    obtain ⟨r, hr, k, hk, hw⟩ := hC e.1 hval
    rcases List.mem_cons.1 hr with rfl | hr2
    · simp only [decide_eq_true_eq] at hcon
      exact hcon ((d1 e.1).2 ⟨hval.1, k, hk, hw⟩)
    · exact absurd hr2 (List.not_mem_nil _)

/-- C28: for every valid corpus with word length `L ≥ 1` and every allocator
that returns fresh addresses, the destructors of `TrieMatcher<TrieAllocStorage>`
and `TrieMixMatcher<TrieAllocStorage>` return, and each `free_trie(root, L - 1)`
they call deletes exactly the nodes fewer than `L` steps below its root, each
once and each a node `add_node` allocated, never `null_node`, and reads the
slots only of nodes fewer than `L - 1` steps below the root, never of a node
at depth `L - 1`; the two calls of the dual-trie engine delete disjoint sets,
and no node is left afterwards. -/
theorem free_trie_releases (A : Allocator) (hA : A.Fresh) (W : Words) (hV : W.Valid)
    (hL : 1 ≤ W.length) :
    (∃ (s2 : TrieAllocStorage) (log1 log2 : FreeLog),
      TrieMatcher.destroy A (TrieMatcher.build (TrieAllocStorage.ops A) W)
        = some (s2, log1, log2) ∧
      Released A (TrieMatcher.build (TrieAllocStorage.ops A) W).nodes
        (TrieMatcher.build (TrieAllocStorage.ops A) W).fwd_trie_root W.length log1 ∧
      Released A (TrieMatcher.build (TrieAllocStorage.ops A) W).nodes
        (TrieMatcher.build (TrieAllocStorage.ops A) W).rev_trie_root W.length log2 ∧
      (∀ v ∈ log1.deleted, v ∉ log2.deleted) ∧ s2.heap = []) ∧
    (∃ (s2 : TrieAllocStorage) (log : FreeLog),
      TrieMixMatcher.destroy A (TrieMixMatcher.build (TrieAllocStorage.ops A) W)
        = some (s2, log) ∧
      Released A (TrieMixMatcher.build (TrieAllocStorage.ops A) W).nodes
        (TrieMixMatcher.build (TrieAllocStorage.ops A) W).trie_root W.length log ∧
      s2.heap = []) :=
  ⟨alloc_dual_destroy A hA W hV hL, alloc_mix_destroy A hA W hV hL⟩

theorem free_trie_releases_witness :
    (bump 4096).Fresh ∧ test_words.Valid ∧ 1 ≤ test_words.length ∧
    (∃ (s2 : TrieAllocStorage) (log1 log2 : FreeLog),
      TrieMatcher.destroy (bump 4096)
        (TrieMatcher.build (TrieAllocStorage.ops (bump 4096)) test_words)
        = some (s2, log1, log2) ∧
      Released (bump 4096) (TrieMatcher.build (TrieAllocStorage.ops (bump 4096)) test_words).nodes
        (TrieMatcher.build (TrieAllocStorage.ops (bump 4096)) test_words).fwd_trie_root
        test_words.length log1 ∧
      Released (bump 4096) (TrieMatcher.build (TrieAllocStorage.ops (bump 4096)) test_words).nodes
        (TrieMatcher.build (TrieAllocStorage.ops (bump 4096)) test_words).rev_trie_root
        test_words.length log2 ∧
      (∀ v ∈ log1.deleted, v ∉ log2.deleted) ∧ s2.heap = []) ∧
    (∃ (s2 : TrieAllocStorage) (log : FreeLog),
      TrieMixMatcher.destroy (bump 4096)
        (TrieMixMatcher.build (TrieAllocStorage.ops (bump 4096)) test_words)
        = some (s2, log) ∧
      Released (bump 4096)
        (TrieMixMatcher.build (TrieAllocStorage.ops (bump 4096)) test_words).nodes
        (TrieMixMatcher.build (TrieAllocStorage.ops (bump 4096)) test_words).trie_root
        test_words.length log ∧
      s2.heap = []) :=
  ⟨bump_fresh 4096, by decide, by decide,
    free_trie_releases (bump 4096) (bump_fresh 4096) test_words (by decide) (by decide)⟩

end PatternMatch

namespace PatternMatch

/-! ## The vector engines on concrete corpora -/

/-- C21: on the corpus `Words("bxbaxa", 2, 3)`, which is valid and whose
identities (`"bxb"` is 0, `"axa"` is 1) are not in sorted order of the strings,
`VectorRangeMatcher::query("a", "a", cb)` returns 0 without invoking the
callback, although `"axa"`, identity 1, starts with `"a"` and ends with `"a"`. -/
theorem vector_range_misses_match :
    (Words.make ['b', 'x', 'b', 'a', 'x', 'a'] 2 3).words = two_words.words ∧
    two_words.Valid ∧ two_words.Sorted ∧
    ['a'].length + ['a'].length ≤ two_words.length ∧
    naive two_words ['a'] ['a'] = [1] ∧
    VectorRangeMatcher.query (VectorRangeMatcher.build two_words) ['a'] ['a'] = ⟨[], 0⟩ := by
  refine ⟨by decide, by decide, by decide, by decide, by decide, by decide⟩

/-- C22: on the corpus `Words("aabaacaadaaeaafaagaahaaibxa", 9, 3)`, which is
valid and has 9 words, with the one-word bitmap all zero at first,
`BitmapMatcher::query("b", "a", cb)` reports identity 8 (`"bxa"`), and the
following `BitmapMatcher::query("c", "a", cb)` reports identity 8 again and
returns 1, although no word starts with `"c"`: `memset` cleared one byte, so
bit 8 of the bitmap was left set by the first query. -/
theorem bitmap_reports_stale_bit :
    (Words.make ['a', 'a', 'b', 'a', 'a', 'c', 'a', 'a', 'd', 'a', 'a', 'e', 'a', 'a', 'f',
      'a', 'a', 'g', 'a', 'a', 'h', 'a', 'a', 'i', 'b', 'x', 'a'] 9 3).words
      = nine_words.words ∧
    nine_words.Valid ∧ nine_words.Sorted ∧
    BitmapMatcher.sizeof_bitmap nine_words.size = 1 ∧
    naive nine_words ['b'] ['a'] = [8] ∧
    BitmapMatcher.query (BitmapMatcher.build nine_words) [0] ['b'] ['a']
      = (⟨[8], 1⟩, [256]) ∧
    naive nine_words ['c'] ['a'] = [] ∧
    BitmapMatcher.query (BitmapMatcher.build nine_words) [256] ['c'] ['a']
      = (⟨[8], 1⟩, [256]) := by
  refine ⟨by decide, by decide, by decide, by decide, by decide, by decide, by decide,
    by decide⟩

end PatternMatch

namespace PatternMatch

/-! ## The lexicographic order and the range of a sorted key array -/

theorem lexLt_irrefl : ∀ a : List Nat, lexLt a a = false := by
  intro a
  induction a with
  | nil => rfl
  | cons x a ih => rw [lexLt_cons, ih]; simp

theorem lexLt_trans : ∀ a b c : List Nat, lexLt a b = true → lexLt b c = true →
    lexLt a c = true := by
  intro a
  induction a with
  | nil =>
    intro b c h1 h2
    cases b with
    | nil => simp [lexLt] at h1
    | cons y b =>
      cases c with
      | nil => simp [lexLt] at h2
      | cons z c => rfl
  | cons x a ih =>
    intro b c h1 h2
    cases b with
    | nil => simp [lexLt] at h1
    | cons y b =>
      cases c with
      | nil => simp [lexLt] at h2
      | cons z c =>
        rw [lexLt_cons] at h1 h2 ⊢
        simp only [Bool.or_eq_true, Bool.and_eq_true, decide_eq_true_eq] at h1 h2 ⊢
        rcases h1 with h1 | ⟨e1, h1⟩
        · rcases h2 with h2 | ⟨e2, _⟩
          · exact Or.inl (by omega)
          · exact Or.inl (by omega)
        · rcases h2 with h2 | ⟨e2, h2⟩
          · exact Or.inl (by omega)
          · exact Or.inr ⟨by omega, ih b c h1 h2⟩

theorem lexLt_total : ∀ a b : List Nat, lexLt a b = false → lexLt b a = false → a = b := by
  intro a
  induction a with
  | nil =>
    intro b h1 _
    cases b with
    | nil => rfl
    | cons y b => simp [lexLt] at h1
  | cons x a ih =>
    intro b h1 h2
    cases b with
    | nil => simp [lexLt] at h2
    | cons y b =>
      rw [lexLt_cons] at h1 h2
      simp only [Bool.or_eq_false_iff, Bool.and_eq_false_iff, decide_eq_false_iff_not] at h1 h2
      have e : x = y := by omega
      subst e
      have g1 : lexLt a b = false := by
        rcases h1.2 with h | h
        · exact absurd rfl h
        · exact h
      have g2 : lexLt b a = false := by
        rcases h2.2 with h | h
        · exact absurd rfl h
        · exact h
      rw [ih b g1 g2]

theorem lexLt_asymm (a b : List Nat) (h : lexLt a b = true) : lexLt b a = false := by
  cases hb : lexLt b a with
  | false => rfl
  | true =>
    have := lexLt_trans a b a h hb
    rw [lexLt_irrefl] at this
    exact absurd this (by simp)

theorem lexLt_take : ∀ (n : Nat) (a b : List Nat), lexLt a b = true →
    lexLt (b.take n) (a.take n) = false := by
  intro n
  induction n with
  | zero => intro a b _; rfl
  | succ n ih =>
    intro a b h
    cases a with
    | nil =>
      cases b with
      | nil => rfl
      | cons y b => rfl
    | cons x a =>
      cases b with
      | nil => simp [lexLt] at h
      | cons y b =>
        rw [lexLt_cons] at h
        simp only [Bool.or_eq_true, Bool.and_eq_true, decide_eq_true_eq] at h
        rw [List.take_succ_cons, List.take_succ_cons, lexLt_cons]
        simp only [Bool.or_eq_false_iff, Bool.and_eq_false_iff, decide_eq_false_iff_not]
        rcases h with h | ⟨e, h⟩
        · exact ⟨by omega, Or.inl (by omega)⟩
        · exact ⟨by omega, Or.inr (ih a b h)⟩

/-- Below or equal, then below, is below. -/
theorem lexLt_of_le_of_lt (a b c : List Nat) (h1 : lexLt b a = false) (h2 : lexLt b c = true) :
    lexLt a c = true := by
  cases hab : lexLt a b with
  | true => exact lexLt_trans a b c hab h2
  | false => rw [lexLt_total a b hab h1]; exact h2

/-- Below, then below or equal, is below. -/
theorem lexLt_of_lt_of_le (a b c : List Nat) (h1 : lexLt a b = true) (h2 : lexLt c b = false) :
    lexLt a c = true := by
  cases hbc : lexLt b c with
  | true => exact lexLt_trans a b c h1 hbc
  | false => rw [← lexLt_total b c hbc h2]; exact h1

theorem map_toNat_inj (a b : List Char) (h : a.map Char.toNat = b.map Char.toNat) : a = b := by
  apply List.map_injective_iff.2 _ h
  intro c d hcd
  apply Char.ext
  apply UInt32.ext
  exact hcd

theorem map_toNat_take (a : List Char) (n : Nat) :
    (a.take n).map Char.toNat = (a.map Char.toNat).take n := by
  rw [List.map_take]

section
variable (p : List Char)

theorem gt_mono (x y : List Char) (h : strLt x y = true) (hx : Prefix.gt p x = false) :
    Prefix.gt p y = false := by
  unfold Prefix.gt strLt at *
  cases hy : lexLt ((y.take p.length).map Char.toNat) (p.map Char.toNat) with
  | false => rfl
  | true =>
    have hle : lexLt ((y.take p.length).map Char.toNat) ((x.take p.length).map Char.toNat)
        = false := by
      rw [map_toNat_take, map_toNat_take]
      exact lexLt_take _ _ _ h
    rw [lexLt_of_le_of_lt _ _ _ hle hy] at hx
    exact absurd hx (by simp)

theorem lt_mono (x y : List Char) (h : strLt x y = true) (hx : Prefix.lt p x = true) :
    Prefix.lt p y = true := by
  unfold Prefix.lt strLt at *
  have hle : lexLt ((y.take p.length).map Char.toNat) ((x.take p.length).map Char.toNat)
      = false := by
    rw [map_toNat_take, map_toNat_take]
    exact lexLt_take _ _ _ h
  exact lexLt_of_lt_of_le _ _ _ hx hle

theorem gt_not_lt (x : List Char) (hx : Prefix.gt p x = true) : Prefix.lt p x = false := by
  unfold Prefix.gt Prefix.lt strLt at *
  exact lexLt_asymm _ _ hx

theorem prefix_iff_rank (x : List Char) :
    p <+: x ↔ (Prefix.lt p x = false ∧ Prefix.gt p x = false) := by
  unfold Prefix.gt Prefix.lt strLt
  rw [List.prefix_iff_eq_take]
  constructor
  · intro h
    rw [← h]
    exact ⟨lexLt_irrefl _, lexLt_irrefl _⟩
  · rintro ⟨h1, h2⟩
    exact map_toNat_inj _ _ (lexLt_total _ _ h1 h2)

end

/-- On a list ordered so that `A` (below the range) and `B` (not above the
range) only switch off, the positions from the end of the initial run of `A` to
the end of the initial run of `B` hold exactly the members with `B` and not
`A`. -/
theorem range_filter {α : Type} (A B : α → Bool) (R : α → α → Prop) (l : List α)
    (hs : l.Pairwise R)
    (h1 : ∀ x y, R x y → A x = false → A y = false)
    (h2 : ∀ x y, R x y → B x = false → B y = false)
    (h3 : ∀ x, A x = true → B x = true) :
    (l.drop (l.takeWhile A).length).take ((l.takeWhile B).length - (l.takeWhile A).length)
      = l.filter (fun x => B x && !A x) := by
  induction l with
  | nil => rfl
  | cons x l ih =>
    obtain ⟨hx, hs2⟩ := List.pairwise_cons.1 hs
    have ih2 := ih hs2
    cases hA : A x with
    | true =>
      have hB := h3 x hA
      rw [List.takeWhile_cons_of_pos hA, List.takeWhile_cons_of_pos hB,
        List.filter_cons_of_neg (by simp [hA])]
      simp only [List.length_cons, List.drop_succ_cons]
      rw [Nat.add_sub_add_right]
      exact ih2
    | false =>
      have hAl : ∀ y ∈ l, A y = false := fun y hy => h1 x y (hx y hy) hA
      have e0 : l.takeWhile A = [] := by
        cases l with
        | nil => rfl
        | cons y l => exact List.takeWhile_cons_of_neg (by simp [hAl y (List.mem_cons_self _ _)])
      rw [e0] at ih2
      have tA : (x :: l).takeWhile A = [] := List.takeWhile_cons_of_neg (by simp [hA])
      rw [tA]
      simp only [List.length_nil, List.drop_zero, Nat.sub_zero] at ih2 ⊢
      cases hB : B x with
      | true =>
        have tB : (x :: l).takeWhile B = x :: l.takeWhile B := List.takeWhile_cons_of_pos hB
        have fB : (x :: l).filter (fun x => B x && !A x)
            = x :: l.filter (fun x => B x && !A x) :=
          List.filter_cons_of_pos (by simp [hA, hB])
        rw [tB, fB, List.length_cons, List.take_succ_cons, ih2]
      | false =>
        have hBl : ∀ y ∈ l, B y = false := fun y hy => h2 x y (hx y hy) hB
        have tB : (x :: l).takeWhile B = [] := List.takeWhile_cons_of_neg (by simp [hB])
        have fB : (x :: l).filter (fun x => B x && !A x) = [] := by
          rw [List.filter_eq_nil_iff]
          intro y hy
          rcases List.mem_cons.1 hy with rfl | hy
          · simp [hB]
          · simp [hBl y hy]
        rw [tB, fB]
        rfl

end PatternMatch

namespace PatternMatch

/-! ## `VectorMatcher` -/

theorem ofWords_keys (W : Words) (hV : W.Valid) :
    (VectorMap.ofWords W).keys = W.words.map Prod.fst := by
  show W.words.map (fun p => p.1.take W.length) = W.words.map Prod.fst
  apply List.map_congr_left
  intro p hp
  exact List.take_of_length_le (by rw [(hV.1 p hp).1])

theorem ofWords_values (W : Words) (hV : W.Valid) (hN : W.words.length ≤ 2 ^ 32) :
    (VectorMap.ofWords W).values = W.words.map Prod.snd := by
  show W.words.map (fun p => p.2 % 2 ^ 32) = W.words.map Prod.snd
  apply List.map_congr_left
  intro p hp
  have := hV.2.2.2 p hp
  exact Nat.mod_eq_of_lt (by omega)

theorem zip_map_fst_snd {α β : Type} (l : List (α × β)) :
    (l.map Prod.fst).zip (l.map Prod.snd) = l := by
  induction l with
  | nil => rfl
  | cons x l ih => rw [List.map_cons, List.map_cons, List.zip_cons_cons, ih]

/-- On a sorted corpus, the positions `range(q)` delimits hold exactly the pairs
whose string starts with `q`. -/
theorem words_range (W : Words) (hV : W.Valid) (hS : W.Sorted) (q : List Char) :
    (W.words.drop ((VectorMap.ofWords W).range q).1).take
        (((VectorMap.ofWords W).range q).2 - ((VectorMap.ofWords W).range q).1)
      = W.words.filter (fun x => decide (q <+: x.1)) := by
  unfold VectorMap.range
  rw [ofWords_keys W hV, List.takeWhile_map, List.takeWhile_map, List.length_map,
    List.length_map]
  have h := range_filter (fun x : List Char × Nat => Prefix.gt q x.1)
    (fun x : List Char × Nat => !Prefix.lt q x.1)
    (fun a b : List Char × Nat => strLt a.1 b.1 = true) W.words hS
    (fun x y hxy hx => gt_mono q x.1 y.1 hxy hx)
    (fun x y hxy hx => by
      have hx2 : Prefix.lt q x.1 = true := by simpa using hx
      simp [lt_mono q x.1 y.1 hxy hx2])
    (fun x hx => by simp [gt_not_lt q x.1 hx])
  have e : (fun x : List Char × Nat => (!Prefix.lt q x.1) && !Prefix.gt q x.1)
      = (fun x => decide (q <+: x.1)) := by
    funext x
    have := prefix_iff_rank q x.1
    by_cases hp : q <+: x.1
    · obtain ⟨a, b⟩ := this.1 hp
      simp [hp, a, b]
    · have hn : ¬ (Prefix.lt q x.1 = false ∧ Prefix.gt q x.1 = false) := fun h => hp (this.2 h)
      cases h1 : Prefix.lt q x.1 <;> cases h2 : Prefix.gt q x.1 <;> simp_all
  rw [e] at h
  exact h

theorem words_range_length (W : Words) (hV : W.Valid) (hS : W.Sorted) (q : List Char) :
    ((VectorMap.ofWords W).range q).2 - ((VectorMap.ofWords W).range q).1
      = (W.words.filter (fun x => decide (q <+: x.1))).length := by
  rw [← words_range W hV hS q, List.length_take, List.length_drop]
  have h2 : ((VectorMap.ofWords W).range q).2 ≤ W.words.length := by
    unfold VectorMap.range
    rw [ofWords_keys W hV]
    simp only
    have := (List.takeWhile_sublist (fun k => !Prefix.lt q k)
      (l := W.words.map Prod.fst)).length_le
    rw [List.length_map] at this
    exact this
  omega

theorem foldl_push (l : List Nat) : ∀ init : List Nat,
    l.foldl (fun calls v => calls ++ [v]) init = init ++ l := by
  induction l with
  | nil => intro init; simp
  | cons a l ih => intro init; rw [List.foldl_cons, ih]; simp

theorem foldl_cond_report (c : List Char → Prop) [DecidablePred c] (l : List (List Char × Nat)) :
    ∀ st : Crawl,
      l.foldl (fun st kv => if c kv.1 then st.report kv.2 else st) st =
        ⟨st.calls ++ (l.filter (fun kv => decide (c kv.1))).map Prod.snd,
          st.n + (l.filter (fun kv => decide (c kv.1))).length⟩ := by
  induction l with
  | nil => intro st; simp
  | cons a l ih =>
    intro st
    rw [List.foldl_cons, ih]
    by_cases h : c a.1
    · rw [if_pos h, List.filter_cons_of_pos (by simpa using h)]
      simp [Crawl.report]
      omega
    · rw [if_neg h, List.filter_cons_of_neg (by simpa using h)]

theorem prefix_append_full (pre suf w : List Char) (h : pre.length + suf.length = w.length) :
    pre ++ suf <+: w ↔ affix pre suf w := by
  have := affix_split (pre ++ suf) w pre.length (by simp) (by simp [h])
  rw [List.take_left' rfl, List.drop_left' rfl] at this
  rw [this]
  constructor
  · intro hp
    exact (List.prefix_iff_eq_take.1 hp).trans (by rw [List.take_of_length_le]; simp [h]) |>.symm
  · intro e
    rw [e]

/-- `VectorMatcher::query` on a valid sorted corpus reports the naive scan, in
corpus order, and returns its length. -/
theorem vector_query_eq (W : Words) (hV : W.Valid) (hS : W.Sorted)
    (hN : W.words.length ≤ 2 ^ 32) (pre suf : List Char)
    (hlen : pre.length + suf.length ≤ W.length) :
    VectorMatcher.query (VectorMap.ofWords W) pre suf
      = ⟨naive W pre suf, (naive W pre suf).length⟩ := by
  have hml : (VectorMap.ofWords W).length = W.length := rfl
  unfold VectorMatcher.query
  rw [hml]
  by_cases hc : pre.length + suf.length = W.length ∨ suf = []
  · rw [if_pos hc]
    simp only
    unfold VectorMap.for_each_value
    simp only
    rw [foldl_push, List.nil_append, ofWords_values W hV hN, ← List.map_drop, ← List.map_take,
      words_range W hV hS, words_range_length W hV hS]
    have e : W.words.filter (fun x => decide (pre ++ suf <+: x.1))
        = W.words.filter (fun p => decide (affix pre suf p.1)) := by
      apply List.filter_congr
      intro x hx
      have hxl := (hV.1 x hx).1
      apply decide_eq_decide.2
      rcases hc with hc | hc
      · exact prefix_append_full pre suf x.1 (by rw [hxl]; exact hc)
      · subst hc
        rw [List.append_nil]
        unfold affix
        exact ⟨fun h => ⟨h, List.nil_suffix⟩, fun h => h.1⟩
    rw [e]
    unfold naive
    rw [List.length_map]
  · rw [if_neg hc]
    simp only
    unfold VectorMap.for_each_pair
    rw [ofWords_keys W hV, ofWords_values W hV hN, zip_map_fst_snd, words_range W hV hS,
      foldl_cond_report (fun key => view key (W.length - suf.length) suf.length = suf)]
    simp only [List.nil_append, Nat.zero_add]
    rw [List.filter_filter]
    have e : W.words.filter (fun a =>
        decide (view a.1 (W.length - suf.length) suf.length = suf) && decide (pre <+: a.1))
        = W.words.filter (fun p => decide (affix pre suf p.1)) := by
      apply List.filter_congr
      intro x hx
      have hxl := (hV.1 x hx).1
      have hv : view x.1 (W.length - suf.length) suf.length = suf ↔ suf <:+ x.1 := by
        unfold view
        rw [List.suffix_iff_eq_drop, hxl,
          List.take_of_length_le (by rw [List.length_drop, hxl]; omega)]
        exact eq_comm
      unfold affix
      by_cases h1 : pre <+: x.1 <;> by_cases h2 : suf <:+ x.1 <;> simp [h1, h2, hv]
    rw [e]
    unfold naive
    rw [List.length_map]

/-- C23: for every valid corpus (in the key order of its map, with at most
`2 ^ 32` words) and every query with `|P| + |S| ≤ L`, `VectorMatcher::query`
invokes the callback with the identities of the naive scan, in corpus order,
and returns their number; these are exactly the identities of the words that
start with `P` and end with `S`, each once. -/
theorem vector_matcher_query_correct (W : Words) (hV : W.Valid) (hS : W.Sorted)
    (hN : W.words.length ≤ 2 ^ 32) (pre suf : List Char)
    (hlen : pre.length + suf.length ≤ W.length) :
    (VectorMatcher.query (VectorMap.ofWords W) pre suf).calls = naive W pre suf ∧
    (VectorMatcher.query (VectorMap.ofWords W) pre suf).ret = (naive W pre suf).length ∧
    (naive W pre suf).Nodup ∧
    (∀ id, id ∈ (VectorMatcher.query (VectorMap.ofWords W) pre suf).calls ↔
      ∃ w, (w, id) ∈ W.words ∧ pre <+: w ∧ suf <:+ w) := by
  rw [vector_query_eq W hV hS hN pre suf hlen]
  exact ⟨rfl, rfl, naive_nodup W hV pre suf, fun id => mem_naive W pre suf id⟩

theorem vector_matcher_query_correct_witness :
    test_words.Valid ∧ test_words.Sorted ∧ test_words.words.length ≤ 2 ^ 32 ∧
    ['q'].length + ['x'].length ≤ test_words.length ∧
    (VectorMatcher.query (VectorMap.ofWords test_words) ['q'] ['x']).calls
      = naive test_words ['q'] ['x'] ∧
    (VectorMatcher.query (VectorMap.ofWords test_words) ['q'] ['x']).ret
      = (naive test_words ['q'] ['x']).length ∧
    (naive test_words ['q'] ['x']).Nodup ∧
    (∀ id, id ∈ (VectorMatcher.query (VectorMap.ofWords test_words) ['q'] ['x']).calls ↔
      ∃ w, (w, id) ∈ test_words.words ∧ ['q'] <+: w ∧ ['x'] <:+ w) :=
  ⟨by decide, by decide, by decide, by decide,
    vector_matcher_query_correct test_words (by decide) (by decide) (by decide) ['q'] ['x']
      (by decide)⟩

end PatternMatch

namespace PatternMatch

/-! ## The identities `Words` assigns -/

theorem strLt_irrefl (a : List Char) : strLt a a = false := lexLt_irrefl _

theorem strLt_trans (a b c : List Char) (h1 : strLt a b = true) (h2 : strLt b c = true) :
    strLt a c = true := lexLt_trans _ _ _ h1 h2

theorem strLt_total (a b : List Char) (h1 : strLt a b = false) (h2 : strLt b a = false) :
    a = b := map_toNat_inj _ _ (lexLt_total _ _ h1 h2)

theorem strLt_ne (a b : List Char) (h : strLt a b = true) : a ≠ b := by
  intro e
  rw [e, strLt_irrefl] at h
  exact absurd h (by simp)

/-- `emplace` on a map in key order keeps the key order, keeps every pair, and
adds the new pair exactly when its key is not yet present. -/
theorem emplace_spec : ∀ (m : List (List Char × Nat)) (k : List Char) (v : Nat),
    m.Pairwise (fun a b => strLt a.1 b.1 = true) →
    (Map.emplace m k v).Pairwise (fun a b => strLt a.1 b.1 = true) ∧
    ∀ q, q ∈ Map.emplace m k v ↔ (q ∈ m ∨ (q = (k, v) ∧ ∀ p ∈ m, p.1 ≠ k)) := by
  intro m
  induction m with
  | nil =>
    intro k v _
    refine ⟨List.pairwise_singleton _ _, fun q => ?_⟩
    simp [Map.emplace]
  | cons p rest ih =>
    intro k v hs
    obtain ⟨hp, hrest⟩ := List.pairwise_cons.1 hs
    cases h1 : strLt k p.1 with
    | true =>
      have e : Map.emplace (p :: rest) k v = (k, v) :: p :: rest := by
        simp [Map.emplace, h1]
      rw [e]
      have hall : ∀ x ∈ p :: rest, strLt k x.1 = true := by
        intro x hx
        rcases List.mem_cons.1 hx with rfl | hx
        · exact h1
        · exact strLt_trans _ _ _ h1 (hp x hx)
      refine ⟨List.pairwise_cons.2 ⟨hall, hs⟩, fun q => ?_⟩
      rw [List.mem_cons]
      constructor
      · rintro (h | h)
        · exact Or.inr ⟨h, fun x hx => (strLt_ne _ _ (hall x hx)).symm⟩
        · exact Or.inl h
      · rintro (h | ⟨h, _⟩)
        · exact Or.inr h
        · exact Or.inl h
    | false =>
      cases h2 : strLt p.1 k with
      | true =>
        have e : Map.emplace (p :: rest) k v = p :: Map.emplace rest k v := by
          simp [Map.emplace, h1, h2]
        rw [e]
        obtain ⟨ih1, ih2⟩ := ih k v hrest
        refine ⟨List.pairwise_cons.2 ⟨?_, ih1⟩, fun q => ?_⟩
        · intro x hx
          rcases (ih2 x).1 hx with h | ⟨h, _⟩
          · exact hp x h
          · rw [h]; exact h2
        · rw [List.mem_cons, ih2 q, List.mem_cons]
          constructor
          · rintro (h | h | ⟨h, hn⟩)
            · exact Or.inl (Or.inl h)
            · exact Or.inl (Or.inr h)
            · refine Or.inr ⟨h, fun x hx => ?_⟩
              rcases List.mem_cons.1 hx with rfl | hx
              · exact strLt_ne _ _ h2
              · exact hn x hx
          · rintro ((h | h) | ⟨h, hn⟩)
            · exact Or.inl h
            · exact Or.inr (Or.inl h)
            · exact Or.inr (Or.inr ⟨h, fun x hx => hn x (List.mem_cons_of_mem _ hx)⟩)
      | false =>
        have e : Map.emplace (p :: rest) k v = p :: rest := by
          simp [Map.emplace, h1, h2]
        rw [e]
        refine ⟨hs, fun q => ?_⟩
        constructor
        · exact fun h => Or.inl h
        · rintro (h | ⟨_, hn⟩)
          · exact h
          · exact absurd (strLt_total _ _ h2 h1) (hn p (List.mem_cons_self _ _))

theorem make_step (data : List Char) (n length : Nat) :
    (Words.make data (n + 1) length).words =
      Map.emplace (Words.make data n length).words ((data.drop (n * length)).take length) n := by
  unfold Words.make
  simp only
  rw [List.range_succ, List.foldl_append]
  rfl

/-- What `Words(data, count, length)` holds: the pairs are in key order; a pair
`(w, i)` has `i < count`, `w` is string `i` of the buffer, and no earlier
string of the buffer equals `w`; every string of the buffer is stored. -/
theorem make_spec (data : List Char) (length : Nat) : ∀ count : Nat,
    (Words.make data count length).Sorted ∧
    (∀ p ∈ (Words.make data count length).words,
      p.2 < count ∧ p.1 = (data.drop (p.2 * length)).take length ∧
      ∀ j, j < p.2 → (data.drop (j * length)).take length ≠ p.1) ∧
    (∀ i, i < count → ∃ p ∈ (Words.make data count length).words,
      p.1 = (data.drop (i * length)).take length) := by
  intro count
  induction count with
  | zero =>
    refine ⟨List.Pairwise.nil, fun p hp => ?_, fun i hi => absurd hi (Nat.not_lt_zero i)⟩
    exact absurd hp (List.not_mem_nil _)
  | succ n ih =>
    obtain ⟨h1, h2, h3⟩ := ih
    obtain ⟨e1, e2⟩ := emplace_spec (Words.make data n length).words
      ((data.drop (n * length)).take length) n h1
    unfold Words.Sorted
    rw [make_step]
    refine ⟨e1, fun p hp => ?_, fun i hi => ?_⟩
    · rcases (e2 p).1 hp with h | ⟨h, hn⟩
      · obtain ⟨a, b, c⟩ := h2 p h
        exact ⟨by omega, b, c⟩
      · subst h
        refine ⟨Nat.lt_succ_self n, rfl, fun j hj => ?_⟩
        obtain ⟨x, hx, ex⟩ := h3 j hj
        rw [← ex]
        exact hn x hx
    · by_cases hi2 : i < n
      · obtain ⟨x, hx, ex⟩ := h3 i hi2
        exact ⟨x, (e2 x).2 (Or.inl hx), ex⟩
      · have hin : i = n := by omega
        subst hin
        by_cases hex : ∃ x ∈ (Words.make data i length).words,
            x.1 = (data.drop (i * length)).take length
        · obtain ⟨x, hx, ex⟩ := hex
          exact ⟨x, (e2 x).2 (Or.inl hx), ex⟩
        · refine ⟨_, (e2 _).2 (Or.inr ⟨rfl, fun x hx hxe => hex ⟨x, hx, hxe⟩⟩), rfl⟩

/-- The identities `Words(data, count, length)` assigns are pairwise distinct,
and there are at most `count` of them. -/
theorem make_ids (data : List Char) (count length : Nat) :
    ((Words.make data count length).words.map Prod.snd).Nodup ∧
    ((Words.make data count length).words.map Prod.fst).Nodup ∧
    (Words.make data count length).size ≤ count := by
  obtain ⟨h1, h2, _⟩ := make_spec data length count
  have hnd : ((Words.make data count length).words.map Prod.snd).Nodup := by
    unfold List.Nodup
    rw [List.pairwise_map]
    refine List.Pairwise.imp_of_mem ?_ h1
    intro a b ha hb hab e
    have := strLt_ne _ _ hab
    rw [(h2 a ha).2.1, (h2 b hb).2.1, e] at this
    exact this rfl
  refine ⟨hnd, ?_, ?_⟩
  · unfold List.Nodup
    rw [List.pairwise_map]
    exact h1.imp (fun {a b} hab => strLt_ne _ _ hab)
  · have hsub : (Words.make data count length).words.map Prod.snd ⊆ List.range count := by
      intro i hi
      obtain ⟨p, hp, rfl⟩ := List.mem_map.1 hi
      exact List.mem_range.2 (h2 p hp).1
    have := (List.subperm_of_subset hnd hsub).length_le
    rw [List.length_map, List.length_range] at this
    exact this

/-- When the `count` strings of the buffer are pairwise distinct,
`Words(data, count, length)` stores `count` strings, string `i` with the
identity `i`, so the identities are exactly the numbers below `size()`. -/
theorem make_distinct (data : List Char) (count length : Nat)
    (hd : ∀ i j, i < count → j < count →
      (data.drop (i * length)).take length = (data.drop (j * length)).take length → i = j) :
    (Words.make data count length).size = count ∧
    (∀ i, i < count →
      ((data.drop (i * length)).take length, i) ∈ (Words.make data count length).words) ∧
    (∀ i, i ∈ (Words.make data count length).words.map Prod.snd ↔
      i < (Words.make data count length).size) := by
  obtain ⟨_, h2, h3⟩ := make_spec data length count
  obtain ⟨hnd, _, hle⟩ := make_ids data count length
  have hmem : ∀ i, i < count →
      ((data.drop (i * length)).take length, i) ∈ (Words.make data count length).words := by
    intro i hi
    obtain ⟨p, hp, ep⟩ := h3 i hi
    obtain ⟨a, b, _⟩ := h2 p hp
    have e : p.2 = i := hd _ _ a hi (by rw [← b, ep])
    have : p = ((data.drop (i * length)).take length, i) := Prod.ext ep e
    rw [← this]
    exact hp
  have hsize : (Words.make data count length).size = count := by
    have hsub : List.range count ⊆ (Words.make data count length).words.map Prod.snd := by
      intro i hi
      exact List.mem_map.2 ⟨_, hmem i (List.mem_range.1 hi), rfl⟩
    have := (List.subperm_of_subset (List.nodup_range count) hsub).length_le
    rw [List.length_map, List.length_range] at this
    unfold Words.size at hle ⊢
    omega
  refine ⟨hsize, hmem, fun i => ?_⟩
  rw [hsize]
  constructor
  · intro hi
    obtain ⟨p, hp, rfl⟩ := List.mem_map.1 hi
    exact (h2 p hp).1
  · intro hi
    exact List.mem_map.2 ⟨_, hmem i hi, rfl⟩

/-- C31: `Words("aaaabb", 3, 2)` stores `"aa"` with the identity 0 and `"bb"`
with the identity 2, the position of its string in the buffer: `size()` is 2,
the identity 2 is not below `size()`, and no stored string has the identity 1. -/
theorem corpus_identities_skip :
    (Words.make ['a', 'a', 'a', 'a', 'b', 'b'] 3 2).words
      = [(['a', 'a'], 0), (['b', 'b'], 2)] ∧
    (Words.make ['a', 'a', 'a', 'a', 'b', 'b'] 3 2).size = 2 ∧
    2 ∈ (Words.make ['a', 'a', 'a', 'a', 'b', 'b'] 3 2).words.map Prod.snd ∧
    ¬ 2 < (Words.make ['a', 'a', 'a', 'a', 'b', 'b'] 3 2).size ∧
    1 < (Words.make ['a', 'a', 'a', 'a', 'b', 'b'] 3 2).size ∧
    1 ∉ (Words.make ['a', 'a', 'a', 'a', 'b', 'b'] 3 2).words.map Prod.snd ∧
    ¬ (Words.make ['a', 'a', 'a', 'a', 'b', 'b'] 3 2).Valid := by
  refine ⟨by decide, by decide, by decide, by decide, by decide, by decide, by decide⟩

end PatternMatch

namespace PatternMatch

/-! ## The two storages at an identity equal to the address of `null_node` -/

end PatternMatch
